import Mathlib

/-!
TrivialHtmlParser: entity decoder and tree builder

A shallow embedding of `src/utils/TrivialHtmlParser.cpp`.

* Strings are lists of code units (`Nat`): bytes for `char*`, 16-bit units for `WCHAR*`.
  A list stands for the characters stored before the terminating NUL.
* Elements live in an arena (`List HtmlElement`); an `HtmlElement*` is an index into it
  (`Option Nat`, `none` being `nullptr`).  The arena only grows, so the index of an
  element is its creation rank.
* The attribute list of an element (`firstAttr`, linked through `HtmlAttr::next`) is only
  ever extended at its head and never shared, so it is kept as a `List HtmlAttr` whose head
  is `firstAttr`.
* Pointer-chasing loops take fuel (the number of allocated elements); they answer `none`
  when the fuel runs out or a reference dangles, so `some` always means the loop ended.
-/

namespace TrivialHtmlParser

/-! ## Code units and small string helpers -/

/-- A 16-bit code unit of a wide string. -/
abbrev WCHAR := Nat

/-- Identifier of a tag (the enum `HtmlTag`). -/
abbrev HtmlTag := Int

/-- The code units of a string literal, used to write inputs readably. -/
def units (s : String) : List Nat := s.data.map Char.toNat

/-- ASCII lower-casing of one code unit. -/
def toLowerUnit (c : Nat) : Nat := if 65 ≤ c ∧ c ≤ 90 then c + 32 else c

/-- Modelled from the spec: `str::EqI` (StrUtil is not among the sources), the
case-insensitive comparison of two NUL-terminated strings, ASCII letters being folded. -/
def EqI (a b : List Nat) : Bool := a.map toLowerUnit == b.map toLowerUnit

/-- Modelled from the spec: `str::FindChar` (StrUtil is not among the sources): the suffix
of `s` starting at the first occurrence of `c`, or `none` (`nullptr`) when `c` does not occur
before the terminator. -/
def FindChar : List Nat → Nat → Option (List Nat)
  | [], _ => none
  | x :: xs, c => if x = 0 then none else if x = c then some (x :: xs) else FindChar xs c

/-- The C library `iswalnum` on the ASCII range, where it does not depend on the locale. -/
def isAsciiAlnum (c : WCHAR) : Bool :=
  (48 ≤ c && c ≤ 57) || (65 ≤ c && c ≤ 90) || (97 ≤ c && c ≤ 122)

/-- Decimal digit test. -/
def isDecDigit (c : WCHAR) : Bool := 48 ≤ c && c ≤ 57

/-- Hexadecimal digit test. -/
def isHexDigit (c : WCHAR) : Bool :=
  (48 ≤ c && c ≤ 57) || (65 ≤ c && c ≤ 70) || (97 ≤ c && c ≤ 102)

/-- Value of one hexadecimal (or decimal) digit. -/
def digitVal (c : WCHAR) : Nat :=
  if 48 ≤ c ∧ c ≤ 57 then c - 48
  else if 65 ≤ c ∧ c ≤ 70 then c - 55
  else if 97 ≤ c ∧ c ≤ 102 then c - 87
  else 0

/-- Value of a digit string in the given base, most significant digit first. -/
def numVal (base : Nat) (ds : List WCHAR) : Nat :=
  ds.foldl (fun acc d => acc * base + digitVal d) 0

/-! ## The lookup tables of `HtmlParserLookup.h`

The header with the tag table, the entity table and the tag constants is not among the
sources; the embedding takes them as a parameter. -/

/-- The missing tables and constants the parser is compiled against. -/
structure HtmlParserLookup where
  /-- The sentinel for a name that is not in the tag table. -/
  Tag_NotFound : HtmlTag
  /-- The list-item tag. -/
  Tag_Li : HtmlTag
  /-- The unordered-list tag. -/
  Tag_Ul : HtmlTag
  /-- The ordered-list tag. -/
  Tag_Ol : HtmlTag
  /-- Tag table lookup by name. -/
  FindHtmlTag : List Nat → HtmlTag
  /-- Membership in the set of well-known self-closing tags. -/
  IsTagSelfClosing : HtmlTag → Bool
  /-- Entity table lookup: the code point of a named entity, `-1` when absent. -/
  HtmlEntityNameToRune : List WCHAR → Int
  /-- The C library `iswalnum` outside the ASCII range (locale dependent). -/
  iswalnumWide : WCHAR → Bool
  /-- The conversion `strconv::StrCPToWStrTemp` from a byte string in a code page to a
  wide string. -/
  StrCPToWStr : List Nat → Nat → List WCHAR

/-- The C library `iswalnum`. -/
def iswalnum (L : HtmlParserLookup) (c : WCHAR) : Bool :=
  if c < 128 then isAsciiAlnum c else L.iswalnumWide c

/-! ## Entity decoding -/

/-- Embeds `IntToChar`: a code point that fits a 16-bit `WCHAR` and is positive is kept, every
other one becomes `'?'`. -/
def IntToChar (codepoint : Int) : WCHAR :=
  if codepoint ≤ 0 ∨ codepoint ≥ 2 ^ 16 then 63 else codepoint.toNat

/-- Modelled from the spec: `str::Parse(src, L"#%d;", &unicode)` (StrUtil is not among the
sources).  The literal characters of the format must be matched: a `#`, then a non-empty run
of decimal digits read into a 32-bit `int` (saturating at `2^31 - 1` as the C library
conversion does), then a `;`.  The result is the value stored in `unicode`, `none` when the
text does not match. -/
def ParseDec (src : List WCHAR) : Option Int :=
  match src with
  | 35 :: rest =>
    let ds := rest.takeWhile isDecDigit
    match ds, rest.dropWhile isDecDigit with
    | _ :: _, 59 :: _ => some (Int.ofNat (min (numVal 10 ds) (2 ^ 31 - 1)))
    | _, _ => none
  | _ => none

/-- Modelled from the spec: `str::Parse(src, L"#x%x;", &unicode)` (StrUtil is not among the
sources): a `#`, an `x`, a non-empty run of hexadecimal digits read as a 32-bit unsigned
number (saturating at `2^32 - 1`), then a `;`.  The number is stored through an `int*`, so a
value from `2^31` on is seen as negative. -/
def ParseHex (src : List WCHAR) : Option Int :=
  match src with
  | 35 :: 120 :: rest =>
    let ds := rest.takeWhile isHexDigit
    match ds, rest.dropWhile isHexDigit with
    | _ :: _, 59 :: _ =>
      let u := min (numVal 16 ds) (2 ^ 32 - 1)
      some (if u < 2 ^ 31 then Int.ofNat u else Int.ofNat u - 2 ^ 32)
    | _, _ => none
  | _ => none

/-- The loop of `DecodeHtmlEntitites` over the wide string `fixed`: the argument is what
`src` points at, the result is what gets written through `dst`.  Every iteration consumes at
least one unit of `src`, so a fuel equal to the length of `src` is enough.  After a numeric
reference has been parsed its `;` is always found; were it not, `src` would leave the
string, and the embedding ends the output there. -/
def DecodeHtmlEntitites.loop (L : HtmlParserLookup) : Nat → List WCHAR → List WCHAR
  | 0, _ => []
  | _, [] => []
  | fuel + 1, c :: src =>
    if c = 0 then []
    else if c ≠ 38 then c :: loop L fuel src
    else
      match (ParseDec src).orElse (fun _ => ParseHex src) with
      | some unicode =>
        match FindChar src 59 with
        | some found => IntToChar unicode :: loop L fuel (found.drop 1)
        | none => [IntToChar unicode]
      | none =>
        let entityLen := (src.takeWhile (iswalnum L)).length
        let entityEnd := src.drop entityLen
        let rune : Int :=
          if entityLen ≠ 0 then L.HtmlEntityNameToRune (src.take entityLen) else -1
        if rune ≠ -1 then
          IntToChar rune ::
            loop L fuel (match entityEnd with
              | 59 :: r => r
              | r => r)
        else 38 :: loop L fuel src

/-- The decoding of a wide string: the body of `DecodeHtmlEntitites` after the conversion
of its argument. -/
def decodeWide (L : HtmlParserLookup) (fixed : List WCHAR) : List WCHAR :=
  DecodeHtmlEntitites.loop L fixed.length fixed

/-- Embeds `DecodeHtmlEntitites(string, codepage)`. -/
def DecodeHtmlEntitites (L : HtmlParserLookup) (string : List Nat) (codepage : Nat) :
    List WCHAR :=
  decodeWide L (L.StrCPToWStr string codepage)

/-- Modelled from the spec: a small instance of the tables of `HtmlParserLookup.h` (not among
the sources), holding the tag and entity names the spec's examples use.  Tags: `a`, `b`, `c`,
`br`, `li`, `ol`, `ul`, `p`; `br` is the self-closing one.  Entities: `amp`, `lt`, `gt`,
`quot`, `nbsp`.  Text is taken to be ASCII, for which the code-page conversion maps every
byte to the same code unit. -/
def sampleLookup : HtmlParserLookup where
  Tag_NotFound := -1
  Tag_Li := 4
  Tag_Ul := 6
  Tag_Ol := 5
  FindHtmlTag := fun n =>
    let l := n.map toLowerUnit
    if l = [97] then 0
    else if l = [98] then 1
    else if l = [99] then 2
    else if l = [98, 114] then 3
    else if l = [108, 105] then 4
    else if l = [111, 108] then 5
    else if l = [117, 108] then 6
    else if l = [112] then 7
    else -1
  IsTagSelfClosing := fun t => t == 3
  HtmlEntityNameToRune := fun n =>
    if n = [97, 109, 112] then 38
    else if n = [108, 116] then 60
    else if n = [103, 116] then 62
    else if n = [113, 117, 111, 116] then 34
    else if n = [110, 98, 115, 112] then 160
    else -1
  iswalnumWide := fun _ => false
  StrCPToWStr := fun s _ => s

/-! ## Tokens (the interface of `HtmlPullParser.h`) -/

/-- Embeds `HtmlToken::TokenType`. -/
inductive TokenType where
  | StartTag
  | EndTag
  | EmptyElementTag
  | Text
  | Error
deriving DecidableEq, Repr

/-- Embeds `HtmlToken::ParsingError`. -/
inductive ParsingError where
  | NoError
  | ExpectedElement
  | UnclosedTag
  | InvalidTag
deriving DecidableEq, Repr

/-- Embeds `AttrInfo`: the name span `name[0 .. nameLen)` and the value span `val[0 .. valLen)`,
each kept as the bytes it covers. -/
structure AttrInfo where
  name : List Nat
  val : List Nat
deriving DecidableEq, Repr

/-- Embeds `HtmlToken`.  `s` is the text the token points at (for a tag it starts with the tag
name, which is `s[0 .. nLen)`), and `attrs` lists the spans that successive calls of
`NextAttr()` deliver for this token, in that order. -/
structure HtmlToken where
  type : TokenType
  error : ParsingError
  s : List Nat
  tag : HtmlTag
  nLen : Nat
  attrs : List AttrInfo
deriving DecidableEq, Repr

/-- Embeds `HtmlToken::IsStartTag`. -/
def HtmlToken.IsStartTag (tok : HtmlToken) : Bool := tok.type == TokenType.StartTag

/-- Embeds `HtmlToken::IsEndTag`. -/
def HtmlToken.IsEndTag (tok : HtmlToken) : Bool := tok.type == TokenType.EndTag

/-- Embeds `HtmlToken::IsEmptyElementEndTag`. -/
def HtmlToken.IsEmptyElementEndTag (tok : HtmlToken) : Bool :=
  tok.type == TokenType.EmptyElementTag

/-- Embeds `HtmlToken::IsTag`. -/
def HtmlToken.IsTag (tok : HtmlToken) : Bool :=
  tok.IsStartTag || tok.IsEndTag || tok.IsEmptyElementEndTag

/-- Embeds `HtmlToken::IsText`. -/
def HtmlToken.IsText (tok : HtmlToken) : Bool := tok.type == TokenType.Text

/-- Embeds `HtmlToken::IsError`. -/
def HtmlToken.IsError (tok : HtmlToken) : Bool := tok.type == TokenType.Error

/-! ## The element tree -/

/-- Embeds `HtmlAttr`, without its `next` link: the link is the tail of the list the record is
the head of.  `val` is `none` while it is `nullptr`. -/
structure HtmlAttr where
  name : List Nat
  val : Option (List Nat)
deriving DecidableEq, Repr

/-- Embeds `HtmlElement`.  `name` is `none` for `nullptr`; `up`, `down` and `next` are arena
indices. -/
structure HtmlElement where
  tag : HtmlTag
  name : Option (List Nat)
  firstAttr : List HtmlAttr
  up : Option Nat
  down : Option Nat
  next : Option Nat
  codepage : Nat
deriving DecidableEq, Repr

/-- Modelled from the spec: the enum `HtmlParserError` of `TrivialHtmlParser.h` (not among
the sources), with the values this source file uses. -/
inductive HtmlParserError where
  | ErrParsingNoError
  | ErrParsingElement
  | ErrParsingClosingElement
  | ErrParsingElementName
deriving DecidableEq, Repr

/-- The data members of `HtmlParser`.  `allocator` is the arena of elements, `html` the
buffer pointer (`none` for `nullptr`). -/
structure HtmlParser where
  allocator : List HtmlElement
  html : Option (List Nat)
  freeHtml : Bool
  codepage : Nat
  rootElement : Option Nat
  currElement : Option Nat
  elementsCount : Nat
  attributesCount : Nat
  error : HtmlParserError
  errorContext : Option (List Nat)
deriving DecidableEq, Repr

/-- A freshly constructed parser object (`HtmlParser::HtmlParser() = default`). -/
def HtmlParser.fresh : HtmlParser where
  allocator := []
  html := none
  freeHtml := false
  codepage := 0
  rootElement := none
  currElement := none
  elementsCount := 0
  attributesCount := 0
  error := HtmlParserError.ErrParsingNoError
  errorContext := none

/-- Embeds `HtmlElement::NameIs`.  The `ReportIf` is a diagnostic and does not change the
result. -/
def HtmlElement.NameIs (L : HtmlParserLookup) (el : HtmlElement) (nameIn : List Nat) : Bool :=
  match el.name with
  | none => L.FindHtmlTag nameIn == el.tag
  | some name => EqI name nameIn

/-- Embeds `HtmlParser::Reset`. -/
def Reset (self : HtmlParser) : HtmlParser :=
  { self with
    html := none
    freeHtml := false
    rootElement := none
    currElement := none
    elementsCount := 0
    attributesCount := 0
    error := HtmlParserError.ErrParsingNoError
    errorContext := none
    allocator := [] }

/-- Embeds `HtmlParser::AllocAttr(name, next)`: a new record in front of `next`, its value still
`nullptr`. -/
def AllocAttr (self : HtmlParser) (name : List Nat) (next : List HtmlAttr) :
    HtmlParser × List HtmlAttr :=
  ({ self with attributesCount := self.attributesCount + 1 },
    { name := name, val := none } :: next)

/-- The assignment `firstAttr->val = value`. -/
def setFirstVal : List HtmlAttr → List Nat → List HtmlAttr
  | [], _ => []
  | a :: rest, value => { a with val := some value } :: rest

/-- Embeds `HtmlParser::AllocElement`: the new element is stored at the end of the arena and its
index is returned. -/
def AllocElement (self : HtmlParser) (tag : HtmlTag) (name : Option (List Nat))
    (parent : Option Nat) : HtmlParser × Nat :=
  ({ self with
      allocator := self.allocator ++
        [{ tag := tag, name := name, firstAttr := [], up := parent, down := none,
           next := none, codepage := self.codepage }]
      elementsCount := self.elementsCount + 1 },
    self.allocator.length)

/-- The loop `for (el = start; el; el = el->up) if (hit el) return el;` shared by
`FindParent` and `CloseTag`.  `some (some el)`: the loop returned `el`; `some none`: the
loop ran off the top of the chain; `none`: no answer within the fuel. -/
def searchUp (hit : HtmlElement → Bool) (els : List HtmlElement) :
    Nat → Option Nat → Option (Option Nat)
  | _, none => some none
  | 0, some _ => none
  | fuel + 1, some el =>
    match els[el]? with
    | none => none
    | some e => if hit e then some (some el) else searchUp hit els fuel e.up

/-- Embeds `HtmlParser::FindParent`. -/
def FindParent (L : HtmlParserLookup) (self : HtmlParser) (tok : HtmlToken) :
    Option (Option Nat) :=
  if L.Tag_Li = tok.tag then
    match searchUp (fun el => L.Tag_Ul == el.tag || L.Tag_Ol == el.tag)
        self.allocator self.allocator.length self.currElement with
    | none => none
    | some (some el) => some (some el)
    | some none => some self.currElement
  else some self.currElement

/-- The loop `while (tmp->next) tmp = tmp->next;` of `StartTag`: the last element of the
sibling list that starts at `tmp`. -/
def StartTag.lastSibling (els : List HtmlElement) : Nat → Nat → Option Nat
  | 0, _ => none
  | fuel + 1, tmp =>
    match els[tmp]? with
    | none => none
    | some e =>
      match e.next with
      | none => some tmp
      | some nx => lastSibling els fuel nx

/-- The C string that starts at the first byte of `s`: the bytes before the first NUL. -/
def cString (s : List Nat) : List Nat := s.takeWhile (fun b => b != 0)

/-- The name a tag token carries for the tree builder, `char* tagName`: `nullptr` for a
known tag; for an unknown tag the pointer `tok->s` after `*tagEnd = 0` has been written at
`tok->s + tok->nLen`, a C string, so the bytes of the name span up to its first NUL. -/
def tokTagName (L : HtmlParserLookup) (tok : HtmlToken) : Option (List Nat) :=
  if L.Tag_NotFound = tok.tag then some (cString (tok.s.take tok.nLen)) else none

/-- The first half of `HtmlParser::StartTag`, up to `rootElement = currElement`: the
element is allocated under `parent` and becomes `currElement`, and `rootElement` when there
is none yet.  The result is the parser and the new element. -/
def StartTag.create (L : HtmlParserLookup) (self : HtmlParser) (tok : HtmlToken)
    (parent : Option Nat) : HtmlParser × Nat :=
  let alloc := AllocElement self tok.tag (tokTagName L tok) parent
  let self1 : HtmlParser := { alloc.1 with currElement := some alloc.2 }
  let self2 : HtmlParser :=
    if self1.rootElement = none then { self1 with rootElement := self1.currElement }
    else self1
  (self2, alloc.2)

/-- The second half of `HtmlParser::StartTag`: the new element `el` is linked into the
child list of `parent`. -/
def StartTag.link (self : HtmlParser) (parent : Option Nat) (el : Nat) : Option HtmlParser :=
  match parent with
  | none => some self
  | some p =>
    match self.allocator[p]? with
    | none => none
    | some pe =>
      match pe.down with
      | none =>
        some { self with allocator := self.allocator.set p { pe with down := some el } }
      | some d =>
        match StartTag.lastSibling self.allocator self.allocator.length d with
        | none => none
        | some tmp =>
          match self.allocator[tmp]? with
          | none => none
          | some te =>
            some { self with allocator := self.allocator.set tmp { te with next := some el } }

/-- Embeds `HtmlParser::StartTag`. -/
def StartTag (L : HtmlParserLookup) (self : HtmlParser) (tok : HtmlToken) :
    Option HtmlParser :=
  match FindParent L self tok with
  | none => none
  | some parent =>
    let created := StartTag.create L self tok parent
    StartTag.link created.1 parent created.2

/-- The test of the loop in `CloseTag`. -/
def closeHit (L : HtmlParserLookup) (tok : HtmlToken) (el : HtmlElement) : Bool :=
  match tokTagName L tok with
  | some tagName => el.NameIs L tagName
  | none => tok.tag == el.tag

/-- Embeds `HtmlParser::CloseTag`. -/
def CloseTag (L : HtmlParserLookup) (self : HtmlParser) (tok : HtmlToken) :
    Option HtmlParser :=
  match searchUp (closeHit L tok) self.allocator self.allocator.length self.currElement with
  | none => none
  | some none => some self
  | some (some el) =>
    match self.allocator[el]? with
    | none => none
    | some e => some { self with currElement := e.up }

/-- Embeds `HtmlParser::AppendAttr`. -/
def AppendAttr (self : HtmlParser) (name value : List Nat) : Option HtmlParser :=
  match self.currElement with
  | none => none
  | some c =>
    match self.allocator[c]? with
    | none => none
    | some e =>
      let alloc := AllocAttr self name e.firstAttr
      some { alloc.1 with
        allocator := alloc.1.allocator.set c { e with firstAttr := setFirstVal alloc.2 value } }

/-- Embeds `HtmlParser::ElementsCount`. -/
def ElementsCount (self : HtmlParser) : Nat := self.elementsCount

/-- Embeds `HtmlParser::TotalAttrCount`. -/
def TotalAttrCount (self : HtmlParser) : Nat := self.attributesCount

/-- Modelled from the spec: `HtmlParser::ParseError` of `TrivialHtmlParser.h` (not among the
sources): it records the error kind and returns no root. -/
def ParseError (self : HtmlParser) (err : HtmlParserError) : HtmlParser × Option Nat :=
  ({ self with error := err }, none)

/-- The inner loop `while (attr) { ...; AppendAttr(name, value); }` of `ParseInPlace`. -/
def ParseInPlace.appendAttrs (self : HtmlParser) : List AttrInfo → Option HtmlParser
  | [] => some self
  | attr :: rest =>
    match AppendAttr self attr.name attr.val with
    | none => none
    | some self1 => appendAttrs self1 rest

/-- The body of the token loop of `ParseInPlace` for a tag token. -/
def ParseInPlace.tagToken (L : HtmlParserLookup) (self : HtmlParser) (tok : HtmlToken) :
    Option HtmlParser :=
  let opened :=
    if !tok.IsEndTag then
      match StartTag L self tok with
      | none => none
      | some self1 => ParseInPlace.appendAttrs self1 tok.attrs
    else some self
  match opened with
  | none => none
  | some self2 =>
    if !tok.IsStartTag || L.IsTagSelfClosing tok.tag then CloseTag L self2 tok
    else some self2

/-- The token loop of `ParseInPlace`, over the tokens `parser.Next()` delivers.  The result
is the parser afterwards and the returned root. -/
def ParseInPlace.loop (L : HtmlParserLookup) :
    HtmlParser → List HtmlToken → Option (HtmlParser × Option Nat)
  | self, [] => some (self, self.rootElement)
  | self, tok :: rest =>
    if tok.IsError then
      let self1 := { self with errorContext := some tok.s }
      match tok.error with
      | ParsingError.UnclosedTag => some (ParseError self1 HtmlParserError.ErrParsingElementName)
      | ParsingError.InvalidTag =>
        some (ParseError self1 HtmlParserError.ErrParsingClosingElement)
      | _ => some (ParseError self1 HtmlParserError.ErrParsingElement)
    else if !tok.IsTag then loop L self rest
    else
      match ParseInPlace.tagToken L self tok with
      | none => none
      | some self1 => loop L self1 rest

/-- Embeds `HtmlParser::ParseInPlace(d, codepage)`; `d` is the buffer pointer `d.data()` and
`toks` the token sequence the pull parser delivers for the buffer. -/
def ParseInPlace (L : HtmlParserLookup) (self : HtmlParser) (d : Option (List Nat))
    (codepage : Nat) (toks : List HtmlToken) : Option (HtmlParser × Option Nat) :=
  let self1 := if self.html.isSome then Reset self else self
  ParseInPlace.loop L { self1 with html := d, codepage := codepage } toks

/-! ## Sample tokens -/

/-- Modelled from the spec: the token the tokenizer (not among the sources) delivers for a
start tag `<name attrs>`: the tag identifier is looked up in the tag table. -/
def startTok (L : HtmlParserLookup) (name : String) (attrs : List AttrInfo) : HtmlToken where
  type := TokenType.StartTag
  error := ParsingError.NoError
  s := units name
  tag := L.FindHtmlTag (units name)
  nLen := (units name).length
  attrs := attrs

/-- Modelled from the spec: the token the tokenizer (not among the sources) delivers for an
end tag `</name>`. -/
def endTok (L : HtmlParserLookup) (name : String) : HtmlToken where
  type := TokenType.EndTag
  error := ParsingError.NoError
  s := units name
  tag := L.FindHtmlTag (units name)
  nLen := (units name).length
  attrs := []

/-- Modelled from the spec: the token the tokenizer (not among the sources) delivers for a
run of text. -/
def textTok (L : HtmlParserLookup) (text : String) : HtmlToken where
  type := TokenType.Text
  error := ParsingError.NoError
  s := units text
  tag := L.Tag_NotFound
  nLen := 0
  attrs := []

/-- Modelled from the spec: the token the tokenizer (not among the sources) delivers when
scanning fails at `context`. -/
def errorTok (L : HtmlParserLookup) (err : ParsingError) (context : List Nat) : HtmlToken where
  type := TokenType.Error
  error := err
  s := context
  tag := L.Tag_NotFound
  nLen := 0
  attrs := []


/-! ## Specification vocabulary for the entity decoder -/

/-- The text `R` between `&` and `;` is a reference with value `v`: a `#` and decimal
digits, or `#x` and hexadecimal digits, or an alphanumeric name of the entity table. -/
inductive IsReference (L : HtmlParserLookup) : List WCHAR → Int → Prop where
  | dec (ds : List WCHAR) (hne : ds ≠ []) (hds : ∀ d ∈ ds, isDecDigit d = true) :
      IsReference L (35 :: ds) (Int.ofNat (numVal 10 ds))
  | hex (hs : List WCHAR) (hne : hs ≠ []) (hhs : ∀ d ∈ hs, isHexDigit d = true) :
      IsReference L (35 :: 120 :: hs) (Int.ofNat (numVal 16 hs))
  | named (n : List WCHAR) (hne : n ≠ []) (hn : ∀ c ∈ n, iswalnum L c = true)
      (hrune : L.HtmlEntityNameToRune n ≠ -1) :
      IsReference L n (L.HtmlEntityNameToRune n)

/-- What follows an `&` is decoded: a numeric reference is parsed, or the maximal
alphanumeric run is a name of the entity table. -/
def startsReference (L : HtmlParserLookup) (src : List WCHAR) : Bool :=
  (ParseDec src).isSome || (ParseHex src).isSome ||
    (!(src.takeWhile (iswalnum L)).isEmpty &&
      L.HtmlEntityNameToRune (src.takeWhile (iswalnum L)) != -1)

/-- No `&` of the text is followed by something that is decoded. -/
def hasNoReference (L : HtmlParserLookup) : List WCHAR → Bool
  | [] => true
  | c :: src => (c != 38 || !startsReference L src) && hasNoReference L src

/-! ## Specification vocabulary for the tree builder -/

/-- The chain of elements reached from `start` by following `up` until `nullptr`:
`IsChain els start chain` says that `chain` lists them, `start` first. -/
inductive IsChain (els : List HtmlElement) : Option Nat → List Nat → Prop where
  | nil : IsChain els none []
  | cons (i : Nat) (e : HtmlElement) (rest : List Nat) (he : els[i]? = some e)
      (hrest : IsChain els e.up rest) : IsChain els (some i) (i :: rest)

/-- A test on elements, applied to the element stored at an index. -/
def hitAt (els : List HtmlElement) (hit : HtmlElement → Bool) (i : Nat) : Bool :=
  match els[i]? with
  | some e => hit e
  | none => false

/-- The links of an arena are sound: a parent was created before its child, a first child
and a next sibling were created after the element and exist. -/
structure LinksOK (els : List HtmlElement) : Prop where
  up_lt : ∀ (i : Nat) (e : HtmlElement) (p : Nat), els[i]? = some e → e.up = some p → p < i
  down_gt : ∀ (i : Nat) (e : HtmlElement) (d : Nat),
    els[i]? = some e → e.down = some d → i < d ∧ d < els.length
  next_gt : ∀ (i : Nat) (e : HtmlElement) (n : Nat),
    els[i]? = some e → e.next = some n → i < n ∧ n < els.length

/-- The state of a parser is well linked: the links of its arena are sound and
`currElement` and `rootElement` refer to allocated elements. -/
structure WellLinked (parser : HtmlParser) : Prop where
  links : LinksOK parser.allocator
  curr_lt : ∀ c, parser.currElement = some c → c < parser.allocator.length
  root_lt : ∀ r, parser.rootElement = some r → r < parser.allocator.length

/-- The test `Tag_Ul == el->tag || Tag_Ol == el->tag` of `FindParent`. -/
def isListContainer (L : HtmlParserLookup) (el : HtmlElement) : Bool :=
  L.Tag_Ul == el.tag || L.Tag_Ol == el.tag

/-- The parent the specification gives to the element of a start tag: for a list item the
nearest open list container if there is one, in every other case the current element. -/
def specParent (L : HtmlParserLookup) (self : HtmlParser) (chain : List Nat)
    (tok : HtmlToken) : Option Nat :=
  if tok.tag = L.Tag_Li then
    match chain.find? (hitAt self.allocator (isListContainer L)) with
    | some el => some el
    | none => self.currElement
  else self.currElement

/-- The element `AllocElement` stores for the token `tok` under `parent`. -/
def newElement (L : HtmlParserLookup) (self : HtmlParser) (tok : HtmlToken)
    (parent : Option Nat) : HtmlElement where
  tag := tok.tag
  name := tokTagName L tok
  firstAttr := []
  up := parent
  down := none
  next := none
  codepage := self.codepage

/-- The element `e` is `e0` up to a possible new first child or next sibling `n`; a new
first child is only given to the element `parent`. -/
def LinkedFrom (parent : Option Nat) (n i : Nat) (e0 e : HtmlElement) : Prop :=
  e = { e0 with down := e.down, next := e.next } ∧
  (e.down = e0.down ∨ (e0.down = none ∧ parent = some i ∧ e.down = some n)) ∧
  (e.next = e0.next ∨ (e0.next = none ∧ e.next = some n))

/-- The record `AppendAttr` puts in front of an attribute list for the span `a`. -/
def attrRecord (a : AttrInfo) : HtmlAttr where
  name := a.name
  val := some a.val

/-- The parser after the first half of `StartTag`, written out. -/
def createdParser (L : HtmlParserLookup) (self : HtmlParser) (tok : HtmlToken)
    (parent : Option Nat) : HtmlParser :=
  { self with
    allocator := self.allocator ++ [newElement L self tok parent]
    elementsCount := self.elementsCount + 1
    currElement := some self.allocator.length
    rootElement := if self.rootElement = none then some self.allocator.length
      else self.rootElement }

/-- The parser object after a fresh parser has run `ParseInPlace` on a buffer holding
`text`, for which the pull parser delivers `toks`. -/
def parsed (L : HtmlParserLookup) (text : String) (toks : List HtmlToken) : HtmlParser :=
  match ParseInPlace L HtmlParser.fresh (some (units text)) 0 toks with
  | some r => r.1
  | none => HtmlParser.fresh

/-- An element without attributes, written by its tag, name and links. -/
def plainElement (tag : HtmlTag) (name : Option (List Nat)) (up down next : Option Nat) :
    HtmlElement where
  tag := tag
  name := name
  firstAttr := []
  up := up
  down := down
  next := next
  codepage := 0

/-- The tokens of `<a><b><c>`. -/
def tokensABC : List HtmlToken :=
  [startTok sampleLookup "a" [], startTok sampleLookup "b" [], startTok sampleLookup "c" []]

/-- A tag token of the sample tables whose name span holds a NUL byte: the four bytes `a`,
NUL, `c`, `c` for the byte `c` given.  The tag is the one the tag table gives to the whole
span, as for every token of the sample tables; no tag has such a name, so it is
`Tag_NotFound`. -/
def nulNameTok (type : TokenType) (c : Nat) : HtmlToken where
  type := type
  error := ParsingError.NoError
  s := [97, 0, c, c]
  tag := sampleLookup.FindHtmlTag [97, 0, c, c]
  nLen := 4
  attrs := []

/-- The tokens of `<a>` followed by the start tag whose name span is `a`, NUL, `y`, `y`. -/
def tokensNulName : List HtmlToken :=
  [startTok sampleLookup "a" [], nulNameTok TokenType.StartTag 121]

/-- The tokens of the start tag whose name span is `a`, NUL, `y`, `y`, followed by `<a>`. -/
def tokensNulOuter : List HtmlToken :=
  [nulNameTok TokenType.StartTag 121, startTok sampleLookup "a" []]

/-- The match of an end-tag token and an element in the words of the specification: equal
tag identifiers for a known tag; for an unknown tag, a literal name of the element that is
equal up to case to the name of the token, the zero-terminated string at `tok->s`. -/
def specCloseMatch (L : HtmlParserLookup) (tok : HtmlToken) (el : HtmlElement) : Bool :=
  if L.Tag_NotFound = tok.tag then
    match el.name with
    | some name => EqI name (cString (tok.s.take tok.nLen))
    | none => false
  else tok.tag == el.tag

/-- The elements that stay open below the element of a start tag, according to the
specification: the open chain from the parent `specParent` upward. -/
def specOpenChain (L : HtmlParserLookup) (self : HtmlParser) (chain : List Nat)
    (tok : HtmlToken) : List Nat :=
  if tok.tag = L.Tag_Li then
    match chain.find? (hitAt self.allocator (isListContainer L)) with
    | some _ => chain.dropWhile (fun i => !hitAt self.allocator (isListContainer L) i)
    | none => chain
  else chain

/-- The tokens of `<ul><li>x</ul>`. -/
def tokensList1 : List HtmlToken :=
  [startTok sampleLookup "ul" [], startTok sampleLookup "li" [], textTok sampleLookup "x",
   endTok sampleLookup "ul"]

/-- The tokens of `<ul><li>a<li>b</ul>`. -/
def tokensList2 : List HtmlToken :=
  [startTok sampleLookup "ul" [], startTok sampleLookup "li" [], textTok sampleLookup "a",
   startTok sampleLookup "li" [], textTok sampleLookup "b", endTok sampleLookup "ul"]

/-- The element `x` is closed and has no child: it has no first child and is not on the
open chain, so that no later start tag can choose it as a parent. -/
def ClosedLeaf (x : Nat) (parser : HtmlParser) : Prop :=
  ∃ e chain, parser.allocator[x]? = some e ∧ e.down = none ∧
    IsChain parser.allocator parser.currElement chain ∧ x ∉ chain

/-- The tokens of `<a><br><b>`. -/
def tokensBr : List HtmlToken :=
  [startTok sampleLookup "a" [], startTok sampleLookup "br" [], startTok sampleLookup "b" []]

/-- The parser error the specification assigns to the error kind of a token. -/
def specErrorMap : ParsingError → HtmlParserError
  | ParsingError.UnclosedTag => HtmlParserError.ErrParsingElementName
  | ParsingError.InvalidTag => HtmlParserError.ErrParsingClosingElement
  | _ => HtmlParserError.ErrParsingElement

/-- The spans of `x=1 y=2`. -/
def attrsXY : List AttrInfo :=
  [{ name := units "x", val := units "1" }, { name := units "y", val := units "2" }]

/-- What identifies the name of an element or of a tag token: the tag identifier and, for
an unknown tag, the literal name. -/
structure ElementName where
  tag : HtmlTag
  name : Option (List Nat)
deriving DecidableEq, Repr

/-- The name of an element. -/
def HtmlElement.elementName (e : HtmlElement) : ElementName :=
  { tag := e.tag, name := e.name }

/-- The name a tag token gives to its element. -/
def tokenName (L : HtmlParserLookup) (tok : HtmlToken) : ElementName :=
  { tag := tok.tag, name := tokTagName L tok }

/-- Pre-order traversal of the sibling list that starts at `start`: an element, then the
elements below it, then its next siblings.  `none` when the fuel runs out or a link
dangles. -/
def preorder (els : List HtmlElement) : Nat → Option Nat → Option (List Nat)
  | _, none => some []
  | 0, some _ => none
  | fuel + 1, some i =>
    match els[i]? with
    | none => none
    | some e =>
      match preorder els fuel e.down, preorder els fuel e.next with
      | some below, some siblings => some (i :: (below ++ siblings))
      | _, _ => none

/-- The elements of the tree with root `root` in document order: the root, then the
pre-order traversal of its children. -/
def documentOrder (parser : HtmlParser) (root : Option Nat) : Option (List Nat) :=
  match root with
  | none => some []
  | some r =>
    match parser.allocator[r]? with
    | none => none
    | some e =>
      match preorder parser.allocator parser.allocator.length e.down with
      | none => none
      | some below => some (r :: below)

/-- The names of the elements stored at the indices `order`. -/
def namesAlong (els : List HtmlElement) (order : List Nat) : List (Option ElementName) :=
  order.map (fun i => (els[i]?).map HtmlElement.elementName)

/-- The names of the start tags of a token sequence, in the order of the sequence. -/
def startTagNames (L : HtmlParserLookup) (toks : List HtmlToken) : List ElementName :=
  (toks.filter HtmlToken.IsStartTag).map (tokenName L)

/-- The names met in document order in the tree that a fresh parser returns for the
token sequence `toks`. -/
def documentOrderNames (L : HtmlParserLookup) (d : Option (List Nat)) (codepage : Nat)
    (toks : List HtmlToken) : Option (List (Option ElementName)) :=
  match ParseInPlace L HtmlParser.fresh d codepage toks with
  | none => none
  | some r =>
    match documentOrder r.1 r.2 with
    | none => none
    | some order => some (namesAlong r.1.allocator order)

/-- The end tag `stop` is the one that matches the start tag `start`: the same tag and,
for an unknown tag, the same name up to case. -/
def closes (L : HtmlParserLookup) (start stop : HtmlToken) : Bool :=
  stop.tag == start.tag &&
    (start.tag != L.Tag_NotFound ||
      EqI (cString (start.s.take start.nLen)) (cString (stop.s.take stop.nLen)))

/-- Well-formedness of a token sequence, checked with the stack of the start tags that are
still unmatched (innermost first): every start tag is matched by its end tag in proper
nesting, no start tag has a self-closing kind, there is no empty-element or error token, and
there is one top-level element at most (`seen` says that it has been met).  `place` is an
extra condition on a start tag given the stack it is met with. -/
def wellNested (L : HtmlParserLookup) (place : List HtmlToken → HtmlToken → Bool) :
    Bool → List HtmlToken → List HtmlToken → Bool
  | _, stack, [] => stack.isEmpty
  | seen, stack, tok :: rest =>
    if tok.type = TokenType.Text then wellNested L place seen stack rest
    else if tok.type = TokenType.StartTag then
      (!stack.isEmpty || !seen) && !L.IsTagSelfClosing tok.tag && place stack tok &&
        wellNested L place true (tok :: stack) rest
    else if tok.type = TokenType.EndTag then
      match stack with
      | [] => false
      | start :: outer => closes L start tok && wellNested L place seen outer rest
    else false

/-- No extra condition on start tags. -/
def anyPlace (_stack : List HtmlToken) (_tok : HtmlToken) : Bool := true

/-- The tokens of `<p><ul><p><li></li></p><b></b></ul></p>`. -/
def tokensSkipped : List HtmlToken :=
  [startTok sampleLookup "p" [], startTok sampleLookup "ul" [], startTok sampleLookup "p" [],
   startTok sampleLookup "li" [], endTok sampleLookup "li", endTok sampleLookup "p",
   startTok sampleLookup "b" [], endTok sampleLookup "b", endTok sampleLookup "ul",
   endTok sampleLookup "p"]

/-- The sibling list that starts at the reference `start` consists of complete subtrees
whose elements are, in pre-order, exactly the indices `lo, ..., hi - 1`, and the `next`
reference of its last element (or `start` itself when the list is empty) is `stop`. -/
inductive ForestTo (els : List HtmlElement) : Nat → Nat → Option Nat → Option Nat → Prop where
  | nil (lo : Nat) (stop : Option Nat) : ForestTo els lo lo stop stop
  | cons (lo mid hi : Nat) (e : HtmlElement) (stop : Option Nat) (he : els[lo]? = some e)
      (hdown : ForestTo els (lo + 1) mid e.down none)
      (hnext : ForestTo els mid hi e.next stop) : ForestTo els lo hi (some lo) stop

/-- The open elements above the open element `c`, innermost first: each of them has no
next sibling, and its child list is made of complete subtrees followed by the open element
below it; the outermost one is the first element of the arena. -/
def Above (els : List HtmlElement) : Nat → List Nat → Prop
  | c, [] => c = 0
  | c, p :: rest =>
    ∃ pe, els[p]? = some pe ∧ pe.next = none ∧ ForestTo els (p + 1) c pe.down (some c) ∧
      Above els p rest

/-- The shape of an arena of `n` elements whose open chain is `chain`: the elements are
numbered in document order, the current element has complete subtrees as children, and the
elements above it are as `Above` says. -/
def OpenSpine (els : List HtmlElement) (n : Nat) : List Nat → Prop
  | [] => True
  | c :: rest =>
    ∃ e, els[c]? = some e ∧ e.next = none ∧ ForestTo els (c + 1) n e.down none ∧
      Above els c rest

/-- The tokens of `<ul><li>x</li><li><b>y</b></li></ul>`. -/
def tokensWellFormed : List HtmlToken :=
  [startTok sampleLookup "ul" [], startTok sampleLookup "li" [], textTok sampleLookup "x",
   endTok sampleLookup "li", startTok sampleLookup "li" [], startTok sampleLookup "b" [],
   textTok sampleLookup "y", endTok sampleLookup "b", endTok sampleLookup "li",
   endTok sampleLookup "ul"]

/-! ## Specification vocabulary for the parse as a whole -/

/-- The root is the element created first: `rootElement` is `nullptr` while the arena is
empty and the first element of the arena afterwards. -/
def RootFirst (parser : HtmlParser) : Prop :=
  parser.rootElement = (if parser.allocator.length = 0 then none else some 0)

/-- The parser `later` continues the parser `earlier`: the elements of `earlier` are still
there with their tag, name and `up` reference, and no error has been recorded since. -/
structure Grows (earlier later : HtmlParser) : Prop where
  length_le : earlier.allocator.length ≤ later.allocator.length
  keeps : ∀ (i : Nat) (e : HtmlElement), earlier.allocator[i]? = some e →
    ∃ e2, later.allocator[i]? = some e2 ∧ e2.tag = e.tag ∧ e2.name = e.name ∧ e2.up = e.up
  error_eq : later.error = earlier.error

/-- The tokens for which the loop of `ParseInPlace` calls `StartTag`: the tags that are not
end tags, that is the start tags and the empty-element tags. -/
def HtmlToken.opensElement (tok : HtmlToken) : Bool := tok.IsTag && !tok.IsEndTag

/-- The parser on which the token loop of `ParseInPlace` starts when it is called on a
freshly constructed parser, or on one that holds a buffer and is therefore reset. -/
def startParser (d : Option (List Nat)) (codepage : Nat) : HtmlParser :=
  { HtmlParser.fresh with html := d, codepage := codepage }

/-- The tokens of `<a></a><b>`. -/
def tokensOrphan : List HtmlToken :=
  [startTok sampleLookup "a" [], endTok sampleLookup "a", startTok sampleLookup "b" []]

/-! ## Child lists -/

/-- The loop of `HtmlElement::GetChildByTag`, from the element `el` on:
`for (; el; el = el->next) if (tag == el->tag) { if (0 == idx) return el; idx--; }`.
`some r` is the returned pointer, `none` means that the fuel ran out or a link dangles.
The counter is an `int`; it is only decremented while positive when it starts at `0` or
above. -/
def HtmlElement.GetChildByTag.loop (els : List HtmlElement) (tag : HtmlTag) :
    Nat → Option Nat → Int → Option (Option Nat)
  | _, none, _ => some none
  | 0, some _, _ => none
  | fuel + 1, some el, idx =>
    match els[el]? with
    | none => none
    | some e =>
      if tag = e.tag then
        if 0 = idx then some (some el) else loop els tag fuel e.next (idx - 1)
      else loop els tag fuel e.next idx

/-- Embeds `HtmlElement::GetChildByTag(tag, idx)` for the element `self` of the arena `els`. -/
def HtmlElement.GetChildByTag (els : List HtmlElement) (self : HtmlElement) (tag : HtmlTag)
    (idx : Int) : Option (Option Nat) :=
  HtmlElement.GetChildByTag.loop els tag els.length self.down idx

/-- The sibling list that starts at the reference `start`: the elements met by following
`next` until `nullptr`.  `none` when the fuel runs out or a link dangles. -/
def siblings (els : List HtmlElement) : Nat → Option Nat → Option (List Nat)
  | _, none => some []
  | 0, some _ => none
  | fuel + 1, some i =>
    match els[i]? with
    | none => none
    | some e =>
      match siblings els fuel e.next with
      | none => none
      | some rest => some (i :: rest)

/-- The child list of the element `p`: `p.down` followed by `next` links. -/
def childList (els : List HtmlElement) (p : Nat) : Option (List Nat) :=
  match els[p]? with
  | none => none
  | some e => siblings els els.length e.down

/-- The sibling list that starts at a reference, as a relation: `IsSibs els start l` says
that following `next` from `start` until `nullptr` meets exactly the elements `l`. -/
inductive IsSibs (els : List HtmlElement) : Option Nat → List Nat → Prop where
  | nil : IsSibs els none []
  | cons (i : Nat) (e : HtmlElement) (rest : List Nat) (he : els[i]? = some e)
      (hrest : IsSibs els e.next rest) : IsSibs els (some i) (i :: rest)

/-- The list `kids` holds, in creation order and once each, exactly the elements whose `up`
reference is `p`. -/
def ChildrenOf (els : List HtmlElement) (p : Nat) (kids : List Nat) : Prop :=
  kids.Pairwise (fun a b => a < b) ∧
    ∀ c, c ∈ kids ↔ ∃ e, els[c]? = some e ∧ e.up = some p

/-- The tree-link invariant of an arena, on the links themselves: the sibling list that
starts at the first child of an element holds exactly the elements whose parent it is, in
creation order, and an element without parent has no next sibling. -/
structure TreeLinked (els : List HtmlElement) : Prop where
  kids : ∀ (p : Nat) (pe : HtmlElement), els[p]? = some pe →
    ∃ kids, IsSibs els pe.down kids ∧ ChildrenOf els p kids
  orphan : ∀ (i : Nat) (e : HtmlElement), els[i]? = some e → e.up = none → e.next = none

/-- The tree-link invariant of an arena, with the child lists computed: every element has a
child list, and it holds exactly the elements whose parent it is, in creation order and so
once each. -/
def ChildLists (els : List HtmlElement) : Prop :=
  ∀ p, p < els.length → ∃ kids, childList els p = some kids ∧ ChildrenOf els p kids

/-- The state of a parser between two tokens: it is well linked, its root is the first
element, and its arena satisfies the tree-link invariant. -/
structure TreeInv (parser : HtmlParser) : Prop where
  wl : WellLinked parser
  root : RootFirst parser
  tree : TreeLinked parser.allocator

/-- The elements of the child list `kids` whose tag identifier is `tag`, in the order of
the list. -/
def childrenWithTag (els : List HtmlElement) (kids : List Nat) (tag : HtmlTag) : List Nat :=
  kids.filter (hitAt els (fun e => tag == e.tag))

/-- The element `e0` stored at `i`, as it is after `StartTag` has linked the new element
`n` under `parent`: the parent gets `n` as first child when it has no child, and the
childless-parent case apart the last child of the parent (the one child without next
sibling) gets `n` as next sibling. -/
def StartTag.relinked (parent : Option Nat) (n i : Nat) (e0 : HtmlElement) : HtmlElement :=
  { e0 with
    down := if parent = some i ∧ e0.down = none then some n else e0.down
    next := if e0.up = parent ∧ parent ≠ none ∧ e0.next = none then some n else e0.next }

/-- The arena `arena` is the arena `els` after `StartTag` has stored the element `new`
under `parent`. -/
structure StartTag.Linked (els : List HtmlElement) (parent : Option Nat) (new : HtmlElement)
    (arena : List HtmlElement) : Prop where
  length_eq : arena.length = els.length + 1
  new_eq : arena[els.length]? = some new
  old : ∀ (i : Nat) (e0 : HtmlElement), els[i]? = some e0 →
    arena[i]? = some (StartTag.relinked parent els.length i e0)

/-- The tokens of `<ul><li>a<li>b`, the list being still open. -/
def tokensOpenList : List HtmlToken :=
  [startTok sampleLookup "ul" [], startTok sampleLookup "li" [], textTok sampleLookup "a",
   startTok sampleLookup "li" [], textTok sampleLookup "b"]

/-! ## Finding elements by name -/

/-- Embeds `HtmlElement::NameIsNS(nameIn, ns)`: the namespace argument is not used; a
literal name is compared without what precedes its first `:` (58). -/
def HtmlElement.NameIsNS (L : HtmlParserLookup) (el : HtmlElement) (nameIn : List Nat)
    (_ns : List Nat) : Bool :=
  match el.name.bind (fun name => FindChar name 58) with
  | none => el.NameIs L nameIn
  | some nameStart => EqI (nameStart.drop 1) nameIn

/-- The test at the label `CheckNext` of `FindElementByNameNS`:
`el->NameIs(name) || ns && el->NameIsNS(name, ns)`. -/
def FindElementByNameNS.check (L : HtmlParserLookup) (name : List Nat)
    (ns : Option (List Nat)) (el : HtmlElement) : Bool :=
  el.NameIs L name ||
    (match ns with
      | some n => el.NameIsNS L name n
      | none => false)

/-- The end of the label `FindNext` ("backup in the tree"):
`while (parent) { if (parent->next) { el = parent->next; goto CheckNext; } parent = parent->up; }
return nullptr;`.  The result is the element to check next, `nullptr` when the loop falls
through; `none` when the fuel runs out. -/
def FindElementByNameNS.backup (els : List HtmlElement) (parent : Option Nat) :
    Option (Option Nat) :=
  match searchUp (fun pe => pe.next.isSome) els els.length parent with
  | none => none
  | some none => some none
  | some (some found) =>
    match els[found]? with
    | none => none
    | some pe => some pe.next

/-- The label `FindNext` of `FindElementByNameNS` for the element `el`: the element that
`CheckNext` is entered with, or `nullptr` when the function returns `nullptr`. -/
def FindElementByNameNS.findNext (els : List HtmlElement) (el : HtmlElement) :
    Option (Option Nat) :=
  match el.down with
  | some d => some (some d)
  | none =>
    match el.next with
    | some nx => some (some nx)
    | none => FindElementByNameNS.backup els el.up

/-- The `goto` loop of `FindElementByNameNS`, entered at `FindNext` with the element `el`;
one unit of fuel per passage through `FindNext`. -/
def FindElementByNameNS.loop (L : HtmlParserLookup) (els : List HtmlElement)
    (name : List Nat) (ns : Option (List Nat)) : Nat → Nat → Option (Option Nat)
  | 0, _ => none
  | fuel + 1, el =>
    match els[el]? with
    | none => none
    | some e =>
      match FindElementByNameNS.findNext els e with
      | none => none
      | some none => some none
      | some (some nxt) =>
        match els[nxt]? with
        | none => none
        | some ne =>
          if FindElementByNameNS.check L name ns ne then some (some nxt)
          else loop L els name ns fuel nxt

/-- Embeds `HtmlParser::FindElementByNameNS(name, ns, from)`; `some r` is the returned
pointer, `none` means that the fuel ran out or a link dangles. -/
def FindElementByNameNS (L : HtmlParserLookup) (self : HtmlParser) (name : List Nat)
    (ns : Option (List Nat)) (start : Option Nat) : Option (Option Nat) :=
  match start with
  | some el => FindElementByNameNS.loop L self.allocator name ns self.allocator.length el
  | none =>
    match self.rootElement with
    | none => some none
    | some el =>
      match self.allocator[el]? with
      | none => none
      | some e =>
        if FindElementByNameNS.check L name ns e then some (some el)
        else FindElementByNameNS.loop L self.allocator name ns self.allocator.length el

/-- Embeds `HtmlParser::FindElementByName(name, from)`. -/
def FindElementByName (L : HtmlParserLookup) (self : HtmlParser) (name : List Nat)
    (start : Option Nat) : Option (Option Nat) :=
  FindElementByNameNS L self name none start

/-- Forward iteration with `FindElementByName`: the first call is made with `start`
(`nullptr` to begin), every non-null result is fed back, and the results are collected
until a call returns `nullptr`.  One unit of fuel per call. -/
def findAll (L : HtmlParserLookup) (self : HtmlParser) (name : List Nat) :
    Nat → Option Nat → Option (List Nat)
  | 0, _ => none
  | fuel + 1, start =>
    match FindElementByName L self name start with
    | none => none
    | some none => some []
    | some (some el) =>
      match findAll L self name fuel (some el) with
      | none => none
      | some rest => some (el :: rest)

/-- The first element of a list of elements, `cont` when the list is empty. -/
def headOr (l : List Nat) (cont : Option Nat) : Option Nat :=
  match l with
  | [] => cont
  | x :: _ => some x

/-- Every element of `l` is followed, at the label `FindNext`, by the next element of `l`,
and the last one by `cont`. -/
def Follows (els : List HtmlElement) : List Nat → Option Nat → Prop
  | [], _ => True
  | x :: rest, cont =>
    (∃ e, els[x]? = some e ∧ FindElementByNameNS.findNext els e = some (headOr rest cont)) ∧
      Follows els rest cont

/-- The tokens of `<p><b>x</b><a><b>y</b></a><b>z</b></p>`. -/
def tokensFind : List HtmlToken :=
  [startTok sampleLookup "p" [], startTok sampleLookup "b" [], textTok sampleLookup "x",
   endTok sampleLookup "b", startTok sampleLookup "a" [], startTok sampleLookup "b" [],
   textTok sampleLookup "y", endTok sampleLookup "b", endTok sampleLookup "a",
   startTok sampleLookup "b" [], textTok sampleLookup "z", endTok sampleLookup "b",
   endTok sampleLookup "p"]

/-- The element stored at an index has the name `name` (`NameIs`). -/
def nameMatches (L : HtmlParserLookup) (els : List HtmlElement) (name : List Nat) :
    Nat → Bool :=
  hitAt els (fun e => e.NameIs L name)

/-! ## Specification vocabulary for the parser object -/

/-- The fields of a parser that the tree builder does not touch while it processes tokens,
and its two counters. -/
structure Fields where
  html : Option (List Nat)
  freeHtml : Bool
  codepage : Nat
  elementsCount : Nat
  attributesCount : Nat
deriving DecidableEq, Repr

/-- The fields of a parser after `elements` more elements and `attributes` more attributes
have been allocated. -/
def HtmlParser.fieldsAfter (parser : HtmlParser) (elements attributes : Nat) : Fields :=
  { html := parser.html, freeHtml := parser.freeHtml, codepage := parser.codepage,
    elementsCount := parser.elementsCount + elements,
    attributesCount := parser.attributesCount + attributes }

/-- The number of attribute spans of the tag tokens that open an element. -/
def attrTotal (toks : List HtmlToken) : Nat :=
  ((toks.filter HtmlToken.opensElement).map (fun tok => tok.attrs.length)).sum

/-- The condition of the `ReportIf` in `HtmlElement::NameIs` at the place where it is
evaluated: the element has no literal name and its tag is `Tag_NotFound`. -/
def HtmlElement.NameIsReports (L : HtmlParserLookup) (el : HtmlElement) : Bool :=
  el.name.isNone && (L.Tag_NotFound == el.tag)

/-- Every element of the arena has a literal name exactly when its tag is `Tag_NotFound`. -/
def NamedIffUnknown (L : HtmlParserLookup) (els : List HtmlElement) : Prop :=
  ∀ (i : Nat) (e : HtmlElement), els[i]? = some e →
    (e.name.isSome = true ↔ e.tag = L.Tag_NotFound)

/-- The tokens of `<a><foo></FOO></a>`, `foo` being an unknown tag. -/
def tokensUnknown : List HtmlToken :=
  [startTok sampleLookup "a" [], startTok sampleLookup "foo" [], endTok sampleLookup "FOO",
   endTok sampleLookup "a"]

/-! ## The non-destructive mode -/

/-- Modelled from the spec: `str::Dup(const ByteSlice&)` (StrUtil is not among the
sources): a newly allocated copy of the `d.size()` bytes of `d`, followed by a NUL.  The
result is a `char*`, so the list is the memory it points at. -/
def Dup (d : List Nat) : List Nat := d ++ [0]

/-- Modelled from the spec: `ToByteSlice(const char*)` (BaseUtil is not among the sources).
The argument is a bare `char*`, which carries no length: the slice is that of the
NUL-terminated string, the bytes before the first NUL. -/
def ToByteSlice (s : List Nat) : List Nat := s.takeWhile (fun b => b != 0)

/-- Embeds `HtmlParser::Parse(d, codepage)`.  `Next` stands for the pull parser (not among
the sources): the token sequence it delivers for a buffer holding the given bytes. -/
def Parse (L : HtmlParserLookup) (Next : List Nat → List HtmlToken) (self : HtmlParser)
    (d : List Nat) (codepage : Nat) : Option (HtmlParser × Option Nat) :=
  let s := Dup d
  match ParseInPlace L self (some (ToByteSlice s)) codepage (Next (ToByteSlice s)) with
  | none => none
  | some (self1, root) => some ({ self1 with freeHtml := true }, root)

/-- Modelled from the spec: the token the tokenizer (not among the sources) delivers for a
tag without attributes whose text between `<` and `>` is `raw`: an end tag when `raw`
starts with `/` (47), an empty-element tag when it ends with `/`, a start tag otherwise. -/
def sampleTagToken (raw : List Nat) : HtmlToken :=
  match raw with
  | 47 :: name =>
    { type := TokenType.EndTag, error := ParsingError.NoError, s := name,
      tag := sampleLookup.FindHtmlTag name, nLen := name.length, attrs := [] }
  | _ =>
    if raw.getLast? = some 47 then
      { type := TokenType.EmptyElementTag, error := ParsingError.NoError, s := raw.dropLast,
        tag := sampleLookup.FindHtmlTag raw.dropLast, nLen := raw.dropLast.length, attrs := [] }
    else
      { type := TokenType.StartTag, error := ParsingError.NoError, s := raw,
        tag := sampleLookup.FindHtmlTag raw, nLen := raw.length, attrs := [] }

/-- The text token for the bytes `text`, none for an empty run. -/
def sampleTextTokens (text : List Nat) : List HtmlToken :=
  if text = [] then []
  else
    [{ type := TokenType.Text, error := ParsingError.NoError, s := text,
       tag := sampleLookup.Tag_NotFound, nLen := 0, attrs := [] }]

/-- The scan of `sampleTokens`: `inTag` tells whether a `<` has been read and not yet its
`>`, `acc` holds the bytes of the tag or text read so far. -/
def sampleTokens.scan : Bool → List Nat → List Nat → List HtmlToken
  | false, acc, [] => sampleTextTokens acc
  | false, acc, c :: rest =>
    if c = 60 then sampleTextTokens acc ++ scan true [] rest else scan false (acc ++ [c]) rest
  | true, acc, [] => [errorTok sampleLookup ParsingError.UnclosedTag acc]
  | true, acc, c :: rest =>
    if c = 62 then sampleTagToken acc :: scan false [] rest else scan true (acc ++ [c]) rest

/-- Modelled from the spec: a small instance of the tokenizer (section 4.1, not among the
sources), for buffers made of text and of tags without attributes.  A token begins at `<`
(60) and a tag ends at `>` (62); a run of bytes without `<` is a text token; a `<` without
its `>` before the end of the buffer is an `UnclosedTag` error.  The scan runs to the end of
the buffer, whatever the bytes are. -/
def sampleTokens (bytes : List Nat) : List HtmlToken := sampleTokens.scan false [] bytes

/-- The bytes of `<a>`, a NUL, and `<b>`. -/
def bytesWithNul : List Nat := units "<a>" ++ 0 :: units "<b>"

/-- One passage through the body of the token loop of `ParseInPlace` for a token that is
not an error token: a text token is skipped, a tag token is handled by
`ParseInPlace.tagToken`. -/
def ParseInPlace.step (L : HtmlParserLookup) (self : HtmlParser) (tok : HtmlToken) :
    Option HtmlParser :=
  if !tok.IsTag then some self else ParseInPlace.tagToken L self tok

/-- The tokens of `<a></a><b><c></c></b>`. -/
def tokensIgnored : List HtmlToken :=
  [startTok sampleLookup "a" [], endTok sampleLookup "a", startTok sampleLookup "b" [],
   startTok sampleLookup "c" [], endTok sampleLookup "c", endTok sampleLookup "b"]
/-- The shape of an arena of `n` elements all of which are in the tree of the first one,
given the open chain `chain`: `OpenSpine` for that chain when an element is open; when none
is open, either there is no element at all or the tree of the first element is complete. -/
def Spine (els : List HtmlElement) (n : Nat) : List Nat → Prop
  | [] => n = 0 ∨ OpenSpine els n [0]
  | c :: rest => OpenSpine els n (c :: rest)

/-- The state of the parser as long as every element created so far is in the tree of the
first one: the arena lists the elements of that tree in document order, and the current
element is on its rightmost branch. -/
def SpineInv (parser : HtmlParser) : Prop :=
  WellLinked parser ∧ RootFirst parser ∧
  ∃ chain, IsChain parser.allocator parser.currElement chain ∧
    Spine parser.allocator parser.allocator.length chain

/-- No element is created outside the tree: while the token loop runs over `toks` from the
parser `self`, no start tag or empty-element tag is met at a moment when elements exist
already and none is open (`currElement` is `nullptr`).  That is the moment at which
`StartTag` finds no parent for the new element and returns without linking it. -/
def neverOrphans (L : HtmlParserLookup) : HtmlParser → List HtmlToken → Bool
  | _, [] => true
  | self, tok :: rest =>
    if tok.IsError then true
    else if tok.opensElement && self.currElement.isNone && !self.allocator.isEmpty then false
    else
      match ParseInPlace.step L self tok with
      | none => true
      | some self1 => neverOrphans L self1 rest

/-- The tokens of `<ul><p><li></li></p></ul>`. -/
def tokensListInPara : List HtmlToken :=
  [startTok sampleLookup "ul" [], startTok sampleLookup "p" [], startTok sampleLookup "li" [],
   endTok sampleLookup "li", endTok sampleLookup "p", endTok sampleLookup "ul"]

/-! ## The writes into the buffer -/

/-- Where a tag token points into the buffer it was scanned from: the offset of `tok->s` and,
for each attribute span that `NextAttr()` delivers, the offsets of `attr->name` and of
`attr->val`. -/
structure TokenPlace where
  s : Nat
  attrs : List (Nat × Nat)
deriving DecidableEq, Repr

/-- The offsets at which one passage through the body of the token loop of `ParseInPlace`
writes a NUL byte for the tag token `tok`, in the order of the code: `*tagEnd = 0` in
`StartTag` when the tag is unknown, `*nameEnd = *valueEnd = 0` for every attribute, and
`*tagEnd = 0` in `CloseTag` when the tag is unknown. -/
def ParseInPlace.tagWrites (L : HtmlParserLookup) (tok : HtmlToken) (place : TokenPlace) :
    List Nat :=
  let tagEnd := if L.Tag_NotFound = tok.tag then [place.s + tok.nLen] else []
  let opened :=
    if !tok.IsEndTag then
      tagEnd ++ (List.zipWith (fun (attr : AttrInfo) (off : Nat × Nat) =>
        [off.2 + attr.val.length, off.1 + attr.name.length]) tok.attrs place.attrs).flatten
    else []
  opened ++ (if !tok.IsStartTag || L.IsTagSelfClosing tok.tag then tagEnd else [])

/-- The offsets at which the token loop of `ParseInPlace` writes a NUL byte into the buffer
`this->html`, over the tokens the pull parser delivers with the places they point at: the
loop returns at the first error token and skips text tokens. -/
def ParseInPlace.writes (L : HtmlParserLookup) : List (HtmlToken × TokenPlace) → List Nat
  | [] => []
  | (tok, place) :: rest =>
    if tok.IsError then []
    else if !tok.IsTag then writes L rest
    else ParseInPlace.tagWrites L tok place ++ writes L rest

/-- The bytes of a buffer after `*p = 0` has been executed for each of the offsets. -/
def zeroAt (bytes : List Nat) (offsets : List Nat) : List Nat :=
  offsets.foldl (fun b o => b.set o 0) bytes

/-- Memory, as the list of the buffers that exist: the address of a buffer is its index,
and a newly allocated buffer gets the next index. -/
abbrev Heap := List (List Nat)

/-- The effect of `ParseInPlace(d, codepage)` on memory.  The parser keeps the pointer
`d.data()` in `html`, the pull parser scans that very buffer, and the token loop writes its
NUL bytes through the tokens: the buffer at the address `html` is written in place. -/
def ParseInPlace.memory (L : HtmlParserLookup) (heap : Heap) (html : Nat)
    (toks : List (HtmlToken × TokenPlace)) : Heap :=
  match heap[html]? with
  | none => heap
  | some bytes => heap.set html (zeroAt bytes (ParseInPlace.writes L toks))

/-- The effect of `Parse(d, codepage)` on memory, `d` being the address of the caller's
buffer.  `str::Dup` allocates a new buffer holding the copy, and `ParseInPlace` is called
with the slice of that buffer.  `Next` stands for the pull parser (not among the sources):
the tokens it delivers for a buffer holding the given bytes, with the places they point at. -/
def Parse.memory (L : HtmlParserLookup) (Next : List Nat → List (HtmlToken × TokenPlace))
    (heap : Heap) (d : Nat) : Heap :=
  match heap[d]? with
  | none => heap
  | some bytes =>
    let s := Dup bytes
    ParseInPlace.memory L (heap ++ [s]) heap.length (Next (ToByteSlice s))

/-- The place of the tag token `sampleTagToken raw` whose text `raw` starts at the offset
`start`: the name starts there, or one byte later for an end tag. -/
def sampleTagPlace (start : Nat) (raw : List Nat) : TokenPlace :=
  match raw with
  | 47 :: _ => { s := start + 1, attrs := [] }
  | _ => { s := start, attrs := [] }

/-- The scan of `sampleTokens`, with the offset `pos` of the next byte: every token comes
with the place it points at. -/
def sampleTokensAt.scan : Nat → Bool → List Nat → List Nat → List (HtmlToken × TokenPlace)
  | pos, false, acc, [] =>
    (sampleTextTokens acc).map (fun t => (t, { s := pos - acc.length, attrs := [] }))
  | pos, false, acc, c :: rest =>
    if c = 60 then
      (sampleTextTokens acc).map (fun t => (t, { s := pos - acc.length, attrs := [] })) ++
        scan (pos + 1) true [] rest
    else scan (pos + 1) false (acc ++ [c]) rest
  | pos, true, acc, [] =>
    [(errorTok sampleLookup ParsingError.UnclosedTag acc,
      { s := pos - acc.length, attrs := [] })]
  | pos, true, acc, c :: rest =>
    if c = 62 then
      (sampleTagToken acc, sampleTagPlace (pos - acc.length) acc) :: scan (pos + 1) false [] rest
    else scan (pos + 1) true (acc ++ [c]) rest

/-- Modelled from the spec: the tokens of `sampleTokens` together with the places in the
buffer they point at. -/
def sampleTokensAt (bytes : List Nat) : List (HtmlToken × TokenPlace) :=
  sampleTokensAt.scan 0 false [] bytes


/-! ## Entity decoding: fuel and unfolding -/

theorem FindChar_length_le {s : List Nat} {c : Nat} {found : List Nat}
    (h : FindChar s c = some found) : found.length ≤ s.length := by
  induction s with
  | nil => simp [FindChar] at h
  | cons x xs ih =>
    simp only [FindChar] at h
    split_ifs at h with h1 h2
    · cases h
      simp
    · have := ih h
      simp only [List.length_cons]
      omega

/-- The continuation of the decoder after one unit `c` has been read: the text still to
scan, or nothing when the loop ends. -/
theorem DecodeHtmlEntitites.loop_succ (L : HtmlParserLookup) :
    ∀ (fuel : Nat) (src : List WCHAR), src.length ≤ fuel →
      DecodeHtmlEntitites.loop L (fuel + 1) src = DecodeHtmlEntitites.loop L fuel src := by
  intro fuel
  induction fuel with
  | zero =>
    intro src h
    cases src with
    | nil => simp [DecodeHtmlEntitites.loop]
    | cons c r => simp at h
  | succ f ih =>
    intro src h
    cases src with
    | nil => simp [DecodeHtmlEntitites.loop]
    | cons c r =>
      have hr : r.length ≤ f := by simpa using h
      rw [DecodeHtmlEntitites.loop, DecodeHtmlEntitites.loop]
      by_cases h0 : c = 0
      · simp [h0]
      · by_cases h38 : c ≠ 38
        · simp only [h0, h38, if_false, if_true, ne_eq, not_false_eq_true]
          rw [ih r hr]
        · simp only [h0, h38, if_false]
          cases hp : (ParseDec r).orElse (fun _ => ParseHex r) with
          | some u =>
            simp only []
            cases hf : FindChar r 59 with
            | none => rfl
            | some found =>
              simp only []
              have h1 := FindChar_length_le hf
              rw [ih (found.drop 1) (by simp only [List.length_drop]; omega)]
          | none =>
            simp only []
            have h2 : (List.drop (List.takeWhile (iswalnum L) r).length r).length ≤ f := by
              simp only [List.length_drop]; omega
            have h3 : (match List.drop (List.takeWhile (iswalnum L) r).length r with
                | 59 :: r2 => r2
                | r2 => r2).length ≤ f := by
              split
              · next r2 heq =>
                rw [heq] at h2
                simp only [List.length_cons] at h2
                omega
              · exact h2
            rw [ih _ h3, ih r hr]

theorem DecodeHtmlEntitites.loop_fuel (L : HtmlParserLookup) (src : List WCHAR) :
    ∀ (k : Nat), DecodeHtmlEntitites.loop L (src.length + k) src =
      DecodeHtmlEntitites.loop L src.length src := by
  intro k
  induction k with
  | zero => rfl
  | succ k ih =>
    rw [← Nat.add_assoc, DecodeHtmlEntitites.loop_succ L _ _ (by omega), ih]

theorem DecodeHtmlEntitites.loop_eq_decodeWide (L : HtmlParserLookup) (src : List WCHAR)
    (fuel : Nat) (h : src.length ≤ fuel) :
    DecodeHtmlEntitites.loop L fuel src = decodeWide L src := by
  obtain ⟨k, rfl⟩ := Nat.exists_eq_add_of_le h
  exact DecodeHtmlEntitites.loop_fuel L src k

theorem decodeWide_nil (L : HtmlParserLookup) : decodeWide L [] = [] := rfl

theorem decodeWide_cons_plain (L : HtmlParserLookup) (c : WCHAR) (src : List WCHAR)
    (h0 : c ≠ 0) (h38 : c ≠ 38) : decodeWide L (c :: src) = c :: decodeWide L src := by
  unfold decodeWide
  simp only [List.length_cons, DecodeHtmlEntitites.loop, h0, h38, if_false, if_true, ne_eq,
    not_false_eq_true]

theorem decodeWide_amp_numeric (L : HtmlParserLookup) (src found : List WCHAR) (u : Int)
    (hp : (ParseDec src).orElse (fun _ => ParseHex src) = some u)
    (hf : FindChar src 59 = some found) :
    decodeWide L (38 :: src) = IntToChar u :: decodeWide L (found.drop 1) := by
  have h1 := FindChar_length_le hf
  conv_lhs => unfold decodeWide
  simp only [List.length_cons, DecodeHtmlEntitites.loop, hp, hf]
  simp only [OfNat.ofNat_ne_zero, if_false, ne_eq, not_true_eq_false]
  rw [DecodeHtmlEntitites.loop_eq_decodeWide L _ _ (by simp only [List.length_drop]; omega)]

theorem decodeWide_amp_named (L : HtmlParserLookup) (src : List WCHAR)
    (hp : (ParseDec src).orElse (fun _ => ParseHex src) = none)
    (hlen : (src.takeWhile (iswalnum L)).length ≠ 0)
    (hrune : L.HtmlEntityNameToRune (src.take (src.takeWhile (iswalnum L)).length) ≠ -1) :
    decodeWide L (38 :: src) =
      IntToChar (L.HtmlEntityNameToRune (src.take (src.takeWhile (iswalnum L)).length)) ::
        decodeWide L (match src.drop (src.takeWhile (iswalnum L)).length with
          | 59 :: r => r
          | r => r) := by
  have h2 : (List.drop (List.takeWhile (iswalnum L) src).length src).length ≤ src.length := by
    simp only [List.length_drop]; omega
  have h3 : (match List.drop (List.takeWhile (iswalnum L) src).length src with
      | 59 :: r2 => r2
      | r2 => r2).length ≤ src.length := by
    split
    · next r2 heq =>
      rw [heq] at h2
      simp only [List.length_cons] at h2
      omega
    · exact h2
  conv_lhs => unfold decodeWide
  simp only [List.length_cons, DecodeHtmlEntitites.loop, hp]
  simp only [OfNat.ofNat_ne_zero, if_false, ne_eq, not_true_eq_false, hlen, not_false_eq_true,
    if_true, hrune]
  rw [DecodeHtmlEntitites.loop_eq_decodeWide L _ _ h3]

theorem decodeWide_amp_literal (L : HtmlParserLookup) (src : List WCHAR)
    (hp : (ParseDec src).orElse (fun _ => ParseHex src) = none)
    (hrune : (if (src.takeWhile (iswalnum L)).length ≠ 0 then
        L.HtmlEntityNameToRune (src.take (src.takeWhile (iswalnum L)).length) else -1) = -1) :
    decodeWide L (38 :: src) = 38 :: decodeWide L src := by
  conv_lhs => unfold decodeWide
  simp only [List.length_cons, DecodeHtmlEntitites.loop, hp]
  simp only [OfNat.ofNat_ne_zero, if_false, ne_eq, not_true_eq_false] at hrune ⊢
  rw [hrune]
  simp only [not_true_eq_false, if_false]
  rfl

theorem decodeWide_append_plain (L : HtmlParserLookup) (pre rest : List WCHAR)
    (h0 : 0 ∉ pre) (h38 : 38 ∉ pre) : decodeWide L (pre ++ rest) = pre ++ decodeWide L rest := by
  induction pre with
  | nil => rfl
  | cons c cs ih =>
    simp only [List.mem_cons, not_or] at h0 h38
    rw [List.cons_append, decodeWide_cons_plain L c _ (Ne.symm h0.1) (Ne.symm h38.1),
      ih h0.2 h38.2, List.cons_append]

/-! ## Entity decoding: references -/

theorem takeWhile_run {α : Type} (p : α → Bool) (run : List α) (x : α) (rest : List α)
    (hrun : ∀ a ∈ run, p a = true) (hx : p x = false) :
    (run ++ x :: rest).takeWhile p = run := by
  induction run with
  | nil => simp [List.takeWhile, hx]
  | cons a as ih =>
    have ha : p a = true := hrun a (List.mem_cons_self _ _)
    simp only [List.cons_append, List.takeWhile_cons, ha, if_true]
    rw [ih (fun b hb => hrun b (List.mem_cons_of_mem _ hb))]

theorem dropWhile_run {α : Type} (p : α → Bool) (run : List α) (x : α) (rest : List α)
    (hrun : ∀ a ∈ run, p a = true) (hx : p x = false) :
    (run ++ x :: rest).dropWhile p = x :: rest := by
  induction run with
  | nil => simp [List.dropWhile, hx]
  | cons a as ih =>
    have ha : p a = true := hrun a (List.mem_cons_self _ _)
    simp only [List.cons_append, List.dropWhile_cons, ha, if_true]
    exact ih (fun b hb => hrun b (List.mem_cons_of_mem _ hb))

theorem FindChar_run (run : List Nat) (c : Nat) (rest : List Nat) (hc : c ≠ 0)
    (hrun : ∀ a ∈ run, a ≠ 0 ∧ a ≠ c) :
    FindChar (run ++ c :: rest) c = some (c :: rest) := by
  induction run with
  | nil => simp [FindChar, hc]
  | cons a as ih =>
    have ha := hrun a (List.mem_cons_self _ _)
    simp only [List.cons_append, FindChar, ha.1, ha.2, if_false]
    exact ih (fun b hb => hrun b (List.mem_cons_of_mem _ hb))

theorem isDecDigit_ne {c : WCHAR} (h : isDecDigit c = true) : c ≠ 0 ∧ c ≠ 59 := by
  constructor <;> (rintro rfl; simp [isDecDigit] at h)

theorem isHexDigit_ne {c : WCHAR} (h : isHexDigit c = true) : c ≠ 0 ∧ c ≠ 59 := by
  constructor <;> (rintro rfl; simp [isHexDigit] at h)

theorem IntToChar_of_big (z : Int) (h : 65536 ≤ z) : IntToChar z = 63 := by
  unfold IntToChar
  rw [if_pos]
  right
  norm_num
  exact h

theorem IntToChar_of_nonpos (z : Int) (h : z ≤ 0) : IntToChar z = 63 := by
  unfold IntToChar
  rw [if_pos (Or.inl h)]

theorem IntToChar_saturate_dec (v : Nat) :
    IntToChar (Int.ofNat (min v (2 ^ 31 - 1))) = IntToChar (Int.ofNat v) := by
  by_cases h : v ≤ 2 ^ 31 - 1
  · rw [Nat.min_eq_left h]
  · have h1 : min v (2 ^ 31 - 1) = 2 ^ 31 - 1 := Nat.min_eq_right (by omega)
    rw [h1, IntToChar_of_big _ (by norm_num), IntToChar_of_big]
    norm_num at h
    simp only [Int.ofNat_eq_coe]
    omega

theorem IntToChar_saturate_hex (v : Nat) :
    IntToChar (if min v (2 ^ 32 - 1) < 2 ^ 31 then Int.ofNat (min v (2 ^ 32 - 1))
      else Int.ofNat (min v (2 ^ 32 - 1)) - 2 ^ 32) = IntToChar (Int.ofNat v) := by
  by_cases h : v < 2 ^ 31
  · have h1 : min v (2 ^ 32 - 1) = v := Nat.min_eq_left (by
      norm_num at h ⊢
      omega)
    rw [h1, if_pos h]
  · by_cases hv : v ≤ 2 ^ 32 - 1
    · rw [Nat.min_eq_left hv, if_neg h, IntToChar_of_nonpos, IntToChar_of_big]
      · norm_num at h
        simp only [Int.ofNat_eq_coe]
        omega
      · norm_num at hv
        simp only [Int.ofNat_eq_coe]
        norm_num
        omega
    · rw [Nat.min_eq_right (by omega), if_neg (by norm_num), IntToChar_of_nonpos _ (by norm_num),
        IntToChar_of_big]
      norm_num at hv
      simp only [Int.ofNat_eq_coe]
      omega

theorem ParseDec_reference (ds T : List WCHAR) (hne : ds ≠ [])
    (hds : ∀ d ∈ ds, isDecDigit d = true) :
    ParseDec (35 :: (ds ++ 59 :: T)) = some (Int.ofNat (min (numVal 10 ds) (2 ^ 31 - 1))) := by
  unfold ParseDec
  simp only
  rw [takeWhile_run isDecDigit ds 59 T hds (by decide),
    dropWhile_run isDecDigit ds 59 T hds (by decide)]
  cases ds with
  | nil => exact absurd rfl hne
  | cons d ds => rfl

theorem ParseDec_hex_none (rest : List WCHAR) : ParseDec (35 :: 120 :: rest) = none := by
  unfold ParseDec
  simp only
  have : List.takeWhile isDecDigit (120 :: rest) = [] := by
    simp [List.takeWhile, isDecDigit]
  rw [this]

theorem ParseHex_reference (hs T : List WCHAR) (hne : hs ≠ [])
    (hhs : ∀ d ∈ hs, isHexDigit d = true) :
    ParseHex (35 :: 120 :: (hs ++ 59 :: T)) =
      some (if min (numVal 16 hs) (2 ^ 32 - 1) < 2 ^ 31
        then Int.ofNat (min (numVal 16 hs) (2 ^ 32 - 1))
        else Int.ofNat (min (numVal 16 hs) (2 ^ 32 - 1)) - 2 ^ 32) := by
  unfold ParseHex
  simp only
  rw [takeWhile_run isHexDigit hs 59 T hhs (by decide),
    dropWhile_run isHexDigit hs 59 T hhs (by decide)]
  cases hs with
  | nil => exact absurd rfl hne
  | cons d ds => rfl

theorem iswalnum_ascii_false (L : HtmlParserLookup) (c : WCHAR) (hc : c < 128)
    (h : isAsciiAlnum c = false) : iswalnum L c = false := by
  simp [iswalnum, hc, h]

theorem ParseDec_of_not_hash (src : List WCHAR) (h : src.head? ≠ some 35) :
    ParseDec src = none := by
  unfold ParseDec
  split
  · simp at h
  · rfl

theorem ParseHex_of_not_hash (src : List WCHAR) (h : src.head? ≠ some 35) :
    ParseHex src = none := by
  unfold ParseHex
  split
  · simp at h
  · rfl

theorem take_takeWhile_length {α : Type} (p : α → Bool) (l : List α) :
    l.take (l.takeWhile p).length = l.takeWhile p := by
  induction l with
  | nil => rfl
  | cons a as ih =>
    simp only [List.takeWhile_cons]
    split
    · simp only [List.length_cons, List.take_succ_cons, ih]
    · rfl

theorem drop_takeWhile_length {α : Type} (p : α → Bool) (l : List α) :
    l.drop (l.takeWhile p).length = l.dropWhile p := by
  induction l with
  | nil => rfl
  | cons a as ih =>
    simp only [List.takeWhile_cons, List.dropWhile_cons]
    split
    · simp only [List.length_cons, List.drop_succ_cons, ih]
    · rfl

theorem decodeWide_reference (L : HtmlParserLookup) (R T : List WCHAR) (v : Int)
    (hR : IsReference L R v) :
    decodeWide L (38 :: (R ++ 59 :: T)) = IntToChar v :: decodeWide L T := by
  cases hR with
  | dec ds hne hds =>
    have hp : (ParseDec (35 :: ds ++ 59 :: T)).orElse (fun _ => ParseHex (35 :: ds ++ 59 :: T)) =
        some (Int.ofNat (min (numVal 10 ds) (2 ^ 31 - 1))) := by
      rw [List.cons_append, ParseDec_reference ds T hne hds]
      rfl
    have hf : FindChar (35 :: ds ++ 59 :: T) 59 = some (59 :: T) := by
      have := FindChar_run (35 :: ds) 59 T (by decide) (by
        intro a ha
        rcases List.mem_cons.mp ha with rfl | ha
        · decide
        · exact isDecDigit_ne (hds a ha))
      simpa using this
    rw [decodeWide_amp_numeric L _ _ _ hp hf, IntToChar_saturate_dec]
    rfl
  | hex hs hne hhs =>
    have hp : (ParseDec (35 :: 120 :: hs ++ 59 :: T)).orElse
        (fun _ => ParseHex (35 :: 120 :: hs ++ 59 :: T)) =
        some (if min (numVal 16 hs) (2 ^ 32 - 1) < 2 ^ 31
          then Int.ofNat (min (numVal 16 hs) (2 ^ 32 - 1))
          else Int.ofNat (min (numVal 16 hs) (2 ^ 32 - 1)) - 2 ^ 32) := by
      rw [List.cons_append, List.cons_append, ParseDec_hex_none, ParseHex_reference hs T hne hhs]
      rfl
    have hf : FindChar (35 :: 120 :: hs ++ 59 :: T) 59 = some (59 :: T) := by
      have := FindChar_run (35 :: 120 :: hs) 59 T (by decide) (by
        intro a ha
        rcases List.mem_cons.mp ha with rfl | ha
        · decide
        · rcases List.mem_cons.mp ha with rfl | ha
          · decide
          · exact isHexDigit_ne (hhs a ha))
      simpa using this
    rw [decodeWide_amp_numeric L _ _ _ hp hf, IntToChar_saturate_hex]
    rfl
  | named _ hne hn hrune =>
    have h59 : iswalnum L 59 = false := iswalnum_ascii_false L 59 (by decide) (by decide)
    have hhead : (R ++ 59 :: T).head? ≠ some 35 := by
      cases R with
      | nil => exact absurd rfl hne
      | cons c cs =>
        simp only [List.cons_append, List.head?_cons, ne_eq, Option.some.injEq]
        rintro rfl
        have := hn 35 (List.mem_cons_self _ _)
        rw [iswalnum_ascii_false L 35 (by decide) (by decide)] at this
        exact Bool.noConfusion this
    have hp : (ParseDec (R ++ 59 :: T)).orElse (fun _ => ParseHex (R ++ 59 :: T)) = none := by
      rw [ParseDec_of_not_hash _ hhead, ParseHex_of_not_hash _ hhead]
      rfl
    have htw : (R ++ 59 :: T).takeWhile (iswalnum L) = R := takeWhile_run _ R 59 T hn h59
    have hlen : ((R ++ 59 :: T).takeWhile (iswalnum L)).length ≠ 0 := by
      rw [htw]
      intro h0
      exact hne (List.length_eq_zero.mp h0)
    have htake : (R ++ 59 :: T).take ((R ++ 59 :: T).takeWhile (iswalnum L)).length = R := by
      rw [take_takeWhile_length, htw]
    have hdrop : (R ++ 59 :: T).drop ((R ++ 59 :: T).takeWhile (iswalnum L)).length =
        59 :: T := by
      rw [drop_takeWhile_length, dropWhile_run _ R 59 T hn h59]
    rw [decodeWide_amp_named L _ hp hlen (by rw [htake]; exact hrune), htake, hdrop]

/-- C3: a reference terminated by `;` is replaced by exactly one character.  When the
converted text is `pre ++ "&" ++ R ++ ";" ++ T`, `pre` holds no `&`, and `R` is a decimal
reference, a hexadecimal reference or a name of the entity table, with value `v`, then
`DecodeHtmlEntitites` returns `pre ++ [IntToChar v] ++ decode T`. -/
theorem DecodeHtmlEntitites_reference (L : HtmlParserLookup) (string : List Nat)
    (codepage : Nat) (pre R T : List WCHAR) (v : Int)
    (htext : L.StrCPToWStr string codepage = pre ++ 38 :: (R ++ 59 :: T))
    (hnul : 0 ∉ pre) (hamp : 38 ∉ pre) (hR : IsReference L R v) :
    DecodeHtmlEntitites L string codepage = pre ++ IntToChar v :: decodeWide L T := by
  unfold DecodeHtmlEntitites
  rw [htext, decodeWide_append_plain L pre _ hnul hamp, decodeWide_reference L R T v hR]

/-- C3, the examples of the claim: `decode("a &amp; b") = "a & b"`, `decode("&#65;") = "A"`
and `decode("&#x41;") = "A"`. -/
theorem DecodeHtmlEntitites_reference_witness :
    DecodeHtmlEntitites sampleLookup (units "a &amp; b") 0 = units "a & b" ∧
    DecodeHtmlEntitites sampleLookup (units "&#65;") 0 = units "A" ∧
    DecodeHtmlEntitites sampleLookup (units "&#x41;") 0 = units "A" :=
  ⟨DecodeHtmlEntitites_reference sampleLookup (units "a &amp; b") 0 (units "a ") (units "amp")
      (units " b") 38 (by decide) (by decide) (by decide)
      (IsReference.named (units "amp") (by decide) (by decide) (by decide)),
   DecodeHtmlEntitites_reference sampleLookup (units "&#65;") 0 [] (units "#65") [] 65
      (by decide) (by decide) (by decide)
      (IsReference.dec (units "65") (by decide) (by decide)),
   DecodeHtmlEntitites_reference sampleLookup (units "&#x41;") 0 [] (units "#x41") [] 65
      (by decide) (by decide) (by decide)
      (IsReference.hex (units "41") (by decide) (by decide))⟩

theorem decodeWide_amp_unknown (L : HtmlParserLookup) (src : List WCHAR)
    (hs : startsReference L src = false) :
    decodeWide L (38 :: src) = 38 :: decodeWide L src := by
  simp only [startsReference, Bool.or_eq_false_iff, Bool.and_eq_false_iff] at hs
  obtain ⟨⟨hd, hh⟩, hn⟩ := hs
  have hd2 : ParseDec src = none := by
    cases h : ParseDec src with
    | none => rfl
    | some x => rw [h] at hd; exact Bool.noConfusion hd
  have hh2 : ParseHex src = none := by
    cases h : ParseHex src with
    | none => rfl
    | some x => rw [h] at hh; exact Bool.noConfusion hh
  apply decodeWide_amp_literal
  · rw [hd2, hh2]
    rfl
  · rw [take_takeWhile_length]
    by_cases hlen : (src.takeWhile (iswalnum L)).length ≠ 0
    · rw [if_pos hlen]
      rcases hn with hn | hn
      · exfalso
        apply hlen
        cases hl : src.takeWhile (iswalnum L) with
        | nil => rfl
        | cons a as => rw [hl] at hn; exact Bool.noConfusion hn
      · simpa using hn
    · rw [if_neg hlen]

theorem decodeWide_hasNoReference (L : HtmlParserLookup) (text : List WCHAR)
    (hnul : 0 ∉ text) (hno : hasNoReference L text = true) : decodeWide L text = text := by
  induction text with
  | nil => rfl
  | cons c cs ih =>
    simp only [List.mem_cons, not_or] at hnul
    simp only [hasNoReference, Bool.and_eq_true, Bool.or_eq_true, bne_iff_ne, ne_eq,
      Bool.not_eq_true'] at hno
    by_cases hc : c = 38
    · subst hc
      rcases hno.1 with h | h
      · exact absurd rfl h
      · rw [decodeWide_amp_unknown L cs h, ih hnul.2 hno.2]
    · rw [decodeWide_cons_plain L c cs (Ne.symm hnul.1) hc, ih hnul.2 hno.2]

theorem hasNoReference_of_no_amp (L : HtmlParserLookup) (text : List WCHAR)
    (hamp : 38 ∉ text) : hasNoReference L text = true := by
  induction text with
  | nil => rfl
  | cons c cs ih =>
    simp only [List.mem_cons, not_or] at hamp
    simp only [hasNoReference, Bool.and_eq_true, Bool.or_eq_true, bne_iff_ne, ne_eq]
    exact ⟨Or.inl (Ne.symm hamp.1), ih hamp.2⟩

/-- C4: unknown entities pass through unchanged.  When what follows an `&` is neither a
numeric reference nor an alphanumeric run of the entity table, the decoder emits the `&` and
goes on with the character right after it; and a text in which this is so at every `&` (in
particular a text without `&`) is returned as it is. -/
theorem DecodeHtmlEntitites_unknown_unchanged (L : HtmlParserLookup) (string : List Nat)
    (codepage : Nat) (src : List WCHAR)
    (hnul : 0 ∉ L.StrCPToWStr string codepage)
    (hno : hasNoReference L (L.StrCPToWStr string codepage) = true ∨
      38 ∉ L.StrCPToWStr string codepage)
    (hs : startsReference L src = false) :
    DecodeHtmlEntitites L string codepage = L.StrCPToWStr string codepage ∧
      decodeWide L (38 :: src) = 38 :: decodeWide L src := by
  refine ⟨?_, decodeWide_amp_unknown L src hs⟩
  unfold DecodeHtmlEntitites
  rcases hno with h | h
  · exact decodeWide_hasNoReference L _ hnul h
  · exact decodeWide_hasNoReference L _ hnul (hasNoReference_of_no_amp L _ h)

/-- C4, the examples of the claim: `"&bogus;"`, a lone `"&"` and a text without `&` are
returned unchanged. -/
theorem DecodeHtmlEntitites_unknown_unchanged_witness :
    DecodeHtmlEntitites sampleLookup (units "&bogus;") 0 = units "&bogus;" ∧
    DecodeHtmlEntitites sampleLookup (units "&") 0 = units "&" ∧
    DecodeHtmlEntitites sampleLookup (units "a < b") 0 = units "a < b" :=
  ⟨(DecodeHtmlEntitites_unknown_unchanged sampleLookup (units "&bogus;") 0 (units "bogus;")
      (by decide) (Or.inl (by decide)) (by decide)).1,
   (DecodeHtmlEntitites_unknown_unchanged sampleLookup (units "&") 0 []
      (by decide) (Or.inl (by decide)) (by decide)).1,
   (DecodeHtmlEntitites_unknown_unchanged sampleLookup (units "a < b") 0 (units " b")
      (by decide) (Or.inr (by decide)) (by decide)).1⟩

/-! ## The tree builder: chains and searches -/

theorem HtmlParser.fresh_wellLinked : WellLinked HtmlParser.fresh where
  links :=
    { up_lt := by intro i e p h; simp [HtmlParser.fresh] at h
      down_gt := by intro i e p h; simp [HtmlParser.fresh] at h
      next_gt := by intro i e p h; simp [HtmlParser.fresh] at h }
  curr_lt := by intro c h; simp [HtmlParser.fresh] at h
  root_lt := by intro c h; simp [HtmlParser.fresh] at h

theorem getElem?_lt {α : Type} {l : List α} {i : Nat} {a : α} (h : l[i]? = some a) :
    i < l.length := by
  by_contra hc
  rw [List.getElem?_eq_none (by omega)] at h
  exact Option.noConfusion h

theorem IsChain.length_le {els : List HtmlElement} (hl : LinksOK els) :
    ∀ {o : Option Nat} {chain : List Nat}, IsChain els o chain →
      ∀ i, o = some i → chain.length ≤ i + 1 := by
  intro o chain h
  induction h with
  | nil => intro i hi; exact Option.noConfusion hi
  | cons j e rest he hrest ih =>
    intro i hi
    cases hi
    cases hup : e.up with
    | none =>
      rw [hup] at hrest
      cases hrest
      simp
    | some p =>
      have := ih p hup
      have := hl.up_lt j e p he hup
      simp only [List.length_cons]
      omega

theorem IsChain.length_le_arena {els : List HtmlElement} (hl : LinksOK els)
    {o : Option Nat} {chain : List Nat} (h : IsChain els o chain) :
    chain.length ≤ els.length := by
  cases h with
  | nil => simp
  | cons i e rest he hrest =>
    have h1 := IsChain.length_le hl (IsChain.cons i e rest he hrest) i rfl
    have h2 := getElem?_lt he
    omega

theorem IsChain.exists {els : List HtmlElement} (hl : LinksOK els) :
    ∀ (n : Nat) (o : Option Nat), (∀ i, o = some i → i < n ∧ i < els.length) →
      ∃ chain, IsChain els o chain := by
  intro n
  induction n with
  | zero =>
    intro o ho
    cases o with
    | none => exact ⟨[], IsChain.nil⟩
    | some i => exact absurd (ho i rfl).1 (by omega)
  | succ n ih =>
    intro o ho
    cases o with
    | none => exact ⟨[], IsChain.nil⟩
    | some i =>
      obtain ⟨h1, h2⟩ := ho i rfl
      obtain ⟨e, he⟩ : ∃ e, els[i]? = some e := ⟨els[i], List.getElem?_eq_getElem h2⟩
      obtain ⟨rest, hrest⟩ := ih e.up (by
        intro p hp
        have := hl.up_lt i e p he hp
        exact ⟨by omega, by omega⟩)
      exact ⟨i :: rest, IsChain.cons i e rest he hrest⟩

theorem searchUp_eq_find {els : List HtmlElement} (hit : HtmlElement → Bool)
    {o : Option Nat} {chain : List Nat} (h : IsChain els o chain) :
    ∀ (fuel : Nat), chain.length ≤ fuel →
      searchUp hit els fuel o = some (chain.find? (hitAt els hit)) := by
  induction h with
  | nil => intro fuel _; cases fuel <;> rfl
  | cons i e rest he hrest ih =>
    intro fuel hfuel
    cases fuel with
    | zero => simp at hfuel
    | succ f =>
      simp only [searchUp, he, List.find?_cons, hitAt]
      cases hh : hit e with
      | true => simp
      | false =>
        simp only [Bool.false_eq_true, if_false]
        exact ih f (by simpa using hfuel)

/-! ## The tree builder: soundness of the links -/

theorem LinksOK.append {els : List HtmlElement} (hl : LinksOK els) (new : HtmlElement)
    (hup : ∀ p, new.up = some p → p < els.length) (hdown : new.down = none)
    (hnext : new.next = none) : LinksOK (els ++ [new]) := by
  have key : ∀ (i : Nat) (e : HtmlElement), (els ++ [new])[i]? = some e →
      (els[i]? = some e) ∨ (i = els.length ∧ e = new) := by
    intro i e h
    rw [List.getElem?_append] at h
    split_ifs at h with hi
    · exact Or.inl h
    · right
      have hi2 : i - els.length = 0 := by
        by_contra hne
        rw [List.getElem?_eq_none (by simp; omega)] at h
        exact Option.noConfusion h
      rw [hi2] at h
      simp only [List.getElem?_cons_zero, Option.some.injEq] at h
      exact ⟨by omega, h.symm⟩
  constructor
  · intro i e p h hp
    rcases key i e h with h1 | ⟨h1, h2⟩
    · exact hl.up_lt i e p h1 hp
    · subst h1 h2
      exact hup p hp
  · intro i e d h hd
    rcases key i e h with h1 | ⟨h1, h2⟩
    · have := hl.down_gt i e d h1 hd
      simp only [List.length_append, List.length_singleton]
      omega
    · subst h2
      rw [hdown] at hd
      exact Option.noConfusion hd
  · intro i e d h hd
    rcases key i e h with h1 | ⟨h1, h2⟩
    · have := hl.next_gt i e d h1 hd
      simp only [List.length_append, List.length_singleton]
      omega
    · subst h2
      rw [hnext] at hd
      exact Option.noConfusion hd

theorem LinksOK.set {els : List HtmlElement} (hl : LinksOK els) (i : Nat)
    (e e' : HtmlElement) (he : els[i]? = some e) (hup : e'.up = e.up)
    (hdown : e'.down = e.down ∨ ∃ d, e'.down = some d ∧ i < d ∧ d < els.length)
    (hnext : e'.next = e.next ∨ ∃ d, e'.next = some d ∧ i < d ∧ d < els.length) :
    LinksOK (els.set i e') := by
  have hi := getElem?_lt he
  have key : ∀ (j : Nat) (x : HtmlElement), (els.set i e')[j]? = some x →
      (els[j]? = some x ∧ j ≠ i) ∨ (j = i ∧ x = e') := by
    intro j x h
    rw [List.getElem?_set] at h
    split_ifs at h with hij
    · right
      exact ⟨hij.symm, (Option.some.inj h).symm⟩
    · exact Or.inl ⟨h, fun hji => hij hji.symm⟩
  constructor
  · intro j x p h hp
    rcases key j x h with ⟨h1, _⟩ | ⟨h1, h2⟩
    · exact hl.up_lt j x p h1 hp
    · subst h1 h2
      rw [hup] at hp
      exact hl.up_lt j e p he hp
  · intro j x d h hd
    rw [List.length_set]
    rcases key j x h with ⟨h1, _⟩ | ⟨h1, h2⟩
    · exact hl.down_gt j x d h1 hd
    · subst h1 h2
      rcases hdown with h3 | ⟨d', h3, h4⟩
      · rw [h3] at hd
        exact hl.down_gt j e d he hd
      · rw [h3] at hd
        cases hd
        exact h4
  · intro j x d h hd
    rw [List.length_set]
    rcases key j x h with ⟨h1, _⟩ | ⟨h1, h2⟩
    · exact hl.next_gt j x d h1 hd
    · subst h1 h2
      rcases hnext with h3 | ⟨d', h3, h4⟩
      · rw [h3] at hd
        exact hl.next_gt j e d he hd
      · rw [h3] at hd
        cases hd
        exact h4

theorem StartTag.lastSibling_bounded {els : List HtmlElement} (b : Nat)
    (hb : b ≤ els.length)
    (hnext : ∀ (i : Nat) (e : HtmlElement) (nx : Nat),
      els[i]? = some e → e.next = some nx → i < nx ∧ nx < b) :
    ∀ (fuel d : Nat), d < b → b - d ≤ fuel →
      ∃ x xe, StartTag.lastSibling els fuel d = some x ∧ els[x]? = some xe ∧
        xe.next = none ∧ d ≤ x ∧ x < b := by
  intro fuel
  induction fuel with
  | zero => intro d h1 h2; omega
  | succ f ih =>
    intro d h1 h2
    obtain ⟨e, he⟩ : ∃ e, els[d]? = some e :=
      ⟨els[d], List.getElem?_eq_getElem (by omega)⟩
    cases hn : e.next with
    | none =>
      refine ⟨d, e, ?_, he, hn, le_refl d, h1⟩
      simp only [StartTag.lastSibling, he, hn]
    | some nx =>
      have h3 := hnext d e nx he hn
      obtain ⟨x, xe, hx1, hx2, hx3, hx4, hx5⟩ := ih nx h3.2 (by omega)
      refine ⟨x, xe, ?_, hx2, hx3, by omega, hx5⟩
      simp only [StartTag.lastSibling, he, hn]
      exact hx1

theorem getElem?_append_one {α : Type} (els : List α) (new : α) (i : Nat) (e : α)
    (h : (els ++ [new])[i]? = some e) :
    (i < els.length ∧ els[i]? = some e) ∨ (i = els.length ∧ e = new) := by
  rw [List.getElem?_append] at h
  split_ifs at h with hi
  · exact Or.inl ⟨hi, h⟩
  · right
    have hi2 : i - els.length = 0 := by
      by_contra hne
      rw [List.getElem?_eq_none (by simp; omega)] at h
      exact Option.noConfusion h
    rw [hi2] at h
    simp only [List.getElem?_cons_zero, Option.some.injEq] at h
    exact ⟨by omega, h.symm⟩

theorem LinkedFrom.refl (parent : Option Nat) (n i : Nat) (e : HtmlElement) :
    LinkedFrom parent n i e e := ⟨rfl, Or.inl rfl, Or.inl rfl⟩

theorem StartTag.link_spec {els : List HtmlElement} (hl : LinksOK els) (new : HtmlElement)
    (parent : Option Nat) (self2 : HtmlParser)
    (hnu : new.up = parent) (hnd : new.down = none) (hnn : new.next = none)
    (hp : ∀ p, parent = some p → p < els.length)
    (halloc : self2.allocator = els ++ [new]) :
    ∃ arena, StartTag.link self2 parent els.length = some { self2 with allocator := arena } ∧
      LinksOK arena ∧ arena.length = els.length + 1 ∧ arena[els.length]? = some new ∧
      ∀ (i : Nat) (e0 : HtmlElement), (els ++ [new])[i]? = some e0 →
        ∃ e, arena[i]? = some e ∧ LinkedFrom parent els.length i e0 e := by
  have hext : LinksOK (els ++ [new]) :=
    hl.append new (by intro p h; exact hp p (hnu ▸ h)) hnd hnn
  cases parent with
  | none =>
    refine ⟨els ++ [new], ?_, hext, by simp, by simp, ?_⟩
    · simp only [StartTag.link, ← halloc]
    · intro i e0 h
      exact ⟨e0, h, LinkedFrom.refl _ _ _ _⟩
  | some p =>
    have hplt := hp p rfl
    obtain ⟨pe, hpe⟩ : ∃ pe, els[p]? = some pe := ⟨els[p], List.getElem?_eq_getElem hplt⟩
    have hpe2 : (els ++ [new])[p]? = some pe := by
      rw [List.getElem?_append_left hplt]; exact hpe
    cases hd : pe.down with
    | none =>
      have hnew : ((els ++ [new]).set p { pe with down := some els.length })[els.length]? =
          some new := by
        rw [List.getElem?_set_ne (by omega)]
        simp
      refine ⟨(els ++ [new]).set p { pe with down := some els.length }, ?_, ?_, by simp,
        hnew, ?_⟩
      · simp only [StartTag.link, halloc, hpe2, hd]
      · exact hext.set p pe _ hpe2 rfl
          (Or.inr ⟨els.length, rfl, hplt, by simp⟩) (Or.inl rfl)
      · intro i e0 h
        by_cases hip : i = p
        · subst hip
          rw [hpe2] at h
          cases h
          refine ⟨{ pe with down := some els.length }, ?_, rfl, Or.inr ⟨hd, rfl, rfl⟩, Or.inl rfl⟩
          rw [List.getElem?_set]
          simp
          omega
        · refine ⟨e0, ?_, LinkedFrom.refl _ _ _ _⟩
          rw [List.getElem?_set_ne (Ne.symm hip)]
          exact h
    | some d =>
      have hdlt := (hl.down_gt p pe d hpe hd).2
      have hnextb : ∀ (i : Nat) (e : HtmlElement) (nx : Nat),
          (els ++ [new])[i]? = some e → e.next = some nx → i < nx ∧ nx < els.length := by
        intro i e nx h hnx
        rcases getElem?_append_one els new i e h with ⟨_, h1⟩ | ⟨_, h2⟩
        · exact hl.next_gt i e nx h1 hnx
        · subst h2
          rw [hnn] at hnx
          exact Option.noConfusion hnx
      obtain ⟨x, xe, hx1, hx2, hx3, _, hx5⟩ :=
        @StartTag.lastSibling_bounded (els ++ [new]) els.length (by simp) hnextb
          (els.length + 1) d hdlt (by omega)
      have hnew : ((els ++ [new]).set x { xe with next := some els.length })[els.length]? =
          some new := by
        rw [List.getElem?_set_ne (by omega)]
        simp
      refine ⟨(els ++ [new]).set x { xe with next := some els.length }, ?_, ?_, by simp,
        hnew, ?_⟩
      · simp only [StartTag.link, halloc, hpe2, hd, List.length_append, List.length_singleton,
          hx1, hx2]
      · exact hext.set x xe _ hx2 rfl (Or.inl rfl)
          (Or.inr ⟨els.length, rfl, hx5, by simp⟩)
      · intro i e0 h
        by_cases hix : i = x
        · subst hix
          rw [hx2] at h
          cases h
          refine ⟨{ xe with next := some els.length }, ?_, rfl, Or.inl rfl, Or.inr ⟨hx3, rfl⟩⟩
          rw [List.getElem?_set]
          simp
          omega
        · refine ⟨e0, ?_, LinkedFrom.refl _ _ _ _⟩
          rw [List.getElem?_set_ne (Ne.symm hix)]
          exact h

theorem IsChain.mem_get {els : List HtmlElement} {o : Option Nat} {chain : List Nat}
    (h : IsChain els o chain) : ∀ m, m ∈ chain → ∃ e, els[m]? = some e := by
  induction h with
  | nil => intro m hm; simp at hm
  | cons i e rest he hrest ih =>
    intro m hm
    rcases List.mem_cons.mp hm with rfl | hm
    · exact ⟨e, he⟩
    · exact ih m hm

theorem IsChain.suffix {els : List HtmlElement} {o : Option Nat} {chain : List Nat}
    (h : IsChain els o chain) (p : Nat → Bool) :
    ∀ m e, chain.find? p = some m → els[m]? = some e →
      IsChain els e.up ((chain.dropWhile (fun i => !p i)).drop 1) := by
  induction h with
  | nil => intro m e hm; simp at hm
  | cons i e0 rest he hrest ih =>
    intro m e hm hme
    rw [List.find?_cons] at hm
    cases hp : p i with
    | true =>
      rw [hp] at hm
      cases hm
      rw [he] at hme
      cases hme
      simp only [List.dropWhile_cons, hp, Bool.not_true, Bool.false_eq_true, if_false,
        List.drop_succ_cons, List.drop_zero]
      exact hrest
    | false =>
      rw [hp] at hm
      simp only [List.dropWhile_cons, hp, Bool.not_false, if_true]
      exact ih m e hm hme

theorem StartTag.create_eq (L : HtmlParserLookup) (self : HtmlParser) (tok : HtmlToken)
    (parent : Option Nat) :
    StartTag.create L self tok parent = (createdParser L self tok parent, self.allocator.length) := by
  unfold StartTag.create createdParser AllocElement newElement
  simp only
  split_ifs <;> rfl

theorem FindParent_eq (L : HtmlParserLookup) (self : HtmlParser) (tok : HtmlToken)
    (chain : List Nat) (hwf : WellLinked self)
    (hchain : IsChain self.allocator self.currElement chain) :
    FindParent L self tok = some (specParent L self chain tok) := by
  unfold FindParent specParent
  by_cases hli : L.Tag_Li = tok.tag
  · rw [if_pos hli, if_pos hli.symm]
    have hs := searchUp_eq_find (isListContainer L) hchain self.allocator.length
      (IsChain.length_le_arena hwf.links hchain)
    have hfun : (fun el : HtmlElement => L.Tag_Ul == el.tag || L.Tag_Ol == el.tag) =
        isListContainer L := rfl
    rw [hfun, hs]
    cases chain.find? (hitAt self.allocator (isListContainer L)) <;> rfl
  · rw [if_neg hli, if_neg (fun h => hli h.symm)]

theorem specParent_lt (L : HtmlParserLookup) (self : HtmlParser) (tok : HtmlToken)
    (chain : List Nat) (hwf : WellLinked self)
    (hchain : IsChain self.allocator self.currElement chain) :
    ∀ p, specParent L self chain tok = some p → p < self.allocator.length := by
  intro p hp
  unfold specParent at hp
  split_ifs at hp
  · cases hf : chain.find? (hitAt self.allocator (isListContainer L)) with
    | none =>
      rw [hf] at hp
      exact hwf.curr_lt p hp
    | some m =>
      rw [hf] at hp
      cases hp
      obtain ⟨e, he⟩ := hchain.mem_get p (List.mem_of_find?_eq_some hf)
      exact getElem?_lt he
  · exact hwf.curr_lt p hp

/-- What `StartTag` does to a well-linked parser. -/
theorem StartTag_spec (L : HtmlParserLookup) (self : HtmlParser) (tok : HtmlToken)
    (chain : List Nat) (hwf : WellLinked self)
    (hchain : IsChain self.allocator self.currElement chain) :
    ∃ arena,
      StartTag L self tok =
        some { createdParser L self tok (specParent L self chain tok) with allocator := arena } ∧
      LinksOK arena ∧ arena.length = self.allocator.length + 1 ∧
      arena[self.allocator.length]? =
        some (newElement L self tok (specParent L self chain tok)) ∧
      ∀ (i : Nat) (e0 : HtmlElement), self.allocator[i]? = some e0 →
        ∃ e, arena[i]? = some e ∧
          LinkedFrom (specParent L self chain tok) self.allocator.length i e0 e := by
  obtain ⟨arena, h1, h2, h3, h5, h4⟩ :=
    StartTag.link_spec hwf.links (newElement L self tok (specParent L self chain tok))
      (specParent L self chain tok) (createdParser L self tok (specParent L self chain tok))
      rfl rfl rfl (specParent_lt L self tok chain hwf hchain) rfl
  refine ⟨arena, ?_, h2, h3, h5, ?_⟩
  rotate_left
  · intro i e0 h
    exact h4 i e0 (by rw [List.getElem?_append_left (getElem?_lt h)]; exact h)
  unfold StartTag
  rw [FindParent_eq L self tok chain hwf hchain]
  simp only [StartTag.create_eq]
  exact h1

theorem WellLinked.chain_exists {self : HtmlParser} (hwf : WellLinked self) :
    ∃ chain, IsChain self.allocator self.currElement chain :=
  IsChain.exists hwf.links self.allocator.length self.currElement (by
    intro i hi
    exact ⟨hwf.curr_lt i hi, hwf.curr_lt i hi⟩)

theorem set_getElem?_self {α : Type} (l : List α) (i : Nat) (a : α) (h : l[i]? = some a) :
    l.set i a = l := by
  apply List.ext_getElem?
  intro j
  rw [List.getElem?_set]
  split_ifs with h1 h2
  · subst h1; exact h.symm
  · subst h1
    rw [List.getElem?_eq_none (by omega)]
  · rfl

theorem AppendAttr_eq (self : HtmlParser) (name value : List Nat) (c : Nat) (e : HtmlElement)
    (hc : self.currElement = some c) (he : self.allocator[c]? = some e) :
    AppendAttr self name value =
      some { self with
        attributesCount := self.attributesCount + 1
        allocator := self.allocator.set c
          { e with firstAttr := { name := name, val := some value } :: e.firstAttr } } := by
  unfold AppendAttr AllocAttr setFirstVal
  simp only [hc, he]

theorem ParseInPlace.appendAttrs_eq (attrs : List AttrInfo) :
    ∀ (self : HtmlParser) (c : Nat) (e : HtmlElement),
      self.currElement = some c → self.allocator[c]? = some e →
      ParseInPlace.appendAttrs self attrs =
        some { self with
          attributesCount := self.attributesCount + attrs.length
          allocator := self.allocator.set c
            { e with firstAttr := (attrs.map attrRecord).reverse ++ e.firstAttr } } := by
  induction attrs with
  | nil =>
    intro self c e hc he
    simp only [ParseInPlace.appendAttrs, List.map_nil, List.reverse_nil, List.nil_append,
      List.length_nil, Nat.add_zero]
    rw [set_getElem?_self _ _ _ he]
  | cons a rest ih =>
    intro self c e hc he
    have hlt := getElem?_lt he
    simp only [ParseInPlace.appendAttrs, AppendAttr_eq self a.name a.val c e hc he]
    have hstep := ih
      { self with
        attributesCount := self.attributesCount + 1
        allocator := self.allocator.set c
          { e with firstAttr := { name := a.name, val := some a.val } :: e.firstAttr } }
      c { e with firstAttr := { name := a.name, val := some a.val } :: e.firstAttr } hc
      (by simp only [List.getElem?_set]; simp [hlt])
    rw [hstep]
    simp only [List.set_set, List.map_cons, List.reverse_cons, List.append_assoc,
      List.singleton_append, List.length_cons, attrRecord]
    congr 2
    omega

theorem CloseTag_hit (L : HtmlParserLookup) (self : HtmlParser) (tok : HtmlToken)
    (chain : List Nat) (m : Nat) (e : HtmlElement) (hwf : WellLinked self)
    (hchain : IsChain self.allocator self.currElement chain)
    (hm : chain.find? (hitAt self.allocator (closeHit L tok)) = some m)
    (he : self.allocator[m]? = some e) :
    CloseTag L self tok = some { self with currElement := e.up } := by
  unfold CloseTag
  rw [searchUp_eq_find (closeHit L tok) hchain self.allocator.length
    (IsChain.length_le_arena hwf.links hchain), hm]
  simp only [he]

theorem CloseTag_miss (L : HtmlParserLookup) (self : HtmlParser) (tok : HtmlToken)
    (chain : List Nat) (hwf : WellLinked self)
    (hchain : IsChain self.allocator self.currElement chain)
    (hm : chain.find? (hitAt self.allocator (closeHit L tok)) = none) :
    CloseTag L self tok = some self := by
  unfold CloseTag
  rw [searchUp_eq_find (closeHit L tok) hchain self.allocator.length
    (IsChain.length_le_arena hwf.links hchain), hm]

/-- The function `CloseTag` answers on every well-linked parser and changes `currElement` only. -/
theorem CloseTag_spec (L : HtmlParserLookup) (self : HtmlParser) (tok : HtmlToken)
    (chain : List Nat) (hwf : WellLinked self)
    (hchain : IsChain self.allocator self.currElement chain) :
    ∃ curr, CloseTag L self tok = some { self with currElement := curr } ∧
      (curr = self.currElement ∨
        ∃ m e, m ∈ chain ∧ self.allocator[m]? = some e ∧ curr = e.up) := by
  cases hm : chain.find? (hitAt self.allocator (closeHit L tok)) with
  | none => exact ⟨self.currElement, CloseTag_miss L self tok chain hwf hchain hm, Or.inl rfl⟩
  | some m =>
    obtain ⟨e, he⟩ := hchain.mem_get m (List.mem_of_find?_eq_some hm)
    exact ⟨e.up, CloseTag_hit L self tok chain m e hwf hchain hm he,
      Or.inr ⟨m, e, List.mem_of_find?_eq_some hm, he, rfl⟩⟩

/-! ## The tree builder: every step answers and keeps the parser well linked -/

theorem StartTag_wellLinked (L : HtmlParserLookup) (self : HtmlParser) (tok : HtmlToken)
    (hwf : WellLinked self) :
    ∃ self', StartTag L self tok = some self' ∧ WellLinked self' ∧
      self'.currElement = some self.allocator.length ∧
      self'.allocator.length = self.allocator.length + 1 := by
  obtain ⟨chain, hchain⟩ := hwf.chain_exists
  obtain ⟨arena, h1, h2, h3, _, _⟩ := StartTag_spec L self tok chain hwf hchain
  refine ⟨_, h1, ⟨h2, ?_, ?_⟩, rfl, h3⟩
  · intro c hc
    simp only [createdParser, Option.some.injEq] at hc
    rw [h3]
    omega
  · intro r hr
    simp only [createdParser] at hr
    rw [h3]
    split_ifs at hr with hroot
    · cases hr
      omega
    · have := hwf.root_lt r hr
      omega

theorem ParseInPlace.appendAttrs_wellLinked (self : HtmlParser) (attrs : List AttrInfo)
    (c : Nat) (hwf : WellLinked self) (hc : self.currElement = some c) :
    ∃ self', ParseInPlace.appendAttrs self attrs = some self' ∧ WellLinked self' ∧
      self'.currElement = self.currElement ∧
      self'.allocator.length = self.allocator.length := by
  have hlt := hwf.curr_lt c hc
  obtain ⟨e, he⟩ : ∃ e, self.allocator[c]? = some e :=
    ⟨self.allocator[c], List.getElem?_eq_getElem hlt⟩
  refine ⟨_, ParseInPlace.appendAttrs_eq attrs self c e hc he, ⟨?_, ?_, ?_⟩, rfl, ?_⟩
  · exact hwf.links.set c e _ he rfl (Or.inl rfl) (Or.inl rfl)
  · intro c' hc'
    simp only [List.length_set]
    exact hwf.curr_lt c' hc'
  · intro r hr
    simp only [List.length_set]
    exact hwf.root_lt r hr
  · simp only [List.length_set]

theorem CloseTag_wellLinked (L : HtmlParserLookup) (self : HtmlParser) (tok : HtmlToken)
    (hwf : WellLinked self) :
    ∃ self', CloseTag L self tok = some self' ∧ WellLinked self' ∧
      self'.allocator = self.allocator := by
  obtain ⟨chain, hchain⟩ := hwf.chain_exists
  obtain ⟨curr, h1, h2⟩ := CloseTag_spec L self tok chain hwf hchain
  refine ⟨_, h1, ⟨hwf.links, ?_, hwf.root_lt⟩, rfl⟩
  intro c hc
  simp only at hc
  rcases h2 with h2 | ⟨m, e, _, he, h2⟩
  · rw [h2] at hc
    exact hwf.curr_lt c hc
  · rw [h2] at hc
    have := hwf.links.up_lt m e c he hc
    have := getElem?_lt he
    show c < self.allocator.length
    omega

theorem ParseInPlace.tagToken_wellLinked (L : HtmlParserLookup) (self : HtmlParser)
    (tok : HtmlToken) (hwf : WellLinked self) :
    ∃ self', ParseInPlace.tagToken L self tok = some self' ∧ WellLinked self' := by
  unfold ParseInPlace.tagToken
  by_cases hend : tok.IsEndTag = true
  · simp only [hend, Bool.not_true, Bool.false_eq_true, if_false]
    split_ifs
    · obtain ⟨s', h1, h2, _⟩ := CloseTag_wellLinked L self tok hwf
      exact ⟨s', h1, h2⟩
    · exact ⟨self, rfl, hwf⟩
  · simp only [hend, Bool.not_false, if_true]
    obtain ⟨s1, h1, hwf1, hc1, _⟩ := StartTag_wellLinked L self tok hwf
    obtain ⟨s2, h2, hwf2, _, _⟩ :=
      ParseInPlace.appendAttrs_wellLinked s1 tok.attrs self.allocator.length hwf1 hc1
    simp only [h1, h2]
    split_ifs
    · obtain ⟨s', h3, h4, _⟩ := CloseTag_wellLinked L s2 tok hwf2
      exact ⟨s', h3, h4⟩
    · exact ⟨s2, rfl, hwf2⟩

/-- The token loop answers on every token sequence and leaves the parser well linked. -/
theorem ParseInPlace.loop_wellLinked (L : HtmlParserLookup) (toks : List HtmlToken) :
    ∀ (self : HtmlParser), WellLinked self →
      ∃ self' root, ParseInPlace.loop L self toks = some (self', root) ∧ WellLinked self' := by
  induction toks with
  | nil => intro self hwf; exact ⟨self, self.rootElement, rfl, hwf⟩
  | cons tok rest ih =>
    intro self hwf
    unfold ParseInPlace.loop
    by_cases herr : tok.IsError = true
    · simp only [herr, if_true]
      have hwf1 : ∀ err, WellLinked
          (ParseError { self with errorContext := some tok.s } err).1 := by
        intro err
        exact ⟨hwf.links, hwf.curr_lt, hwf.root_lt⟩
      cases tok.error
      · exact ⟨_, _, rfl, hwf1 _⟩
      · exact ⟨_, _, rfl, hwf1 _⟩
      · exact ⟨_, _, rfl, hwf1 _⟩
      · exact ⟨_, _, rfl, hwf1 _⟩
    · simp only [herr, Bool.false_eq_true, if_false]
      by_cases htag : tok.IsTag = true
      · simp only [htag, Bool.not_true, Bool.false_eq_true, if_false]
        obtain ⟨s1, h1, hwf1⟩ := ParseInPlace.tagToken_wellLinked L self tok hwf
        simp only [h1]
        exact ih s1 hwf1
      · simp only [htag, Bool.not_false, if_true]
        exact ih self hwf

theorem ParseInPlace_wellLinked (L : HtmlParserLookup) (self : HtmlParser)
    (d : Option (List Nat)) (codepage : Nat) (toks : List HtmlToken) (hwf : WellLinked self) :
    ∃ self' root, ParseInPlace L self d codepage toks = some (self', root) ∧
      WellLinked self' := by
  unfold ParseInPlace
  apply ParseInPlace.loop_wellLinked
  split_ifs
  · exact ⟨HtmlParser.fresh_wellLinked.links, by intro c h; simp [Reset] at h,
      by intro c h; simp [Reset] at h⟩
  · exact ⟨hwf.links, hwf.curr_lt, hwf.root_lt⟩

theorem parsed_wellLinked (L : HtmlParserLookup) (text : String) (toks : List HtmlToken) :
    WellLinked (parsed L text toks) := by
  obtain ⟨s, r, h1, h2⟩ :=
    ParseInPlace_wellLinked L HtmlParser.fresh (some (units text)) 0 toks
      HtmlParser.fresh_wellLinked
  unfold parsed
  rw [h1]
  exact h2

theorem find?_inner_match {p : Nat → Bool} (inner : List Nat) (m : Nat) (outer : List Nat)
    (hinner : ∀ i ∈ inner, p i = false) (hm : p m = true) :
    (inner ++ m :: outer).find? p = some m ∧
      ((inner ++ m :: outer).dropWhile (fun i => !p i)).drop 1 = outer := by
  induction inner with
  | nil => simp [List.find?_cons, hm]
  | cons a as ih =>
    have ha := hinner a (List.mem_cons_self _ _)
    have := ih (fun i hi => hinner i (List.mem_cons_of_mem _ hi))
    simp only [List.cons_append, List.find?_cons, ha, List.dropWhile_cons, Bool.not_false,
      if_true]
    exact this

/-- C1, as stated, fails on a name span that holds a NUL byte.  After the start tag of the
span `a`, NUL, `y`, `y` (an unknown tag; the element gets the literal name `a`) and `<a>`
(a known tag; the element has no literal name), the end tag of the span `a`, NUL, `z`, `z`
has an unknown tag and the name `a`.  By the match of the claim the outer element matches
(equal literal names) and the inner one does not (it has no literal name), so the current
element should become the parent of the outer element, which is null.  `CloseTag` pops the
inner element only: `NameIs`, on an element without a literal name, looks the name up in
the tag table and compares tag identifiers. -/
theorem CloseTag_nul_span_counterexample :
    (parsed sampleLookup "" tokensNulOuter).allocator =
      [plainElement (-1) (some [97]) none (some 1) none,
       plainElement 0 none (some 0) none none] ∧
    (parsed sampleLookup "" tokensNulOuter).currElement = some 1 ∧
    (nulNameTok TokenType.EndTag 122).tag = sampleLookup.Tag_NotFound ∧
    specCloseMatch sampleLookup (nulNameTok TokenType.EndTag 122)
      (plainElement 0 none (some 0) none none) = false ∧
    specCloseMatch sampleLookup (nulNameTok TokenType.EndTag 122)
      (plainElement (-1) (some [97]) none (some 1) none) = true ∧
    CloseTag sampleLookup (parsed sampleLookup "" tokensNulOuter)
        (nulNameTok TokenType.EndTag 122) =
      some { parsed sampleLookup "" tokensNulOuter with currElement := some 0 } ∧
    CloseTag sampleLookup (parsed sampleLookup "" tokensNulOuter)
        (nulNameTok TokenType.EndTag 122) ≠
      some { parsed sampleLookup "" tokensNulOuter with currElement := none } := by
  decide

/-- C1, as amended: `CloseTag` pops the nearest match.  Let the open chain (from
`currElement` upward) be `inner ++ m :: outer`, where `m` passes the test of `CloseTag` for
the token and no element of `inner` does.  Then `currElement` becomes the parent of `m`, the
open chain becomes `outer`, and nothing else in the parser, in particular no link of any
element, changes.  The test is: equal tag identifiers when the tag of the token is known;
when it is unknown, equality up to case of the token's name, the zero-terminated string at
`tok->s`, with the literal name of an element that has one, and, on an element without a
literal name, whether the tag table gives that name the element's tag.  It is the match of
the claim whenever the tag of the token is the one the table gives to its name and no
element without a literal name has the unknown tag. -/
theorem CloseTag_pops_nearest_match (L : HtmlParserLookup) (self : HtmlParser)
    (tok : HtmlToken) (inner outer : List Nat) (m : Nat) (e : HtmlElement)
    (hwf : WellLinked self)
    (hchain : IsChain self.allocator self.currElement (inner ++ m :: outer))
    (hinner : ∀ i ∈ inner, hitAt self.allocator (closeHit L tok) i = false)
    (hm : hitAt self.allocator (closeHit L tok) m = true)
    (he : self.allocator[m]? = some e) :
    CloseTag L self tok = some { self with currElement := e.up } ∧
      IsChain self.allocator e.up outer ∧
      ∀ el : HtmlElement,
        (L.Tag_NotFound ≠ tok.tag → closeHit L tok el = (tok.tag == el.tag)) ∧
        (L.Tag_NotFound = tok.tag → ∀ name, el.name = some name →
          closeHit L tok el = EqI name (cString (tok.s.take tok.nLen))) ∧
        (L.Tag_NotFound = tok.tag → el.name = none →
          closeHit L tok el = (L.FindHtmlTag (cString (tok.s.take tok.nLen)) == el.tag)) ∧
        (L.FindHtmlTag (cString (tok.s.take tok.nLen)) = tok.tag →
          (el.name = none → el.tag ≠ L.Tag_NotFound) →
          closeHit L tok el = specCloseMatch L tok el) := by
  obtain ⟨h1, h2⟩ := find?_inner_match inner m outer hinner hm
  refine ⟨CloseTag_hit L self tok _ m e hwf hchain h1 he, ?_, ?_⟩
  · have := hchain.suffix (hitAt self.allocator (closeHit L tok)) m e h1 he
    rw [h2] at this
    exact this
  · intro el
    refine ⟨?_, ?_, ?_, ?_⟩
    · intro hne
      simp only [closeHit, tokTagName, if_neg hne]
    · intro heq name hname
      simp only [closeHit, tokTagName, if_pos heq, HtmlElement.NameIs, hname]
    · intro heq hname
      simp only [closeHit, tokTagName, if_pos heq, HtmlElement.NameIs, hname]
    · intro hfind hknown
      by_cases heq : L.Tag_NotFound = tok.tag
      · cases hname : el.name with
        | some name =>
          simp only [closeHit, specCloseMatch, tokTagName, if_pos heq, HtmlElement.NameIs,
            hname]
        | none =>
          have hne : ¬ tok.tag = el.tag := fun h => hknown hname (by rw [← h, heq])
          simp only [closeHit, specCloseMatch, tokTagName, if_pos heq, HtmlElement.NameIs,
            hname, hfind]
          exact beq_eq_false_iff_ne.mpr hne
      · simp only [closeHit, specCloseMatch, tokTagName, if_neg heq]

/-- C1, the example of the claim: after `<a><b><c>` the tree is `a -> b -> c` with `c`
current, and `</a>` matches `a` past `c` and `b`, leaving no element open.  Second example,
name spans with a NUL byte in them: after `<a>` and the start tag of the span `a`, NUL, `y`,
`y`, the end tag of the span `a`, NUL, `z`, `z` matches the inner element, whose name and
the name of the token both are the C string `a`; the inner element is popped and `a`
becomes current. -/
theorem CloseTag_pops_nearest_match_witness :
    (parsed sampleLookup "<a><b><c>" tokensABC).allocator =
      [plainElement 0 none none (some 1) none, plainElement 1 none (some 0) (some 2) none,
       plainElement 2 none (some 1) none none] ∧
    (parsed sampleLookup "<a><b><c>" tokensABC).currElement = some 2 ∧
    CloseTag sampleLookup (parsed sampleLookup "<a><b><c>" tokensABC) (endTok sampleLookup "a") =
      some { parsed sampleLookup "<a><b><c>" tokensABC with currElement := none } ∧
    (parsed sampleLookup "" tokensNulName).allocator =
      [plainElement 0 none none (some 1) none,
       plainElement (-1) (some [97]) (some 0) none none] ∧
    (parsed sampleLookup "" tokensNulName).currElement = some 1 ∧
    CloseTag sampleLookup (parsed sampleLookup "" tokensNulName) (nulNameTok TokenType.EndTag 122) =
      some { parsed sampleLookup "" tokensNulName with currElement := some 0 } :=
  ⟨by decide, by decide,
   (CloseTag_pops_nearest_match sampleLookup (parsed sampleLookup "<a><b><c>" tokensABC)
      (endTok sampleLookup "a") [2, 1] [] 0 (plainElement 0 none none (some 1) none)
      (parsed_wellLinked _ _ _)
      (IsChain.cons 2 (plainElement 2 none (some 1) none none) [1, 0] (by decide)
        (IsChain.cons 1 (plainElement 1 none (some 0) (some 2) none) [0] (by decide)
          (IsChain.cons 0 (plainElement 0 none none (some 1) none) [] (by decide)
            IsChain.nil)))
      (by decide) (by decide) (by decide)).1,
   by decide, by decide,
   (CloseTag_pops_nearest_match sampleLookup (parsed sampleLookup "" tokensNulName)
      (nulNameTok TokenType.EndTag 122) [] [0] 1
      (plainElement (-1) (some [97]) (some 0) none none)
      (parsed_wellLinked _ _ _)
      (IsChain.cons 1 (plainElement (-1) (some [97]) (some 0) none none) [0] (by decide)
        (IsChain.cons 0 (plainElement 0 none none (some 1) none) [] (by decide)
          IsChain.nil))
      (by decide) (by decide) (by decide)).1⟩

theorem IsChain.mono {els els' : List HtmlElement}
    (hframe : ∀ (i : Nat) (e0 : HtmlElement), els[i]? = some e0 →
      ∃ e, els'[i]? = some e ∧ e.up = e0.up)
    {o : Option Nat} {chain : List Nat} (h : IsChain els o chain) : IsChain els' o chain := by
  induction h with
  | nil => exact IsChain.nil
  | cons i e0 rest he hrest ih =>
    obtain ⟨e, he', hup⟩ := hframe i e0 he
    exact IsChain.cons i e rest he' (hup ▸ ih)

theorem IsChain.from_find {els : List HtmlElement} {o : Option Nat} {chain : List Nat}
    (h : IsChain els o chain) (p : Nat → Bool) :
    ∀ m, chain.find? p = some m →
      IsChain els (some m) (chain.dropWhile (fun i => !p i)) := by
  induction h with
  | nil => intro m hm; simp at hm
  | cons i e0 rest he hrest ih =>
    intro m hm
    rw [List.find?_cons] at hm
    cases hp : p i with
    | true =>
      rw [hp] at hm
      cases hm
      simp only [List.dropWhile_cons, hp, Bool.not_true, Bool.false_eq_true, if_false]
      exact IsChain.cons i e0 rest he hrest
    | false =>
      rw [hp] at hm
      simp only [List.dropWhile_cons, hp, Bool.not_false, if_true]
      exact ih m hm

theorem LinkedFrom.up_eq {parent : Option Nat} {n i : Nat} {e0 e : HtmlElement}
    (h : LinkedFrom parent n i e0 e) : e.up = e0.up := by
  rw [h.1]

theorem specOpenChain_isChain (L : HtmlParserLookup) (self : HtmlParser) (tok : HtmlToken)
    (chain : List Nat) (hchain : IsChain self.allocator self.currElement chain) :
    IsChain self.allocator (specParent L self chain tok) (specOpenChain L self chain tok) := by
  unfold specParent specOpenChain
  split_ifs
  · cases hf : chain.find? (hitAt self.allocator (isListContainer L)) with
    | none => exact hchain
    | some m => exact hchain.from_find _ m hf
  · exact hchain

/-- C5: the parent of a new element.  On a well-linked parser with open chain `chain`,
`FindParent` answers `specParent`: for a list-item tag the nearest element of the open
chain (the current element included) that is an unordered or ordered list, the current
element when no list is open, and the current element for every other tag.  `StartTag`
stores the new element with that parent and makes it `currElement`; the open chain is then
the new element followed by the chain from its parent, so elements skipped between the
current element and the list are no longer open. -/
theorem StartTag_parent_is_specParent (L : HtmlParserLookup) (self : HtmlParser)
    (tok : HtmlToken) (chain : List Nat) (hwf : WellLinked self)
    (hchain : IsChain self.allocator self.currElement chain) :
    FindParent L self tok = some (specParent L self chain tok) ∧
    ∃ self' e, StartTag L self tok = some self' ∧
      self'.currElement = some self.allocator.length ∧
      self'.allocator[self.allocator.length]? = some e ∧
      e.tag = tok.tag ∧ e.up = specParent L self chain tok ∧
      IsChain self'.allocator self'.currElement
        (self.allocator.length :: specOpenChain L self chain tok) := by
  refine ⟨FindParent_eq L self tok chain hwf hchain, ?_⟩
  obtain ⟨arena, h1, _, _, h4, h5⟩ := StartTag_spec L self tok chain hwf hchain
  refine ⟨_, _, h1, rfl, h4, rfl, rfl, ?_⟩
  refine IsChain.cons _ _ _ h4 ?_
  refine IsChain.mono ?_ (specOpenChain_isChain L self tok chain hchain)
  intro i e0 he0
  obtain ⟨e, he, hlf⟩ := h5 i e0 he0
  exact ⟨e, he, hlf.up_eq⟩

/-- C5, the examples of the claim.  In `<ul><li>x</ul>` the parent of `li` is `ul`; in
`<ul><li>a<li>b</ul>` the second `li`, met while the first `li` is the current element, gets
`ul` as its parent, and both `li` elements are children of `ul`. -/
theorem StartTag_parent_is_specParent_witness :
    (parsed sampleLookup "<ul><li>x</ul>" tokensList1).allocator =
      [plainElement 6 none none (some 1) none, plainElement 4 none (some 0) none none] ∧
    FindParent sampleLookup (parsed sampleLookup "<ul><li>a" (tokensList2.take 3))
      (startTok sampleLookup "li" []) = some (some 0) ∧
    (parsed sampleLookup "<ul><li>a" (tokensList2.take 3)).currElement = some 1 ∧
    (parsed sampleLookup "<ul><li>a<li>b</ul>" tokensList2).allocator =
      [plainElement 6 none none (some 1) none, plainElement 4 none (some 0) none (some 2),
       plainElement 4 none (some 0) none none] :=
  ⟨by decide,
   (StartTag_parent_is_specParent sampleLookup
      (parsed sampleLookup "<ul><li>a" (tokensList2.take 3)) (startTok sampleLookup "li" [])
      [1, 0] (parsed_wellLinked _ _ _)
      (IsChain.cons 1 (plainElement 4 none (some 0) none none) [0] (by decide)
        (IsChain.cons 0 (plainElement 6 none none (some 1) none) [] (by decide)
          IsChain.nil))).1,
   by decide, by decide⟩

/-! ## The tree builder: closed elements stay closed -/

theorem specParent_mem (L : HtmlParserLookup) (self : HtmlParser) (tok : HtmlToken)
    (chain : List Nat) (hchain : IsChain self.allocator self.currElement chain) :
    ∀ p, specParent L self chain tok = some p → p ∈ chain := by
  intro p hp
  have hcurr : self.currElement = some p → p ∈ chain := by
    intro hc
    rw [hc] at hchain
    cases hchain
    exact List.mem_cons_self _ _
  unfold specParent at hp
  split_ifs at hp
  · cases hf : chain.find? (hitAt self.allocator (isListContainer L)) with
    | none =>
      rw [hf] at hp
      exact hcurr hp
    | some m =>
      rw [hf] at hp
      cases hp
      exact List.mem_of_find?_eq_some hf
  · exact hcurr hp

theorem specOpenChain_subset (L : HtmlParserLookup) (self : HtmlParser) (tok : HtmlToken)
    (chain : List Nat) : specOpenChain L self chain tok ⊆ chain := by
  unfold specOpenChain
  split_ifs
  · cases chain.find? (hitAt self.allocator (isListContainer L)) with
    | none => exact List.Subset.refl _
    | some m => exact (List.dropWhile_sublist _).subset
  · exact List.Subset.refl _

/-- Everything `StartTag` does to a well-linked parser with open chain `chain`. -/
theorem StartTag_full (L : HtmlParserLookup) (self : HtmlParser) (tok : HtmlToken)
    (chain : List Nat) (hwf : WellLinked self)
    (hchain : IsChain self.allocator self.currElement chain) :
    ∃ arena,
      StartTag L self tok =
        some { createdParser L self tok (specParent L self chain tok) with allocator := arena } ∧
      WellLinked
        { createdParser L self tok (specParent L self chain tok) with allocator := arena } ∧
      arena.length = self.allocator.length + 1 ∧
      arena[self.allocator.length]? =
        some (newElement L self tok (specParent L self chain tok)) ∧
      (∀ (i : Nat) (e0 : HtmlElement), self.allocator[i]? = some e0 →
        ∃ e, arena[i]? = some e ∧
          LinkedFrom (specParent L self chain tok) self.allocator.length i e0 e) ∧
      IsChain arena (some self.allocator.length)
        (self.allocator.length :: specOpenChain L self chain tok) := by
  obtain ⟨arena, h1, h2, h3, h4, h5⟩ := StartTag_spec L self tok chain hwf hchain
  obtain ⟨s', hs', hwf', _, _⟩ := StartTag_wellLinked L self tok hwf
  have heq := Option.some.inj (hs'.symm.trans h1)
  subst heq
  refine ⟨arena, h1, hwf', h3, h4, h5, ?_⟩
  refine IsChain.cons _ _ _ h4 ?_
  refine IsChain.mono ?_ (specOpenChain_isChain L self tok chain hchain)
  intro i e0 he0
  obtain ⟨e, he, hlf⟩ := h5 i e0 he0
  exact ⟨e, he, hlf.up_eq⟩

theorem ClosedLeaf.startTag_keeps (L : HtmlParserLookup) (self : HtmlParser) (tok : HtmlToken)
    (x : Nat) (hwf : WellLinked self) (hleaf : ClosedLeaf x self) :
    ∃ self', StartTag L self tok = some self' ∧ WellLinked self' ∧ ClosedLeaf x self' ∧
      self'.currElement = some self.allocator.length := by
  obtain ⟨e, chain, hx, hd, hchain, hnot⟩ := hleaf
  obtain ⟨arena, h1, h2, h3, h4, h5, h6⟩ := StartTag_full L self tok chain hwf hchain
  refine ⟨_, h1, h2, ?_, rfl⟩
  obtain ⟨e', he', hlf⟩ := h5 x e hx
  refine ⟨e', _, he', ?_, h6, ?_⟩
  · rcases hlf.2.1 with h | ⟨_, hpar, _⟩
    · rw [h, hd]
    · exact absurd (specParent_mem L self tok chain hchain x hpar) hnot
  · intro hmem
    rcases List.mem_cons.mp hmem with h | h
    · have := getElem?_lt hx
      omega
    · exact hnot (specOpenChain_subset L self tok chain h)

theorem ClosedLeaf.appendAttrs_keeps (self : HtmlParser) (attrs : List AttrInfo) (x c : Nat)
    (hwf : WellLinked self) (hc : self.currElement = some c) (hleaf : ClosedLeaf x self) :
    ∃ self', ParseInPlace.appendAttrs self attrs = some self' ∧ WellLinked self' ∧
      ClosedLeaf x self' ∧ self'.currElement = self.currElement := by
  obtain ⟨s', hs', hwf', hc', _⟩ := ParseInPlace.appendAttrs_wellLinked self attrs c hwf hc
  refine ⟨s', hs', hwf', ?_, hc'⟩
  obtain ⟨e, chain, hx, hd, hchain, hnot⟩ := hleaf
  have hlt := hwf.curr_lt c hc
  obtain ⟨ec, hec⟩ : ∃ e, self.allocator[c]? = some e :=
    ⟨self.allocator[c], List.getElem?_eq_getElem hlt⟩
  have heq := Option.some.inj (hs'.symm.trans (ParseInPlace.appendAttrs_eq attrs self c ec hc hec))
  subst heq
  have hxc : x ≠ c := by
    rintro rfl
    rw [hc] at hchain
    cases hchain
    exact hnot (List.mem_cons_self _ _)
  refine ⟨e, chain, ?_, hd, ?_, hnot⟩
  · show (self.allocator.set c _)[x]? = some e
    rw [List.getElem?_set_ne (Ne.symm hxc)]
    exact hx
  · refine IsChain.mono ?_ hchain
    intro i e0 he0
    by_cases hic : i = c
    · subst hic
      rw [hec] at he0
      cases he0
      refine ⟨{ ec with firstAttr := (attrs.map attrRecord).reverse ++ ec.firstAttr }, ?_, rfl⟩
      show (self.allocator.set i _)[i]? = some _
      rw [List.getElem?_set]
      simp [hlt]
    · refine ⟨e0, ?_, rfl⟩
      show (self.allocator.set c _)[i]? = some e0
      rw [List.getElem?_set_ne (Ne.symm hic)]
      exact he0

theorem IsChain.above {els : List HtmlElement} {o : Option Nat} {chain : List Nat}
    (h : IsChain els o chain) :
    ∀ m e, m ∈ chain → els[m]? = some e → ∃ c', IsChain els e.up c' ∧ c' ⊆ chain := by
  induction h with
  | nil => intro m e hm; simp at hm
  | cons i e0 rest he hrest ih =>
    intro m e hm hme
    by_cases hmi : m = i
    · subst hmi
      rw [he] at hme
      cases hme
      exact ⟨rest, hrest, List.subset_cons_self _ _⟩
    · rcases List.mem_cons.mp hm with h | h
      · exact absurd h hmi
      · obtain ⟨c', h1, h2⟩ := ih m e h hme
        exact ⟨c', h1, fun a ha => List.mem_cons_of_mem _ (h2 ha)⟩

theorem ClosedLeaf.closeTag_keeps (L : HtmlParserLookup) (self : HtmlParser) (tok : HtmlToken)
    (x : Nat) (hwf : WellLinked self) (hleaf : ClosedLeaf x self) :
    ∃ self', CloseTag L self tok = some self' ∧ WellLinked self' ∧ ClosedLeaf x self' := by
  obtain ⟨s', hs', hwf', _⟩ := CloseTag_wellLinked L self tok hwf
  refine ⟨s', hs', hwf', ?_⟩
  obtain ⟨e, chain, hx, hd, hchain, hnot⟩ := hleaf
  obtain ⟨curr, h1, h2⟩ := CloseTag_spec L self tok chain hwf hchain
  have heq := Option.some.inj (hs'.symm.trans h1)
  subst heq
  rcases h2 with h2 | ⟨m, em, hm, hem, h2⟩
  · subst h2
    exact ⟨e, chain, hx, hd, hchain, hnot⟩
  · subst h2
    obtain ⟨c', hc1, hc2⟩ := hchain.above m em hm hem
    exact ⟨e, c', hx, hd, hc1, fun h => hnot (hc2 h)⟩

theorem ClosedLeaf.tagToken_keeps (L : HtmlParserLookup) (self : HtmlParser) (tok : HtmlToken)
    (x : Nat) (hwf : WellLinked self) (hleaf : ClosedLeaf x self) :
    ∃ self', ParseInPlace.tagToken L self tok = some self' ∧ WellLinked self' ∧
      ClosedLeaf x self' := by
  unfold ParseInPlace.tagToken
  by_cases hend : tok.IsEndTag = true
  · simp only [hend, Bool.not_true, Bool.false_eq_true, if_false]
    split_ifs
    · exact ClosedLeaf.closeTag_keeps L self tok x hwf hleaf
    · exact ⟨self, rfl, hwf, hleaf⟩
  · simp only [hend, Bool.not_false, if_true]
    obtain ⟨s1, h1, hwf1, hleaf1, hc1⟩ := ClosedLeaf.startTag_keeps L self tok x hwf hleaf
    obtain ⟨s2, h2, hwf2, hleaf2, _⟩ :=
      ClosedLeaf.appendAttrs_keeps s1 tok.attrs x self.allocator.length hwf1 hc1 hleaf1
    simp only [h1, h2]
    split_ifs
    · exact ClosedLeaf.closeTag_keeps L s2 tok x hwf2 hleaf2
    · exact ⟨s2, rfl, hwf2, hleaf2⟩

theorem ClosedLeaf.loop_keeps (L : HtmlParserLookup) (x : Nat) (toks : List HtmlToken) :
    ∀ (self : HtmlParser), WellLinked self → ClosedLeaf x self →
      ∃ self' root, ParseInPlace.loop L self toks = some (self', root) ∧
        ClosedLeaf x self' := by
  induction toks with
  | nil => intro self _ hleaf; exact ⟨self, self.rootElement, rfl, hleaf⟩
  | cons tok rest ih =>
    intro self hwf hleaf
    unfold ParseInPlace.loop
    by_cases herr : tok.IsError = true
    · simp only [herr, if_true]
      have hleaf1 : ∀ err, ClosedLeaf x
          (ParseError { self with errorContext := some tok.s } err).1 := by
        intro err
        exact hleaf
      cases tok.error
      · exact ⟨_, _, rfl, hleaf1 _⟩
      · exact ⟨_, _, rfl, hleaf1 _⟩
      · exact ⟨_, _, rfl, hleaf1 _⟩
      · exact ⟨_, _, rfl, hleaf1 _⟩
    · simp only [herr, Bool.false_eq_true, if_false]
      by_cases htag : tok.IsTag = true
      · simp only [htag, Bool.not_true, Bool.false_eq_true, if_false]
        obtain ⟨s1, h1, hwf1, hleaf1⟩ := ClosedLeaf.tagToken_keeps L self tok x hwf hleaf
        simp only [h1]
        exact ih s1 hwf1 hleaf1
      · simp only [htag, Bool.not_false, if_true]
        exact ih self hwf hleaf

theorem EqI_self (a : List Nat) : EqI a a = true := by
  unfold EqI
  exact beq_self_eq_true _

theorem closeHit_newElement (L : HtmlParserLookup) (self : HtmlParser) (tok : HtmlToken)
    (parent : Option Nat) (attrs : List HtmlAttr) :
    closeHit L tok { newElement L self tok parent with firstAttr := attrs } = true := by
  unfold closeHit
  cases h : tokTagName L tok with
  | none => simp [newElement]
  | some nm =>
    simp only [HtmlElement.NameIs, newElement, h]
    exact EqI_self nm

theorem specParent_of_not_li (L : HtmlParserLookup) (self : HtmlParser) (tok : HtmlToken)
    (chain : List Nat) (hli : tok.tag ≠ L.Tag_Li) :
    specParent L self chain tok = self.currElement ∧ specOpenChain L self chain tok = chain := by
  unfold specParent specOpenChain
  rw [if_neg hli, if_neg hli]
  exact ⟨rfl, rfl⟩

/-- A start tag or empty-element tag that is closed at once, and whose parent is the
current element, leaves the current element as it was and its own element closed. -/
theorem ParseInPlace.tagToken_autoclose (L : HtmlParserLookup) (self : HtmlParser)
    (tok : HtmlToken) (chain : List Nat) (hwf : WellLinked self)
    (hchain : IsChain self.allocator self.currElement chain)
    (hnotend : tok.IsEndTag = false)
    (hclose : (!tok.IsStartTag || L.IsTagSelfClosing tok.tag) = true)
    (hpar : specParent L self chain tok = self.currElement) :
    ∃ self1, ParseInPlace.tagToken L self tok = some self1 ∧ WellLinked self1 ∧
      self1.currElement = self.currElement ∧
      self1.allocator.length = self.allocator.length + 1 ∧
      ClosedLeaf self.allocator.length self1 := by
  obtain ⟨arena, h1, h2, h3, h4, h5, _⟩ := StartTag_full L self tok chain hwf hchain
  rw [hpar] at h1 h2 h4 h5
  have hlt : self.allocator.length < arena.length := by omega
  have h7 := ParseInPlace.appendAttrs_eq tok.attrs
    { createdParser L self tok self.currElement with allocator := arena }
    self.allocator.length _ rfl h4
  obtain ⟨s2, hs2, hwf2, _, _⟩ := ParseInPlace.appendAttrs_wellLinked
    { createdParser L self tok self.currElement with allocator := arena }
    tok.attrs self.allocator.length h2 rfl
  have heq := Option.some.inj (hs2.symm.trans h7)
  subst heq
  -- the arena after the attributes have been appended
  have hget : (arena.set self.allocator.length
      { newElement L self tok self.currElement with
        firstAttr := (tok.attrs.map attrRecord).reverse ++
          (newElement L self tok self.currElement).firstAttr })[self.allocator.length]? =
      some { newElement L self tok self.currElement with
        firstAttr := (tok.attrs.map attrRecord).reverse ++
          (newElement L self tok self.currElement).firstAttr } := by
    rw [List.getElem?_set]
    simp [hlt]
  have hold : ∀ (i : Nat) (e0 : HtmlElement), self.allocator[i]? = some e0 →
      ∃ e, (arena.set self.allocator.length
        { newElement L self tok self.currElement with
          firstAttr := (tok.attrs.map attrRecord).reverse ++
            (newElement L self tok self.currElement).firstAttr })[i]? = some e ∧
        e.up = e0.up := by
    intro i e0 he0
    obtain ⟨e, he, hlf⟩ := h5 i e0 he0
    refine ⟨e, ?_, hlf.up_eq⟩
    rw [List.getElem?_set_ne (by have := getElem?_lt he0; omega)]
    exact he
  have hchain2 := IsChain.mono hold hchain
  have hchainNew : IsChain (arena.set self.allocator.length
      { newElement L self tok self.currElement with
        firstAttr := (tok.attrs.map attrRecord).reverse ++
          (newElement L self tok self.currElement).firstAttr })
      (some self.allocator.length) (self.allocator.length :: chain) := by
    refine IsChain.cons _ _ _ hget ?_
    exact hchain2
  have hhit : (self.allocator.length :: chain).find? (hitAt (arena.set self.allocator.length
      { newElement L self tok self.currElement with
        firstAttr := (tok.attrs.map attrRecord).reverse ++
          (newElement L self tok self.currElement).firstAttr })
      (closeHit L tok)) = some self.allocator.length := by
    rw [List.find?_cons]
    simp only [hitAt, hget, closeHit_newElement]
  have hct := CloseTag_hit L _ tok _ _ _ hwf2 hchainNew hhit hget
  obtain ⟨s3, hs3, hwf3, _⟩ := CloseTag_wellLinked L _ tok hwf2
  have heq3 := Option.some.inj (hs3.symm.trans hct)
  subst heq3
  refine ⟨_, ?_, hwf3, rfl, ?_, ?_⟩
  · unfold ParseInPlace.tagToken
    simp only [hnotend, Bool.not_false, if_true, h1, h7, hclose]
    exact hct
  · show (arena.set _ _).length = _
    rw [List.length_set, h3]
  · refine ⟨_, chain, hget, rfl, ?_, ?_⟩
    · exact hchain2
    · intro hmem
      obtain ⟨e, he⟩ := hchain.mem_get _ hmem
      have := getElem?_lt he
      omega

/-- C6: a self-closing start tag is closed at once.  The list-item tag not being one of
the self-closing kinds, for a `StartTag` token whose tag is self-closing the token step leaves
`currElement` exactly as it was; and whatever tokens follow, the token loop answers and the
element created for the token (the one at the end of the arena) has no first child when
the loop ends. -/
theorem selfClosing_startTag_autocloses (L : HtmlParserLookup) (self : HtmlParser)
    (tok : HtmlToken) (rest : List HtmlToken) (hwf : WellLinked self)
    (hstart : tok.type = TokenType.StartTag)
    (hsc : L.IsTagSelfClosing tok.tag = true) (hli : L.IsTagSelfClosing L.Tag_Li = false) :
    ∃ self1, ParseInPlace.tagToken L self tok = some self1 ∧
      self1.currElement = self.currElement ∧
      ∃ self2 root e, ParseInPlace.loop L self (tok :: rest) = some (self2, root) ∧
        ParseInPlace.loop L self1 rest = some (self2, root) ∧
        self2.allocator[self.allocator.length]? = some e ∧ e.down = none := by
  obtain ⟨chain, hchain⟩ := hwf.chain_exists
  have hne : tok.tag ≠ L.Tag_Li := by
    intro h
    rw [h, hli] at hsc
    exact Bool.noConfusion hsc
  obtain ⟨hpar, _⟩ := specParent_of_not_li L self tok chain hne
  have h1 : tok.IsError = false := by simp [HtmlToken.IsError, hstart]
  have h2 : tok.IsTag = true := by simp [HtmlToken.IsTag, HtmlToken.IsStartTag, hstart]
  have h3 : tok.IsEndTag = false := by simp [HtmlToken.IsEndTag, hstart]
  obtain ⟨self1, hs1, hwf1, hc1, _, hleaf1⟩ :=
    ParseInPlace.tagToken_autoclose L self tok chain hwf hchain h3 (by simp [hsc]) hpar
  obtain ⟨self2, root, hs2, e, c2, he, hd, _, _⟩ :=
    ClosedLeaf.loop_keeps L self.allocator.length rest self1 hwf1 hleaf1
  refine ⟨self1, hs1, hc1, self2, root, e, ?_, hs2, he, hd⟩
  rw [ParseInPlace.loop]
  simp only [h1, h2, Bool.false_eq_true, if_false, Bool.not_true, hs1]
  exact hs2

/-- C6, the example of the claim: in `<a><br><b>` the element of `<br>` gets no child, the
current element after `<br>` is still `a`, and `b` becomes the next sibling of `br`. -/
theorem selfClosing_startTag_autocloses_witness :
    (∃ self1, ParseInPlace.tagToken sampleLookup (parsed sampleLookup "<a>" (tokensBr.take 1))
        (startTok sampleLookup "br" []) = some self1 ∧
      self1.currElement = (parsed sampleLookup "<a>" (tokensBr.take 1)).currElement ∧
      ∃ self2 root e,
        ParseInPlace.loop sampleLookup (parsed sampleLookup "<a>" (tokensBr.take 1))
          (startTok sampleLookup "br" [] :: [startTok sampleLookup "b" []]) =
            some (self2, root) ∧
        ParseInPlace.loop sampleLookup self1 [startTok sampleLookup "b" []] =
          some (self2, root) ∧
        self2.allocator[(parsed sampleLookup "<a>" (tokensBr.take 1)).allocator.length]? =
          some e ∧ e.down = none) ∧
    (parsed sampleLookup "<a><br><b>" tokensBr).allocator =
      [plainElement 0 none none (some 1) none, plainElement 3 none (some 0) none (some 2),
       plainElement 1 none (some 0) none none] :=
  ⟨selfClosing_startTag_autocloses sampleLookup (parsed sampleLookup "<a>" (tokensBr.take 1))
      (startTok sampleLookup "br" []) [startTok sampleLookup "b" []]
      (parsed_wellLinked _ _ _) rfl (by decide) (by decide),
   by decide⟩

/-! ## Attributes -/

/-- C8: the attributes of a tag go to its own element, last one first.  For a `StartTag`
or `EmptyElementTag` token whose enumerator delivers the spans `tok.attrs`, the token step
of `ParseInPlace` answers; the element created for the token (stored at the end of the
arena) then holds exactly the records of the spans in reverse order, the attribute list
of every older element is what it was, and `TotalAttrCount` has grown by the number of
spans. -/
theorem tagToken_attaches_attributes (L : HtmlParserLookup) (self : HtmlParser)
    (tok : HtmlToken) (hwf : WellLinked self)
    (hkind : tok.type = TokenType.StartTag ∨ tok.type = TokenType.EmptyElementTag) :
    ∃ self1 e, ParseInPlace.tagToken L self tok = some self1 ∧
      self1.allocator.length = self.allocator.length + 1 ∧
      self1.allocator[self.allocator.length]? = some e ∧
      e.tag = tok.tag ∧ e.firstAttr = (tok.attrs.map attrRecord).reverse ∧
      (∀ (i : Nat) (e0 : HtmlElement), self.allocator[i]? = some e0 →
        ∃ e1, self1.allocator[i]? = some e1 ∧ e1.firstAttr = e0.firstAttr) ∧
      TotalAttrCount self1 = TotalAttrCount self + tok.attrs.length := by
  have hnotend : tok.IsEndTag = false := by
    rcases hkind with h | h <;> simp [HtmlToken.IsEndTag, h]
  obtain ⟨chain, hchain⟩ := hwf.chain_exists
  obtain ⟨arena, h1, h2, h3, h4, h5, _⟩ := StartTag_full L self tok chain hwf hchain
  have hlt : self.allocator.length < arena.length := by omega
  have h7 := ParseInPlace.appendAttrs_eq tok.attrs
    { createdParser L self tok (specParent L self chain tok) with allocator := arena }
    self.allocator.length _ rfl h4
  obtain ⟨s2, hs2, hwf2, _, _⟩ := ParseInPlace.appendAttrs_wellLinked
    { createdParser L self tok (specParent L self chain tok) with allocator := arena }
    tok.attrs self.allocator.length h2 rfl
  have heq := Option.some.inj (hs2.symm.trans h7)
  subst heq
  obtain ⟨chain2, hchain2⟩ := hwf2.chain_exists
  obtain ⟨curr, hct, _⟩ := CloseTag_spec L _ tok chain2 hwf2 hchain2
  have hfacts : ∀ (s3 : HtmlParser), s3.allocator = arena.set self.allocator.length
        { newElement L self tok (specParent L self chain tok) with
          firstAttr := (tok.attrs.map attrRecord).reverse ++
            (newElement L self tok (specParent L self chain tok)).firstAttr } →
      s3.attributesCount = self.attributesCount + tok.attrs.length →
      ∃ e, s3.allocator.length = self.allocator.length + 1 ∧
        s3.allocator[self.allocator.length]? = some e ∧
        e.tag = tok.tag ∧ e.firstAttr = (tok.attrs.map attrRecord).reverse ∧
        (∀ (i : Nat) (e0 : HtmlElement), self.allocator[i]? = some e0 →
          ∃ e1, s3.allocator[i]? = some e1 ∧ e1.firstAttr = e0.firstAttr) ∧
        TotalAttrCount s3 = TotalAttrCount self + tok.attrs.length := by
    intro s3 ha hcount
    refine ⟨{ newElement L self tok (specParent L self chain tok) with
          firstAttr := (tok.attrs.map attrRecord).reverse ++
            (newElement L self tok (specParent L self chain tok)).firstAttr },
      ?_, ?_, rfl, ?_, ?_, hcount⟩
    · rw [ha, List.length_set, h3]
    · rw [ha, List.getElem?_set]
      simp only [hlt, if_true]
    · simp [newElement]
    · intro i e0 he0
      obtain ⟨e1, he1, hlf⟩ := h5 i e0 he0
      refine ⟨e1, ?_, by rw [hlf.1]⟩
      rw [ha, List.getElem?_set_ne (by have := getElem?_lt he0; omega)]
      exact he1
  by_cases hclose : (!tok.IsStartTag || L.IsTagSelfClosing tok.tag) = true
  · obtain ⟨s3, hs3, ha3, hc3⟩ : ∃ s3, CloseTag L _ tok = some s3 ∧
        s3.allocator = arena.set self.allocator.length
          { newElement L self tok (specParent L self chain tok) with
            firstAttr := (tok.attrs.map attrRecord).reverse ++
              (newElement L self tok (specParent L self chain tok)).firstAttr } ∧
        s3.attributesCount = self.attributesCount + tok.attrs.length :=
      ⟨_, hct, rfl, rfl⟩
    obtain ⟨e, hf⟩ := hfacts s3 ha3 hc3
    refine ⟨s3, e, ?_, hf⟩
    unfold ParseInPlace.tagToken
    simp only [hnotend, Bool.not_false, if_true, h1, h7, hclose]
    exact hs3
  · obtain ⟨s3, hs3, ha3, hc3⟩ : ∃ s3, ParseInPlace.appendAttrs
          { createdParser L self tok (specParent L self chain tok) with allocator := arena }
          tok.attrs = some s3 ∧
        s3.allocator = arena.set self.allocator.length
          { newElement L self tok (specParent L self chain tok) with
            firstAttr := (tok.attrs.map attrRecord).reverse ++
              (newElement L self tok (specParent L self chain tok)).firstAttr } ∧
        s3.attributesCount = self.attributesCount + tok.attrs.length :=
      ⟨_, h7, rfl, rfl⟩
    obtain ⟨e, hf⟩ := hfacts s3 ha3 hc3
    refine ⟨s3, e, ?_, hf⟩
    unfold ParseInPlace.tagToken
    simp only [hnotend, Bool.not_false, if_true, h1, hs3, hclose, Bool.false_eq_true, if_false]

/-- C8, an example: the step for `<a x=1 y=2>` on a fresh parser stores `y` in front of
`x` in the new element and counts two attributes. -/
theorem tagToken_attaches_attributes_witness :
    (∃ self1 e, ParseInPlace.tagToken sampleLookup HtmlParser.fresh
        (startTok sampleLookup "a" attrsXY) = some self1 ∧
      self1.allocator.length = HtmlParser.fresh.allocator.length + 1 ∧
      self1.allocator[HtmlParser.fresh.allocator.length]? = some e ∧
      e.tag = (startTok sampleLookup "a" attrsXY).tag ∧
      e.firstAttr = ((startTok sampleLookup "a" attrsXY).attrs.map attrRecord).reverse ∧
      (∀ (i : Nat) (e0 : HtmlElement), HtmlParser.fresh.allocator[i]? = some e0 →
        ∃ e1, self1.allocator[i]? = some e1 ∧ e1.firstAttr = e0.firstAttr) ∧
      TotalAttrCount self1 =
        TotalAttrCount HtmlParser.fresh + (startTok sampleLookup "a" attrsXY).attrs.length) ∧
    (parsed sampleLookup "<a x=1 y=2>" [startTok sampleLookup "a" attrsXY]).allocator =
      [{ tag := 0, name := none,
         firstAttr := [{ name := units "y", val := some (units "2") },
                       { name := units "x", val := some (units "1") }],
         up := none, down := none, next := none, codepage := 0 }] ∧
    TotalAttrCount (parsed sampleLookup "<a x=1 y=2>" [startTok sampleLookup "a" attrsXY]) = 2 :=
  ⟨tagToken_attaches_attributes sampleLookup HtmlParser.fresh
      (startTok sampleLookup "a" attrsXY) HtmlParser.fresh_wellLinked (Or.inl rfl),
   by decide, by decide⟩

/-! ## Error tokens -/

theorem ParseInPlace.loop_append (L : HtmlParserLookup) (pre rest : List HtmlToken) :
    ∀ (self st : HtmlParser) (root : Option Nat), (∀ t ∈ pre, t.IsError = false) →
      ParseInPlace.loop L self pre = some (st, root) →
      ParseInPlace.loop L self (pre ++ rest) = ParseInPlace.loop L st rest := by
  induction pre with
  | nil =>
    intro self st root _ hrun
    simp only [ParseInPlace.loop, Option.some.injEq, Prod.mk.injEq] at hrun
    rw [List.nil_append, hrun.1]
  | cons tok pre ih =>
    intro self st root hpre hrun
    have herr : tok.IsError = false := hpre tok (List.mem_cons_self _ _)
    have hpre' : ∀ t ∈ pre, t.IsError = false :=
      fun t ht => hpre t (List.mem_cons_of_mem _ ht)
    rw [List.cons_append, ParseInPlace.loop]
    rw [ParseInPlace.loop] at hrun
    simp only [herr, Bool.false_eq_true, if_false] at hrun ⊢
    by_cases htag : tok.IsTag = true
    · simp only [htag, Bool.not_true, Bool.false_eq_true, if_false] at hrun ⊢
      cases hstep : ParseInPlace.tagToken L self tok with
      | none =>
        rw [hstep] at hrun
        exact Option.noConfusion hrun
      | some s1 =>
        rw [hstep] at hrun
        exact ih s1 st root hpre' hrun
    · simp only [htag, Bool.not_false, if_true] at hrun ⊢
      exact ih self st root hpre' hrun

theorem ParseInPlace.loop_error (L : HtmlParserLookup) (self : HtmlParser) (tok : HtmlToken)
    (post : List HtmlToken) (herr : tok.IsError = true) :
    ParseInPlace.loop L self (tok :: post) =
      some ({ self with errorContext := some tok.s, error := specErrorMap tok.error }, none) := by
  rw [ParseInPlace.loop]
  simp only [herr, if_true]
  cases tok.error <;> rfl

/-! ## Document order of a well-formed document -/

theorem ForestTo.le {els : List HtmlElement} {lo hi : Nat} {o t : Option Nat}
    (h : ForestTo els lo hi o t) : lo ≤ hi := by
  induction h with
  | nil => exact le_refl _
  | cons lo mid hi e stop he hdown hnext ih1 ih2 => omega

theorem ForestTo.empty_eq {els : List HtmlElement} {lo hi : Nat} {o t : Option Nat}
    (h : ForestTo els lo hi o t) (hlo : lo = hi) : o = t := by
  cases h with
  | nil => rfl
  | cons _ mid _ e stop he hdown hnext =>
    have := hdown.le
    have := hnext.le
    omega

theorem ForestTo.frame {els els' : List HtmlElement} {lo hi : Nat} {o t : Option Nat}
    (h : ForestTo els lo hi o t)
    (hframe : ∀ i, lo ≤ i → i < hi → ∀ e, els[i]? = some e →
      ∃ e', els'[i]? = some e' ∧ e'.down = e.down ∧ e'.next = e.next) :
    ForestTo els' lo hi o t := by
  induction h with
  | nil => exact ForestTo.nil _ _
  | cons lo mid hi e stop he hdown hnext ih1 ih2 =>
    have h1 := hdown.le
    have h2 := hnext.le
    obtain ⟨e', he', hd, hn⟩ := hframe lo (le_refl _) (by omega) e he
    refine ForestTo.cons lo mid hi e' stop he' ?_ ?_
    · rw [hd]
      exact ih1 (fun i hi1 hi2 => hframe i (by omega) (by omega))
    · rw [hn]
      exact ih2 (fun i hi1 hi2 => hframe i (by omega) (by omega))

theorem ForestTo.trans {els : List HtmlElement} {lo mid : Nat} {o t1 : Option Nat}
    (h1 : ForestTo els lo mid o t1) :
    ∀ {hi : Nat} {t2 : Option Nat}, ForestTo els mid hi t1 t2 → ForestTo els lo hi o t2 := by
  induction h1 with
  | nil => intro hi t2 h2; exact h2
  | cons lo m mid e stop he hdown hnext _ ih2 =>
    intro hi t2 h2
    exact ForestTo.cons lo m hi e t2 he hdown (ih2 h2)

theorem ForestTo.preorder_eq {els : List HtmlElement} {lo hi : Nat} {o t : Option Nat}
    (h : ForestTo els lo hi o t) :
    t = none → ∀ fuel, hi - lo ≤ fuel → preorder els fuel o = some (List.range' lo (hi - lo)) := by
  induction h with
  | nil lo stop =>
    intro ht fuel _
    subst ht
    cases fuel <;> simp [preorder]
  | cons lo mid hi e stop he hdown hnext ih1 ih2 =>
    intro ht fuel hfuel
    have h1 := hdown.le
    have h2 := hnext.le
    cases fuel with
    | zero => omega
    | succ f =>
      have hd := ih1 rfl f (by omega)
      have hn := ih2 ht f (by omega)
      simp only [preorder, he, hd, hn]
      obtain ⟨a, rfl⟩ : ∃ a, mid = lo + 1 + a := ⟨mid - (lo + 1), by omega⟩
      obtain ⟨b, rfl⟩ : ∃ b, hi = lo + 1 + a + b := ⟨hi - (lo + 1 + a), by omega⟩
      have e1 : lo + 1 + a - (lo + 1) = a := by omega
      have e2 : lo + 1 + a + b - (lo + 1 + a) = b := by omega
      have e3 : lo + 1 + a + b - lo = (b + a) + 1 := by omega
      have e4 := List.range'_append (lo + 1) a b 1
      rw [Nat.one_mul] at e4
      rw [e1, e2, e3, List.range'_succ, e4]

theorem ForestTo.head_eq {els : List HtmlElement} {lo hi : Nat} {o t : Option Nat}
    (h : ForestTo els lo hi o t) (hlt : lo < hi) : o = some lo := by
  cases h with
  | nil => omega
  | cons _ mid _ e stop he hdown hnext => rfl

theorem ForestTo.lastSibling_appends {els : List HtmlElement} {lo hi : Nat} {o t : Option Nat}
    (h : ForestTo els lo hi o t) :
    t = none → lo < hi → ∀ fuel, hi - lo ≤ fuel →
      ∃ x xe, StartTag.lastSibling els fuel lo = some x ∧ lo ≤ x ∧ x < hi ∧
        els[x]? = some xe ∧ xe.next = none ∧
        ∀ (v : Nat) (xe' : HtmlElement), xe'.down = xe.down → xe'.next = some v →
          ForestTo (els.set x xe') lo hi o (some v) := by
  induction h with
  | nil => intro _ hlt; omega
  | cons lo mid hi e stop he hdown hnext _ ih2 =>
    intro ht _ fuel hfuel
    have h1 := hdown.le
    have h2 := hnext.le
    have hlo := getElem?_lt he
    cases fuel with
    | zero => omega
    | succ f =>
      by_cases hmid : mid = hi
      · subst hmid
        have hnone : e.next = none := by
          have := hnext.empty_eq rfl
          rw [this, ht]
        refine ⟨lo, e, ?_, le_refl _, by omega, he, hnone, ?_⟩
        · simp only [StartTag.lastSibling, he, hnone]
        · intro v xe' hd hn
          refine ForestTo.cons lo mid mid xe' (some v) ?_ ?_ ?_
          · rw [List.getElem?_set]
            simp [hlo]
          · rw [hd]
            refine hdown.frame ?_
            intro i hi1 _ e0 he0
            refine ⟨e0, ?_, rfl, rfl⟩
            rw [List.getElem?_set_ne (by omega)]
            exact he0
          · rw [hn]
            exact ForestTo.nil _ _
      · have hlt2 : mid < hi := by omega
        have hsome : e.next = some mid := hnext.head_eq hlt2
        obtain ⟨x, xe, hx1, hx2, hx3, hx4, hx5, hx6⟩ := ih2 ht hlt2 f (by omega)
        refine ⟨x, xe, ?_, by omega, hx3, hx4, hx5, ?_⟩
        · simp only [StartTag.lastSibling, he, hsome]
          exact hx1
        · intro v xe' hd hn
          refine ForestTo.cons lo mid hi e (some v) ?_ ?_ (hx6 v xe' hd hn)
          · rw [List.getElem?_set_ne (by omega)]
            exact he
          · refine hdown.frame ?_
            intro i _ hi2 e0 he0
            refine ⟨e0, ?_, rfl, rfl⟩
            rw [List.getElem?_set_ne (by omega)]
            exact he0

theorem StartTag.link_forest {els : List HtmlElement} (new : HtmlElement)
    (self2 : HtmlParser) (c : Nat) (ce : HtmlElement)
    (halloc : self2.allocator = els ++ [new])
    (hce : els[c]? = some ce) (hforest : ForestTo els (c + 1) els.length ce.down none) :
    ∃ arena ce', StartTag.link self2 (some c) els.length =
        some { self2 with allocator := arena } ∧
      arena.length = els.length + 1 ∧ arena[els.length]? = some new ∧
      arena[c]? = some ce' ∧ ce'.next = ce.next ∧
      ForestTo arena (c + 1) els.length ce'.down (some els.length) ∧
      ∀ i, i < c → arena[i]? = els[i]? := by
  have hc := getElem?_lt hce
  have hce2 : (els ++ [new])[c]? = some ce := by
    rw [List.getElem?_append_left hc]; exact hce
  have hle := hforest.le
  cases hd : ce.down with
  | none =>
    have hn : c + 1 = els.length := by
      by_contra hne
      have := hforest.head_eq (by omega)
      rw [hd] at this
      exact Option.noConfusion this
    refine ⟨(els ++ [new]).set c { ce with down := some els.length },
      { ce with down := some els.length }, ?_, by simp, ?_, ?_, rfl, ?_, ?_⟩
    · simp only [StartTag.link, halloc, hce2, hd]
    · rw [List.getElem?_set_ne (by omega)]
      simp
    · rw [List.getElem?_set]
      simp
      omega
    · show ForestTo _ (c + 1) els.length (some els.length) (some els.length)
      rw [hn]
      exact ForestTo.nil _ _
    · intro i hi
      rw [List.getElem?_set_ne (by omega), List.getElem?_append_left (by omega)]
  | some d =>
    rw [hd] at hforest
    have hlt : c + 1 < els.length := by
      by_contra hne
      have := hforest.empty_eq (by omega)
      exact Option.noConfusion this
    have hext : ForestTo (els ++ [new]) (c + 1) els.length (some d) none := by
      refine hforest.frame ?_
      intro i _ hi2 e0 he0
      refine ⟨e0, ?_, rfl, rfl⟩
      rw [List.getElem?_append_left hi2]
      exact he0
    have hdeq : d = c + 1 := by
      have := hforest.head_eq hlt
      exact Option.some.inj this
    obtain ⟨x, xe, hx1, hx2, hx3, hx4, hx5, hx6⟩ :=
      hext.lastSibling_appends rfl hlt (els.length + 1) (by omega)
    refine ⟨(els ++ [new]).set x { xe with next := some els.length }, ce, ?_, by simp, ?_, ?_,
      rfl, ?_, ?_⟩
    · simp only [StartTag.link, halloc, hce2, hd, List.length_append, List.length_singleton,
        hdeq, hx1, hx4]
    · rw [List.getElem?_set_ne (by omega)]
      simp
    · rw [List.getElem?_set_ne (by omega)]
      exact hce2
    · rw [hd]
      exact hx6 els.length { xe with next := some els.length } rfl rfl
    · intro i hi
      rw [List.getElem?_set_ne (by omega), List.getElem?_append_left (by omega)]

theorem map_elementName_grow (els arena : List HtmlElement) (x : HtmlElement)
    (hlen : arena.length = els.length + 1) (hnew : arena[els.length]? = some x)
    (hold : ∀ (i : Nat) (e0 : HtmlElement), els[i]? = some e0 →
      ∃ e, arena[i]? = some e ∧ e.elementName = e0.elementName) :
    arena.map HtmlElement.elementName =
      els.map HtmlElement.elementName ++ [x.elementName] := by
  apply List.ext_getElem?
  intro j
  rw [List.getElem?_map, List.getElem?_append]
  by_cases hj : j < els.length
  · obtain ⟨e0, he0⟩ : ∃ e0, els[j]? = some e0 := ⟨els[j], List.getElem?_eq_getElem hj⟩
    obtain ⟨e, he, hname⟩ := hold j e0 he0
    simp only [List.length_map, hj, if_true, List.getElem?_map, he, he0, Option.map_some',
      hname]
  · simp only [List.length_map, hj, if_false]
    by_cases hj2 : j = els.length
    · subst hj2
      simp [hnew]
    · rw [List.getElem?_eq_none (by omega), List.getElem?_eq_none (by simp; omega)]
      rfl

theorem Above.frame_of_agree {els els' : List HtmlElement} :
    ∀ (rest : List Nat) (c : Nat),
      (∀ i, i < c → ∀ e, els[i]? = some e →
        ∃ e', els'[i]? = some e' ∧ e'.down = e.down ∧ e'.next = e.next) →
      Above els c rest → Above els' c rest := by
  intro rest
  induction rest with
  | nil => intro c _ h; exact h
  | cons p rest ih =>
    intro c hframe h
    obtain ⟨pe, hpe, hnext, hforest, habove⟩ := h
    have hle := hforest.le
    obtain ⟨pe', hpe', hd, hn⟩ := hframe p (by omega) pe hpe
    refine ⟨pe', hpe', by rw [hn, hnext], ?_, ?_⟩
    · rw [hd]
      exact hforest.frame (fun i _ hi2 => hframe i hi2)
    · exact ih p (fun i hi => hframe i (by omega)) habove

theorem IsChain.curr_eq {els : List HtmlElement} {o : Option Nat} {chain : List Nat}
    (h : IsChain els o chain) : ∀ c rest, chain = c :: rest →
      o = some c ∧ ∃ e, els[c]? = some e ∧ IsChain els e.up rest := by
  cases h with
  | nil => intro c rest hc; exact List.noConfusion hc
  | cons i e rest0 he hrest =>
    intro c rest hc
    cases hc
    exact ⟨rfl, e, he, hrest⟩

theorem IsChain.nil_eq {els : List HtmlElement} {o : Option Nat} {chain : List Nat}
    (h : IsChain els o chain) : chain = [] → o = none := by
  cases h with
  | nil => intro _; rfl
  | cons i e rest0 he hrest => intro hc; exact List.noConfusion hc

theorem namesAlong_range (els : List HtmlElement) :
    namesAlong els (List.range els.length) = (els.map HtmlElement.elementName).map some := by
  unfold namesAlong
  apply List.ext_getElem?
  intro j
  rw [List.getElem?_map, List.getElem?_map, List.getElem?_map]
  by_cases hj : j < els.length
  · rw [List.getElem?_range hj, List.getElem?_eq_getElem hj]
    simp [List.getElem?_eq_getElem hj]
  · rw [List.getElem?_eq_none (by simp; omega), List.getElem?_eq_none (by omega)]
    rfl

/-- C10, as stated, fails: `<p><ul><p><li></li></p><b></b></ul></p>` is well formed, yet
the traversal of its tree lists `p ul p li` while its start tags are `p ul p li b`.  The
list item is attached to `ul` past the open inner `p`; the inner `</p>` then closes the
outer `p`, and `<b>` is met while no element is open. -/
theorem wellFormed_documentOrder_counterexample :
    wellNested sampleLookup anyPlace false [] tokensSkipped = true ∧
    documentOrderNames sampleLookup
        (some (units "<p><ul><p><li></li></p><b></b></ul></p>")) 0 tokensSkipped =
      some [some { tag := 7, name := none }, some { tag := 6, name := none },
        some { tag := 7, name := none }, some { tag := 4, name := none }] ∧
    startTagNames sampleLookup tokensSkipped =
      [{ tag := 7, name := none }, { tag := 6, name := none }, { tag := 7, name := none },
       { tag := 4, name := none }, { tag := 1, name := none }] ∧
    documentOrderNames sampleLookup
        (some (units "<p><ul><p><li></li></p><b></b></ul></p>")) 0 tokensSkipped ≠
      some ((startTagNames sampleLookup tokensSkipped).map some) :=
  ⟨by decide, by decide, by decide, by decide⟩


/-! ## Entity decoding: the trailing semicolon, the placeholder, the length -/

theorem ParseDec_needs_semicolon (src : List WCHAR)
    (hdec : (src.dropWhile isDecDigit).head? ≠ some 59) : ParseDec (35 :: src) = none := by
  unfold ParseDec
  simp only
  split
  · next heq1 heq2 =>
    rw [heq2] at hdec
    exact absurd rfl hdec
  · rfl

theorem ParseHex_needs_semicolon (src : List WCHAR)
    (hhex : ∀ t, src = 120 :: t → (t.dropWhile isHexDigit).head? ≠ some 59) :
    ParseHex (35 :: src) = none := by
  unfold ParseHex
  split
  · next rest heq =>
    cases heq
    simp only
    split
    · next heq1 heq2 =>
      have := hhex rest rfl
      rw [heq2] at this
      exact absurd rfl this
    · rfl
  · rfl

theorem takeWhile_run_end {α : Type} (p : α → Bool) (run rest : List α)
    (hrun : ∀ a ∈ run, p a = true) (hrest : ∀ c, rest.head? = some c → p c = false) :
    (run ++ rest).takeWhile p = run ∧ (run ++ rest).dropWhile p = rest := by
  cases rest with
  | nil =>
    rw [List.append_nil]
    exact ⟨List.takeWhile_eq_self_iff.mpr hrun, List.dropWhile_eq_nil_iff.mpr hrun⟩
  | cons x xs =>
    have hx : p x = false := hrest x rfl
    exact ⟨takeWhile_run p run x xs hrun hx, dropWhile_run p run x xs hrun hx⟩

theorem DecodeHtmlEntitites.loop_length_le (L : HtmlParserLookup) :
    ∀ (fuel : Nat) (src : List WCHAR),
      (DecodeHtmlEntitites.loop L fuel src).length ≤ src.length := by
  intro fuel
  induction fuel with
  | zero => intro src; simp [DecodeHtmlEntitites.loop]
  | succ f ih =>
    intro src
    cases src with
    | nil => simp [DecodeHtmlEntitites.loop]
    | cons c r =>
      rw [DecodeHtmlEntitites.loop]
      by_cases h0 : c = 0
      · simp [h0]
      · by_cases h38 : c ≠ 38
        · simp only [h0, h38, if_false, if_true, ne_eq, not_false_eq_true, List.length_cons]
          have := ih r
          omega
        · simp only [h0, h38, if_false]
          cases hp : (ParseDec r).orElse (fun _ => ParseHex r) with
          | some u =>
            simp only []
            cases hf : FindChar r 59 with
            | none => simp
            | some found =>
              simp only [List.length_cons]
              have h1 := FindChar_length_le hf
              have h2 := ih (found.drop 1)
              simp only [List.length_drop] at h2
              omega
          | none =>
            simp only []
            have h2 : (List.drop (List.takeWhile (iswalnum L) r).length r).length ≤ r.length := by
              simp only [List.length_drop]; omega
            have h3 : (match List.drop (List.takeWhile (iswalnum L) r).length r with
                | 59 :: r2 => r2
                | r2 => r2).length ≤ r.length := by
              split
              · next r2 heq =>
                rw [heq] at h2
                simp only [List.length_cons] at h2
                omega
              · exact h2
            have h4 := ih (match List.drop (List.takeWhile (iswalnum L) r).length r with
                | 59 :: r2 => r2
                | r2 => r2)
            have h5 := ih r
            split_ifs <;> (simp only [List.length_cons]; omega)

theorem iswalnum_hash (L : HtmlParserLookup) : iswalnum L 35 = false :=
  iswalnum_ascii_false L 35 (by decide) (by decide)

theorem decodeWide_hash_literal (L : HtmlParserLookup) (src : List WCHAR)
    (hdec : (src.dropWhile isDecDigit).head? ≠ some 59)
    (hhex : ∀ t, src = 120 :: t → (t.dropWhile isHexDigit).head? ≠ some 59) :
    decodeWide L (38 :: 35 :: src) = 38 :: 35 :: decodeWide L src := by
  have hp : (ParseDec (35 :: src)).orElse (fun _ => ParseHex (35 :: src)) = none := by
    rw [ParseDec_needs_semicolon src hdec, ParseHex_needs_semicolon src hhex]
    rfl
  have htw : (35 :: src).takeWhile (iswalnum L) = [] := by
    rw [List.takeWhile_cons, iswalnum_hash]
    rfl
  rw [decodeWide_amp_literal L (35 :: src) hp (by rw [htw]; rfl),
    decodeWide_cons_plain L 35 src (by decide) (by decide)]

/-- C16, the claim fails on the code: `decode("&#65 b")` is `"&#65 b"`, not `"A b"`, and
`decode("&#x41 b")` is `"&#x41 b"`: the formats `"#%d;"` and `"#x%x;"` of `str::Parse` need
the `;`, and without it the `&` is copied as ordinary text. -/
theorem DecodeHtmlEntitites_numeric_counterexample :
    DecodeHtmlEntitites sampleLookup (units "&#65 b") 0 = units "&#65 b" ∧
    DecodeHtmlEntitites sampleLookup (units "&#65 b") 0 ≠ units "A b" ∧
    DecodeHtmlEntitites sampleLookup (units "&#x41 b") 0 = units "&#x41 b" ∧
    DecodeHtmlEntitites sampleLookup (units "&#x41 b") 0 ≠ units "A b" := by
  decide

/-- C16, amended: a numeric reference is decoded only when a `;` follows its digits.  When
the converted text is `pre ++ "&#" ++ src`, `pre` holds no `&`, the decimal digits at the
start of `src` are not followed by `;`, and neither are the hexadecimal digits after an
`x` at the start of `src`, then `DecodeHtmlEntitites` copies `&#` as it is and goes on
decoding right after the `#`. -/
theorem DecodeHtmlEntitites_numeric_needs_semicolon (L : HtmlParserLookup)
    (string : List Nat) (codepage : Nat) (pre src : List WCHAR)
    (htext : L.StrCPToWStr string codepage = pre ++ 38 :: 35 :: src)
    (hnul : 0 ∉ pre) (hamp : 38 ∉ pre)
    (hdec : (src.dropWhile isDecDigit).head? ≠ some 59)
    (hhex : ∀ t, src = 120 :: t → (t.dropWhile isHexDigit).head? ≠ some 59) :
    DecodeHtmlEntitites L string codepage = pre ++ 38 :: 35 :: decodeWide L src := by
  unfold DecodeHtmlEntitites
  rw [htext, decodeWide_append_plain L pre _ hnul hamp, decodeWide_hash_literal L src hdec hhex]

/-- C16, amended, on the examples: `decode("a &#65 b") = "a &#65 b"` and
`decode("&#x41") = "&#x41"`. -/
theorem DecodeHtmlEntitites_numeric_needs_semicolon_witness :
    DecodeHtmlEntitites sampleLookup (units "a &#65 b") 0 =
      units "a " ++ 38 :: 35 :: decodeWide sampleLookup (units "65 b") ∧
    DecodeHtmlEntitites sampleLookup (units "&#x41") 0 =
      [] ++ 38 :: 35 :: decodeWide sampleLookup (units "x41") ∧
    units "a " ++ 38 :: 35 :: decodeWide sampleLookup (units "65 b") = units "a &#65 b" ∧
    [] ++ 38 :: 35 :: decodeWide sampleLookup (units "x41") = units "&#x41" :=
  ⟨DecodeHtmlEntitites_numeric_needs_semicolon sampleLookup (units "a &#65 b") 0 (units "a ")
      (units "65 b") (by decide) (by decide) (by decide) (by decide)
      (fun t ht => absurd (List.cons.inj ht).1 (by decide)),
   DecodeHtmlEntitites_numeric_needs_semicolon sampleLookup (units "&#x41") 0 []
      (units "x41") (by decide) (by decide) (by decide) (by decide)
      (fun t ht => by
        have h : t = units "41" := (List.cons.inj ht).2.symm
        subst h
        decide),
   by decide, by decide⟩

theorem decodeWide_named_run (L : HtmlParserLookup) (name rest : List WCHAR)
    (hne : name ≠ []) (hn : ∀ c ∈ name, iswalnum L c = true)
    (hmax : ∀ c, rest.head? = some c → iswalnum L c = false)
    (hrune : L.HtmlEntityNameToRune name ≠ -1) :
    decodeWide L (38 :: (name ++ rest)) =
      IntToChar (L.HtmlEntityNameToRune name) ::
        decodeWide L (match rest with
          | 59 :: r => r
          | r => r) := by
  obtain ⟨htw, hdw⟩ := takeWhile_run_end (iswalnum L) name rest hn hmax
  have hhead : (name ++ rest).head? ≠ some 35 := by
    cases name with
    | nil => exact absurd rfl hne
    | cons a as =>
      intro h
      have ha : a = 35 := Option.some.inj h
      have := hn a (List.mem_cons_self a as)
      rw [ha, iswalnum_hash] at this
      exact Bool.noConfusion this
  have hp : (ParseDec (name ++ rest)).orElse (fun _ => ParseHex (name ++ rest)) = none := by
    rw [ParseDec_of_not_hash _ hhead, ParseHex_of_not_hash _ hhead]
    rfl
  have hlen : ((name ++ rest).takeWhile (iswalnum L)).length ≠ 0 := by
    rw [htw]
    exact fun h => hne (List.length_eq_zero.mp h)
  have htake : (name ++ rest).take ((name ++ rest).takeWhile (iswalnum L)).length = name := by
    rw [take_takeWhile_length, htw]
  have hdrop : (name ++ rest).drop ((name ++ rest).takeWhile (iswalnum L)).length = rest := by
    rw [drop_takeWhile_length, hdw]
  rw [decodeWide_amp_named L _ hp hlen (by rw [htake]; exact hrune), htake, hdrop]

/-- C17: the `;` after a named reference is optional.  When the converted text is
`pre ++ "&" ++ name ++ rest`, `pre` holds no `&`, `name` is a non-empty alphanumeric run
that `rest` does not continue, and `name` is in the entity table, then `DecodeHtmlEntitites`
writes the character of the entity and goes on at `rest` itself when `rest` does not start
with `;` (also when it is empty), and right after that one `;` when it does. -/
theorem DecodeHtmlEntitites_named_optional_semicolon (L : HtmlParserLookup)
    (string : List Nat) (codepage : Nat) (pre name rest : List WCHAR)
    (htext : L.StrCPToWStr string codepage = pre ++ 38 :: (name ++ rest))
    (hnul : 0 ∉ pre) (hamp : 38 ∉ pre)
    (hne : name ≠ []) (hn : ∀ c ∈ name, iswalnum L c = true)
    (hmax : ∀ c, rest.head? = some c → iswalnum L c = false)
    (hrune : L.HtmlEntityNameToRune name ≠ -1) :
    (rest.head? ≠ some 59 →
      DecodeHtmlEntitites L string codepage =
        pre ++ IntToChar (L.HtmlEntityNameToRune name) :: decodeWide L rest) ∧
    (∀ r, rest = 59 :: r →
      DecodeHtmlEntitites L string codepage =
        pre ++ IntToChar (L.HtmlEntityNameToRune name) :: decodeWide L r) := by
  have h := decodeWide_named_run L name rest hne hn hmax hrune
  unfold DecodeHtmlEntitites
  rw [htext, decodeWide_append_plain L pre _ hnul hamp, h]
  constructor
  · intro h59
    split
    · next r heq => exact absurd rfl h59
    · rfl
  · intro r hr
    subst hr
    rfl

/-- C17, the examples of the claim: `decode("&amp b") = "& b"` and
`decode("&amp;;") = "&;"`. -/
theorem DecodeHtmlEntitites_named_optional_semicolon_witness :
    DecodeHtmlEntitites sampleLookup (units "&amp b") 0 =
      [] ++ IntToChar (sampleLookup.HtmlEntityNameToRune (units "amp")) ::
        decodeWide sampleLookup (units " b") ∧
    DecodeHtmlEntitites sampleLookup (units "&amp;;") 0 =
      [] ++ IntToChar (sampleLookup.HtmlEntityNameToRune (units "amp")) ::
        decodeWide sampleLookup (units ";") ∧
    [] ++ IntToChar (sampleLookup.HtmlEntityNameToRune (units "amp")) ::
        decodeWide sampleLookup (units " b") = units "& b" ∧
    [] ++ IntToChar (sampleLookup.HtmlEntityNameToRune (units "amp")) ::
        decodeWide sampleLookup (units ";") = units "&;" :=
  ⟨(DecodeHtmlEntitites_named_optional_semicolon sampleLookup (units "&amp b") 0 []
      (units "amp") (units " b") (by decide) (by decide) (by decide) (by decide) (by decide)
      (fun c hc => by
        have h : c = 32 := (Option.some.inj hc).symm
        subst h
        decide)
      (by decide)).1 (by decide),
   (DecodeHtmlEntitites_named_optional_semicolon sampleLookup (units "&amp;;") 0 []
      (units "amp") (units ";;") (by decide) (by decide) (by decide) (by decide) (by decide)
      (fun c hc => by
        have h : c = 59 := (Option.some.inj hc).symm
        subst h
        decide)
      (by decide)).2 (units ";") (by decide),
   by decide, by decide⟩

/-- C18: `IntToChar(c)` is the character with code `c` when `0 < c < 2^16` and `'?'` (63)
for every other `c`; it is never NUL and always fits 16 bits.  Hence a decimal reference
whose value is `0` or at least `65536` decodes to `'?'`, as `&#65536;` and `&#0;` do. -/
theorem IntToChar_placeholder (L : HtmlParserLookup) :
    (∀ c : Int, (0 < c ∧ c < 2 ^ 16 → Int.ofNat (IntToChar c) = c) ∧
      (¬(0 < c ∧ c < 2 ^ 16) → IntToChar c = 63) ∧
      IntToChar c ≠ 0 ∧ IntToChar c < 2 ^ 16) ∧
    (∀ (ds T : List WCHAR), ds ≠ [] → (∀ d ∈ ds, isDecDigit d = true) →
      (numVal 10 ds = 0 ∨ 65536 ≤ numVal 10 ds) →
      decodeWide L (38 :: 35 :: (ds ++ 59 :: T)) = 63 :: decodeWide L T) ∧
    decodeWide L (units "&#65536;") = units "?" ∧
    decodeWide L (units "&#0;") = units "?" := by
  have hgen : ∀ (ds T : List WCHAR), ds ≠ [] → (∀ d ∈ ds, isDecDigit d = true) →
      (numVal 10 ds = 0 ∨ 65536 ≤ numVal 10 ds) →
      decodeWide L (38 :: 35 :: (ds ++ 59 :: T)) = 63 :: decodeWide L T := by
    intro ds T hne hds hv
    have h := decodeWide_reference L (35 :: ds) T _ (IsReference.dec ds hne hds)
    rw [List.cons_append] at h
    rw [h]
    congr 1
    rcases hv with hv | hv
    · rw [hv]
      rfl
    · apply IntToChar_of_big
      simp only [Int.ofNat_eq_coe]
      omega
  refine ⟨?_, hgen, ?_, ?_⟩
  · intro c
    refine ⟨?_, ?_, ?_, ?_⟩
    · rintro ⟨h1, h2⟩
      unfold IntToChar
      rw [if_neg (by norm_num at h2 ⊢; omega)]
      simp only [Int.ofNat_eq_coe]
      omega
    · intro h
      unfold IntToChar
      rw [if_pos (by norm_num at h ⊢; omega)]
    · unfold IntToChar
      split_ifs with h
      · decide
      · norm_num at h
        intro h0
        have := Int.toNat_eq_zero.mp h0
        omega
    · unfold IntToChar
      split_ifs with h
      · decide
      · norm_num at h
        have h2 : c.toNat < 65536 ↔ c < (65536 : Nat) := Int.toNat_lt (by omega)
        exact h2.mpr h.2
  · exact hgen (units "65536") [] (by decide) (by decide) (Or.inr (by decide))
  · exact hgen (units "0") [] (by decide) (by decide) (Or.inl (by decide))

/-- C18 at concrete values: `IntToChar(65) = 'A'`, `IntToChar(65536) = IntToChar(0) =
IntToChar(-1) = '?'`, and `decode("&#65601;")` is `"?"`, not `"A"` (65601 = 65536 + 65). -/
theorem IntToChar_placeholder_witness :
    Int.ofNat (IntToChar 65) = 65 ∧ IntToChar 65536 = 63 ∧ IntToChar 0 = 63 ∧
    IntToChar (-1) = 63 ∧
    decodeWide sampleLookup (38 :: 35 :: (units "65601" ++ 59 :: [])) =
      63 :: decodeWide sampleLookup [] :=
  ⟨((IntToChar_placeholder sampleLookup).1 65).1 (by decide),
   ((IntToChar_placeholder sampleLookup).1 65536).2.1 (by decide),
   ((IntToChar_placeholder sampleLookup).1 0).2.1 (by decide),
   ((IntToChar_placeholder sampleLookup).1 (-1)).2.1 (by decide),
   (IntToChar_placeholder sampleLookup).2.1 (units "65601") [] (by decide) (by decide)
     (Or.inr (by decide))⟩

theorem decodeWide_step (L : HtmlParserLookup) (c : WCHAR) (src : List WCHAR) (h0 : c ≠ 0) :
    ∃ (u : WCHAR) (rest : List WCHAR), rest.length ≤ src.length ∧
      decodeWide L (c :: src) = u :: decodeWide L rest := by
  by_cases h38 : c = 38
  · subst h38
    cases hp : (ParseDec src).orElse (fun _ => ParseHex src) with
    | some u =>
      cases hf : FindChar src 59 with
      | none =>
        refine ⟨IntToChar u, [], Nat.zero_le _, ?_⟩
        conv_lhs => unfold decodeWide
        simp only [List.length_cons, DecodeHtmlEntitites.loop, hp, hf]
        simp only [OfNat.ofNat_ne_zero, if_false, ne_eq, not_true_eq_false]
        rfl
      | some found =>
        refine ⟨IntToChar u, found.drop 1, ?_, decodeWide_amp_numeric L src found u hp hf⟩
        have := FindChar_length_le hf
        simp only [List.length_drop]
        omega
    | none =>
      by_cases hr : (if (src.takeWhile (iswalnum L)).length ≠ 0 then
          L.HtmlEntityNameToRune (src.take (src.takeWhile (iswalnum L)).length) else -1) = -1
      · exact ⟨38, src, Nat.le_refl _, decodeWide_amp_literal L src hp hr⟩
      · have hlen : (src.takeWhile (iswalnum L)).length ≠ 0 := by
          intro h
          rw [if_neg (not_not.mpr h)] at hr
          exact hr rfl
        rw [if_pos hlen] at hr
        refine ⟨_, _, ?_, decodeWide_amp_named L src hp hlen hr⟩
        have h2 : (List.drop (List.takeWhile (iswalnum L) src).length src).length
            ≤ src.length := by
          simp only [List.length_drop]; omega
        split
        · next r2 heq =>
          rw [heq] at h2
          simp only [List.length_cons] at h2
          omega
        · exact h2
  · exact ⟨c, src, Nat.le_refl _, decodeWide_cons_plain L c src h0 h38⟩

/-- C19: the output of `DecodeHtmlEntitites` has at most as many code units as the wide
string it decodes; the same holds from every position of the loop on (what is still to be
written is no longer than what is still to be read, so `dst` never passes `src`), because
an iteration that reads a unit other than NUL writes exactly one unit and then continues
on a text that is shorter by at least one. -/
theorem DecodeHtmlEntitites_never_grows (L : HtmlParserLookup) :
    (∀ (string : List Nat) (codepage : Nat),
      (DecodeHtmlEntitites L string codepage).length ≤
        (L.StrCPToWStr string codepage).length) ∧
    (∀ (fuel : Nat) (src : List WCHAR),
      (DecodeHtmlEntitites.loop L fuel src).length ≤ src.length) ∧
    (∀ (c : WCHAR) (src : List WCHAR), c ≠ 0 →
      ∃ (u : WCHAR) (rest : List WCHAR), rest.length ≤ src.length ∧
        decodeWide L (c :: src) = u :: decodeWide L rest) :=
  ⟨fun _ _ => DecodeHtmlEntitites.loop_length_le L _ _,
   DecodeHtmlEntitites.loop_length_le L, decodeWide_step L⟩

/-- C19 on `"a &amp; b"`: nine units are read and five are written. -/
theorem DecodeHtmlEntitites_never_grows_witness :
    (DecodeHtmlEntitites sampleLookup (units "a &amp; b") 0).length ≤
      (sampleLookup.StrCPToWStr (units "a &amp; b") 0).length ∧
    (DecodeHtmlEntitites sampleLookup (units "a &amp; b") 0).length = 5 ∧
    (sampleLookup.StrCPToWStr (units "a &amp; b") 0).length = 9 :=
  ⟨(DecodeHtmlEntitites_never_grows sampleLookup).1 (units "a &amp; b") 0,
   by decide, by decide⟩

/-! ## The parse as a whole: what a step keeps -/

theorem Grows.same (a : HtmlParser) : Grows a a :=
  ⟨Nat.le_refl _, fun _ e h => ⟨e, h, rfl, rfl, rfl⟩, rfl⟩

theorem Grows.andThen {a b c : HtmlParser} (h1 : Grows a b) (h2 : Grows b c) : Grows a c := by
  refine ⟨Nat.le_trans h1.length_le h2.length_le, ?_, h2.error_eq.trans h1.error_eq⟩
  intro i e he
  obtain ⟨e2, he2, ht2, hn2, hu2⟩ := h1.keeps i e he
  obtain ⟨e3, he3, ht3, hn3, hu3⟩ := h2.keeps i e2 he2
  exact ⟨e3, he3, ht3.trans ht2, hn3.trans hn2, hu3.trans hu2⟩

theorem specParent_none_iff (L : HtmlParserLookup) (self : HtmlParser) (tok : HtmlToken)
    (chain : List Nat) (hchain : IsChain self.allocator self.currElement chain) :
    specParent L self chain tok = none ↔ self.currElement = none := by
  unfold specParent
  split_ifs
  · cases hf : chain.find? (hitAt self.allocator (isListContainer L)) with
    | none => exact Iff.rfl
    | some m =>
      refine ⟨fun h => Option.noConfusion h, fun hnone => ?_⟩
      cases chain with
      | nil => simp at hf
      | cons c rest =>
        have := (hchain.curr_eq c rest rfl).1
        rw [hnone] at this
        exact Option.noConfusion this
  · exact Iff.rfl

theorem CloseTag_grows (L : HtmlParserLookup) (self : HtmlParser) (tok : HtmlToken)
    (hwf : WellLinked self) (hroot : RootFirst self) :
    ∃ self2, CloseTag L self tok = some self2 ∧ WellLinked self2 ∧ RootFirst self2 ∧
      Grows self self2 ∧ self2.allocator = self.allocator := by
  obtain ⟨chain, hchain⟩ := hwf.chain_exists
  obtain ⟨curr, h1, _⟩ := CloseTag_spec L self tok chain hwf hchain
  obtain ⟨s2, h2, hwf2, halloc⟩ := CloseTag_wellLinked L self tok hwf
  have hs2 : s2 = { self with currElement := curr } := Option.some.inj (h2.symm.trans h1)
  subst hs2
  exact ⟨_, h1, hwf2, hroot, ⟨Nat.le_refl _, fun _ e h => ⟨e, h, rfl, rfl, rfl⟩, rfl⟩, rfl⟩

theorem StartTag_grows (L : HtmlParserLookup) (self : HtmlParser) (tok : HtmlToken)
    (hwf : WellLinked self) (hroot : RootFirst self) :
    ∃ self2 parent e, StartTag L self tok = some self2 ∧ WellLinked self2 ∧
      RootFirst self2 ∧ Grows self self2 ∧
      FindParent L self tok = some parent ∧
      (parent = none ↔ self.currElement = none) ∧
      (∀ u, parent = some u → u < self.allocator.length) ∧
      self2.currElement = some self.allocator.length ∧
      self2.allocator.length = self.allocator.length + 1 ∧
      self2.allocator[self.allocator.length]? = some e ∧
      e.tag = tok.tag ∧ e.name = tokTagName L tok ∧ e.up = parent := by
  obtain ⟨chain, hchain⟩ := hwf.chain_exists
  obtain ⟨arena, h1, h2, h3, h5, h4⟩ := StartTag_spec L self tok chain hwf hchain
  obtain ⟨s2, hs2, hwf2, hc2, hl2⟩ := StartTag_wellLinked L self tok hwf
  have heq : s2 = { createdParser L self tok (specParent L self chain tok) with
      allocator := arena } := Option.some.inj (hs2.symm.trans h1)
  subst heq
  refine ⟨_, specParent L self chain tok, newElement L self tok (specParent L self chain tok),
    h1, hwf2, ?_, ⟨?_, ?_, rfl⟩, FindParent_eq L self tok chain hwf hchain,
    specParent_none_iff L self tok chain hchain, specParent_lt L self tok chain hwf hchain,
    rfl, h3, h5, rfl, rfl, rfl⟩
  · unfold RootFirst at hroot ⊢
    show (if self.rootElement = none then some self.allocator.length else self.rootElement) =
      if arena.length = 0 then none else some 0
    rw [h3, if_neg (Nat.succ_ne_zero _), hroot]
    by_cases hz : self.allocator.length = 0
    · simp [hz]
    · simp [hz]
  · show self.allocator.length ≤ arena.length
    omega
  · intro i e0 he0
    obtain ⟨e, he, hlink⟩ := h4 i e0 he0
    refine ⟨e, he, ?_, ?_, hlink.up_eq⟩
    · rw [hlink.1]
    · rw [hlink.1]

theorem ParseInPlace.appendAttrs_grows (self : HtmlParser) (attrs : List AttrInfo)
    (c : Nat) (hwf : WellLinked self) (hroot : RootFirst self)
    (hc : self.currElement = some c) :
    ∃ self2, ParseInPlace.appendAttrs self attrs = some self2 ∧ WellLinked self2 ∧
      RootFirst self2 ∧ Grows self self2 ∧
      self2.allocator.length = self.allocator.length ∧
      (∀ e, self.allocator[c]? = some e → ∃ e2, self2.allocator[c]? = some e2 ∧
        e2.tag = e.tag ∧ e2.name = e.name ∧ e2.up = e.up) := by
  have hlt := hwf.curr_lt c hc
  obtain ⟨e, he⟩ : ∃ e, self.allocator[c]? = some e :=
    ⟨self.allocator[c], List.getElem?_eq_getElem hlt⟩
  obtain ⟨s2, hs2, hwf2, _, hl2⟩ :=
    ParseInPlace.appendAttrs_wellLinked self attrs c hwf hc
  have h1 := ParseInPlace.appendAttrs_eq attrs self c e hc he
  have heq := Option.some.inj (hs2.symm.trans h1)
  subst heq
  have hkeep : ∀ (i : Nat) (e0 : HtmlElement), self.allocator[i]? = some e0 →
      ∃ e2, (self.allocator.set c
          { e with firstAttr := (attrs.map attrRecord).reverse ++ e.firstAttr })[i]? = some e2 ∧
        e2.tag = e0.tag ∧ e2.name = e0.name ∧ e2.up = e0.up := by
    intro i e0 he0
    rw [List.getElem?_set]
    by_cases hci : c = i
    · subst hci
      rw [he] at he0
      cases he0
      simp only [if_true, hlt]
      exact ⟨_, rfl, rfl, rfl, rfl⟩
    · rw [if_neg hci]
      exact ⟨e0, he0, rfl, rfl, rfl⟩
  refine ⟨_, h1, hwf2, ?_, ⟨?_, hkeep, rfl⟩, hl2, fun e0 he0 => hkeep c e0 he0⟩
  · unfold RootFirst at hroot ⊢
    simp only [List.length_set]
    exact hroot
  · simp only [List.length_set]
    exact Nat.le_refl _

theorem ParseInPlace.tagToken_grows (L : HtmlParserLookup) (self : HtmlParser)
    (tok : HtmlToken) (hwf : WellLinked self) (hroot : RootFirst self) :
    ∃ self2, ParseInPlace.tagToken L self tok = some self2 ∧ WellLinked self2 ∧
      RootFirst self2 ∧ Grows self self2 ∧
      (tok.IsEndTag = true → self2.allocator = self.allocator) ∧
      (tok.IsEndTag = false → ∃ parent e, FindParent L self tok = some parent ∧
        (parent = none ↔ self.currElement = none) ∧
        (∀ u, parent = some u → u < self.allocator.length) ∧
        self2.allocator.length = self.allocator.length + 1 ∧
        self2.allocator[self.allocator.length]? = some e ∧
        e.tag = tok.tag ∧ e.name = tokTagName L tok ∧ e.up = parent) := by
  unfold ParseInPlace.tagToken
  by_cases hend : tok.IsEndTag = true
  · simp only [hend, Bool.not_true, Bool.false_eq_true, if_false]
    split_ifs
    · obtain ⟨s2, h1, h2, h3, h4, h5⟩ := CloseTag_grows L self tok hwf hroot
      exact ⟨s2, h1, h2, h3, h4, fun _ => h5, fun h => h.elim⟩
    · exact ⟨self, rfl, hwf, hroot, Grows.same self, fun _ => rfl,
        fun h => h.elim⟩
  · have hend2 : tok.IsEndTag = false := Bool.eq_false_iff.mpr hend
    simp only [hend2, Bool.not_false, if_true]
    obtain ⟨s1, parent, e, h1, hwf1, hroot1, hg1, hfp, hnone, hlt, hc1, hl1, he1, ht, hn, hu⟩ :=
      StartTag_grows L self tok hwf hroot
    obtain ⟨s2, h2, hwf2, hroot2, hg2, hl2, hk2⟩ :=
      ParseInPlace.appendAttrs_grows s1 tok.attrs self.allocator.length hwf1 hroot1 hc1
    obtain ⟨e2, he2, ht2, hn2, hu2⟩ := hk2 e he1
    simp only [h1, h2]
    split_ifs
    · obtain ⟨s3, h3, hwf3, hroot3, hg3, ha3⟩ := CloseTag_grows L s2 tok hwf2 hroot2
      refine ⟨s3, h3, hwf3, hroot3, (hg1.andThen hg2).andThen hg3,
        fun h => h.elim, fun _ => ⟨parent, e2, hfp, hnone, hlt, ?_, ?_,
          ht2.trans ht, hn2.trans hn, hu2.trans hu⟩⟩
      · rw [ha3, hl2, hl1]
      · rw [ha3]
        exact he2
    · exact ⟨s2, rfl, hwf2, hroot2, hg1.andThen hg2, fun h => h.elim,
        fun _ => ⟨parent, e2, hfp, hnone, hlt, by rw [hl2, hl1], he2,
          ht2.trans ht, hn2.trans hn, hu2.trans hu⟩⟩

theorem startParser_wellLinked (d : Option (List Nat)) (codepage : Nat) :
    WellLinked (startParser d codepage) :=
  ⟨HtmlParser.fresh_wellLinked.links, HtmlParser.fresh_wellLinked.curr_lt,
    HtmlParser.fresh_wellLinked.root_lt⟩

theorem startParser_rootFirst (d : Option (List Nat)) (codepage : Nat) :
    RootFirst (startParser d codepage) := rfl

theorem ParseInPlace_eq_loop (L : HtmlParserLookup) (self : HtmlParser)
    (d : Option (List Nat)) (codepage : Nat) (toks : List HtmlToken)
    (hself : self.html.isSome = true ∨ self = HtmlParser.fresh) :
    ParseInPlace L self d codepage toks =
      ParseInPlace.loop L (startParser d codepage) toks := by
  unfold ParseInPlace
  rcases hself with h | h
  · simp only [h, if_true]
    rfl
  · subst h
    rfl

theorem ParseInPlace.loop_grows (L : HtmlParserLookup) (toks : List HtmlToken) :
    ∀ (self : HtmlParser), WellLinked self → RootFirst self →
      (∀ t ∈ toks, t.IsError = false) →
      ∃ self2, ParseInPlace.loop L self toks = some (self2, self2.rootElement) ∧
        WellLinked self2 ∧ RootFirst self2 ∧ Grows self self2 ∧
        self2.allocator.length =
          self.allocator.length + (toks.filter HtmlToken.opensElement).length := by
  induction toks with
  | nil =>
    intro self hwf hroot _
    exact ⟨self, rfl, hwf, hroot, Grows.same self, rfl⟩
  | cons tok rest ih =>
    intro self hwf hroot hok
    have herr : tok.IsError = false := hok tok (List.mem_cons_self _ _)
    have hok2 : ∀ t ∈ rest, t.IsError = false :=
      fun t ht => hok t (List.mem_cons_of_mem _ ht)
    rw [ParseInPlace.loop]
    simp only [herr, Bool.false_eq_true, if_false]
    by_cases htag : tok.IsTag = true
    · simp only [htag, Bool.not_true, Bool.false_eq_true, if_false]
      obtain ⟨s1, h1, hwf1, hroot1, hg1, hend, hopen⟩ :=
        ParseInPlace.tagToken_grows L self tok hwf hroot
      obtain ⟨s2, h2, hwf2, hroot2, hg2, hl2⟩ := ih s1 hwf1 hroot1 hok2
      simp only [h1]
      refine ⟨s2, h2, hwf2, hroot2, hg1.andThen hg2, ?_⟩
      rw [hl2, List.filter_cons]
      by_cases he : tok.IsEndTag = true
      · have : tok.opensElement = false := by simp [HtmlToken.opensElement, he]
        rw [hend he]
        simp [this]
      · have he2 : tok.IsEndTag = false := Bool.eq_false_iff.mpr he
        have : tok.opensElement = true := by simp [HtmlToken.opensElement, he2, htag]
        obtain ⟨_, _, _, _, _, hl1, _⟩ := hopen he2
        rw [hl1]
        simp only [this, if_true, List.length_cons]
        omega
    · simp only [htag, Bool.not_false, if_true]
      obtain ⟨s2, h2, hwf2, hroot2, hg2, hl2⟩ := ih self hwf hroot hok2
      refine ⟨s2, h2, hwf2, hroot2, hg2, ?_⟩
      have : tok.opensElement = false := by
        simp [HtmlToken.opensElement, Bool.eq_false_iff.mpr htag]
      rw [hl2, List.filter_cons]
      simp [this]

theorem ParseInPlace.loop_error_source (L : HtmlParserLookup) (self p : HtmlParser)
    (toks : List HtmlToken) (root : Option Nat) (hwf : WellLinked self)
    (hroot : RootFirst self) (hrun : ParseInPlace.loop L self toks = some (p, root))
    (herr : p.error ≠ self.error) : ∃ tok ∈ toks, tok.IsError = true := by
  by_contra hno
  have hok : ∀ t ∈ toks, t.IsError = false := by
    intro t ht
    cases h : t.IsError with
    | false => rfl
    | true => exact absurd ⟨t, ht, h⟩ hno
  obtain ⟨s2, h2, _, _, hg, _⟩ := ParseInPlace.loop_grows L toks self hwf hroot hok
  have := Option.some.inj (hrun.symm.trans h2)
  have hp : p = s2 := (Prod.mk.inj this).1
  subst hp
  exact herr hg.error_eq

/-- C20, the claim fails on the code: for a null buffer and for a zero-length buffer for
which the tokenizer delivers no token, `ParseInPlace` returns no root and leaves `error` at
`ErrParsingNoError`; nothing in it looks at the buffer before the token loop. -/
theorem ParseInPlace_empty_buffer_counterexample :
    ParseInPlace sampleLookup HtmlParser.fresh none 0 [] = some (startParser none 0, none) ∧
    ParseInPlace sampleLookup HtmlParser.fresh (some []) 0 [] =
      some (startParser (some []) 0, none) ∧
    (startParser none 0).error = HtmlParserError.ErrParsingNoError ∧
    (startParser (some []) 0).error = HtmlParserError.ErrParsingNoError := by
  decide

/-- C20, amended: `ParseInPlace` makes no check of the buffer.  Whatever the buffer is (null
and zero-length included), it stores the pointer and the code page and runs the token loop:
when the tokenizer delivers no token it returns no root and `error` stays
`ErrParsingNoError`, and when `error` differs from `ErrParsingNoError` after the call, the
tokenizer has delivered an error token. -/
theorem ParseInPlace_no_buffer_check (L : HtmlParserLookup) (self : HtmlParser)
    (d : Option (List Nat)) (codepage : Nat)
    (hself : self.html.isSome = true ∨ self = HtmlParser.fresh) :
    ParseInPlace L self d codepage [] = some (startParser d codepage, none) ∧
    (startParser d codepage).html = d ∧
    (startParser d codepage).error = HtmlParserError.ErrParsingNoError ∧
    ∀ (toks : List HtmlToken) (p : HtmlParser) (root : Option Nat),
      ParseInPlace L self d codepage toks = some (p, root) →
      p.error ≠ HtmlParserError.ErrParsingNoError → ∃ tok ∈ toks, tok.IsError = true := by
  refine ⟨?_, rfl, rfl, ?_⟩
  · rw [ParseInPlace_eq_loop L self d codepage [] hself]
    rfl
  · intro toks p root hrun herr
    rw [ParseInPlace_eq_loop L self d codepage toks hself] at hrun
    exact ParseInPlace.loop_error_source L (startParser d codepage) p toks root
      (startParser_wellLinked d codepage) (startParser_rootFirst d codepage) hrun herr

/-- C20, amended, on a fresh parser and a null buffer: no token gives no root and no
error; the error of the input `<a href="x` comes from the error token of the tokenizer. -/
theorem ParseInPlace_no_buffer_check_witness :
    ParseInPlace sampleLookup HtmlParser.fresh none 0 [] = some (startParser none 0, none) ∧
    (startParser none 0).error = HtmlParserError.ErrParsingNoError ∧
    ∃ tok ∈ [errorTok sampleLookup ParsingError.UnclosedTag (units "<a href=\"x")],
      tok.IsError = true :=
  ⟨(ParseInPlace_no_buffer_check sampleLookup HtmlParser.fresh none 0 (Or.inr rfl)).1,
   (ParseInPlace_no_buffer_check sampleLookup HtmlParser.fresh none 0 (Or.inr rfl)).2.2.1,
   (ParseInPlace_no_buffer_check sampleLookup HtmlParser.fresh none 0 (Or.inr rfl)).2.2.2
     [errorTok sampleLookup ParsingError.UnclosedTag (units "<a href=\"x")]
     { startParser none 0 with
       errorContext := some (units "<a href=\"x")
       error := HtmlParserError.ErrParsingElementName } none (by decide) (by decide)⟩

theorem ParseInPlace.loop_root (L : HtmlParserLookup) (toks : List HtmlToken) :
    ∀ (self : HtmlParser), WellLinked self → RootFirst self → self.allocator.length = 0 →
      (∀ t ∈ toks, t.IsError = false) →
      ∃ p, ParseInPlace.loop L self toks = some (p, p.rootElement) ∧
        match toks.find? HtmlToken.opensElement with
        | none => p.rootElement = none ∧ p.allocator = []
        | some tok => p.rootElement = some 0 ∧ ∃ e, p.allocator[0]? = some e ∧
            e.tag = tok.tag ∧ e.name = tokTagName L tok ∧ e.up = none := by
  induction toks with
  | nil =>
    intro self hwf hroot hlen _
    refine ⟨self, rfl, ?_⟩
    simp only [List.find?_nil]
    unfold RootFirst at hroot
    rw [if_pos hlen] at hroot
    exact ⟨hroot, List.length_eq_zero.mp hlen⟩
  | cons tok rest ih =>
    intro self hwf hroot hlen hok
    have herr : tok.IsError = false := hok tok (List.mem_cons_self _ _)
    have hok2 : ∀ t ∈ rest, t.IsError = false :=
      fun t ht => hok t (List.mem_cons_of_mem _ ht)
    rw [ParseInPlace.loop]
    simp only [herr, Bool.false_eq_true, if_false]
    by_cases htag : tok.IsTag = true
    · simp only [htag, Bool.not_true, Bool.false_eq_true, if_false]
      obtain ⟨s1, h1, hwf1, hroot1, hg1, hend, hopen⟩ :=
        ParseInPlace.tagToken_grows L self tok hwf hroot
      simp only [h1]
      by_cases he : tok.IsEndTag = true
      · have hno : tok.opensElement = false := by simp [HtmlToken.opensElement, he]
        rw [List.find?_cons_of_neg _ (by simp [hno])]
        exact ih s1 hwf1 hroot1 (by rw [hend he]; exact hlen) hok2
      · have he2 : tok.IsEndTag = false := Bool.eq_false_iff.mpr he
        have hyes : tok.opensElement = true := by simp [HtmlToken.opensElement, he2, htag]
        rw [List.find?_cons_of_pos _ hyes]
        obtain ⟨parent, e, _, hnone, _, hl1, he1, ht, hn, hu⟩ := hopen he2
        obtain ⟨p, hp, hwfp, hrootp, hgp, hlp⟩ :=
          ParseInPlace.loop_grows L rest s1 hwf1 hroot1 hok2
        have hcurr : self.currElement = none := by
          cases hc : self.currElement with
          | none => rfl
          | some c =>
            have := hwf.curr_lt c hc
            omega
        rw [hlen] at he1
        obtain ⟨e2, he2, ht2, hn2, hu2⟩ := hgp.keeps 0 e he1
        refine ⟨p, hp, ?_, e2, he2, ht2.trans ht, hn2.trans hn, ?_⟩
        · unfold RootFirst at hrootp
          rw [hrootp, if_neg]
          omega
        · rw [hu2, hu]
          exact hnone.mpr hcurr
    · simp only [htag, Bool.not_false, if_true]
      have hno : tok.opensElement = false := by
        simp [HtmlToken.opensElement, Bool.eq_false_iff.mpr htag]
      rw [List.find?_cons_of_neg _ (by simp [hno])]
      exact ih self hwf hroot hlen hok2

/-- C13: the root that `ParseInPlace` returns for a token stream without error token is
the element created for the first token that is a start tag or an empty-element tag
(the first element of the arena, with the tag and name of that token and no parent),
whatever follows that token; it is `nullptr`, and no element is created, exactly when the
stream has no such token.  The parser is a fresh one or one that holds a buffer (and so is
reset first). -/
theorem ParseInPlace_root_is_first_opened (L : HtmlParserLookup) (self : HtmlParser)
    (d : Option (List Nat)) (codepage : Nat) (toks : List HtmlToken)
    (hself : self.html.isSome = true ∨ self = HtmlParser.fresh)
    (hok : ∀ t ∈ toks, t.IsError = false) :
    ∃ p root, ParseInPlace L self d codepage toks = some (p, root) ∧
      root = p.rootElement ∧
      (root = none ↔ toks.find? HtmlToken.opensElement = none) ∧
      (toks.find? HtmlToken.opensElement = none → p.allocator = []) ∧
      ∀ tok, toks.find? HtmlToken.opensElement = some tok →
        root = some 0 ∧ ∃ e, p.allocator[0]? = some e ∧
          e.tag = tok.tag ∧ e.name = tokTagName L tok ∧ e.up = none := by
  rw [ParseInPlace_eq_loop L self d codepage toks hself]
  obtain ⟨p, hp, hmatch⟩ := ParseInPlace.loop_root L toks (startParser d codepage)
    (startParser_wellLinked d codepage) (startParser_rootFirst d codepage) rfl hok
  refine ⟨p, p.rootElement, hp, rfl, ?_, ?_, ?_⟩
  · cases hf : toks.find? HtmlToken.opensElement with
    | none =>
      rw [hf] at hmatch
      exact ⟨fun _ => rfl, fun _ => hmatch.1⟩
    | some tok =>
      rw [hf] at hmatch
      refine ⟨fun h => ?_, fun h => Option.noConfusion h⟩
      rw [hmatch.1] at h
      exact Option.noConfusion h
  · intro hf
    rw [hf] at hmatch
    exact hmatch.2
  · intro tok hf
    rw [hf] at hmatch
    exact hmatch

/-- C13 on two streams: for `<a><b><c>` the root is the element of `<a>`, and the stream
of `x</a>`, a text and an end tag, has no root. -/
theorem ParseInPlace_root_is_first_opened_witness :
    (∃ p root, ParseInPlace sampleLookup HtmlParser.fresh (some (units "<a><b><c>")) 0
        tokensABC = some (p, root) ∧ root = some 0 ∧
      ∃ e, p.allocator[0]? = some e ∧ e.tag = (startTok sampleLookup "a" []).tag ∧
        e.up = none) ∧
    (∃ p root, ParseInPlace sampleLookup HtmlParser.fresh (some (units "x</a>")) 0
        [textTok sampleLookup "x", endTok sampleLookup "a"] = some (p, root) ∧
      root = none ∧ p.allocator = []) := by
  obtain ⟨p, root, h1, _, _, _, h5⟩ :=
    ParseInPlace_root_is_first_opened sampleLookup HtmlParser.fresh
      (some (units "<a><b><c>")) 0 tokensABC (Or.inr rfl) (by decide)
  obtain ⟨q, rootq, k1, _, k3, k4, _⟩ :=
    ParseInPlace_root_is_first_opened sampleLookup HtmlParser.fresh
      (some (units "x</a>")) 0 [textTok sampleLookup "x", endTok sampleLookup "a"]
      (Or.inr rfl) (by decide)
  obtain ⟨hr, e, he, ht, _, hu⟩ := h5 (startTok sampleLookup "a" []) (by decide)
  exact ⟨⟨p, root, h1, hr, e, he, ht, hu⟩,
    ⟨q, rootq, k1, k3.mpr (by decide), k4 (by decide)⟩⟩

/-- C12, the claim fails on the code: in `<a></a><b>` the element of `<b>` is created
after the root has been closed; the root is the element of `<a>` (index 0), and the element
of `<b>` (index 1) is not the root and has a null `up` reference as well. -/
theorem ParseInPlace_orphan_counterexample :
    (ParseInPlace sampleLookup HtmlParser.fresh (some (units "<a></a><b>")) 0
      tokensOrphan).map (fun r => (r.2, r.1.allocator.map (fun e => (e.tag, e.up)))) =
      some (some 0, [(0, none), (1, none)]) := by
  decide

/-- C12, amended: the `up` reference of a created element is null exactly when the element
was created while no element was open.  Let `tok` be a start tag or empty-element tag of
the error-free stream `pre ++ tok :: post`, and let `s` be the parser after `pre` alone.
The element of `tok` is the one at index `s.allocator.length` (the number of such tokens in
`pre`), and after the whole stream its `up` is null if and only if `s.currElement` was
null, as it is for the root, the first element created; otherwise `up` is an element
created earlier.  The root is the element at index 0. -/
theorem created_up_reference (L : HtmlParserLookup) (self : HtmlParser)
    (d : Option (List Nat)) (codepage : Nat) (pre post : List HtmlToken) (tok : HtmlToken)
    (hself : self.html.isSome = true ∨ self = HtmlParser.fresh)
    (hok : ∀ t ∈ pre ++ tok :: post, t.IsError = false)
    (hopen : tok.opensElement = true) :
    ∃ s p e, ParseInPlace L self d codepage pre = some (s, s.rootElement) ∧
      ParseInPlace L self d codepage (pre ++ tok :: post) = some (p, p.rootElement) ∧
      s.allocator.length = (pre.filter HtmlToken.opensElement).length ∧
      p.allocator.length = ((pre ++ tok :: post).filter HtmlToken.opensElement).length ∧
      p.allocator[s.allocator.length]? = some e ∧
      (e.up = none ↔ s.currElement = none) ∧
      (s.allocator.length = 0 → e.up = none) ∧
      (∀ u, e.up = some u → u < s.allocator.length) ∧
      p.rootElement = some 0 := by
  have hokpre : ∀ t ∈ pre, t.IsError = false :=
    fun t ht => hok t (List.mem_append_left _ ht)
  have hoktok : tok.IsError = false := hok tok (by simp)
  have hokpost : ∀ t ∈ post, t.IsError = false :=
    fun t ht => hok t (by simp [ht])
  rw [ParseInPlace_eq_loop L self d codepage pre hself,
    ParseInPlace_eq_loop L self d codepage (pre ++ tok :: post) hself]
  obtain ⟨s, hs, hwfs, hroots, _, hls⟩ :=
    ParseInPlace.loop_grows L pre (startParser d codepage)
      (startParser_wellLinked d codepage) (startParser_rootFirst d codepage) hokpre
  obtain ⟨p, hp, hwfp, hrootp, _, hlp⟩ :=
    ParseInPlace.loop_grows L (pre ++ tok :: post) (startParser d codepage)
      (startParser_wellLinked d codepage) (startParser_rootFirst d codepage) hok
  have htag : tok.IsTag = true := by
    simp only [HtmlToken.opensElement, Bool.and_eq_true] at hopen
    exact hopen.1
  have hend : tok.IsEndTag = false := by
    simp only [HtmlToken.opensElement, Bool.and_eq_true, Bool.not_eq_true'] at hopen
    exact hopen.2
  obtain ⟨s1, h1, hwf1, hroot1, _, _, hop⟩ := ParseInPlace.tagToken_grows L s tok hwfs hroots
  obtain ⟨parent, e, _, hnone, hlt, hl1, he1, _, _, hu⟩ := hop hend
  obtain ⟨p2, hp2, _, _, hg2, _⟩ := ParseInPlace.loop_grows L post s1 hwf1 hroot1 hokpost
  have hstep : ParseInPlace.loop L s (tok :: post) = ParseInPlace.loop L s1 post := by
    rw [ParseInPlace.loop]
    simp only [hoktok, Bool.false_eq_true, if_false, htag, Bool.not_true, h1]
  have hrun := ParseInPlace.loop_append L pre (tok :: post) (startParser d codepage) s
    s.rootElement hokpre hs
  rw [hstep, hp2] at hrun
  have hpp : p = p2 := (Prod.mk.inj (Option.some.inj (hp.symm.trans hrun))).1
  subst hpp
  obtain ⟨e2, he2, _, _, hu2⟩ := hg2.keeps s.allocator.length e he1
  have hls2 : s.allocator.length = (pre.filter HtmlToken.opensElement).length := by
    rw [hls]
    show 0 + _ = _
    omega
  have hlp2 : p.allocator.length =
      ((pre ++ tok :: post).filter HtmlToken.opensElement).length := by
    rw [hlp]
    show 0 + _ = _
    omega
  refine ⟨s, p, e2, hs, hp, hls2, hlp2, he2, ?_, ?_, ?_, ?_⟩
  · rw [hu2, hu]
    exact hnone
  · intro hz
    rw [hu2, hu]
    apply hnone.mpr
    cases hc : s.currElement with
    | none => rfl
    | some c =>
      have := hwfs.curr_lt c hc
      omega
  · intro u hu3
    rw [hu2, hu] at hu3
    exact hlt u hu3
  · unfold RootFirst at hrootp
    rw [hrootp, if_neg]
    rw [hlp2, List.filter_append, List.filter_cons]
    simp [hopen]

/-- C12, amended, on `<a></a><b>`: the element of `<b>` is created at index 1 while no
element is open, and its `up` is null; the root is the element at index 0. -/
theorem created_up_reference_witness :
    ∃ s p e, ParseInPlace sampleLookup HtmlParser.fresh (some (units "<a></a><b>")) 0
        [startTok sampleLookup "a" [], endTok sampleLookup "a"] = some (s, s.rootElement) ∧
      ParseInPlace sampleLookup HtmlParser.fresh (some (units "<a></a><b>")) 0
        ([startTok sampleLookup "a" [], endTok sampleLookup "a"] ++
          startTok sampleLookup "b" [] :: []) = some (p, p.rootElement) ∧
      s.allocator.length = 1 ∧ p.allocator[1]? = some e ∧ e.up = none ∧
      p.rootElement = some 0 := by
  obtain ⟨s, p, e, h1, h2, h3, _, h5, h6, _, _, h9⟩ :=
    created_up_reference sampleLookup HtmlParser.fresh (some (units "<a></a><b>")) 0
      [startTok sampleLookup "a" [], endTok sampleLookup "a"] []
      (startTok sampleLookup "b" []) (Or.inr rfl) (by decide) (by decide)
  have hs : s.allocator.length = 1 := h3
  rw [hs] at h5
  have hrun : ParseInPlace sampleLookup HtmlParser.fresh (some (units "<a></a><b>")) 0
      [startTok sampleLookup "a" [], endTok sampleLookup "a"] =
      some ({ startParser (some (units "<a></a><b>")) 0 with
        allocator := [plainElement 0 none none none none]
        rootElement := some 0
        elementsCount := 1 }, some 0) := by decide
  have hcurr : s.currElement = none := by
    have := (Prod.mk.inj (Option.some.inj (h1.symm.trans hrun))).1
    rw [this]
    rfl
  exact ⟨s, p, e, h1, h2, hs, h5, h6.mpr hcurr, h9⟩

/-! ## Child lists -/

theorem IsSibs.member_get {els : List HtmlElement} {o : Option Nat} {l : List Nat}
    (h : IsSibs els o l) : ∀ c ∈ l, ∃ e, els[c]? = some e := by
  induction h with
  | nil => intro c hc; exact absurd hc (List.not_mem_nil c)
  | cons i e rest he _ ih =>
    intro c hc
    rcases List.mem_cons.mp hc with h | h
    · exact ⟨e, h ▸ he⟩
    · exact ih c h

theorem IsSibs.functional {els : List HtmlElement} {o : Option Nat} {l1 : List Nat}
    (h1 : IsSibs els o l1) : ∀ l2, IsSibs els o l2 → l1 = l2 := by
  induction h1 with
  | nil => intro l2 h2; cases h2; rfl
  | cons i e rest he _ ih =>
    intro l2 h2
    cases h2 with
    | cons _ e2 rest2 he2 hrest2 =>
      have heq : e = e2 := Option.some.inj (he.symm.trans he2)
      subst heq
      rw [ih rest2 hrest2]

theorem IsSibs.siblings_eq {els : List HtmlElement} {o : Option Nat} {l : List Nat}
    (h : IsSibs els o l) : ∀ fuel, l.length ≤ fuel → siblings els fuel o = some l := by
  induction h with
  | nil => intro fuel _; cases fuel <;> rfl
  | cons i e rest he _ ih =>
    intro fuel hf
    cases fuel with
    | zero => simp at hf
    | succ f =>
      simp only [siblings, he, ih f (by simpa using hf)]

theorem IsSibs.of_siblings {els : List HtmlElement} :
    ∀ (fuel : Nat) (o : Option Nat) (l : List Nat), siblings els fuel o = some l →
      IsSibs els o l := by
  intro fuel
  induction fuel with
  | zero =>
    intro o l h
    cases o with
    | none => simp only [siblings, Option.some.injEq] at h; subst h; exact IsSibs.nil
    | some i => simp [siblings] at h
  | succ f ih =>
    intro o l h
    cases o with
    | none => simp only [siblings, Option.some.injEq] at h; subst h; exact IsSibs.nil
    | some i =>
      simp only [siblings] at h
      cases he : els[i]? with
      | none => simp [he] at h
      | some e =>
        cases hr : siblings els f e.next with
        | none => simp [he, hr] at h
        | some rest =>
          simp only [he, hr, Option.some.injEq] at h
          subst h
          exact IsSibs.cons i e rest he (ih _ _ hr)

theorem IsSibs.carry {els els2 : List HtmlElement} {o : Option Nat} {l : List Nat}
    (h : IsSibs els o l)
    (hagree : ∀ c ∈ l, ∀ e, els[c]? = some e → ∃ e2, els2[c]? = some e2 ∧ e2.next = e.next) :
    IsSibs els2 o l := by
  induction h with
  | nil => exact IsSibs.nil
  | cons i e rest he _ ih =>
    obtain ⟨e2, he2, hn⟩ := hagree i (List.mem_cons_self _ _) e he
    refine IsSibs.cons i e2 rest he2 ?_
    rw [hn]
    exact ih (fun c hc => hagree c (List.mem_cons_of_mem _ hc))

theorem IsSibs.lastSibling_eq {els : List HtmlElement} :
    ∀ (fuel d x : Nat) (l : List Nat), IsSibs els (some d) l →
      StartTag.lastSibling els fuel d = some x →
      ∃ init xe, l = init ++ [x] ∧ els[x]? = some xe ∧ xe.next = none := by
  intro fuel
  induction fuel with
  | zero => intro d x l _ h; simp [StartTag.lastSibling] at h
  | succ f ih =>
    intro d x l hs h
    cases hs with
    | cons _ e rest he hrest =>
      simp only [StartTag.lastSibling, he] at h
      cases hn : e.next with
      | none =>
        rw [hn] at h hrest
        simp only [Option.some.injEq] at h
        subst h
        cases hrest
        exact ⟨[], e, rfl, he, hn⟩
      | some nx =>
        rw [hn] at h hrest
        obtain ⟨init, xe, hl, hx, hxn⟩ := ih nx x rest hrest h
        exact ⟨d :: init, xe, by rw [hl]; rfl, hx, hxn⟩

theorem IsSibs.snoc {els els2 : List HtmlElement} {o : Option Nat} {init : List Nat}
    {x n : Nat} {ne : HtmlElement} (h : IsSibs els o (init ++ [x]))
    (hagree : ∀ c ∈ init, ∀ e, els[c]? = some e → ∃ e2, els2[c]? = some e2 ∧ e2.next = e.next)
    (hx : ∃ xe2, els2[x]? = some xe2 ∧ xe2.next = some n)
    (hn : els2[n]? = some ne) (hnn : ne.next = none) :
    IsSibs els2 o (init ++ [x, n]) := by
  induction init generalizing o with
  | nil =>
    cases h with
    | cons _ e rest he hrest =>
      obtain ⟨xe2, hxe2, hxn⟩ := hx
      refine IsSibs.cons x xe2 [n] hxe2 ?_
      rw [hxn]
      refine IsSibs.cons n ne [] hn ?_
      rw [hnn]
      exact IsSibs.nil
  | cons a init ih =>
    cases h with
    | cons _ e rest he hrest =>
      obtain ⟨e2, he2, hn2⟩ := hagree a (List.mem_cons_self _ _) e he
      refine IsSibs.cons a e2 _ he2 ?_
      rw [hn2]
      exact ih hrest (fun c hc => hagree c (List.mem_cons_of_mem _ hc))

theorem sorted_length_le (l : List Nat) (n : Nat) (hs : l.Pairwise (fun a b => a < b))
    (hb : ∀ x ∈ l, x < n) : l.length ≤ n := by
  have hnd : l.Nodup := hs.imp (fun h => Nat.ne_of_lt h)
  have hsub : l ⊆ List.range n := fun x hx => List.mem_range.mpr (hb x hx)
  have := (List.subperm_of_subset hnd hsub).length_le
  simpa using this

theorem HtmlElement.GetChildByTag.loop_nth (els : List HtmlElement) (tag : HtmlTag) :
    ∀ (fuel : Nat) (o : Option Nat) (idx : Int) (kids : List Nat), 0 ≤ idx →
      siblings els fuel o = some kids →
      HtmlElement.GetChildByTag.loop els tag fuel o idx =
        some ((childrenWithTag els kids tag)[idx.toNat]?) := by
  intro fuel
  induction fuel with
  | zero =>
    intro o idx kids _ h
    cases o with
    | none =>
      simp only [siblings, Option.some.injEq] at h
      subst h
      rfl
    | some i => simp [siblings] at h
  | succ f ih =>
    intro o idx kids hidx h
    cases o with
    | none =>
      simp only [siblings, Option.some.injEq] at h
      subst h
      rfl
    | some el =>
      simp only [siblings] at h
      cases he : els[el]? with
      | none => simp [he] at h
      | some e =>
        cases hr : siblings els f e.next with
        | none => simp [he, hr] at h
        | some rest =>
          simp only [he, hr, Option.some.injEq] at h
          subst h
          simp only [HtmlElement.GetChildByTag.loop, he]
          by_cases ht : tag = e.tag
          · have hhit : hitAt els (fun e => tag == e.tag) el = true := by
              simp [hitAt, he, ht]
            have hf : childrenWithTag els (el :: rest) tag =
                el :: childrenWithTag els rest tag := by
              unfold childrenWithTag
              rw [List.filter_cons_of_pos hhit]
            rw [if_pos ht, hf]
            by_cases h0 : 0 = idx
            · subst h0
              simp
            · rw [if_neg h0, ih e.next (idx - 1) rest (by omega) hr]
              have hsucc : idx.toNat = (idx - 1).toNat + 1 := by omega
              rw [hsucc, List.getElem?_cons_succ]
          · have hhit : ¬ hitAt els (fun e => tag == e.tag) el = true := by
              simp [hitAt, he, ht]
            have hf : childrenWithTag els (el :: rest) tag = childrenWithTag els rest tag := by
              unfold childrenWithTag
              rw [List.filter_cons_of_neg hhit]
            rw [if_neg ht, hf]
            exact ih e.next idx rest hidx hr

/-- C15: `GetChildByTag(tag, idx)` with `idx >= 0`, called on the element `self` stored at
`p` whose child list is `kids`, returns the element at position `idx` of the list of those
children, in sibling order, whose tag identifier is `tag`; it returns `nullptr` exactly
when fewer than `idx + 1` children have that tag; and what it returns is a member of the
child list with that tag, never an element further down. -/
theorem GetChildByTag_nth_match (els : List HtmlElement) (p : Nat) (self : HtmlElement)
    (tag : HtmlTag) (idx : Int) (kids : List Nat)
    (hp : els[p]? = some self) (hkids : childList els p = some kids) (hidx : 0 ≤ idx) :
    HtmlElement.GetChildByTag els self tag idx =
      some ((childrenWithTag els kids tag)[idx.toNat]?) ∧
    (HtmlElement.GetChildByTag els self tag idx = some none ↔
      (childrenWithTag els kids tag).length < idx.toNat + 1) ∧
    ∀ c, HtmlElement.GetChildByTag els self tag idx = some (some c) →
      c ∈ kids ∧ ∃ e, els[c]? = some e ∧ e.tag = tag := by
  unfold childList at hkids
  rw [hp] at hkids
  have hrun := HtmlElement.GetChildByTag.loop_nth els tag els.length self.down idx kids hidx hkids
  have hres : HtmlElement.GetChildByTag els self tag idx =
      some ((childrenWithTag els kids tag)[idx.toNat]?) := hrun
  refine ⟨hres, ?_, ?_⟩
  · rw [hres, Option.some.injEq, List.getElem?_eq_none_iff]
    omega
  · intro c hc
    rw [hres, Option.some.injEq] at hc
    have hmem : c ∈ childrenWithTag els kids tag := List.getElem?_mem hc
    unfold childrenWithTag at hmem
    obtain ⟨hk, hhit⟩ := List.mem_filter.mp hmem
    refine ⟨hk, ?_⟩
    unfold hitAt at hhit
    cases he : els[c]? with
    | none => simp [he] at hhit
    | some e =>
      simp only [he, beq_iff_eq] at hhit
      exact ⟨e, rfl, hhit.symm⟩

/-- C15 on the tree of `<ul><li>x</li><li><b>y</b></li></ul>`: the children of the `ul` are
the two `li`; `GetChildByTag(Tag_Li, 1)` returns the second one, `GetChildByTag(Tag_Li, 2)`
returns `nullptr`, and so does `GetChildByTag(Tag_B, 0)`: the `b` is a grandchild. -/
theorem GetChildByTag_nth_match_witness :
    HtmlElement.GetChildByTag (parsed sampleLookup "" tokensWellFormed).allocator
      (plainElement 6 none none (some 1) none) 4 1 = some (some 2) ∧
    HtmlElement.GetChildByTag (parsed sampleLookup "" tokensWellFormed).allocator
      (plainElement 6 none none (some 1) none) 4 2 = some none ∧
    HtmlElement.GetChildByTag (parsed sampleLookup "" tokensWellFormed).allocator
      (plainElement 6 none none (some 1) none) 1 0 = some none :=
  ⟨(GetChildByTag_nth_match (parsed sampleLookup "" tokensWellFormed).allocator 0
      (plainElement 6 none none (some 1) none) 4 1 [1, 2] (by decide) (by decide)
      (by decide)).1.trans (by decide),
   (GetChildByTag_nth_match (parsed sampleLookup "" tokensWellFormed).allocator 0
      (plainElement 6 none none (some 1) none) 4 2 [1, 2] (by decide) (by decide)
      (by decide)).2.1.mpr (by decide),
   (GetChildByTag_nth_match (parsed sampleLookup "" tokensWellFormed).allocator 0
      (plainElement 6 none none (some 1) none) 1 0 [1, 2] (by decide) (by decide)
      (by decide)).2.1.mpr (by decide)⟩

theorem IsSibs.of_null {els : List HtmlElement} {o : Option Nat} {l : List Nat}
    (h : IsSibs els o l) : o = none → l = [] := by
  cases h with
  | nil => intro _; rfl
  | cons i e rest he hrest => intro hc; exact Option.noConfusion hc

theorem IsSibs.eq_nil {els : List HtmlElement} {o : Option Nat} {l : List Nat}
    (h : IsSibs els o l) : l = [] → o = none := by
  cases h with
  | nil => intro _; rfl
  | cons i e rest he hrest => intro hc; exact List.noConfusion hc

theorem IsSibs.init_next {els : List HtmlElement} {init : List Nat} {x : Nat} :
    ∀ {o : Option Nat}, IsSibs els o (init ++ [x]) →
      (∀ c ∈ init, ∀ e, els[c]? = some e → e.next ≠ none) ∧
      ∃ xe, els[x]? = some xe ∧ xe.next = none := by
  induction init with
  | nil =>
    intro o h
    cases h with
    | cons _ e rest he hrest =>
      exact ⟨fun c hc => absurd hc (List.not_mem_nil c), e, he, hrest.eq_nil rfl⟩
  | cons a init ih =>
    intro o h
    cases h with
    | cons _ e rest he hrest =>
      obtain ⟨h1, h2⟩ := ih hrest
      refine ⟨?_, h2⟩
      intro c hc e2 he2
      rcases List.mem_cons.mp hc with hca | hca
      · subst hca
        have heq : e = e2 := Option.some.inj (he.symm.trans he2)
        subst heq
        intro hn
        have := hrest.of_null hn
        simp at this
      · exact h1 c hca e2 he2

theorem IsSibs.lastSibling {els : List HtmlElement} {init : List Nat} {x : Nat} :
    ∀ {d : Nat}, IsSibs els (some d) (init ++ [x]) →
      ∀ fuel, (init ++ [x]).length ≤ fuel → StartTag.lastSibling els fuel d = some x := by
  induction init with
  | nil =>
    intro d h fuel hf
    cases h with
    | cons _ e rest he hrest =>
      cases fuel with
      | zero => simp at hf
      | succ f =>
        have hn := hrest.eq_nil rfl
        simp only [StartTag.lastSibling, he, hn]
  | cons a init ih =>
    intro d h fuel hf
    cases h with
    | cons _ e rest he hrest =>
      cases fuel with
      | zero => simp at hf
      | succ f =>
        cases hn : e.next with
        | none =>
          have := hrest.of_null hn
          simp at this
        | some nx =>
          rw [hn] at hrest
          simp only [StartTag.lastSibling, he, hn]
          exact ih hrest f (by simpa using hf)

theorem StartTag.link_exact {els : List HtmlElement} (hl : LinksOK els) (ht : TreeLinked els)
    (new : HtmlElement) (parent : Option Nat) (self2 : HtmlParser)
    (hp : ∀ p, parent = some p → p < els.length)
    (halloc : self2.allocator = els ++ [new]) :
    ∃ arena, StartTag.link self2 parent els.length = some { self2 with allocator := arena } ∧
      StartTag.Linked els parent new arena := by
  have hbase : ∀ (i : Nat) (e0 : HtmlElement), els[i]? = some e0 →
      (els ++ [new])[i]? = some e0 := by
    intro i e0 h
    rw [List.getElem?_append_left (getElem?_lt h)]
    exact h
  have hnewat : (els ++ [new])[els.length]? = some new := by simp
  cases parent with
  | none =>
    refine ⟨els ++ [new], ?_, by simp, hnewat, ?_⟩
    · simp only [StartTag.link, ← halloc]
    · intro i e0 h
      rw [hbase i e0 h]
      simp [StartTag.relinked]
  | some p =>
    have hplt := hp p rfl
    obtain ⟨pe, hpe⟩ : ∃ pe, els[p]? = some pe := ⟨els[p], List.getElem?_eq_getElem hplt⟩
    obtain ⟨kids, hkids, hsorted, hmem⟩ := ht.kids p pe hpe
    have hpup : pe.up ≠ some p := by
      intro h
      have := hl.up_lt p pe p hpe h
      omega
    cases hd : pe.down with
    | none =>
      rw [hd] at hkids
      have hk : kids = [] := hkids.of_null rfl
      subst hk
      refine ⟨(els ++ [new]).set p { pe with down := some els.length }, ?_, ?_, ?_, ?_⟩
      · simp only [StartTag.link, halloc, hbase p pe hpe, hd]
      · simp
      · rw [List.getElem?_set, if_neg (by omega)]
        exact hnewat
      · intro i e0 h
        rw [List.getElem?_set]
        by_cases hpi : p = i
        · subst hpi
          have heq : pe = e0 := Option.some.inj (hpe.symm.trans h)
          subst heq
          have hlt2 : p < (els ++ [new]).length := by simp; omega
          simp only [hlt2, if_true, StartTag.relinked, hd, and_self, Option.some.injEq]
          rw [if_neg (fun hc => hpup hc.1)]
        · rw [if_neg hpi, hbase i e0 h]
          have hnot : ¬ (e0.up = some p) := by
            intro hu
            have := (hmem i).mpr ⟨e0, h, hu⟩
            exact absurd this (List.not_mem_nil i)
          have hne : ¬ (some p = some i) := fun hc => hpi (Option.some.inj hc)
          simp [StartTag.relinked, hnot, hne]
    | some d =>
      rw [hd] at hkids
      have hdlt := (hl.down_gt p pe d hpe hd).2
      rcases List.eq_nil_or_concat kids with hk | ⟨init, x, hk⟩
      · subst hk
        exact Option.noConfusion (hkids.eq_nil rfl)
      rw [List.concat_eq_append] at hk
      subst hk
      obtain ⟨hinit, xe, hxe, hxn⟩ := hkids.init_next
      have hxup : xe.up = some p := by
        obtain ⟨e, he, hu⟩ := (hmem x).mp (by simp)
        have heq : e = xe := Option.some.inj (he.symm.trans hxe)
        subst heq
        exact hu
      have hpx : p < x := hl.up_lt x xe p hxe hxup
      have hxlt : x < els.length := getElem?_lt hxe
      have hlen : (init ++ [x]).length ≤ els.length :=
        sorted_length_le _ _ hsorted (fun c hc => by
          obtain ⟨e, he⟩ := hkids.member_get c hc
          exact getElem?_lt he)
      have hsibs : IsSibs (els ++ [new]) (some d) (init ++ [x]) :=
        hkids.carry (fun c _ e he => ⟨e, hbase c e he, rfl⟩)
      have hlast := hsibs.lastSibling (els ++ [new]).length (by
        rw [List.length_append els [new], List.length_singleton]
        omega)
      refine ⟨(els ++ [new]).set x { xe with next := some els.length }, ?_, ?_, ?_, ?_⟩
      · simp only [StartTag.link, halloc, hbase p pe hpe, hd, hlast, hbase x xe hxe]
      · simp
      · rw [List.getElem?_set, if_neg (by omega)]
        exact hnewat
      · intro i e0 h
        rw [List.getElem?_set]
        by_cases hxi : x = i
        · subst hxi
          have heq : xe = e0 := Option.some.inj (hxe.symm.trans h)
          subst heq
          have hlt2 : x < (els ++ [new]).length := by simp; omega
          have hne : ¬ (some p = some x) := fun hc => by
            have := Option.some.inj hc
            omega
          simp [StartTag.relinked, hxup, hxn, hne]
          omega
        · rw [if_neg hxi, hbase i e0 h]
          have hdown : ¬ (some p = some i ∧ e0.down = none) := by
            rintro ⟨h1, h2⟩
            have hpi : p = i := Option.some.inj h1
            subst hpi
            have heq : pe = e0 := Option.some.inj (hpe.symm.trans h)
            subst heq
            rw [hd] at h2
            exact Option.noConfusion h2
          have hnext : ¬ (e0.up = some p ∧ some p ≠ none ∧ e0.next = none) := by
            rintro ⟨h1, _, h3⟩
            have hin : i ∈ init ++ [x] := (hmem i).mpr ⟨e0, h, h1⟩
            rcases List.mem_append.mp hin with h4 | h4
            · exact hinit i h4 e0 h h3
            · simp only [List.mem_singleton] at h4
              exact hxi h4.symm
          simp only [StartTag.relinked, if_neg hdown, if_neg hnext]

theorem StartTag.Linked.get {els arena : List HtmlElement} {parent : Option Nat}
    {new : HtmlElement} (h : StartTag.Linked els parent new arena) (c : Nat) (e : HtmlElement)
    (he : arena[c]? = some e) :
    (∃ e0, els[c]? = some e0 ∧ e = StartTag.relinked parent els.length c e0) ∨
      (c = els.length ∧ e = new) := by
  have hlt := getElem?_lt he
  rw [h.length_eq] at hlt
  by_cases hc : c < els.length
  · left
    refine ⟨els[c], List.getElem?_eq_getElem hc, ?_⟩
    have := h.old c els[c] (List.getElem?_eq_getElem hc)
    exact Option.some.inj (he.symm.trans this)
  · right
    have hcn : c = els.length := by omega
    subst hcn
    exact ⟨rfl, Option.some.inj (he.symm.trans h.new_eq)⟩

theorem StartTag.Linked.kids_step {els arena : List HtmlElement} {parent : Option Nat}
    {new : HtmlElement} (h : StartTag.Linked els parent new arena)
    (hnu : new.up = parent) (hnn : new.next = none)
    (q : Nat) (qe : HtmlElement) (kids : List Nat) (_hq : els[q]? = some qe)
    (hsibs : IsSibs els qe.down kids) (hkids : ChildrenOf els q kids) :
    IsSibs arena (StartTag.relinked parent els.length q qe).down
        (if parent = some q then kids ++ [els.length] else kids) ∧
      ChildrenOf arena q (if parent = some q then kids ++ [els.length] else kids) := by
  obtain ⟨hsorted, hmem⟩ := hkids
  have hklt : ∀ c ∈ kids, c < els.length := by
    intro c hc
    obtain ⟨e, he, _⟩ := (hmem c).mp hc
    exact getElem?_lt he
  constructor
  · by_cases hpq : parent = some q
    · rw [if_pos hpq]
      rcases List.eq_nil_or_concat kids with hk | ⟨init, x, hk⟩
      · subst hk
        have hd : qe.down = none := hsibs.eq_nil rfl
        have hdown : (StartTag.relinked parent els.length q qe).down = some els.length := by
          simp [StartTag.relinked, hpq, hd]
        rw [hdown]
        refine IsSibs.cons els.length new [] h.new_eq ?_
        rw [hnn]
        exact IsSibs.nil
      · rw [List.concat_eq_append] at hk
        subst hk
        obtain ⟨hinit, xe, hxe, hxn⟩ := hsibs.init_next
        have hd : qe.down ≠ none := by
          intro hc
          have := hsibs.of_null hc
          simp at this
        have hdown : (StartTag.relinked parent els.length q qe).down = qe.down := by
          simp [StartTag.relinked, hd]
        rw [hdown, List.append_assoc]
        refine hsibs.snoc ?_ ?_ h.new_eq hnn
        · intro c hc e he
          refine ⟨_, h.old c e he, ?_⟩
          have := hinit c hc e he
          simp [StartTag.relinked, this]
        · refine ⟨_, h.old x xe hxe, ?_⟩
          obtain ⟨e, he, hu⟩ := (hmem x).mp (by simp)
          have heq : e = xe := Option.some.inj (he.symm.trans hxe)
          subst heq
          simp [StartTag.relinked, hu, hpq, hxn]
    · rw [if_neg hpq]
      have hdown : (StartTag.relinked parent els.length q qe).down = qe.down := by
        simp [StartTag.relinked, hpq]
      rw [hdown]
      refine hsibs.carry ?_
      intro c hc e he
      refine ⟨_, h.old c e he, ?_⟩
      obtain ⟨e2, he2, hu⟩ := (hmem c).mp hc
      have heq : e2 = e := Option.some.inj (he2.symm.trans he)
      subst heq
      have hne : ¬ (e2.up = parent) := by
        rw [hu]
        exact fun hc => hpq hc.symm
      simp [StartTag.relinked, hne]
  · constructor
    · by_cases hpq : parent = some q
      · rw [if_pos hpq, List.pairwise_append]
        refine ⟨hsorted, List.pairwise_singleton _ _, ?_⟩
        intro a ha b hb
        rw [List.mem_singleton] at hb
        subst hb
        exact hklt a ha
      · rw [if_neg hpq]
        exact hsorted
    · intro c
      constructor
      · intro hc
        have hcase : c ∈ kids ∨ (parent = some q ∧ c = els.length) := by
          by_cases hpq : parent = some q
          · rw [if_pos hpq] at hc
            rcases List.mem_append.mp hc with h1 | h1
            · exact Or.inl h1
            · exact Or.inr ⟨hpq, List.mem_singleton.mp h1⟩
          · rw [if_neg hpq] at hc
            exact Or.inl hc
        rcases hcase with h1 | ⟨h1, h2⟩
        · obtain ⟨e, he, hu⟩ := (hmem c).mp h1
          exact ⟨_, h.old c e he, hu⟩
        · subst h2
          exact ⟨new, h.new_eq, hnu.trans h1⟩
      · rintro ⟨e, he, hu⟩
        rcases h.get c e he with ⟨e0, he0, heq⟩ | ⟨hcn, heq⟩
        · have hu0 : e0.up = some q := by
            rw [heq] at hu
            exact hu
          have := (hmem c).mpr ⟨e0, he0, hu0⟩
          split_ifs
          · exact List.mem_append_left _ this
          · exact this
        · subst heq
          have hpq : parent = some q := hnu.symm.trans hu
          rw [if_pos hpq, hcn]
          simp

theorem StartTag.Linked.treeLinked {els arena : List HtmlElement} {parent : Option Nat}
    {new : HtmlElement} (h : StartTag.Linked els parent new arena)
    (hl : LinksOK els) (ht : TreeLinked els)
    (hnu : new.up = parent) (hnd : new.down = none) (hnn : new.next = none)
    (hp : ∀ p, parent = some p → p < els.length) : TreeLinked arena := by
  constructor
  · intro p pe hpe
    rcases h.get p pe hpe with ⟨e0, he0, heq⟩ | ⟨hcn, heq⟩
    · obtain ⟨kids, hsibs, hkids⟩ := ht.kids p e0 he0
      subst heq
      exact ⟨_, h.kids_step hnu hnn p e0 kids he0 hsibs hkids⟩
    · subst heq hcn
      refine ⟨[], ?_, List.Pairwise.nil, ?_⟩
      · rw [hnd]
        exact IsSibs.nil
      · intro c
        refine ⟨fun hc => absurd hc (List.not_mem_nil c), ?_⟩
        rintro ⟨e, he, hu⟩
        exfalso
        rcases h.get c e he with ⟨e0, he0, heq⟩ | ⟨hcn, heq⟩
        · have hu0 : e0.up = some els.length := by
            rw [heq] at hu
            exact hu
          have h1 := hl.up_lt c e0 els.length he0 hu0
          have h2 := getElem?_lt he0
          omega
        · subst heq
          have := hp els.length (hnu.symm.trans hu)
          omega
  · intro i e he hu
    rcases h.get i e he with ⟨e0, he0, heq⟩ | ⟨hcn, heq⟩
    · have hu0 : e0.up = none := by
        rw [heq] at hu
        exact hu
      have hn0 := ht.orphan i e0 he0 hu0
      rw [heq]
      by_cases hpn : parent = none
      · simp [StartTag.relinked, hn0, hpn]
      · have : ¬ (e0.up = parent) := by
          rw [hu0]
          exact fun hc => hpn hc.symm
        simp [StartTag.relinked, hn0, this]
    · subst heq
      exact hnn

theorem TreeLinked.congr {els els2 : List HtmlElement} (ht : TreeLinked els)
    (hlen : els2.length = els.length)
    (hagree : ∀ (i : Nat) (e : HtmlElement), els[i]? = some e →
      ∃ e2, els2[i]? = some e2 ∧ e2.up = e.up ∧ e2.down = e.down ∧ e2.next = e.next) :
    TreeLinked els2 := by
  have hback : ∀ (i : Nat) (e2 : HtmlElement), els2[i]? = some e2 →
      ∃ e, els[i]? = some e ∧ e2.up = e.up ∧ e2.down = e.down ∧ e2.next = e.next := by
    intro i e2 he2
    have hlt := getElem?_lt he2
    rw [hlen] at hlt
    obtain ⟨e3, he3, h1, h2, h3⟩ := hagree i els[i] (List.getElem?_eq_getElem hlt)
    have heq : e3 = e2 := Option.some.inj (he3.symm.trans he2)
    subst heq
    exact ⟨els[i], List.getElem?_eq_getElem hlt, h1, h2, h3⟩
  constructor
  · intro p pe2 hpe2
    obtain ⟨pe, hpe, _, hd, _⟩ := hback p pe2 hpe2
    obtain ⟨kids, hsibs, hsorted, hmem⟩ := ht.kids p pe hpe
    refine ⟨kids, ?_, hsorted, ?_⟩
    · rw [hd]
      exact hsibs.carry (fun c _ e he => by
        obtain ⟨e2, he2, _, _, hn⟩ := hagree c e he
        exact ⟨e2, he2, hn⟩)
    · intro c
      rw [hmem c]
      constructor
      · rintro ⟨e, he, hu⟩
        obtain ⟨e2, he2, hu2, _, _⟩ := hagree c e he
        exact ⟨e2, he2, hu2.trans hu⟩
      · rintro ⟨e2, he2, hu2⟩
        obtain ⟨e, he, hu, _, _⟩ := hback c e2 he2
        exact ⟨e, he, hu.symm.trans hu2⟩
  · intro i e2 he2 hu2
    obtain ⟨e, he, hu, _, hn⟩ := hback i e2 he2
    rw [hn]
    exact ht.orphan i e he (hu.symm.trans hu2)

theorem TreeLinked.childLists {els : List HtmlElement} (ht : TreeLinked els) :
    ChildLists els := by
  intro p hp
  obtain ⟨kids, hsibs, hkids⟩ := ht.kids p els[p] (List.getElem?_eq_getElem hp)
  refine ⟨kids, ?_, hkids⟩
  unfold childList
  rw [List.getElem?_eq_getElem hp]
  exact hsibs.siblings_eq els.length (sorted_length_le _ _ hkids.1 (fun c hc => by
    obtain ⟨e, he⟩ := hsibs.member_get c hc
    exact getElem?_lt he))

theorem startParser_treeInv (d : Option (List Nat)) (codepage : Nat) :
    TreeInv (startParser d codepage) := by
  refine ⟨startParser_wellLinked d codepage, startParser_rootFirst d codepage, ?_, ?_⟩
  · intro p pe h
    simp [startParser, HtmlParser.fresh] at h
  · intro p pe h
    simp [startParser, HtmlParser.fresh] at h

theorem StartTag_treeInv (L : HtmlParserLookup) (self : HtmlParser) (tok : HtmlToken)
    (hinv : TreeInv self) :
    ∃ self2 parent, StartTag L self tok = some self2 ∧ TreeInv self2 ∧
      FindParent L self tok = some parent ∧
      self2.currElement = some self.allocator.length ∧
      StartTag.Linked self.allocator parent (newElement L self tok parent) self2.allocator := by
  obtain ⟨chain, hchain⟩ := hinv.wl.chain_exists
  have hfp := FindParent_eq L self tok chain hinv.wl hchain
  have hplt := specParent_lt L self tok chain hinv.wl hchain
  obtain ⟨arena, hlink, hlinked⟩ :=
    StartTag.link_exact hinv.wl.links hinv.tree
      (newElement L self tok (specParent L self chain tok)) (specParent L self chain tok)
      (createdParser L self tok (specParent L self chain tok)) hplt rfl
  have hrun : StartTag L self tok =
      some { createdParser L self tok (specParent L self chain tok) with
        allocator := arena } := by
    unfold StartTag
    rw [hfp]
    simp only [StartTag.create_eq]
    exact hlink
  obtain ⟨s2, _, _, hs2, hwf2, hroot2, _⟩ := StartTag_grows L self tok hinv.wl hinv.root
  have heq := Option.some.inj (hs2.symm.trans hrun)
  subst heq
  exact ⟨_, specParent L self chain tok, hrun,
    ⟨hwf2, hroot2, hlinked.treeLinked hinv.wl.links hinv.tree rfl rfl rfl hplt⟩, hfp, rfl,
    hlinked⟩

theorem ParseInPlace.appendAttrs_treeInv (self : HtmlParser) (attrs : List AttrInfo)
    (c : Nat) (hinv : TreeInv self) (hc : self.currElement = some c) :
    ∃ self2, ParseInPlace.appendAttrs self attrs = some self2 ∧ TreeInv self2 ∧
      self2.currElement = self.currElement := by
  have hlt := hinv.wl.curr_lt c hc
  obtain ⟨e, he⟩ : ∃ e, self.allocator[c]? = some e :=
    ⟨self.allocator[c], List.getElem?_eq_getElem hlt⟩
  obtain ⟨s2, hs2, hwf2, hroot2, _, _, _⟩ :=
    ParseInPlace.appendAttrs_grows self attrs c hinv.wl hinv.root hc
  have h1 := ParseInPlace.appendAttrs_eq attrs self c e hc he
  have heq := Option.some.inj (hs2.symm.trans h1)
  subst heq
  refine ⟨_, h1, ⟨hwf2, hroot2, ?_⟩, rfl⟩
  refine hinv.tree.congr (by simp) ?_
  intro i e0 he0
  show ∃ e2, (self.allocator.set c
      { e with firstAttr := (attrs.map attrRecord).reverse ++ e.firstAttr })[i]? = some e2 ∧ _
  rw [List.getElem?_set]
  by_cases hci : c = i
  · subst hci
    rw [he] at he0
    cases he0
    simp only [if_true, hlt]
    exact ⟨_, rfl, rfl, rfl, rfl⟩
  · rw [if_neg hci]
    exact ⟨e0, he0, rfl, rfl, rfl⟩

theorem CloseTag_treeInv (L : HtmlParserLookup) (self : HtmlParser) (tok : HtmlToken)
    (hinv : TreeInv self) :
    ∃ self2, CloseTag L self tok = some self2 ∧ TreeInv self2 ∧
      self2.allocator = self.allocator := by
  obtain ⟨s2, h1, hwf2, hroot2, _, halloc⟩ := CloseTag_grows L self tok hinv.wl hinv.root
  refine ⟨s2, h1, ⟨hwf2, hroot2, ?_⟩, halloc⟩
  rw [halloc]
  exact hinv.tree

theorem ParseInPlace.tagToken_treeInv (L : HtmlParserLookup) (self : HtmlParser)
    (tok : HtmlToken) (hinv : TreeInv self) :
    ∃ self2, ParseInPlace.tagToken L self tok = some self2 ∧ TreeInv self2 := by
  unfold ParseInPlace.tagToken
  by_cases hend : tok.IsEndTag = true
  · simp only [hend, Bool.not_true, Bool.false_eq_true, if_false]
    split_ifs
    · obtain ⟨s2, h1, h2, _⟩ := CloseTag_treeInv L self tok hinv
      exact ⟨s2, h1, h2⟩
    · exact ⟨self, rfl, hinv⟩
  · have hend2 : tok.IsEndTag = false := Bool.eq_false_iff.mpr hend
    simp only [hend2, Bool.not_false, if_true]
    obtain ⟨s1, parent, h1, hinv1, _, hc1, _⟩ := StartTag_treeInv L self tok hinv
    obtain ⟨s2, h2, hinv2, _⟩ :=
      ParseInPlace.appendAttrs_treeInv s1 tok.attrs self.allocator.length hinv1 hc1
    simp only [h1, h2]
    split_ifs
    · obtain ⟨s3, h3, hinv3, _⟩ := CloseTag_treeInv L s2 tok hinv2
      exact ⟨s3, h3, hinv3⟩
    · exact ⟨s2, rfl, hinv2⟩

theorem ParseInPlace.loop_treeInv (L : HtmlParserLookup) (toks : List HtmlToken) :
    ∀ (self : HtmlParser), TreeInv self →
      ∃ self2 root, ParseInPlace.loop L self toks = some (self2, root) ∧ TreeInv self2 ∧
        (root = none ∨ root = self2.rootElement) := by
  induction toks with
  | nil => intro self hinv; exact ⟨self, self.rootElement, rfl, hinv, Or.inr rfl⟩
  | cons tok rest ih =>
    intro self hinv
    rw [ParseInPlace.loop]
    by_cases herr : tok.IsError = true
    · simp only [herr, if_true]
      have hinv1 : ∀ err, TreeInv
          (ParseError { self with errorContext := some tok.s } err).1 := by
        intro err
        exact ⟨⟨hinv.wl.links, hinv.wl.curr_lt, hinv.wl.root_lt⟩, hinv.root, hinv.tree⟩
      cases tok.error
      · exact ⟨_, _, rfl, hinv1 _, Or.inl rfl⟩
      · exact ⟨_, _, rfl, hinv1 _, Or.inl rfl⟩
      · exact ⟨_, _, rfl, hinv1 _, Or.inl rfl⟩
      · exact ⟨_, _, rfl, hinv1 _, Or.inl rfl⟩
    · simp only [herr, Bool.false_eq_true, if_false]
      by_cases htag : tok.IsTag = true
      · simp only [htag, Bool.not_true, Bool.false_eq_true, if_false]
        obtain ⟨s1, h1, hinv1⟩ := ParseInPlace.tagToken_treeInv L self tok hinv
        simp only [h1]
        exact ih s1 hinv1
      · simp only [htag, Bool.not_false, if_true]
        exact ih self hinv

theorem siblings_none (els : List HtmlElement) (fuel : Nat) : siblings els fuel none = some [] := by
  cases fuel <;> rfl

theorem childList_of_isSibs {els : List HtmlElement} {q : Nat} {qe : HtmlElement}
    {kids : List Nat} (hq : els[q]? = some qe) (hsibs : IsSibs els qe.down kids)
    (hkids : ChildrenOf els q kids) : childList els q = some kids := by
  unfold childList
  rw [hq]
  exact hsibs.siblings_eq els.length (sorted_length_le _ _ hkids.1 (fun c hc => by
    obtain ⟨e, he⟩ := hsibs.member_get c hc
    exact getElem?_lt he))

theorem TreeLinked.of_childList {els : List HtmlElement} (ht : TreeLinked els) {q : Nat}
    {kids : List Nat} (h : childList els q = some kids) :
    ∃ qe, els[q]? = some qe ∧ IsSibs els qe.down kids ∧ ChildrenOf els q kids := by
  unfold childList at h
  cases hq : els[q]? with
  | none => simp [hq] at h
  | some qe =>
    simp only [hq] at h
    have hsibs := IsSibs.of_siblings _ _ _ h
    obtain ⟨kids0, hsibs0, hkids0⟩ := ht.kids q qe hq
    have := hsibs0.functional kids hsibs
    subst this
    exact ⟨qe, rfl, hsibs, hkids0⟩

/-- C11: the tree-link invariant holds after every token sequence, so after every token
step of `ParseInPlace`, and `StartTag` keeps it by appending.  Let `p` be the parser after
`ParseInPlace` has run on any token sequence.  Then every element of the arena has a child
list that holds exactly the elements whose `up` is that element, in creation order
(`ChildLists`); an element whose `up` is `u` occurs exactly once in the child list of `u`
and in no other child list; and `StartTag` on `p`, for any token, stores the new element
under the parent that `FindParent` returns, makes it `currElement`, gives it an empty child
list, appends it to the child list of the parent and leaves every other child list as it
was, the invariant holding again afterwards. -/
theorem ParseInPlace_keeps_child_lists (L : HtmlParserLookup) (self : HtmlParser)
    (d : Option (List Nat)) (codepage : Nat) (toks : List HtmlToken)
    (hself : self.html.isSome = true ∨ self = HtmlParser.fresh) :
    ∃ p root, ParseInPlace L self d codepage toks = some (p, root) ∧
      ChildLists p.allocator ∧
      (∀ (c : Nat) (e : HtmlElement) (u : Nat), p.allocator[c]? = some e → e.up = some u →
        ∃ kids, childList p.allocator u = some kids ∧ kids.count c = 1 ∧
          ∀ q kq, childList p.allocator q = some kq → c ∈ kq → q = u) ∧
      ∀ tok : HtmlToken, ∃ parent s1 e, FindParent L p tok = some parent ∧
        StartTag L p tok = some s1 ∧
        s1.currElement = some p.allocator.length ∧
        s1.allocator[p.allocator.length]? = some e ∧ e.up = parent ∧
        childList s1.allocator p.allocator.length = some [] ∧
        ChildLists s1.allocator ∧
        ∀ q kids, childList p.allocator q = some kids →
          childList s1.allocator q =
            some (if parent = some q then kids ++ [p.allocator.length] else kids) := by
  rw [ParseInPlace_eq_loop L self d codepage toks hself]
  obtain ⟨p, root, hrun, hinv, _⟩ :=
    ParseInPlace.loop_treeInv L toks (startParser d codepage) (startParser_treeInv d codepage)
  refine ⟨p, root, hrun, hinv.tree.childLists, ?_, ?_⟩
  · intro c e u he hu
    have hult : u < p.allocator.length := by
      have h1 := hinv.wl.links.up_lt c e u he hu
      have h2 := getElem?_lt he
      omega
    obtain ⟨kids, hcl, hsorted, hmem⟩ := hinv.tree.childLists u hult
    refine ⟨kids, hcl, ?_, ?_⟩
    · exact List.count_eq_one_of_mem (hsorted.imp (fun h => Nat.ne_of_lt h))
        ((hmem c).mpr ⟨e, he, hu⟩)
    · intro q kq hq hc
      obtain ⟨_, _, _, _, hmemq⟩ := hinv.tree.of_childList hq
      obtain ⟨e2, he2, hu2⟩ := (hmemq c).mp hc
      have heq : e2 = e := Option.some.inj (he2.symm.trans he)
      subst heq
      exact Option.some.inj (hu2.symm.trans hu)
  · intro tok
    obtain ⟨s1, parent, hs1, hinv1, hfp, hc1, hlinked⟩ := StartTag_treeInv L p tok hinv
    refine ⟨parent, s1, newElement L p tok parent, hfp, hs1, hc1, hlinked.new_eq, rfl, ?_,
      hinv1.tree.childLists, ?_⟩
    · unfold childList
      rw [hlinked.new_eq]
      exact siblings_none _ _
    · intro q kids hq
      obtain ⟨qe, hqe, hsibs, hkids⟩ := hinv.tree.of_childList hq
      obtain ⟨h1, h2⟩ := hlinked.kids_step rfl rfl q qe kids hqe hsibs hkids
      exact childList_of_isSibs (hlinked.old q qe hqe) h1 h2

/-- C11 on `<ul><li>a<li>b`, the second `li` being attached to the `ul` by
`FindParent`: the child list of the `ul` is the two `li` in creation order, and a further
`<li>` would be appended to it. -/
theorem ParseInPlace_keeps_child_lists_witness :
    ∃ p root, ParseInPlace sampleLookup HtmlParser.fresh (some (units "<ul><li>a<li>b")) 0
        tokensOpenList = some (p, root) ∧
      ChildLists p.allocator ∧ childList p.allocator 0 = some [1, 2] ∧
      ∃ s1, StartTag sampleLookup p (startTok sampleLookup "li" []) = some s1 ∧
        childList s1.allocator 0 = some [1, 2, 3] := by
  obtain ⟨p, root, hrun, hcl, _, hstart⟩ :=
    ParseInPlace_keeps_child_lists sampleLookup HtmlParser.fresh
      (some (units "<ul><li>a<li>b")) 0 tokensOpenList (Or.inr rfl)
  obtain ⟨parent, s1, e, hfp, hs1, _, _, _, _, _, hkeep⟩ :=
    hstart (startTok sampleLookup "li" [])
  have hp : p = parsed sampleLookup "<ul><li>a<li>b" tokensOpenList := by
    unfold parsed
    rw [hrun]
  have hkids : childList p.allocator 0 = some [1, 2] := by
    rw [hp]
    decide
  have hpar : parent = some 0 := by
    rw [hp] at hfp
    have : FindParent sampleLookup (parsed sampleLookup "<ul><li>a<li>b" tokensOpenList)
        (startTok sampleLookup "li" []) = some (some 0) := by decide
    exact Option.some.inj (hfp.symm.trans this)
  have hlen : p.allocator.length = 3 := by
    rw [hp]
    decide
  have := hkeep 0 [1, 2] hkids
  rw [if_pos hpar, hlen] at this
  exact ⟨p, root, hrun, hcl, hkids, s1, hs1, this⟩

/-! ## Finding elements by name -/

theorem FindElementByNameNS.backup_none (els : List HtmlElement) :
    FindElementByNameNS.backup els none = some none := by
  unfold FindElementByNameNS.backup
  cases els.length <;> rfl

theorem FindElementByNameNS.backup_some {els : List HtmlElement} (hl : LinksOK els)
    (i : Nat) (e : HtmlElement) (he : els[i]? = some e) :
    FindElementByNameNS.backup els (some i) =
      if e.next.isSome then some e.next else FindElementByNameNS.backup els e.up := by
  have hi := getElem?_lt he
  obtain ⟨rest, hrest⟩ := IsChain.exists hl i e.up (by
    intro p hp
    have := hl.up_lt i e p he hp
    exact ⟨this, by omega⟩)
  have hchain : IsChain els (some i) (i :: rest) := IsChain.cons i e rest he hrest
  unfold FindElementByNameNS.backup
  rw [searchUp_eq_find _ hchain els.length (IsChain.length_le_arena hl hchain),
    searchUp_eq_find _ hrest els.length (IsChain.length_le_arena hl hrest)]
  simp only [List.find?_cons, hitAt, he]
  cases hn : e.next.isSome with
  | true => simp [he]
  | false => simp

theorem preorder_none (els : List HtmlElement) (fuel : Nat) : preorder els fuel none = some [] := by
  cases fuel <;> rfl

theorem preorder_total {els : List HtmlElement} (hl : LinksOK els) :
    ∀ (fuel : Nat) (o : Option Nat), (∀ i, o = some i → i < els.length ∧ els.length - i ≤ fuel) →
      ∃ l, preorder els fuel o = some l := by
  intro fuel
  induction fuel with
  | zero =>
    intro o ho
    cases o with
    | none => exact ⟨[], rfl⟩
    | some i =>
      have := ho i rfl
      omega
  | succ f ih =>
    intro o ho
    cases o with
    | none => exact ⟨[], rfl⟩
    | some i =>
      obtain ⟨h1, h2⟩ := ho i rfl
      obtain ⟨below, hb⟩ := ih els[i].down (by
        intro d hd
        have := hl.down_gt i els[i] d (List.getElem?_eq_getElem h1) hd
        omega)
      obtain ⟨sibs, hs⟩ := ih els[i].next (by
        intro d hd
        have := hl.next_gt i els[i] d (List.getElem?_eq_getElem h1) hd
        omega)
      refine ⟨i :: (below ++ sibs), ?_⟩
      simp only [preorder, List.getElem?_eq_getElem h1, hb, hs]

theorem preorder_head {els : List HtmlElement} :
    ∀ (fuel i : Nat) (l : List Nat), preorder els fuel (some i) = some l →
      ∃ rest, l = i :: rest := by
  intro fuel i l h
  cases fuel with
  | zero => simp [preorder] at h
  | succ f =>
    simp only [preorder] at h
    cases he : els[i]? with
    | none => simp [he] at h
    | some e =>
      cases hb : preorder els f e.down with
      | none => simp [he, hb] at h
      | some below =>
        cases hs : preorder els f e.next with
        | none => simp [he, hb, hs] at h
        | some sibs =>
          simp only [he, hb, hs, Option.some.injEq] at h
          exact ⟨below ++ sibs, h.symm⟩

theorem Follows.glue {els : List HtmlElement} {l1 l2 : List Nat} {cont : Option Nat}
    (h1 : Follows els l1 (headOr l2 cont)) (h2 : Follows els l2 cont) :
    Follows els (l1 ++ l2) cont := by
  induction l1 with
  | nil => exact h2
  | cons x rest ih =>
    obtain ⟨⟨e, he, hf⟩, hrest⟩ := h1
    refine ⟨⟨e, he, ?_⟩, ih hrest⟩
    rw [hf]
    cases rest with
    | nil => rfl
    | cons y t => rfl

theorem Follows.of_append {els : List HtmlElement} {l1 l2 : List Nat} {cont : Option Nat}
    (h : Follows els (l1 ++ l2) cont) : Follows els l2 cont := by
  induction l1 with
  | nil => exact h
  | cons x rest ih => exact ih h.2

theorem Follows.determined {els : List HtmlElement} :
    ∀ (l1 l2 : List Nat), Follows els l1 none → Follows els l2 none →
      headOr l1 none = headOr l2 none → l1 = l2 := by
  intro l1
  induction l1 with
  | nil =>
    intro l2 _ _ hh
    cases l2 with
    | nil => rfl
    | cons y t => exact Option.noConfusion hh
  | cons x t1 ih =>
    intro l2 h1 h2 hh
    cases l2 with
    | nil => exact Option.noConfusion hh
    | cons y t2 =>
      have hxy : x = y := Option.some.inj hh
      subst hxy
      obtain ⟨⟨e1, he1, hf1⟩, hr1⟩ := h1
      obtain ⟨⟨e2, he2, hf2⟩, hr2⟩ := h2
      have heq : e1 = e2 := Option.some.inj (he1.symm.trans he2)
      subst heq
      rw [ih t2 hr1 hr2 (Option.some.inj (hf1.symm.trans hf2))]

theorem Follows.nodup {els : List HtmlElement} :
    ∀ (l : List Nat), Follows els l none → l.Nodup := by
  intro l
  induction l with
  | nil => intro _; exact List.nodup_nil
  | cons x rest ih =>
    intro h
    refine List.nodup_cons.mpr ⟨?_, ih h.2⟩
    intro hx
    obtain ⟨a, b, hab⟩ := List.append_of_mem hx
    obtain ⟨⟨e, he, hf⟩, hrest⟩ := h
    have hsuf : Follows els (x :: b) none := by
      rw [hab] at hrest
      exact hrest.of_append
    obtain ⟨⟨e2, he2, hf2⟩, hb⟩ := hsuf
    have heq : e = e2 := Option.some.inj (he.symm.trans he2)
    subst heq
    have := Follows.determined rest b hrest hb (Option.some.inj (hf.symm.trans hf2))
    rw [this] at hab
    have hlen := congrArg List.length hab
    simp at hlen
    omega

theorem IsSibs.next_mem {els : List HtmlElement} {o : Option Nat} {l : List Nat}
    (h : IsSibs els o l) : ∀ c ∈ l, ∀ e, els[c]? = some e → ∀ nx, e.next = some nx →
      nx ∈ l := by
  induction h with
  | nil => intro c hc; exact absurd hc (List.not_mem_nil c)
  | cons i e rest he hrest ih =>
    intro c hc e2 he2 nx hnx
    rcases List.mem_cons.mp hc with h1 | h1
    · subst h1
      have heq : e = e2 := Option.some.inj (he.symm.trans he2)
      subst heq
      rw [hnx] at hrest
      cases hrest with
      | cons _ e3 rest3 he3 hrest3 =>
        exact List.mem_cons_of_mem _ (List.mem_cons_self _ _)
    · exact List.mem_cons_of_mem _ (ih c h1 e2 he2 nx hnx)

theorem TreeLinked.down_up {els : List HtmlElement} (ht : TreeLinked els) (i : Nat)
    (e : HtmlElement) (d : Nat) (he : els[i]? = some e) (hd : e.down = some d) :
    ∃ ed, els[d]? = some ed ∧ ed.up = some i := by
  obtain ⟨kids, hsibs, _, hmem⟩ := ht.kids i e he
  rw [hd] at hsibs
  cases hsibs with
  | cons _ e2 rest he2 hrest => exact (hmem d).mp (List.mem_cons_self _ _)

theorem TreeLinked.next_up {els : List HtmlElement} (hl : LinksOK els) (ht : TreeLinked els)
    (i : Nat) (e : HtmlElement) (nx : Nat) (he : els[i]? = some e) (hn : e.next = some nx) :
    ∃ en, els[nx]? = some en ∧ en.up = e.up := by
  cases hu : e.up with
  | none =>
    have := ht.orphan i e he hu
    rw [hn] at this
    exact Option.noConfusion this
  | some p =>
    have hp := hl.up_lt i e p he hu
    have hi := getElem?_lt he
    obtain ⟨kids, hsibs, _, hmem⟩ :=
      ht.kids p els[p] (List.getElem?_eq_getElem (by omega))
    have hin : i ∈ kids := (hmem i).mpr ⟨e, he, hu⟩
    exact (hmem nx).mp (hsibs.next_mem i hin e he nx hn)

theorem preorder_follows {els : List HtmlElement} (hl : LinksOK els) (ht : TreeLinked els) :
    ∀ (fuel : Nat) (o : Option Nat) (l : List Nat), preorder els fuel o = some l →
      ∀ (u cont : Option Nat), (∀ i e, o = some i → els[i]? = some e → e.up = u) →
        FindElementByNameNS.backup els u = some cont → Follows els l cont := by
  intro fuel
  induction fuel with
  | zero =>
    intro o l h u cont _ _
    cases o with
    | none =>
      simp only [preorder, Option.some.injEq] at h
      subst h
      trivial
    | some i => simp [preorder] at h
  | succ f ih =>
    intro o l h u cont hup hback
    cases o with
    | none =>
      simp only [preorder, Option.some.injEq] at h
      subst h
      trivial
    | some i =>
      simp only [preorder] at h
      cases he : els[i]? with
      | none => simp [he] at h
      | some e =>
        cases hb : preorder els f e.down with
        | none => simp [he, hb] at h
        | some below =>
          cases hs : preorder els f e.next with
          | none => simp [he, hb, hs] at h
          | some sibs =>
            simp only [he, hb, hs, Option.some.injEq] at h
            subst h
            have hu : e.up = u := hup i e rfl he
            have hbacki : FindElementByNameNS.backup els (some i) =
                some (headOr sibs cont) := by
              rw [FindElementByNameNS.backup_some hl i e he]
              cases hn : e.next with
              | none =>
                rw [hn, preorder_none] at hs
                cases hs
                simp only [Option.isSome_none, Bool.false_eq_true, if_false, hu, hback]
                rfl
              | some nx =>
                rw [hn] at hs
                obtain ⟨rest, hrest⟩ := preorder_head f nx sibs hs
                subst hrest
                rfl
            have hbelow : Follows els below (headOr sibs cont) :=
              ih e.down below hb (some i) (headOr sibs cont) (by
                intro j ej hj hej
                obtain ⟨ed, hed, hud⟩ := ht.down_up i e j he hj
                have heq : ed = ej := Option.some.inj (hed.symm.trans hej)
                subst heq
                exact hud) hbacki
            have hsibs : Follows els sibs cont :=
              ih e.next sibs hs u cont (by
                intro j ej hj hej
                obtain ⟨en, hen, hun⟩ := ht.next_up hl i e j he hj
                have heq : en = ej := Option.some.inj (hen.symm.trans hej)
                subst heq
                exact hun.trans hu) hback
            refine ⟨⟨e, he, ?_⟩, Follows.glue hbelow hsibs⟩
            unfold FindElementByNameNS.findNext
            cases hd : e.down with
            | some d =>
              rw [hd] at hb
              obtain ⟨rest, hrest⟩ := preorder_head f d below hb
              subst hrest
              rfl
            | none =>
              rw [hd, preorder_none] at hb
              cases hb
              cases hn : e.next with
              | some nx =>
                rw [hn] at hs
                obtain ⟨rest, hrest⟩ := preorder_head f nx sibs hs
                subst hrest
                rfl
              | none =>
                rw [hn, preorder_none] at hs
                cases hs
                simp only [hu, hback]
                rfl

theorem documentOrder_follows {parser : HtmlParser} (hinv : TreeInv parser) :
    ∃ order, documentOrder parser parser.rootElement = some order ∧
      Follows parser.allocator order none ∧
      (parser.rootElement = none → order = []) ∧
      (∀ r, parser.rootElement = some r → ∃ rest, order = r :: rest) := by
  cases hr : parser.rootElement with
  | none => exact ⟨[], rfl, trivial, fun _ => rfl, fun r h => Option.noConfusion h⟩
  | some r =>
    have hrlt := hinv.wl.root_lt r hr
    have he : parser.allocator[r]? = some parser.allocator[r] :=
      List.getElem?_eq_getElem hrlt
    have hr0 : r = 0 := by
      have := hinv.root
      unfold RootFirst at this
      rw [hr] at this
      split_ifs at this
      exact Option.some.inj this
    have hup : parser.allocator[r].up = none := by
      cases hu : parser.allocator[r].up with
      | none => rfl
      | some p =>
        have := hinv.wl.links.up_lt r _ p he hu
        omega
    have hnext := hinv.tree.orphan r _ he hup
    obtain ⟨below, hb⟩ := preorder_total hinv.wl.links parser.allocator.length
      parser.allocator[r].down (by
        intro d hd
        have := hinv.wl.links.down_gt r _ d he hd
        omega)
    have hbackr : FindElementByNameNS.backup parser.allocator (some r) = some none := by
      rw [FindElementByNameNS.backup_some hinv.wl.links r _ he, hnext, hup,
        FindElementByNameNS.backup_none]
      rfl
    have hbelow : Follows parser.allocator below none :=
      preorder_follows hinv.wl.links hinv.tree _ _ below hb (some r) none (by
        intro j ej hj hej
        obtain ⟨ed, hed, hud⟩ := hinv.tree.down_up r _ j he hj
        have heq : ed = ej := Option.some.inj (hed.symm.trans hej)
        subst heq
        exact hud) hbackr
    refine ⟨r :: below, ?_, ⟨⟨_, he, ?_⟩, hbelow⟩, fun h => Option.noConfusion h,
      fun r2 h => ⟨below, by rw [Option.some.inj h]⟩⟩
    · simp only [documentOrder, he, hb]
    · unfold FindElementByNameNS.findNext
      cases hd : parser.allocator[r].down with
      | some d =>
        rw [hd] at hb
        obtain ⟨rest, hrest⟩ := preorder_head _ d below hb
        subst hrest
        rfl
      | none =>
        rw [hd, preorder_none] at hb
        cases hb
        simp only [hnext, hup, FindElementByNameNS.backup_none]
        rfl

theorem FindElementByNameNS.loop_find (L : HtmlParserLookup) (els : List HtmlElement)
    (name : List Nat) (ns : Option (List Nat)) :
    ∀ (rest : List Nat) (x fuel : Nat), Follows els (x :: rest) none → rest.length + 1 ≤ fuel →
      FindElementByNameNS.loop L els name ns fuel x =
        some (rest.find? (hitAt els (FindElementByNameNS.check L name ns))) := by
  intro rest
  induction rest with
  | nil =>
    intro x fuel h hf
    obtain ⟨⟨e, he, hfn⟩, _⟩ := h
    cases fuel with
    | zero => omega
    | succ f =>
      simp only [FindElementByNameNS.loop, he, hfn, headOr, List.find?_nil]
  | cons y t ih =>
    intro x fuel h hf
    obtain ⟨⟨e, he, hfn⟩, hrest⟩ := h
    obtain ⟨ey, hey, _⟩ := hrest.1
    cases fuel with
    | zero => omega
    | succ f =>
      simp only [FindElementByNameNS.loop, he, hfn, headOr, hey, List.find?_cons, hitAt]
      cases hc : FindElementByNameNS.check L name ns ey with
      | true => simp
      | false =>
        simp only [Bool.false_eq_true, if_false]
        exact ih y f hrest (by simpa using hf)

theorem nodup_length_le (l : List Nat) (n : Nat) (hnd : l.Nodup) (hb : ∀ x ∈ l, x < n) :
    l.length ≤ n := by
  have hsub : l ⊆ List.range n := fun x hx => List.mem_range.mpr (hb x hx)
  have := (List.subperm_of_subset hnd hsub).length_le
  simpa using this

theorem Follows.member_stored {els : List HtmlElement} {cont : Option Nat} :
    ∀ (l : List Nat), Follows els l cont → ∀ x ∈ l, ∃ e, els[x]? = some e := by
  intro l
  induction l with
  | nil => intro _ x hx; exact absurd hx (List.not_mem_nil x)
  | cons y t ih =>
    intro h x hx
    rcases List.mem_cons.mp hx with h1 | h1
    · obtain ⟨⟨e, he, _⟩, _⟩ := h
      exact ⟨e, h1 ▸ he⟩
    · exact ih h.2 x h1

theorem FindElementByNameNS_eq (L : HtmlParserLookup) (parser : HtmlParser) (name : List Nat)
    (ns : Option (List Nat)) (hinv : TreeInv parser) :
    ∃ order, documentOrder parser parser.rootElement = some order ∧ order.Nodup ∧
      order.length ≤ parser.allocator.length ∧
      (parser.rootElement = none → order = []) ∧
      FindElementByNameNS L parser name ns none =
        some (order.find? (hitAt parser.allocator (FindElementByNameNS.check L name ns))) ∧
      ∀ (i x : Nat), order[i]? = some x →
        FindElementByNameNS L parser name ns (some x) =
          some ((order.drop (i + 1)).find?
            (hitAt parser.allocator (FindElementByNameNS.check L name ns))) := by
  obtain ⟨order, hord, hfol, hnone, hsome⟩ := documentOrder_follows hinv
  have hnd := Follows.nodup order hfol
  have hlen : order.length ≤ parser.allocator.length :=
    nodup_length_le order _ hnd (fun x hx => by
      obtain ⟨e, he⟩ := Follows.member_stored order hfol x hx
      exact getElem?_lt he)
  refine ⟨order, hord, hnd, hlen, hnone, ?_, ?_⟩
  · unfold FindElementByNameNS
    cases hr : parser.rootElement with
    | none =>
      rw [hnone hr]
      rfl
    | some r =>
      obtain ⟨rest, hrest⟩ := hsome r hr
      subst hrest
      obtain ⟨e, he, _⟩ := hfol.1
      simp only [he, List.find?_cons, hitAt]
      cases hc : FindElementByNameNS.check L name ns e with
      | true => simp
      | false =>
        simp only [Bool.false_eq_true, if_false]
        exact FindElementByNameNS.loop_find L _ name ns rest r _ hfol (by
          simpa using hlen)
  · intro i x hx
    have hi := getElem?_lt hx
    have hsplit : order = order.take i ++ x :: order.drop (i + 1) := by
      have h1 : order.drop i = x :: order.drop (i + 1) := by
        rw [List.drop_eq_getElem_cons hi]
        congr 1
        exact Option.some.inj ((List.getElem?_eq_getElem hi).symm.trans hx)
      rw [← h1, List.take_append_drop]
    have hsuf : Follows parser.allocator (x :: order.drop (i + 1)) none := by
      rw [hsplit] at hfol
      exact hfol.of_append
    unfold FindElementByNameNS
    exact FindElementByNameNS.loop_find L _ name ns _ x _ hsuf (by
      simp only [List.length_drop]
      omega)

theorem findAll_eq (L : HtmlParserLookup) (parser : HtmlParser) (name : List Nat)
    (order : List Nat) (m : Nat → Bool)
    (hs : ∀ (i x : Nat), order[i]? = some x →
      FindElementByName L parser name (some x) = some ((order.drop (i + 1)).find? m)) :
    ∀ (fuel k : Nat) (start : Option Nat), order.length - k + 1 ≤ fuel →
      FindElementByName L parser name start = some ((order.drop k).find? m) →
      findAll L parser name fuel start = some ((order.drop k).filter m) := by
  intro fuel
  induction fuel with
  | zero => intro k start hf; omega
  | succ f ih =>
    intro k start hf hstart
    simp only [findAll, hstart]
    cases hfind : (order.drop k).find? m with
    | none =>
      have : (order.drop k).filter m = [] := by
        rw [List.filter_eq_nil_iff]
        exact List.find?_eq_none.mp hfind
      rw [this]
    | some el =>
      obtain ⟨hm, as, bs, hsplit, has⟩ := List.find?_eq_some.mp hfind
      have hlen := congrArg List.length hsplit
      simp only [List.length_drop, List.length_append, List.length_cons] at hlen
      have hel : order[k + as.length]? = some el := by
        rw [← List.getElem?_drop, hsplit, List.getElem?_append_right (Nat.le_refl _),
          Nat.sub_self, List.getElem?_cons_zero]
      have hdrop : order.drop (k + as.length + 1) = bs := by
        have h1 : order.drop (k + as.length + 1) = (order.drop k).drop (as.length + 1) := by
          rw [List.drop_drop]
          rfl
        have h2 : as ++ el :: bs = (as ++ [el]) ++ bs := by simp
        rw [h1, hsplit, h2]
        exact List.drop_left' (by simp)
      have hnext := hs (k + as.length) el hel
      have hrec := ih (k + as.length + 1) (some el) (by omega) hnext
      simp only [hrec, hdrop]
      rw [hsplit, List.filter_append, List.filter_cons_of_pos hm]
      have : as.filter m = [] := by
        rw [List.filter_eq_nil_iff]
        intro a ha
        have := has a ha
        simpa using this
      rw [this]
      rfl

theorem FindElementByNameNS.check_none (L : HtmlParserLookup) (name : List Nat) :
    FindElementByNameNS.check L name none = fun e => e.NameIs L name := by
  funext e
  simp [FindElementByNameNS.check]

/-- C14: forward iteration with `FindElementByName` on a parser-built tree.  Let `p` be
the parser after `ParseInPlace` has run on any token sequence and `order` the elements of
its tree in document order (the root, then the pre-order traversal of its children), which
holds no element twice.  The call with `nullptr` returns the first element of `order`
whose name matches, the call with the element at position `i` of `order` returns the
first match after position `i`, never that element itself, and `nullptr` when there is
none; so the iteration that starts with `nullptr` and feeds every result back returns
the matching elements of `order`, in that order and once each, and then `nullptr`.
Without a root the first call returns `nullptr`. -/
theorem FindElementByName_forward_iteration (L : HtmlParserLookup) (self : HtmlParser)
    (d : Option (List Nat)) (codepage : Nat) (toks : List HtmlToken) (name : List Nat)
    (hself : self.html.isSome = true ∨ self = HtmlParser.fresh) :
    ∃ p root order, ParseInPlace L self d codepage toks = some (p, root) ∧
      documentOrder p p.rootElement = some order ∧ order.Nodup ∧
      (p.rootElement = none → FindElementByName L p name none = some none) ∧
      FindElementByName L p name none =
        some (order.find? (nameMatches L p.allocator name)) ∧
      (∀ (i x : Nat), order[i]? = some x →
        FindElementByName L p name (some x) =
          some ((order.drop (i + 1)).find? (nameMatches L p.allocator name)) ∧
        FindElementByName L p name (some x) ≠ some (some x)) ∧
      findAll L p name (p.allocator.length + 1) none =
        some (order.filter (nameMatches L p.allocator name)) := by
  rw [ParseInPlace_eq_loop L self d codepage toks hself]
  obtain ⟨p, root, hrun, hinv, _⟩ :=
    ParseInPlace.loop_treeInv L toks (startParser d codepage) (startParser_treeInv d codepage)
  obtain ⟨order, hord, hnd, hlen, hnone, hfirst, hnext⟩ :=
    FindElementByNameNS_eq L p name none hinv
  rw [FindElementByNameNS.check_none] at hfirst hnext
  have hnext2 : ∀ (i x : Nat), order[i]? = some x →
      FindElementByName L p name (some x) =
        some ((order.drop (i + 1)).find? (nameMatches L p.allocator name)) := hnext
  refine ⟨p, root, order, hrun, hord, hnd, ?_, hfirst, ?_, ?_⟩
  · intro hr
    have : FindElementByName L p name none =
        some (order.find? (nameMatches L p.allocator name)) := hfirst
    rw [this, hnone hr]
    rfl
  · intro i x hx
    refine ⟨hnext2 i x hx, ?_⟩
    rw [hnext2 i x hx]
    intro hc
    have hmem : x ∈ order.drop (i + 1) :=
      List.mem_of_find?_eq_some (Option.some.inj hc)
    have hi := getElem?_lt hx
    have hsplit : order = order.take i ++ x :: order.drop (i + 1) := by
      have h1 : order.drop i = x :: order.drop (i + 1) := by
        rw [List.drop_eq_getElem_cons hi]
        congr 1
        exact Option.some.inj ((List.getElem?_eq_getElem hi).symm.trans hx)
      rw [← h1, List.take_append_drop]
    rw [hsplit] at hnd
    exact (List.nodup_cons.mp hnd.of_append_right).1 hmem
  · exact findAll_eq L p name order (nameMatches L p.allocator name) hnext2
      (p.allocator.length + 1) 0 none (by omega) hfirst

/-- C14 on the tree of `<p><b>x</b><a><b>y</b></a><b>z</b></p>`, whose document order is
`p b a b b` (indices 0 to 4): the iteration for the name `b` returns the elements 1, 3
and 4 and then `nullptr`. -/
theorem FindElementByName_forward_iteration_witness :
    ∃ p root, ParseInPlace sampleLookup HtmlParser.fresh (some []) 0 tokensFind =
        some (p, root) ∧
      documentOrder p p.rootElement = some [0, 1, 2, 3, 4] ∧
      findAll sampleLookup p (units "b") (p.allocator.length + 1) none = some [1, 3, 4] ∧
      FindElementByName sampleLookup p (units "b") (some 1) = some (some 3) ∧
      FindElementByName sampleLookup p (units "b") (some 4) = some none := by
  obtain ⟨p, root, order, hrun, hord, _, _, _, hnext, hall⟩ :=
    FindElementByName_forward_iteration sampleLookup HtmlParser.fresh (some []) 0 tokensFind
      (units "b") (Or.inr rfl)
  have hp : p = parsed sampleLookup "" tokensFind := by
    have h2 : ParseInPlace sampleLookup HtmlParser.fresh (some []) 0 tokensFind =
        some (parsed sampleLookup "" tokensFind,
          (parsed sampleLookup "" tokensFind).rootElement) := by decide
    exact (Prod.mk.inj (Option.some.inj (hrun.symm.trans h2))).1
  subst hp
  have ho : order = [0, 1, 2, 3, 4] := by
    have h2 : documentOrder (parsed sampleLookup "" tokensFind)
        (parsed sampleLookup "" tokensFind).rootElement = some [0, 1, 2, 3, 4] := by decide
    exact Option.some.inj (hord.symm.trans h2)
  subst ho
  refine ⟨_, root, hrun, hord, ?_, ?_, ?_⟩
  · rw [hall]
    decide
  · rw [(hnext 1 1 (by decide)).1]
    decide
  · rw [(hnext 4 4 (by decide)).1]
    decide

theorem FindChar_absent (s : List Nat) (c : Nat) (h : c ∉ s) : FindChar s c = none := by
  induction s with
  | nil => rfl
  | cons x xs ih =>
    have hx : x ≠ c := fun hxc => h (hxc ▸ List.mem_cons_self _ _)
    have hxs : c ∉ xs := fun hc => h (List.mem_cons_of_mem _ hc)
    simp only [FindChar, hx, if_false, ih hxs]
    split_ifs <;> rfl

/-- C23: `NameIsNS(n, ns)` does not look at `ns`: any two namespace arguments give the
same result.  When the element has a literal name `pre ++ ":" ++ post` with no `:` in
`pre`, the result is the case-insensitive equality of `post`, the part after the first
`:`, with `n`; when it has no literal name, or one without `:`, the result is `NameIs(n)`. -/
theorem NameIsNS_ignores_namespace (L : HtmlParserLookup) (el : HtmlElement) (n : List Nat) :
    (∀ ns1 ns2 : List Nat, el.NameIsNS L n ns1 = el.NameIsNS L n ns2) ∧
    (∀ (ns pre post : List Nat), el.name = some (pre ++ 58 :: post) → 58 ∉ pre → 0 ∉ pre →
      el.NameIsNS L n ns = EqI post n) ∧
    (∀ ns : List Nat, el.name = none → el.NameIsNS L n ns = el.NameIs L n) ∧
    (∀ (ns name : List Nat), el.name = some name → 58 ∉ name →
      el.NameIsNS L n ns = el.NameIs L n) := by
  refine ⟨fun _ _ => rfl, ?_, ?_, ?_⟩
  · intro ns pre post hname h58 h0
    unfold HtmlElement.NameIsNS
    rw [hname]
    simp only [Option.bind]
    rw [FindChar_run pre 58 post (by decide) (fun a ha => ⟨fun h => h0 (h ▸ ha),
      fun h => h58 (h ▸ ha)⟩)]
    rfl
  · intro ns hname
    unfold HtmlElement.NameIsNS
    rw [hname]
    rfl
  · intro ns name hname h58
    unfold HtmlElement.NameIsNS
    rw [hname]
    simp only [Option.bind]
    rw [FindChar_absent name 58 h58]

/-- C23 on the element named `opf:content`: it matches `content` whatever the namespace
argument is, does not match `opf:content`, and an element named `content` is compared as
`NameIs` does. -/
theorem NameIsNS_ignores_namespace_witness :
    (plainElement (-1) (some (units "opf:content")) none none none).NameIsNS sampleLookup
      (units "content") (units "http://www.idpf.org/2007/opf") = true ∧
    (plainElement (-1) (some (units "opf:content")) none none none).NameIsNS sampleLookup
      (units "content") [] = true ∧
    (plainElement (-1) (some (units "opf:content")) none none none).NameIsNS sampleLookup
      (units "opf:content") [] = false ∧
    (plainElement (-1) (some (units "content")) none none none).NameIsNS sampleLookup
      (units "CONTENT") [] = true :=
  ⟨((NameIsNS_ignores_namespace sampleLookup
      (plainElement (-1) (some (units "opf:content")) none none none) (units "content")).2.1
      (units "http://www.idpf.org/2007/opf") (units "opf") (units "content") (by decide)
      (by decide) (by decide)).trans (by decide),
   ((NameIsNS_ignores_namespace sampleLookup
      (plainElement (-1) (some (units "opf:content")) none none none) (units "content")).1
      [] (units "http://www.idpf.org/2007/opf")).trans (by decide),
   ((NameIsNS_ignores_namespace sampleLookup
      (plainElement (-1) (some (units "opf:content")) none none none)
      (units "opf:content")).2.1 [] (units "opf") (units "content") (by decide) (by decide)
      (by decide)).trans (by decide),
   ((NameIsNS_ignores_namespace sampleLookup
      (plainElement (-1) (some (units "content")) none none none) (units "CONTENT")).2.2.2
      [] (units "content") (by decide) (by decide)).trans (by decide)⟩

/-! ## The parser object: fields and counters -/

theorem ParseInPlace.tagToken_fields (L : HtmlParserLookup) (self : HtmlParser)
    (tok : HtmlToken) (hwf : WellLinked self) (self2 : HtmlParser)
    (hrun : ParseInPlace.tagToken L self tok = some self2) :
    self2.fieldsAfter 0 0 =
      self.fieldsAfter (if tok.IsEndTag then 0 else 1)
        (if tok.IsEndTag then 0 else tok.attrs.length) ∧
      self2.error = self.error ∧ self2.errorContext = self.errorContext := by
  unfold ParseInPlace.tagToken at hrun
  by_cases hend : tok.IsEndTag = true
  · simp only [hend, Bool.not_true, Bool.false_eq_true, if_false] at hrun
    simp only [hend, if_true]
    split_ifs at hrun
    · obtain ⟨chain, hchain⟩ := hwf.chain_exists
      obtain ⟨curr, h1, _⟩ := CloseTag_spec L self tok chain hwf hchain
      have := Option.some.inj (hrun.symm.trans h1)
      subst this
      exact ⟨rfl, rfl, rfl⟩
    · cases hrun
      exact ⟨rfl, rfl, rfl⟩
  · have hend2 : tok.IsEndTag = false := Bool.eq_false_iff.mpr hend
    simp only [hend2, Bool.not_false, if_true] at hrun
    simp only [hend2, Bool.false_eq_true, if_false]
    obtain ⟨chain, hchain⟩ := hwf.chain_exists
    obtain ⟨arena, h1, _, h3, h5, _⟩ := StartTag_spec L self tok chain hwf hchain
    obtain ⟨s1, hs1, hwf1, hc1, hl1⟩ := StartTag_wellLinked L self tok hwf
    have heq1 := Option.some.inj (hs1.symm.trans h1)
    obtain ⟨s2, hs2, hwf2, _, _⟩ :=
      ParseInPlace.appendAttrs_wellLinked s1 tok.attrs self.allocator.length hwf1 hc1
    have he1 : s1.allocator[self.allocator.length]? =
        some (newElement L self tok (specParent L self chain tok)) := by
      rw [heq1]
      exact h5
    have h2 := ParseInPlace.appendAttrs_eq tok.attrs s1 self.allocator.length _ hc1 he1
    have heq2 := Option.some.inj (hs2.symm.trans h2)
    simp only [hs1, hs2] at hrun
    have hf2 : s2.fieldsAfter 0 0 = self.fieldsAfter 1 tok.attrs.length ∧
        s2.error = self.error ∧ s2.errorContext = self.errorContext := by
      rw [heq2, heq1]
      exact ⟨rfl, rfl, rfl⟩
    split_ifs at hrun
    · obtain ⟨chain2, hchain2⟩ := hwf2.chain_exists
      obtain ⟨curr, h3, _⟩ := CloseTag_spec L s2 tok chain2 hwf2 hchain2
      have := Option.some.inj (hrun.symm.trans h3)
      subst this
      exact hf2
    · cases hrun
      exact hf2

theorem ParseInPlace.loop_induct (L : HtmlParserLookup) (P : HtmlParser → Prop)
    (hstep : ∀ (self self2 : HtmlParser) (tok : HtmlToken), TreeInv self → P self →
      ParseInPlace.tagToken L self tok = some self2 → P self2)
    (herr : ∀ (self : HtmlParser) (ctx : Option (List Nat)) (err : HtmlParserError),
      P self → P { self with errorContext := ctx, error := err }) :
    ∀ (toks : List HtmlToken) (self : HtmlParser), TreeInv self → P self →
      ∃ self2 root, ParseInPlace.loop L self toks = some (self2, root) ∧ TreeInv self2 ∧
        P self2 := by
  intro toks
  induction toks with
  | nil => intro self hinv hp; exact ⟨self, self.rootElement, rfl, hinv, hp⟩
  | cons tok rest ih =>
    intro self hinv hp
    rw [ParseInPlace.loop]
    by_cases herr2 : tok.IsError = true
    · simp only [herr2, if_true]
      have hinv1 : ∀ err, TreeInv
          (ParseError { self with errorContext := some tok.s } err).1 := by
        intro err
        exact ⟨⟨hinv.wl.links, hinv.wl.curr_lt, hinv.wl.root_lt⟩, hinv.root, hinv.tree⟩
      have hp1 : ∀ err, P (ParseError { self with errorContext := some tok.s } err).1 :=
        fun err => herr self (some tok.s) err hp
      cases tok.error
      · exact ⟨_, _, rfl, hinv1 _, hp1 _⟩
      · exact ⟨_, _, rfl, hinv1 _, hp1 _⟩
      · exact ⟨_, _, rfl, hinv1 _, hp1 _⟩
      · exact ⟨_, _, rfl, hinv1 _, hp1 _⟩
    · simp only [herr2, Bool.false_eq_true, if_false]
      by_cases htag : tok.IsTag = true
      · simp only [htag, Bool.not_true, Bool.false_eq_true, if_false]
        obtain ⟨s1, h1, hinv1⟩ := ParseInPlace.tagToken_treeInv L self tok hinv
        simp only [h1]
        exact ih s1 hinv1 (hstep self s1 tok hinv hp h1)
      · simp only [htag, Bool.not_false, if_true]
        exact ih self hinv hp

theorem ParseInPlace.tagToken_names (L : HtmlParserLookup) (self self2 : HtmlParser)
    (tok : HtmlToken) (hinv : TreeInv self) (hp : NamedIffUnknown L self.allocator)
    (hrun : ParseInPlace.tagToken L self tok = some self2) :
    NamedIffUnknown L self2.allocator := by
  obtain ⟨s2, h1, _, _, hg, hend, hopen⟩ :=
    ParseInPlace.tagToken_grows L self tok hinv.wl hinv.root
  have heq := Option.some.inj (hrun.symm.trans h1)
  subst heq
  intro i e2 he2
  by_cases hi : i < self.allocator.length
  · obtain ⟨e3, he3, ht, hn, _⟩ := hg.keeps i self.allocator[i] (List.getElem?_eq_getElem hi)
    have heq : e3 = e2 := Option.some.inj (he3.symm.trans he2)
    subst heq
    rw [ht, hn]
    exact hp i _ (List.getElem?_eq_getElem hi)
  · cases hendc : tok.IsEndTag with
    | true =>
      rw [hend hendc] at he2
      exact absurd (getElem?_lt he2) hi
    | false =>
      obtain ⟨parent, e, _, _, _, hl, he, ht, hn, _⟩ := hopen hendc
      have hlt := getElem?_lt he2
      have hin : i = self.allocator.length := by omega
      subst hin
      have heq : e = e2 := Option.some.inj (he.symm.trans he2)
      subst heq
      rw [ht, hn]
      unfold tokTagName
      split_ifs with hnf
      · exact ⟨fun _ => hnf.symm, fun _ => rfl⟩
      · exact ⟨fun h => Bool.noConfusion h, fun h => absurd h.symm hnf⟩

/-- C26, as stated, fails in its last part: the parser builds for `<a>` an element
without a literal name, and the end tag whose name span is `a`, NUL, `z`, `z` has the tag
`Tag_NotFound` (the tag table knows no such name), yet it passes the test of `CloseTag` on
that element: `CloseTag` hands `NameIs` the C string at `tok->s`, which is `a`, and, the
element having no literal name, `NameIs` looks that string up in the tag table. -/
theorem created_name_nul_span_counterexample :
    ∃ p root e, ParseInPlace sampleLookup HtmlParser.fresh (some []) 0
        [startTok sampleLookup "a" []] = some (p, root) ∧
      p.allocator[0]? = some e ∧ e.name = none ∧
      (nulNameTok TokenType.EndTag 122).tag = sampleLookup.Tag_NotFound ∧
      sampleLookup.FindHtmlTag ((nulNameTok TokenType.EndTag 122).s.take
        (nulNameTok TokenType.EndTag 122).nLen) = sampleLookup.Tag_NotFound ∧
      closeHit sampleLookup (nulNameTok TokenType.EndTag 122) e = true ∧
      CloseTag sampleLookup p (nulNameTok TokenType.EndTag 122) =
        some { p with currElement := none } :=
  ⟨parsed sampleLookup "" [startTok sampleLookup "a" []], some 0,
    plainElement 0 none none none none, by decide, by decide, by decide, by decide, by decide,
    by decide, by decide⟩

/-- C26, as amended: every element created by the parser has a literal name if and only if
its tag identifier is `Tag_NotFound`.  Let `p` be the parser after `ParseInPlace` has run on
any token sequence, and `e` an element of its arena.  Then `e.name` is present exactly when
`e.tag` is `Tag_NotFound`; the condition of the `ReportIf` in `NameIs` (name absent and tag
`Tag_NotFound`) is false for `e`; and when a close tag whose tag is `Tag_NotFound` and whose
name as `CloseTag` reads it, the zero-terminated string at `tok->s`, is unknown to the tag
table passes the test of `CloseTag` on `e`, then `e` carries a literal name.  That string is
the whole name span when the span holds no NUL byte. -/
theorem created_name_iff_unknown_tag (L : HtmlParserLookup) (self : HtmlParser)
    (d : Option (List Nat)) (codepage : Nat) (toks : List HtmlToken)
    (hself : self.html.isSome = true ∨ self = HtmlParser.fresh) :
    ∃ p root, ParseInPlace L self d codepage toks = some (p, root) ∧
      ∀ (i : Nat) (e : HtmlElement), p.allocator[i]? = some e →
        (e.name.isSome = true ↔ e.tag = L.Tag_NotFound) ∧
        e.NameIsReports L = false ∧
        (∀ tok : HtmlToken, tok.tag = L.Tag_NotFound →
          L.FindHtmlTag (cString (tok.s.take tok.nLen)) = L.Tag_NotFound →
          closeHit L tok e = true → e.name.isSome = true) ∧
        (∀ tok : HtmlToken, tok.tag = L.Tag_NotFound → 0 ∉ tok.s.take tok.nLen →
          L.FindHtmlTag (tok.s.take tok.nLen) = L.Tag_NotFound →
          closeHit L tok e = true → e.name.isSome = true) := by
  rw [ParseInPlace_eq_loop L self d codepage toks hself]
  obtain ⟨p, root, hrun, _, hp⟩ :=
    ParseInPlace.loop_induct L (fun s => NamedIffUnknown L s.allocator)
      (fun s s2 tok hinv hP h => ParseInPlace.tagToken_names L s s2 tok hinv hP h)
      (fun s _ _ hP => hP) toks (startParser d codepage) (startParser_treeInv d codepage)
      (by
        intro i e he
        simp [startParser, HtmlParser.fresh] at he)
  refine ⟨p, root, hrun, ?_⟩
  intro i e he
  have hiff := hp i e he
  have hcut : ∀ tok : HtmlToken, tok.tag = L.Tag_NotFound →
      L.FindHtmlTag (cString (tok.s.take tok.nLen)) = L.Tag_NotFound →
      closeHit L tok e = true → e.name.isSome = true := by
    intro tok htag hfind hhit
    cases hn : e.name with
    | some nm => rfl
    | none =>
      exfalso
      have hne : ¬ e.tag = L.Tag_NotFound := by
        intro h
        have := hiff.mpr h
        rw [hn] at this
        exact Bool.noConfusion this
      unfold closeHit tokTagName at hhit
      rw [if_pos htag.symm] at hhit
      simp only [HtmlElement.NameIs, hn, hfind, beq_iff_eq] at hhit
      exact hne hhit.symm
  refine ⟨hiff, ?_, hcut, ?_⟩
  · unfold HtmlElement.NameIsReports
    cases hn : e.name with
    | some nm => rfl
    | none =>
      have hne : ¬ e.tag = L.Tag_NotFound := by
        intro h
        have := hiff.mpr h
        rw [hn] at this
        exact Bool.noConfusion this
      have : (L.Tag_NotFound == e.tag) = false := by
        rw [beq_eq_false_iff_ne]
        exact fun h => hne h.symm
      simp [this]
  · intro tok htag hnul hfind hhit
    refine hcut tok htag ?_ hhit
    have hcs : cString (tok.s.take tok.nLen) = tok.s.take tok.nLen := by
      unfold cString
      rw [List.takeWhile_eq_self_iff]
      intro b hb
      simp only [bne_iff_ne, ne_eq]
      intro h0
      exact hnul (h0 ▸ hb)
    rw [hcs]
    exact hfind

/-- C26 on `<a><foo></FOO></a>`: the element of the unknown tag `foo` has a literal name
and the tag `Tag_NotFound`, the element of `a` has neither, and the close tag `</FOO>`
passes the test of `CloseTag` on the first and not on the second. -/
theorem created_name_iff_unknown_tag_witness :
    ∃ p root, ParseInPlace sampleLookup HtmlParser.fresh (some []) 0 tokensUnknown =
        some (p, root) ∧
      p.allocator.map (fun e => (e.tag, e.name)) = [(0, none), (-1, some (units "foo"))] ∧
      p.allocator.map (fun e => e.NameIsReports sampleLookup) = [false, false] ∧
      p.allocator.map (closeHit sampleLookup (endTok sampleLookup "FOO")) = [false, true] := by
  obtain ⟨p, root, hrun, _⟩ :=
    created_name_iff_unknown_tag sampleLookup HtmlParser.fresh (some []) 0 tokensUnknown
      (Or.inr rfl)
  have hp : p = parsed sampleLookup "" tokensUnknown := by
    unfold parsed
    have : units "" = [] := rfl
    rw [this, hrun]
  subst hp
  exact ⟨_, root, hrun, by decide, by decide, by decide⟩

/-! ## The non-destructive mode and the reuse of a parser -/

theorem ParseInPlace_keeps_buffer (L : HtmlParserLookup) (self : HtmlParser)
    (d : Option (List Nat)) (codepage : Nat) (toks : List HtmlToken)
    (hself : self.html.isSome = true ∨ self = HtmlParser.fresh) :
    ∃ p root, ParseInPlace L self d codepage toks = some (p, root) ∧ p.html = d ∧
      p.freeHtml = false ∧ p.codepage = codepage := by
  rw [ParseInPlace_eq_loop L self d codepage toks hself]
  obtain ⟨p, root, hrun, _, hp⟩ :=
    ParseInPlace.loop_induct L
      (fun s => s.html = d ∧ s.freeHtml = false ∧ s.codepage = codepage)
      (fun s s2 tok hinv hP h => by
        have hf := (ParseInPlace.tagToken_fields L s tok hinv.wl s2 h).1
        have h1 : s2.html = s.html := congrArg Fields.html hf
        have h2 : s2.freeHtml = s.freeHtml := congrArg Fields.freeHtml hf
        have h3 : s2.codepage = s.codepage := congrArg Fields.codepage hf
        exact ⟨h1.trans hP.1, h2.trans hP.2.1, h3.trans hP.2.2⟩)
      (fun s _ _ hP => hP) toks (startParser d codepage) (startParser_treeInv d codepage)
      ⟨rfl, rfl, rfl⟩
  exact ⟨p, root, hrun, hp⟩

theorem ToByteSlice_Dup (d : List Nat) :
    ToByteSlice (Dup d) = d.takeWhile (fun b => b != 0) := by
  unfold ToByteSlice Dup
  induction d with
  | nil => rfl
  | cons x xs ih =>
    simp only [List.cons_append, List.takeWhile_cons]
    split
    · rw [ih]
    · rfl

theorem takeWhile_no_nul (d : List Nat) (h : 0 ∉ d) : d.takeWhile (fun b => b != 0) = d := by
  rw [List.takeWhile_eq_self_iff]
  intro x hx
  simp only [bne_iff_ne, ne_eq]
  exact fun hx0 => h (hx0 ▸ hx)

theorem Parse_eq (L : HtmlParserLookup) (Next : List Nat → List HtmlToken)
    (self : HtmlParser) (d : List Nat) (codepage : Nat) :
    Parse L Next self d codepage =
      (ParseInPlace L self (some (d.takeWhile (fun b => b != 0))) codepage
        (Next (d.takeWhile (fun b => b != 0)))).map
        (fun r => ({ r.1 with freeHtml := true }, r.2)) := by
  unfold Parse
  simp only [ToByteSlice_Dup]
  cases ParseInPlace L self (some (d.takeWhile (fun b => b != 0))) codepage
      (Next (d.takeWhile (fun b => b != 0))) with
  | none => rfl
  | some r => rfl

/-- C22: a parser that is reused is reset first, so the result depends on the input only.
Let `p0` be a parser that has completed a parse of a non-null buffer `d0`, by
`ParseInPlace` (or `p1` one that has completed a `Parse`).  It still holds a buffer, so
the next `ParseInPlace` calls `Reset`, after which the parser is the one a fresh parser
starts with: no root, no current element, both counters zero, no error and no error
context, an empty arena.  Hence `ParseInPlace` and `Parse` on the reused parser return
exactly what they return on a fresh parser for the same buffer, code page and tokens:
the same tree, counters and error, with nothing of the earlier tree in it. -/
theorem ParseInPlace_resets_on_reuse (L : HtmlParserLookup)
    (Next : List Nat → List HtmlToken) (self0 : HtmlParser)
    (d0 : List Nat) (codepage0 : Nat) (toks0 : List HtmlToken) (p0 : HtmlParser)
    (r0 : Option Nat) (hself0 : self0.html.isSome = true ∨ self0 = HtmlParser.fresh)
    (hfirst : ParseInPlace L self0 (some d0) codepage0 toks0 = some (p0, r0))
    (d : Option (List Nat)) (bytes : List Nat) (codepage : Nat) (toks : List HtmlToken) :
    p0.html = some d0 ∧
    { Reset p0 with html := d, codepage := codepage } = startParser d codepage ∧
    ParseInPlace L p0 d codepage toks = ParseInPlace L HtmlParser.fresh d codepage toks ∧
    Parse L Next p0 bytes codepage = Parse L Next HtmlParser.fresh bytes codepage ∧
    ∀ p1 r1, Parse L Next self0 d0 codepage0 = some (p1, r1) →
      p1.html.isSome = true ∧
      ParseInPlace L p1 d codepage toks = ParseInPlace L HtmlParser.fresh d codepage toks ∧
      Parse L Next p1 bytes codepage = Parse L Next HtmlParser.fresh bytes codepage := by
  obtain ⟨p, root, hrun, hhtml, _, _⟩ :=
    ParseInPlace_keeps_buffer L self0 (some d0) codepage0 toks0 hself0
  have hp : p = p0 := (Prod.mk.inj (Option.some.inj (hrun.symm.trans hfirst))).1
  subst hp
  have hsome : p.html.isSome = true := by rw [hhtml]; rfl
  have hreuse : ∀ (q : HtmlParser), q.html.isSome = true →
      ∀ (d2 : Option (List Nat)) (cp2 : Nat) (toks2 : List HtmlToken),
        ParseInPlace L q d2 cp2 toks2 = ParseInPlace L HtmlParser.fresh d2 cp2 toks2 := by
    intro q hq d2 cp2 toks2
    rw [ParseInPlace_eq_loop L q d2 cp2 toks2 (Or.inl hq),
      ParseInPlace_eq_loop L HtmlParser.fresh d2 cp2 toks2 (Or.inr rfl)]
  have hreuse2 : ∀ (q : HtmlParser), q.html.isSome = true →
      Parse L Next q bytes codepage = Parse L Next HtmlParser.fresh bytes codepage := by
    intro q hq
    rw [Parse_eq, Parse_eq, hreuse q hq]
  refine ⟨hhtml, rfl, hreuse p hsome d codepage toks, hreuse2 p hsome, ?_⟩
  intro p1 r1 hparse
  rw [Parse_eq] at hparse
  obtain ⟨q, rootq, hq, hqhtml, _, _⟩ :=
    ParseInPlace_keeps_buffer L self0 (some (d0.takeWhile (fun b => b != 0))) codepage0
      (Next (d0.takeWhile (fun b => b != 0))) hself0
  rw [hq] at hparse
  have hp1 : p1 = { q with freeHtml := true } :=
    (Prod.mk.inj (Option.some.inj hparse)).1.symm
  have hsome1 : p1.html.isSome = true := by
    rw [hp1]
    show q.html.isSome = true
    rw [hqhtml]
    rfl
  exact ⟨hsome1, hreuse p1 hsome1 d codepage toks, hreuse2 p1 hsome1⟩

/-- C22 on a parser that has parsed `<a><b><c>` and is then used for `<ul><li>x</ul>`: the
second result is the one of a fresh parser, a tree of two elements. -/
theorem ParseInPlace_resets_on_reuse_witness :
    ParseInPlace sampleLookup (parsed sampleLookup "<a><b><c>" tokensABC)
        (some (units "<ul><li>x</ul>")) 0 tokensList1 =
      ParseInPlace sampleLookup HtmlParser.fresh (some (units "<ul><li>x</ul>")) 0
        tokensList1 ∧
    (ParseInPlace sampleLookup HtmlParser.fresh (some (units "<ul><li>x</ul>")) 0
        tokensList1).map (fun r => (r.2, r.1.allocator.length, r.1.elementsCount)) =
      some (some 0, 2, 2) :=
  ⟨(ParseInPlace_resets_on_reuse sampleLookup sampleTokens HtmlParser.fresh
      (units "<a><b><c>") 0 tokensABC (parsed sampleLookup "<a><b><c>" tokensABC) (some 0)
      (Or.inr rfl) (by decide) (some (units "<ul><li>x</ul>")) [] 0 tokensList1).2.2.1,
   by decide⟩

/-- C21, the claim fails on the code: for the buffer `<a>`, NUL, `<b>` the call `Parse`
builds a tree of one element, the `a`, while `ParseInPlace` on a copy of all the bytes
of the buffer builds two, the `a` and the `b`: `Parse` passes its copy on as a
NUL-terminated string, which ends at the first NUL. -/
theorem Parse_embedded_nul_counterexample :
    (Parse sampleLookup sampleTokens HtmlParser.fresh bytesWithNul 0).map
        (fun r => (r.1.allocator.map (fun e => e.tag), r.1.elementsCount, r.1.error)) =
      some ([0], 1, HtmlParserError.ErrParsingNoError) ∧
    (ParseInPlace sampleLookup HtmlParser.fresh (some bytesWithNul) 0
        (sampleTokens bytesWithNul)).map
        (fun r => (r.1.allocator.map (fun e => e.tag), r.1.elementsCount, r.1.error)) =
      some ([0, 1], 2, HtmlParserError.ErrParsingNoError) := by
  decide

/-! ## Termination -/

theorem IsChain.le_start {els : List HtmlElement} (hl : LinksOK els) {o : Option Nat}
    {chain : List Nat} (h : IsChain els o chain) :
    ∀ x ∈ chain, ∀ i, o = some i → x ≤ i := by
  induction h with
  | nil => intro x hx; exact absurd hx (List.not_mem_nil x)
  | cons j e rest he _ ih =>
    intro x hx i hi
    cases hi
    rcases List.mem_cons.mp hx with h1 | h1
    · omega
    · cases hu : e.up with
      | none =>
        rw [hu] at ih
        have := ih x h1
        rename_i hrest
        rw [hu] at hrest
        cases hrest
        exact absurd h1 (List.not_mem_nil x)
      | some p =>
        have h2 := ih x h1 p hu
        have h3 := hl.up_lt j e p he hu
        omega

theorem IsChain.decreasing {els : List HtmlElement} (hl : LinksOK els) {o : Option Nat}
    {chain : List Nat} (h : IsChain els o chain) : chain.Pairwise (fun a b => a > b) := by
  induction h with
  | nil => exact List.Pairwise.nil
  | cons j e rest he hrest ih =>
    refine List.Pairwise.cons ?_ ih
    intro x hx
    cases hu : e.up with
    | none =>
      rw [hu] at hrest
      cases hrest
      exact absurd hx (List.not_mem_nil x)
    | some p =>
      have h2 := IsChain.le_start hl hrest x hx p hu
      have h3 := hl.up_lt j e p he hu
      omega

theorem FindElementByNameNS.backup_total {els : List HtmlElement} (hl : LinksOK els)
    (u : Option Nat) (hu : ∀ i, u = some i → i < els.length) :
    ∃ r, FindElementByNameNS.backup els u = some r := by
  obtain ⟨chain, hchain⟩ := IsChain.exists hl els.length u (fun i hi => ⟨hu i hi, hu i hi⟩)
  unfold FindElementByNameNS.backup
  rw [searchUp_eq_find _ hchain els.length (IsChain.length_le_arena hl hchain)]
  cases hf : chain.find? (hitAt els (fun pe => pe.next.isSome)) with
  | none => exact ⟨none, rfl⟩
  | some a =>
    obtain ⟨e, he⟩ := hchain.mem_get a (List.mem_of_find?_eq_some hf)
    exact ⟨e.next, by simp only [he]⟩

theorem ParseInPlace.loop_eq_foldlM (L : HtmlParserLookup) (toks : List HtmlToken) :
    ∀ (self : HtmlParser), (∀ t ∈ toks, t.IsError = false) →
      ParseInPlace.loop L self toks =
        (toks.foldlM (ParseInPlace.step L) self).map (fun s => (s, s.rootElement)) := by
  induction toks with
  | nil => intro self _; rfl
  | cons tok rest ih =>
    intro self hok
    have herr : tok.IsError = false := hok tok (List.mem_cons_self _ _)
    have hok2 : ∀ t ∈ rest, t.IsError = false :=
      fun t ht => hok t (List.mem_cons_of_mem _ ht)
    rw [ParseInPlace.loop, List.foldlM_cons]
    simp only [herr, Bool.false_eq_true, if_false, ParseInPlace.step]
    by_cases htag : tok.IsTag = true
    · simp only [htag, Bool.not_true, Bool.false_eq_true, if_false]
      cases hstep : ParseInPlace.tagToken L self tok with
      | none => rfl
      | some s1 => exact ih s1 hok2
    · simp only [htag, Bool.not_false, if_true]
      exact ih self hok2

/-- C27: the tree-building pass ends on every token sequence.  `ParseInPlace` returns on
every token sequence; in the parser `p` it leaves, the parent of an element was created
before the element, so the `up` chain from any element is strictly decreasing (no element
twice) and has at most as many elements as were created up to it; the upward search
shared by `FindParent`, `CloseTag` and the climb of `FindElementByNameNS` answers with
any fuel from the arena size on, always the same; `FindParent`, `CloseTag` and `StartTag`
return for every token, the last-sibling walk ends from every first child, and so does the
climb from every element.  On a sequence without error token the loop is the fold of the
one-token step over the sequence, one step per token; and an error token ends it after
the steps for the tokens before it. -/
theorem ParseInPlace_terminates (L : HtmlParserLookup) (self : HtmlParser)
    (d : Option (List Nat)) (codepage : Nat) (toks : List HtmlToken)
    (hself : self.html.isSome = true ∨ self = HtmlParser.fresh) :
    (∃ p root, ParseInPlace L self d codepage toks = some (p, root) ∧
      (∀ (i : Nat) (e : HtmlElement) (u : Nat),
        p.allocator[i]? = some e → e.up = some u → u < i) ∧
      (∀ x, x < p.allocator.length → ∃ chain, IsChain p.allocator (some x) chain ∧
        chain.length ≤ x + 1 ∧ chain.Pairwise (fun a b => a > b)) ∧
      (∀ (hit : HtmlElement → Bool) (x fuel : Nat), x < p.allocator.length →
        p.allocator.length ≤ fuel →
        (∃ r, searchUp hit p.allocator fuel (some x) = some r) ∧
        searchUp hit p.allocator fuel (some x) =
          searchUp hit p.allocator p.allocator.length (some x)) ∧
      (∀ tok : HtmlToken, (∃ r, FindParent L p tok = some r) ∧
        (∃ q, CloseTag L p tok = some q) ∧ (∃ q, StartTag L p tok = some q)) ∧
      (∀ (x : Nat) (e : HtmlElement) (dn : Nat), p.allocator[x]? = some e →
        e.down = some dn →
        ∃ last, StartTag.lastSibling p.allocator p.allocator.length dn = some last) ∧
      (∀ (x : Nat) (e : HtmlElement), p.allocator[x]? = some e →
        ∃ r, FindElementByNameNS.findNext p.allocator e = some r)) ∧
    ((∀ t ∈ toks, t.IsError = false) →
      ParseInPlace L self d codepage toks =
        (toks.foldlM (ParseInPlace.step L) (startParser d codepage)).map
          (fun s => (s, s.rootElement))) ∧
    (∀ (pre post : List HtmlToken) (tok : HtmlToken), toks = pre ++ tok :: post →
      (∀ t ∈ pre, t.IsError = false) → tok.IsError = true →
      ParseInPlace L self d codepage toks =
        (pre.foldlM (ParseInPlace.step L) (startParser d codepage)).map
          (fun s => ({ s with errorContext := some tok.s, error := specErrorMap tok.error },
            none))) := by
  refine ⟨?_, ?_, ?_⟩
  · rw [ParseInPlace_eq_loop L self d codepage toks hself]
    obtain ⟨p, root, hrun, hinv, _⟩ :=
      ParseInPlace.loop_treeInv L toks (startParser d codepage) (startParser_treeInv d codepage)
    have hl := hinv.wl.links
    have hchainOf : ∀ x, x < p.allocator.length →
        ∃ chain, IsChain p.allocator (some x) chain :=
      fun x hx => IsChain.exists hl (x + 1) (some x) (fun i hi => by
        cases hi
        exact ⟨Nat.lt_succ_self _, hx⟩)
    refine ⟨p, root, hrun, hl.up_lt, ?_, ?_, ?_, ?_, ?_⟩
    · intro x hx
      obtain ⟨chain, hchain⟩ := hchainOf x hx
      exact ⟨chain, hchain, IsChain.length_le hl hchain x rfl, hchain.decreasing hl⟩
    · intro hit x fuel hx hfuel
      obtain ⟨chain, hchain⟩ := hchainOf x hx
      have hlen := IsChain.length_le_arena hl hchain
      rw [searchUp_eq_find hit hchain fuel (by omega),
        searchUp_eq_find hit hchain p.allocator.length hlen]
      exact ⟨⟨_, rfl⟩, rfl⟩
    · intro tok
      obtain ⟨chain, hchain⟩ := hinv.wl.chain_exists
      obtain ⟨q1, hq1, _⟩ := CloseTag_wellLinked L p tok hinv.wl
      obtain ⟨q2, hq2, _⟩ := StartTag_wellLinked L p tok hinv.wl
      exact ⟨⟨_, FindParent_eq L p tok chain hinv.wl hchain⟩, ⟨q1, hq1⟩, ⟨q2, hq2⟩⟩
    · intro x e dn he hd
      have hdn := hl.down_gt x e dn he hd
      obtain ⟨last, _, hlast, _⟩ :=
        StartTag.lastSibling_bounded p.allocator.length (Nat.le_refl _) hl.next_gt
          p.allocator.length dn hdn.2 (by omega)
      exact ⟨last, hlast⟩
    · intro x e he
      unfold FindElementByNameNS.findNext
      cases e.down with
      | some dn => exact ⟨_, rfl⟩
      | none =>
        cases e.next with
        | some nx => exact ⟨_, rfl⟩
        | none =>
          exact FindElementByNameNS.backup_total hl e.up (fun i hi => by
            have h1 := hl.up_lt x e i he hi
            have h2 := getElem?_lt he
            omega)
  · intro hok
    rw [ParseInPlace_eq_loop L self d codepage toks hself]
    exact ParseInPlace.loop_eq_foldlM L toks (startParser d codepage) hok
  · intro pre post tok htoks hok herr
    rw [ParseInPlace_eq_loop L self d codepage toks hself, htoks]
    obtain ⟨st, hst, _⟩ :=
      ParseInPlace.loop_grows L pre (startParser d codepage)
        (startParser_wellLinked d codepage) (startParser_rootFirst d codepage) hok
    rw [ParseInPlace.loop_append L pre (tok :: post) _ st st.rootElement hok hst,
      ParseInPlace.loop_error L st tok post herr]
    have hfold := ParseInPlace.loop_eq_foldlM L pre (startParser d codepage) hok
    rw [hst] at hfold
    cases hf : pre.foldlM (ParseInPlace.step L) (startParser d codepage) with
    | none =>
      rw [hf] at hfold
      exact Option.noConfusion hfold
    | some s =>
      rw [hf] at hfold
      have : st = s := (Prod.mk.inj (Option.some.inj hfold)).1
      subst this
      rfl

/-- C27 on `<a><b><c>`: the parse returns, the `up` chain from the element of `<c>` is
`c, b, a`, and the loop is the fold of three steps. -/
theorem ParseInPlace_terminates_witness :
    (∃ p root, ParseInPlace sampleLookup HtmlParser.fresh (some (units "<a><b><c>")) 0
        tokensABC = some (p, root)) ∧
    IsChain (parsed sampleLookup "<a><b><c>" tokensABC).allocator (some 2) [2, 1, 0] ∧
    ParseInPlace sampleLookup HtmlParser.fresh (some (units "<a><b><c>")) 0 tokensABC =
      (tokensABC.foldlM (ParseInPlace.step sampleLookup)
        (startParser (some (units "<a><b><c>")) 0)).map (fun s => (s, s.rootElement)) := by
  obtain ⟨⟨p, root, hrun, _⟩, hfold, _⟩ :=
    ParseInPlace_terminates sampleLookup HtmlParser.fresh (some (units "<a><b><c>")) 0
      tokensABC (Or.inr rfl)
  refine ⟨⟨p, root, hrun⟩, ?_, hfold (by decide)⟩
  exact IsChain.cons 2 (plainElement 2 none (some 1) none none) [1, 0] (by decide)
    (IsChain.cons 1 (plainElement 1 none (some 0) (some 2) none) [0] (by decide)
      (IsChain.cons 0 (plainElement 0 none none (some 1) none) [] (by decide) IsChain.nil))

/-! ## Counters, failed parses and ignored elements -/

theorem HtmlParser.fieldsAfter_add {a b : HtmlParser} {m n : Nat}
    (h : a.fieldsAfter 0 0 = b.fieldsAfter m n) (m2 n2 : Nat) :
    a.fieldsAfter m2 n2 = b.fieldsAfter (m + m2) (n + n2) := by
  simp only [HtmlParser.fieldsAfter, Fields.mk.injEq, Nat.add_zero] at h ⊢
  obtain ⟨h1, h2, h3, h4, h5⟩ := h
  refine ⟨h1, h2, h3, ?_, ?_⟩ <;> omega

theorem attrTotal_cons (tok : HtmlToken) (rest : List HtmlToken) :
    attrTotal (tok :: rest) =
      (if tok.opensElement then tok.attrs.length else 0) + attrTotal rest := by
  unfold attrTotal
  rw [List.filter_cons]
  split_ifs <;> simp

theorem ParseInPlace.loop_counts (L : HtmlParserLookup) (toks : List HtmlToken) :
    ∀ (self p : HtmlParser) (root : Option Nat), WellLinked self → RootFirst self →
      (∀ t ∈ toks, t.IsError = false) → ParseInPlace.loop L self toks = some (p, root) →
      p.fieldsAfter 0 0 =
        self.fieldsAfter (toks.filter HtmlToken.opensElement).length (attrTotal toks) := by
  induction toks with
  | nil =>
    intro self p root _ _ _ hrun
    simp only [ParseInPlace.loop, Option.some.injEq, Prod.mk.injEq] at hrun
    rw [hrun.1]
    rfl
  | cons tok rest ih =>
    intro self p root hwf hroot hok hrun
    have herr : tok.IsError = false := hok tok (List.mem_cons_self _ _)
    have hok2 : ∀ t ∈ rest, t.IsError = false :=
      fun t ht => hok t (List.mem_cons_of_mem _ ht)
    rw [ParseInPlace.loop] at hrun
    simp only [herr, Bool.false_eq_true, if_false] at hrun
    rw [attrTotal_cons, List.filter_cons]
    by_cases htag : tok.IsTag = true
    · simp only [htag, Bool.not_true, Bool.false_eq_true, if_false] at hrun
      obtain ⟨s1, h1, hwf1, hroot1, _⟩ := ParseInPlace.tagToken_grows L self tok hwf hroot
      rw [h1] at hrun
      have hf := (ParseInPlace.tagToken_fields L self tok hwf s1 h1).1
      have hrec := ih s1 p root hwf1 hroot1 hok2 hrun
      have hsum := HtmlParser.fieldsAfter_add hf
        (rest.filter HtmlToken.opensElement).length (attrTotal rest)
      rw [hrec, hsum]
      cases hend : tok.IsEndTag with
      | true => simp [HtmlToken.opensElement, hend]
      | false => simp [HtmlToken.opensElement, hend, htag, Nat.add_comm]
    · simp only [htag, Bool.not_false, if_true] at hrun
      have hno : tok.opensElement = false := by
        simp [HtmlToken.opensElement, Bool.eq_false_iff.mpr htag]
      rw [ih self p root hwf hroot hok2 hrun]
      simp [hno]

theorem specErrorMap_ne (err : ParsingError) :
    specErrorMap err ≠ HtmlParserError.ErrParsingNoError := by
  cases err <;> decide

/-- C25: a parse that fails on an error token leaves the partial tree in the parser.  Let
the tokens before the first error token `tok` hold at least one start tag or
empty-element tag, and let `st` be the parser after those tokens alone.  `ParseInPlace`
returns no root and records the error, but `rootElement` still is the first created
element, the arena is that of `st`, and `ElementsCount` and `TotalAttrCount` are the numbers
of elements and attributes of the tokens before the error.  `FindElementByName(name,
nullptr)` then searches that tree: it returns the first element in document order whose
name matches, the root itself when the root matches. -/
theorem ParseInPlace_error_keeps_partial_tree (L : HtmlParserLookup) (self : HtmlParser)
    (d : Option (List Nat)) (codepage : Nat) (pre post : List HtmlToken) (tok : HtmlToken)
    (name : List Nat)
    (hself : self.html.isSome = true ∨ self = HtmlParser.fresh)
    (hok : ∀ t ∈ pre, t.IsError = false)
    (hopen : ∃ t ∈ pre, t.opensElement = true) (herr : tok.IsError = true) :
    ∃ st p, ParseInPlace L self d codepage pre = some (st, st.rootElement) ∧
      ParseInPlace L self d codepage (pre ++ tok :: post) = some (p, none) ∧
      p.error = specErrorMap tok.error ∧ p.error ≠ HtmlParserError.ErrParsingNoError ∧
      p.rootElement = some 0 ∧ p.allocator = st.allocator ∧ 0 < p.allocator.length ∧
      ElementsCount p = (pre.filter HtmlToken.opensElement).length ∧
      TotalAttrCount p = attrTotal pre ∧
      (∃ rest, documentOrder p p.rootElement = some (0 :: rest) ∧
        FindElementByName L p name none =
          some ((0 :: rest).find? (nameMatches L p.allocator name))) ∧
      ∀ e0, p.allocator[0]? = some e0 → e0.NameIs L name = true →
        FindElementByName L p name none = some (some 0) := by
  rw [ParseInPlace_eq_loop L self d codepage pre hself,
    ParseInPlace_eq_loop L self d codepage (pre ++ tok :: post) hself]
  obtain ⟨st, hst, hwf, hroot, _, hlen⟩ :=
    ParseInPlace.loop_grows L pre (startParser d codepage)
      (startParser_wellLinked d codepage) (startParser_rootFirst d codepage) hok
  obtain ⟨st2, r2, hst2, hinv, _⟩ :=
    ParseInPlace.loop_treeInv L pre (startParser d codepage) (startParser_treeInv d codepage)
  have hsame : st2 = st := (Prod.mk.inj (Option.some.inj (hst2.symm.trans hst))).1
  subst hsame
  have hcounts := ParseInPlace.loop_counts L pre (startParser d codepage) st2 _
    (startParser_wellLinked d codepage) (startParser_rootFirst d codepage) hok hst
  have hpos : 0 < st2.allocator.length := by
    obtain ⟨t, ht, hto⟩ := hopen
    have : t ∈ pre.filter HtmlToken.opensElement := List.mem_filter.mpr ⟨ht, hto⟩
    have := List.length_pos_of_mem this
    rw [hlen]
    omega
  have hr0 : st2.rootElement = some 0 := by
    have := hroot
    unfold RootFirst at this
    rw [this, if_neg (by omega)]
  have hinvp : TreeInv
      { st2 with errorContext := some tok.s, error := specErrorMap tok.error } :=
    ⟨⟨hinv.wl.links, hinv.wl.curr_lt, hinv.wl.root_lt⟩, hinv.root, hinv.tree⟩
  obtain ⟨order, hord, _, hnone, hsome⟩ := documentOrder_follows hinvp
  obtain ⟨order2, hord2, _, _, _, hfirst, _⟩ :=
    FindElementByNameNS_eq L
      { st2 with errorContext := some tok.s, error := specErrorMap tok.error } name none hinvp
  have hoo : order2 = order := Option.some.inj (hord2.symm.trans hord)
  subst hoo
  obtain ⟨rest, hrest⟩ := hsome 0 hr0
  subst hrest
  rw [FindElementByNameNS.check_none] at hfirst
  have hfirst2 : FindElementByName L
      { st2 with errorContext := some tok.s, error := specErrorMap tok.error } name none =
      some ((0 :: rest).find? (nameMatches L st2.allocator name)) := hfirst
  refine ⟨st2, { st2 with errorContext := some tok.s, error := specErrorMap tok.error },
    hst, ?_, rfl, specErrorMap_ne tok.error, hr0, rfl, hpos, ?_, ?_, ⟨rest, hord, hfirst2⟩, ?_⟩
  · rw [ParseInPlace.loop_append L pre (tok :: post) _ st2 st2.rootElement hok hst,
      ParseInPlace.loop_error L st2 tok post herr]
  · have := congrArg Fields.elementsCount hcounts
    simp only [HtmlParser.fieldsAfter, Nat.add_zero] at this
    show st2.elementsCount = _
    rw [this]
    show 0 + _ = _
    omega
  · have := congrArg Fields.attributesCount hcounts
    simp only [HtmlParser.fieldsAfter, Nat.add_zero] at this
    show st2.attributesCount = _
    rw [this]
    show 0 + _ = _
    omega
  · intro e0 he0 hname
    rw [hfirst2, List.find?_cons]
    have : nameMatches L st2.allocator name 0 = true := by
      unfold nameMatches hitAt
      have he : st2.allocator[0]? = some e0 := he0
      rw [he]
      exact hname
    rw [this]

/-- C25 on `<a><b>` followed by an error token: no root is returned and the error is
recorded, but the parser keeps the two elements, and `FindElementByName` for `b` finds the
second one. -/
theorem ParseInPlace_error_keeps_partial_tree_witness :
    ∃ st p, ParseInPlace sampleLookup HtmlParser.fresh (some (units "<a><b><")) 0
        [startTok sampleLookup "a" [], startTok sampleLookup "b" []] =
        some (st, st.rootElement) ∧
      ParseInPlace sampleLookup HtmlParser.fresh (some (units "<a><b><")) 0
        ([startTok sampleLookup "a" [], startTok sampleLookup "b" []] ++
          errorTok sampleLookup ParsingError.UnclosedTag (units "<") :: []) = some (p, none) ∧
      p.rootElement = some 0 ∧ ElementsCount p = 2 ∧
      FindElementByName sampleLookup p (units "b") none = some (some 1) := by
  obtain ⟨st, p, h1, h2, _, _, h5, h6, _, h8, _, _, _⟩ :=
    ParseInPlace_error_keeps_partial_tree sampleLookup HtmlParser.fresh
      (some (units "<a><b><")) 0
      [startTok sampleLookup "a" [], startTok sampleLookup "b" []] []
      (errorTok sampleLookup ParsingError.UnclosedTag (units "<")) (units "b") (Or.inr rfl)
      (by decide) ⟨startTok sampleLookup "a" [], by decide, by decide⟩ (by decide)
  refine ⟨st, p, h1, h2, h5, h8, ?_⟩
  have hrun : ParseInPlace sampleLookup HtmlParser.fresh (some (units "<a><b><")) 0
      ([startTok sampleLookup "a" [], startTok sampleLookup "b" []] ++
        errorTok sampleLookup ParsingError.UnclosedTag (units "<") :: []) =
      some ({ parsed sampleLookup "<a><b><"
          [startTok sampleLookup "a" [], startTok sampleLookup "b" []] with
        errorContext := some (units "<")
        error := HtmlParserError.ErrParsingElementName }, none) := by decide
  have hp := (Prod.mk.inj (Option.some.inj (h2.symm.trans hrun))).1
  rw [hp]
  decide

theorem IsChain.parent_mem {els : List HtmlElement} {o : Option Nat} {chain : List Nat}
    (h : IsChain els o chain) : ∀ (i : Nat) (e : HtmlElement) (a : Nat), i ∈ chain →
      els[i]? = some e → e.up = some a → a ∈ chain := by
  induction h with
  | nil => intro i e a hi; exact absurd hi (List.not_mem_nil i)
  | cons j ej rest hej hrest ih =>
    intro i e a hi he hu
    rcases List.mem_cons.mp hi with h1 | h1
    · subst h1
      have heq : ej = e := Option.some.inj (hej.symm.trans he)
      subst heq
      rw [hu] at hrest
      cases hrest with
      | cons _ e2 rest2 he2 hrest2 =>
        exact List.mem_cons_of_mem _ (List.mem_cons_self _ _)
    · exact List.mem_cons_of_mem _ (ih i e a h1 he hu)

theorem IsChain.start_mem {els : List HtmlElement} {o : Option Nat} {chain : List Nat}
    (h : IsChain els o chain) : ∀ x, o = some x → x ∈ chain := by
  cases h with
  | nil => intro x hx; exact Option.noConfusion hx
  | cons i e rest he hrest =>
    intro x hx
    cases hx
    exact List.mem_cons_self _ _

theorem IsChain.ends_at {els : List HtmlElement} {o : Option Nat} {chain : List Nat}
    (h : IsChain els o chain) : ∀ (a : Nat) (ea : HtmlElement), a ∈ chain →
      els[a]? = some ea → ea.up = none → chain.getLast? = some a := by
  induction h with
  | nil => intro a ea ha; exact absurd ha (List.not_mem_nil a)
  | cons j ej rest hej hrest ih =>
    intro a ea ha hea hu
    rcases List.mem_cons.mp ha with h1 | h1
    · subst h1
      have heq : ej = ea := Option.some.inj (hej.symm.trans hea)
      subst heq
      rw [hu] at hrest
      cases hrest
      rfl
    · have hlast := ih a ea h1 hea hu
      cases rest with
      | nil => exact absurd h1 (List.not_mem_nil a)
      | cons y t =>
        rw [List.getLast?_cons_cons]
        exact hlast

theorem IsChain.same_chain {els : List HtmlElement} {o : Option Nat} {c1 : List Nat}
    (h1 : IsChain els o c1) : ∀ c2, IsChain els o c2 → c1 = c2 := by
  induction h1 with
  | nil => intro c2 h2; cases h2; rfl
  | cons i e rest he _ ih =>
    intro c2 h2
    cases h2 with
    | cons _ e2 rest2 he2 hrest2 =>
      have heq : e = e2 := Option.some.inj (he.symm.trans he2)
      subst heq
      rw [ih rest2 hrest2]

theorem preorder_under {els : List HtmlElement} (hl : LinksOK els) (ht : TreeLinked els) :
    ∀ (fuel : Nat) (o : Option Nat) (l : List Nat) (a : Nat), preorder els fuel o = some l →
      (∀ i e, o = some i → els[i]? = some e → e.up = some a) →
      ∀ x ∈ l, ∃ chain, IsChain els (some x) chain ∧ a ∈ chain := by
  intro fuel
  induction fuel with
  | zero =>
    intro o l a h _ x hx
    cases o with
    | none =>
      simp only [preorder, Option.some.injEq] at h
      subst h
      exact absurd hx (List.not_mem_nil x)
    | some i => simp [preorder] at h
  | succ f ih =>
    intro o l a h hup x hx
    cases o with
    | none =>
      simp only [preorder, Option.some.injEq] at h
      subst h
      exact absurd hx (List.not_mem_nil x)
    | some i =>
      simp only [preorder] at h
      cases he : els[i]? with
      | none => simp [he] at h
      | some e =>
        cases hb : preorder els f e.down with
        | none => simp [he, hb] at h
        | some below =>
          cases hs : preorder els f e.next with
          | none => simp [he, hb, hs] at h
          | some sibs =>
            simp only [he, hb, hs, Option.some.injEq] at h
            subst h
            have hu : e.up = some a := hup i e rfl he
            rcases List.mem_cons.mp hx with h1 | h1
            · subst h1
              have hi := getElem?_lt he
              obtain ⟨chain, hchain⟩ := IsChain.exists hl (x + 1) (some x) (fun j hj => by
                cases hj
                exact ⟨Nat.lt_succ_self _, hi⟩)
              exact ⟨chain, hchain, hchain.parent_mem x e a (hchain.start_mem x rfl) he hu⟩
            · rcases List.mem_append.mp h1 with h2 | h2
              · obtain ⟨chain, hchain, hin⟩ := ih e.down below i hb (by
                  intro j ej hj hej
                  obtain ⟨ed, hed, hud⟩ := ht.down_up i e j he hj
                  have heq : ed = ej := Option.some.inj (hed.symm.trans hej)
                  subst heq
                  exact hud) x h2
                exact ⟨chain, hchain, hchain.parent_mem i e a hin he hu⟩
              · exact ih e.next sibs a hs (by
                  intro j ej hj hej
                  obtain ⟨en, hen, hun⟩ := ht.next_up hl i e j he hj
                  have heq : en = ej := Option.some.inj (hen.symm.trans hej)
                  subst heq
                  exact hun.trans hu) x h2

theorem documentOrder_under_root {parser : HtmlParser} (hinv : TreeInv parser)
    (order : List Nat) (hord : documentOrder parser parser.rootElement = some order) :
    ∀ x ∈ order, ∃ chain, IsChain parser.allocator (some x) chain ∧ 0 ∈ chain := by
  intro x hx
  cases hr : parser.rootElement with
  | none =>
    rw [hr] at hord
    simp only [documentOrder, Option.some.injEq] at hord
    subst hord
    exact absurd hx (List.not_mem_nil x)
  | some r =>
    have hrlt := hinv.wl.root_lt r hr
    have hr0 : r = 0 := by
      have := hinv.root
      unfold RootFirst at this
      rw [hr] at this
      split_ifs at this
      exact (Option.some.inj this)
    subst hr0
    have he : parser.allocator[0]? = some parser.allocator[0] :=
      List.getElem?_eq_getElem hrlt
    rw [hr] at hord
    simp only [documentOrder, he] at hord
    cases hb : preorder parser.allocator parser.allocator.length parser.allocator[0].down with
    | none => simp [hb] at hord
    | some below =>
      simp only [hb, Option.some.injEq] at hord
      subst hord
      rcases List.mem_cons.mp hx with h1 | h1
      · subst h1
        obtain ⟨chain, hchain⟩ := IsChain.exists hinv.wl.links 1 (some 0) (fun j hj => by
          cases hj
          exact ⟨Nat.lt_succ_self _, hrlt⟩)
        exact ⟨chain, hchain, hchain.start_mem 0 rfl⟩
      · exact preorder_under hinv.wl.links hinv.tree _ _ below 0 hb (by
          intro j ej hj hej
          obtain ⟨ed, hed, hud⟩ := hinv.tree.down_up 0 _ j he hj
          have heq : ed = ej := Option.some.inj (hed.symm.trans hej)
          subst heq
          exact hud) x h1

/-- C24: a start tag met while no element is open and a root exists is ignored together
with what is nested in it.  Let `tok` be a start tag or empty-element tag of the error-free
stream `pre ++ tok :: post`, `s` the parser after `pre` alone and `p` the parser after the
whole stream.  `ElementsCount` is the number of start tags and empty-element tags of the
stream.  When `s` has a root and no current element, the element of `tok` (at index
`s.allocator.length`) has a null `up` and is in no child list, and no element `x` that has
it on its `up` chain (itself included) is in the document order of the tree; so
`FindElementByName` returns no such element, neither when called with `nullptr` nor when
called with an element of the tree. -/
theorem orphan_start_tag_is_ignored (L : HtmlParserLookup) (self : HtmlParser)
    (d : Option (List Nat)) (codepage : Nat) (pre post : List HtmlToken) (tok : HtmlToken)
    (name : List Nat)
    (hself : self.html.isSome = true ∨ self = HtmlParser.fresh)
    (hok : ∀ t ∈ pre ++ tok :: post, t.IsError = false)
    (hopen : tok.opensElement = true) :
    ∃ s p order, ParseInPlace L self d codepage pre = some (s, s.rootElement) ∧
      ParseInPlace L self d codepage (pre ++ tok :: post) = some (p, p.rootElement) ∧
      documentOrder p p.rootElement = some order ∧
      ElementsCount p = ((pre ++ tok :: post).filter HtmlToken.opensElement).length ∧
      (s.currElement = none → s.rootElement ≠ none →
        (∃ e, p.allocator[s.allocator.length]? = some e ∧ e.up = none) ∧
        (∀ q kids, childList p.allocator q = some kids → s.allocator.length ∉ kids) ∧
        ∀ (x : Nat) (chain : List Nat), IsChain p.allocator (some x) chain →
          s.allocator.length ∈ chain →
          x ∉ order ∧ FindElementByName L p name none ≠ some (some x) ∧
          ∀ y ∈ order, FindElementByName L p name (some y) ≠ some (some x)) := by
  have hokpre : ∀ t ∈ pre, t.IsError = false :=
    fun t ht => hok t (List.mem_append_left _ ht)
  have hoktok : tok.IsError = false := hok tok (by simp)
  have hokpost : ∀ t ∈ post, t.IsError = false :=
    fun t ht => hok t (by simp [ht])
  rw [ParseInPlace_eq_loop L self d codepage pre hself,
    ParseInPlace_eq_loop L self d codepage (pre ++ tok :: post) hself]
  obtain ⟨s, hs, hwfs, hroots, _, _⟩ :=
    ParseInPlace.loop_grows L pre (startParser d codepage)
      (startParser_wellLinked d codepage) (startParser_rootFirst d codepage) hokpre
  obtain ⟨p, hp, _, _, _, _⟩ :=
    ParseInPlace.loop_grows L (pre ++ tok :: post) (startParser d codepage)
      (startParser_wellLinked d codepage) (startParser_rootFirst d codepage) hok
  obtain ⟨p3, r3, hp3, hinv, _⟩ :=
    ParseInPlace.loop_treeInv L (pre ++ tok :: post) (startParser d codepage)
      (startParser_treeInv d codepage)
  have hsame : p3 = p := (Prod.mk.inj (Option.some.inj (hp3.symm.trans hp))).1
  subst hsame
  have hcounts := ParseInPlace.loop_counts L (pre ++ tok :: post) (startParser d codepage) p3 _
    (startParser_wellLinked d codepage) (startParser_rootFirst d codepage) hok hp
  have htag : tok.IsTag = true := by
    simp only [HtmlToken.opensElement, Bool.and_eq_true] at hopen
    exact hopen.1
  have hend : tok.IsEndTag = false := by
    simp only [HtmlToken.opensElement, Bool.and_eq_true, Bool.not_eq_true'] at hopen
    exact hopen.2
  obtain ⟨s1, h1, hwf1, hroot1, _, _, hop⟩ := ParseInPlace.tagToken_grows L s tok hwfs hroots
  obtain ⟨parent, e, _, hnone, _, _, he1, _, _, hu⟩ := hop hend
  obtain ⟨p2, hp2, _, _, hg2, _⟩ := ParseInPlace.loop_grows L post s1 hwf1 hroot1 hokpost
  have hstep : ParseInPlace.loop L s (tok :: post) = ParseInPlace.loop L s1 post := by
    rw [ParseInPlace.loop]
    simp only [hoktok, Bool.false_eq_true, if_false, htag, Bool.not_true, h1]
  have hrun := ParseInPlace.loop_append L pre (tok :: post) (startParser d codepage) s
    s.rootElement hokpre hs
  rw [hstep, hp2] at hrun
  have hpp : p3 = p2 := (Prod.mk.inj (Option.some.inj (hp.symm.trans hrun))).1
  subst hpp
  obtain ⟨e2, he2, _, _, hu2⟩ := hg2.keeps s.allocator.length e he1
  obtain ⟨order, hord, _, _, _, hfirst, hnext⟩ := FindElementByNameNS_eq L p3 name none hinv
  have hunder := documentOrder_under_root hinv order hord
  refine ⟨s, p3, order, hs, hp, hord, ?_, ?_⟩
  · have := congrArg Fields.elementsCount hcounts
    simp only [HtmlParser.fieldsAfter, Nat.add_zero] at this
    show p3.elementsCount = _
    rw [this]
    show 0 + _ = _
    omega
  · intro hcurr hrootne
    have hup2 : e2.up = none := by
      rw [hu2, hu]
      exact hnone.mpr hcurr
    have hpos : s.allocator.length ≠ 0 := by
      intro hz
      have := hroots
      unfold RootFirst at this
      rw [if_pos hz] at this
      exact hrootne this
    have hnotin : ∀ x chain, IsChain p3.allocator (some x) chain →
        s.allocator.length ∈ chain → x ∉ order := by
      intro x chain hchain hin hx
      obtain ⟨chain2, hchain2, h0⟩ := hunder x hx
      have hcc := hchain2.same_chain chain hchain
      subst hcc
      have hl0 := getElem?_lt he2
      have he0 : p3.allocator[0]? = some p3.allocator[0] :=
        List.getElem?_eq_getElem (by omega)
      have hup0 : p3.allocator[0].up = none := by
        cases hu0 : p3.allocator[0].up with
        | none => rfl
        | some u =>
          have := hinv.wl.links.up_lt 0 _ u he0 hu0
          omega
      have hlastn := hchain2.ends_at _ e2 hin he2 hup2
      have hlast0 := hchain2.ends_at 0 _ h0 he0 hup0
      exact hpos (Option.some.inj (hlastn.symm.trans hlast0))
    refine ⟨⟨e2, he2, hup2⟩, ?_, ?_⟩
    · intro q kids hq hin
      obtain ⟨_, _, _, _, hmem⟩ := hinv.tree.of_childList hq
      obtain ⟨e3, he3, hu3⟩ := (hmem _).mp hin
      have heq : e3 = e2 := Option.some.inj (he3.symm.trans he2)
      subst heq
      rw [hup2] at hu3
      exact Option.noConfusion hu3
    · intro x chain hchain hin
      have hx := hnotin x chain hchain hin
      refine ⟨hx, ?_, ?_⟩
      · intro hc
        have hc2 : FindElementByNameNS L p3 name none none = some (some x) := hc
        rw [hfirst] at hc2
        exact hx (List.mem_of_find?_eq_some (Option.some.inj hc2))
      · intro y hy hc
        obtain ⟨i, hi⟩ := List.mem_iff_getElem?.mp hy
        have hc2 : FindElementByNameNS L p3 name none (some y) = some (some x) := hc
        rw [hnext i y hi] at hc2
        exact hx (List.mem_of_mem_drop (List.mem_of_find?_eq_some (Option.some.inj hc2)))

/-- C24 on `<a></a><b><c></c></b>`: three elements are counted, the document order of the
tree is the root alone, the element of `<b>` has a null `up`, and a search for `c` from
the root returns `nullptr`, not the element of `<c>` nested in it. -/
theorem orphan_start_tag_is_ignored_witness :
    ∃ s p order, ParseInPlace sampleLookup HtmlParser.fresh (some []) 0
        [startTok sampleLookup "a" [], endTok sampleLookup "a"] = some (s, s.rootElement) ∧
      ParseInPlace sampleLookup HtmlParser.fresh (some []) 0 tokensIgnored =
        some (p, p.rootElement) ∧
      documentOrder p p.rootElement = some order ∧ order = [0] ∧ ElementsCount p = 3 ∧
      (∃ e, p.allocator[1]? = some e ∧ e.up = none) ∧
      FindElementByName sampleLookup p (units "c") none ≠ some (some 2) ∧
      FindElementByName sampleLookup p (units "c") none = some none := by
  obtain ⟨s, p, order, h1, h2, h3, h4, h5⟩ :=
    orphan_start_tag_is_ignored sampleLookup HtmlParser.fresh (some []) 0
      [startTok sampleLookup "a" [], endTok sampleLookup "a"]
      [startTok sampleLookup "c" [], endTok sampleLookup "c", endTok sampleLookup "b"]
      (startTok sampleLookup "b" []) (units "c") (Or.inr rfl) (by decide) (by decide)
  have hs : s = parsed sampleLookup ""
      [startTok sampleLookup "a" [], endTok sampleLookup "a"] := by
    have hrun : ParseInPlace sampleLookup HtmlParser.fresh (some []) 0
        [startTok sampleLookup "a" [], endTok sampleLookup "a"] =
        some (parsed sampleLookup "" [startTok sampleLookup "a" [], endTok sampleLookup "a"],
          some 0) := by decide
    exact (Prod.mk.inj (Option.some.inj (h1.symm.trans hrun))).1
  have hp : p = parsed sampleLookup "" tokensIgnored := by
    have hrun : ParseInPlace sampleLookup HtmlParser.fresh (some []) 0 tokensIgnored =
        some (parsed sampleLookup "" tokensIgnored, some 0) := by decide
    exact (Prod.mk.inj (Option.some.inj (h2.symm.trans hrun))).1
  subst hs hp
  obtain ⟨hel, _, hreach⟩ := h5 (by decide) (by decide)
  have ho : order = [0] := by
    have h : documentOrder (parsed sampleLookup "" tokensIgnored)
        (parsed sampleLookup "" tokensIgnored).rootElement = some [0] := by decide
    exact Option.some.inj (h3.symm.trans h)
  have hchain : IsChain (parsed sampleLookup "" tokensIgnored).allocator (some 2) [2, 1] :=
    IsChain.cons 2 (plainElement 2 none (some 1) none none) [1] (by decide)
      (IsChain.cons 1 (plainElement 1 none none (some 2) none) [] (by decide) IsChain.nil)
  exact ⟨_, _, order, h1, h2, h3, ho, h4, hel, (hreach 2 [2, 1] hchain (by decide)).2.1,
    by decide⟩

/-! ## Error tokens: the parse stops -/

/-- C9: an error token stops the parse.  Let `tok` be the first `Error` token of the
stream `pre ++ tok :: post`, the parser being fresh or holding a buffer.  Then
`ParseInPlace` answers on `pre` alone, with some parser `st`, and on the whole stream it
answers with no root and the parser `st` in which only the error context of the token and
the error `specErrorMap tok.error` are recorded: nothing of `post` is processed, and the
arena, the element count and the attribute count are those of the tag tokens of `pre`
alone.  The map sends `UnclosedTag` to `ErrParsingElementName`, `InvalidTag` to
`ErrParsingClosingElement` and every other kind to `ErrParsingElement`, so the three error
kinds of the tokenizer get three different parser errors. -/
theorem ParseInPlace_stops_at_error (L : HtmlParserLookup) (self : HtmlParser)
    (d : Option (List Nat)) (codepage : Nat) (pre post : List HtmlToken) (tok : HtmlToken)
    (hself : self.html.isSome = true ∨ self = HtmlParser.fresh)
    (hpre : ∀ t ∈ pre, t.IsError = false) (herr : tok.IsError = true) :
    (∃ st, ParseInPlace L self d codepage pre = some (st, st.rootElement) ∧
      ParseInPlace L self d codepage (pre ++ tok :: post) =
        some ({ st with errorContext := some tok.s, error := specErrorMap tok.error }, none) ∧
      st.allocator.length = (pre.filter HtmlToken.opensElement).length ∧
      ElementsCount st = (pre.filter HtmlToken.opensElement).length ∧
      TotalAttrCount st = attrTotal pre) ∧
    specErrorMap ParsingError.UnclosedTag = HtmlParserError.ErrParsingElementName ∧
    specErrorMap ParsingError.InvalidTag = HtmlParserError.ErrParsingClosingElement ∧
    specErrorMap ParsingError.ExpectedElement = HtmlParserError.ErrParsingElement ∧
    specErrorMap ParsingError.NoError = HtmlParserError.ErrParsingElement ∧
    specErrorMap ParsingError.ExpectedElement ≠ specErrorMap ParsingError.UnclosedTag ∧
    specErrorMap ParsingError.ExpectedElement ≠ specErrorMap ParsingError.InvalidTag ∧
    specErrorMap ParsingError.UnclosedTag ≠ specErrorMap ParsingError.InvalidTag := by
  refine ⟨?_, rfl, rfl, rfl, rfl, by decide, by decide, by decide⟩
  rw [ParseInPlace_eq_loop L self d codepage pre hself,
    ParseInPlace_eq_loop L self d codepage (pre ++ tok :: post) hself]
  obtain ⟨st, hrun, _, _, _, hlen⟩ :=
    ParseInPlace.loop_grows L pre (startParser d codepage) (startParser_wellLinked d codepage)
      (startParser_rootFirst d codepage) hpre
  have hcount := ParseInPlace.loop_counts L pre (startParser d codepage) st st.rootElement
    (startParser_wellLinked d codepage) (startParser_rootFirst d codepage) hpre hrun
  simp only [HtmlParser.fieldsAfter, startParser, HtmlParser.fresh, Fields.mk.injEq,
    Nat.add_zero, Nat.zero_add] at hcount
  refine ⟨st, hrun, ?_, ?_, ?_, ?_⟩
  · rw [ParseInPlace.loop_append L pre (tok :: post) _ st st.rootElement hpre hrun,
      ParseInPlace.loop_error L st tok post herr]
  · rw [hlen]
    simp [startParser, HtmlParser.fresh]
  · exact hcount.2.2.2.1
  · exact hcount.2.2.2.2

/-- C9, the example of the claim: the input `<a href="x`, for which the tokenizer delivers
an `UnclosedTag` error token, yields no root and the error `ErrParsingElementName`; and
for `<a x=1 y=2><b>`, an `InvalidTag` error token and then `<c>`, the parse yields no root,
the error `ErrParsingClosingElement`, and the two elements and two attributes of the tokens
before the error token: nothing is created for `<c>`. -/
theorem ParseInPlace_stops_at_error_witness :
    ParseInPlace sampleLookup HtmlParser.fresh (some (units "<a href=" ++ 34 :: units "x")) 0
        ([] ++ errorTok sampleLookup ParsingError.UnclosedTag
          (units "<a href=" ++ 34 :: units "x") :: []) =
      some ({ HtmlParser.fresh with
              html := some (units "<a href=" ++ 34 :: units "x")
              errorContext := some (units "<a href=" ++ 34 :: units "x")
              error := HtmlParserError.ErrParsingElementName }, none) ∧
    (∃ st, ParseInPlace sampleLookup HtmlParser.fresh (some (units "<a x=1 y=2><b><")) 0
          [startTok sampleLookup "a" attrsXY, startTok sampleLookup "b" []] =
        some (st, some 0) ∧
      ParseInPlace sampleLookup HtmlParser.fresh (some (units "<a x=1 y=2><b><")) 0
          ([startTok sampleLookup "a" attrsXY, startTok sampleLookup "b" []] ++
            errorTok sampleLookup ParsingError.InvalidTag (units "<") ::
              [startTok sampleLookup "c" []]) =
        some ({ st with errorContext := some (units "<")
                        error := HtmlParserError.ErrParsingClosingElement }, none) ∧
      st.allocator.length = 2 ∧ ElementsCount st = 2 ∧ TotalAttrCount st = 2) := by
  constructor
  · obtain ⟨⟨st, h1, h2, _⟩, _⟩ := ParseInPlace_stops_at_error sampleLookup HtmlParser.fresh
      (some (units "<a href=" ++ 34 :: units "x")) 0 [] []
      (errorTok sampleLookup ParsingError.UnclosedTag (units "<a href=" ++ 34 :: units "x"))
      (Or.inr rfl) (by decide) rfl
    have hst : st = { HtmlParser.fresh with
        html := some (units "<a href=" ++ 34 :: units "x") } := by
      have h3 : ParseInPlace sampleLookup HtmlParser.fresh
          (some (units "<a href=" ++ 34 :: units "x")) 0 [] =
          some ({ HtmlParser.fresh with
            html := some (units "<a href=" ++ 34 :: units "x") }, none) := by decide
      rw [h3] at h1
      exact (congrArg Prod.fst (Option.some.inj h1)).symm
    rw [h2, hst]
    rfl
  · obtain ⟨⟨st, h1, h2, h3, h4, h5⟩, _⟩ := ParseInPlace_stops_at_error sampleLookup
      HtmlParser.fresh (some (units "<a x=1 y=2><b><")) 0
      [startTok sampleLookup "a" attrsXY, startTok sampleLookup "b" []]
      [startTok sampleLookup "c" []]
      (errorTok sampleLookup ParsingError.InvalidTag (units "<"))
      (Or.inr rfl) (by decide) rfl
    have hroot : st.rootElement = some 0 := by
      have h6 : (ParseInPlace sampleLookup HtmlParser.fresh
          (some (units "<a x=1 y=2><b><")) 0
          [startTok sampleLookup "a" attrsXY, startTok sampleLookup "b" []]).map Prod.snd =
          some (some 0) := by decide
      rw [h1] at h6
      exact Option.some.inj h6
    refine ⟨st, ?_, h2, h3, h4, h5⟩
    rw [h1, hroot]

/-! ## Document order: the arena lists the tree as long as no element is orphaned -/

theorem OpenSpine.ascend {els : List HtmlElement} {n c p : Nat} {rest : List Nat}
    (h : OpenSpine els n (c :: p :: rest)) : OpenSpine els n (p :: rest) := by
  obtain ⟨e, he, hnext, hforest, habove⟩ := h
  obtain ⟨pe, hpe, hpnext, hpforest, hpabove⟩ := habove
  refine ⟨pe, hpe, hpnext, ?_, hpabove⟩
  refine hpforest.trans ?_
  refine ForestTo.cons c n n e none he hforest ?_
  rw [hnext]
  exact ForestTo.nil _ _

theorem Spine.tail {els : List HtmlElement} {n c : Nat} {rest : List Nat}
    (h : Spine els n (c :: rest)) : Spine els n rest := by
  cases rest with
  | nil =>
    obtain ⟨e, he, hnext, hforest, habove⟩ := h
    have hc : c = 0 := habove
    subst hc
    exact Or.inr ⟨e, he, hnext, hforest, rfl⟩
  | cons p rest => exact OpenSpine.ascend h

theorem Spine.dropWhile {els : List HtmlElement} {n : Nat} (p : Nat → Bool) :
    ∀ chain : List Nat, Spine els n chain → Spine els n (chain.dropWhile p) := by
  intro chain
  induction chain with
  | nil => intro h; exact h
  | cons c rest ih =>
    intro h
    rw [List.dropWhile_cons]
    split_ifs
    · exact ih h.tail
    · exact h

theorem Spine.drop_one {els : List HtmlElement} {n : Nat} {chain : List Nat}
    (h : Spine els n chain) : Spine els n (chain.drop 1) := by
  cases chain with
  | nil => exact h
  | cons c rest => exact h.tail

theorem Spine.whole {els : List HtmlElement} {n : Nat} :
    ∀ chain : List Nat, Spine els n chain → n = 0 ∨ OpenSpine els n [0] := by
  intro chain
  induction chain with
  | nil => intro h; exact h
  | cons c rest ih => intro h; exact ih h.tail

theorem SpineInv.closeTag_step (L : HtmlParserLookup) (st : HtmlParser) (tok : HtmlToken)
    (hinv : SpineInv st) :
    ∃ st1, CloseTag L st tok = some st1 ∧ SpineInv st1 ∧ st1.allocator = st.allocator := by
  obtain ⟨hwf, hroot, chain, hchain, hspine⟩ := hinv
  cases hm : chain.find? (hitAt st.allocator (closeHit L tok)) with
  | none =>
    exact ⟨st, CloseTag_miss L st tok chain hwf hchain hm, ⟨hwf, hroot, chain, hchain, hspine⟩,
      rfl⟩
  | some m =>
    obtain ⟨e, he⟩ := hchain.mem_get m (List.mem_of_find?_eq_some hm)
    have hct := CloseTag_hit L st tok chain m e hwf hchain hm he
    obtain ⟨s1, hs1, hwf1, _⟩ := CloseTag_wellLinked L st tok hwf
    have heq := Option.some.inj (hs1.symm.trans hct)
    subst heq
    refine ⟨_, hct, ⟨hwf1, hroot, _, hchain.suffix _ m e hm he, ?_⟩, rfl⟩
    exact (Spine.dropWhile _ chain hspine).drop_one

theorem SpineInv.open_step (L : HtmlParserLookup) (st : HtmlParser) (tok : HtmlToken)
    (hinv : SpineInv st)
    (hok : st.currElement.isSome = true ∨ st.allocator.length = 0) :
    ∃ st0 st1, StartTag L st tok = some st0 ∧
      ParseInPlace.appendAttrs st0 tok.attrs = some st1 ∧ SpineInv st1 ∧
      st1.allocator.map HtmlElement.elementName =
        st.allocator.map HtmlElement.elementName ++ [tokenName L tok] := by
  obtain ⟨hwf, hroot, chain, hchain, hspine⟩ := hinv
  have hpchain := specOpenChain_isChain L st tok chain hchain
  have hpspine : Spine st.allocator st.allocator.length (specOpenChain L st chain tok) := by
    unfold specOpenChain
    split_ifs
    · cases hf : chain.find? (hitAt st.allocator (isListContainer L)) with
      | none => exact hspine
      | some m => exact Spine.dropWhile _ chain hspine
    · exact hspine
  obtain ⟨arena, h1, h2, h3, h4, h5, h6⟩ := StartTag_full L st tok chain hwf hchain
  have hlt : st.allocator.length < arena.length := by omega
  have h7 := ParseInPlace.appendAttrs_eq tok.attrs
    { createdParser L st tok (specParent L st chain tok) with allocator := arena }
    st.allocator.length _ rfl h4
  obtain ⟨s2, hs2, hwf2, _, _⟩ := ParseInPlace.appendAttrs_wellLinked
    { createdParser L st tok (specParent L st chain tok) with allocator := arena }
    tok.attrs st.allocator.length h2 rfl
  have heq := Option.some.inj (hs2.symm.trans h7)
  subst heq
  -- the arena once the attributes are attached
  have hget : (arena.set st.allocator.length
      { newElement L st tok (specParent L st chain tok) with
        firstAttr := (tok.attrs.map attrRecord).reverse ++
          (newElement L st tok (specParent L st chain tok)).firstAttr })[st.allocator.length]? =
      some { newElement L st tok (specParent L st chain tok) with
        firstAttr := (tok.attrs.map attrRecord).reverse ++
          (newElement L st tok (specParent L st chain tok)).firstAttr } := by
    rw [List.getElem?_set]
    simp [hlt]
  have hkeep : ∀ (i : Nat), i < st.allocator.length →
      (arena.set st.allocator.length
        { newElement L st tok (specParent L st chain tok) with
          firstAttr := (tok.attrs.map attrRecord).reverse ++
            (newElement L st tok (specParent L st chain tok)).firstAttr })[i]? = arena[i]? := by
    intro i hi
    rw [List.getElem?_set_ne (by omega)]
  -- the shape of the arena that `StartTag` leaves
  have habove : Above arena st.allocator.length (specOpenChain L st chain tok) := by
    cases hsc : specOpenChain L st chain tok with
    | nil =>
      rw [hsc] at hpchain
      have hnone : st.currElement = none :=
        (specParent_none_iff L st tok chain hchain).mp (hpchain.nil_eq rfl)
      rcases hok with hok | hok
      · rw [hnone] at hok
        exact Bool.noConfusion hok
      · exact hok
    | cons c rest =>
      rw [hsc] at hpchain hpspine
      obtain ⟨ce, hce, hcnext, hcforest, hcabove⟩ := hpspine
      have hpar : specParent L st chain tok = some c := (hpchain.curr_eq c rest rfl).1
      obtain ⟨arenaX, ce', hx1, _, _, hx4, hx5, hx6, hx7⟩ :=
        StartTag.link_forest (newElement L st tok (some c))
          (createdParser L st tok (some c)) c ce rfl hce hcforest
      have hstart : StartTag L st tok =
          some { createdParser L st tok (some c) with allocator := arenaX } := by
        unfold StartTag
        rw [FindParent_eq L st tok chain hwf hchain, hpar]
        simp only [StartTag.create_eq]
        exact hx1
      rw [hpar] at h1
      have harena : arena = arenaX :=
        congrArg HtmlParser.allocator (Option.some.inj (h1.symm.trans hstart))
      subst harena
      refine ⟨ce', hx4, by rw [hx5, hcnext], hx6, ?_⟩
      refine Above.frame_of_agree rest c ?_ hcabove
      intro i hi e he
      exact ⟨e, by rw [hx7 i hi]; exact he, rfl, rfl⟩
  refine ⟨_, _, h1, h7, ⟨hwf2, ?_, st.allocator.length :: specOpenChain L st chain tok,
    ?_, ?_⟩, ?_⟩
  · show (createdParser L st tok (specParent L st chain tok)).rootElement =
      if (arena.set _ _).length = 0 then none else some 0
    rw [List.length_set, if_neg (by omega)]
    simp only [createdParser]
    rw [hroot]
    by_cases hn : st.allocator.length = 0
    · simp [hn]
    · simp [hn]
  · refine IsChain.mono ?_ h6
    intro i e0 he0
    by_cases hi : i = st.allocator.length
    · subst hi
      rw [h4] at he0
      cases he0
      exact ⟨_, hget, rfl⟩
    · refine ⟨e0, ?_, rfl⟩
      rw [List.getElem?_set_ne (fun h => hi h.symm)]
      exact he0
  · refine ⟨{ newElement L st tok (specParent L st chain tok) with
        firstAttr := (tok.attrs.map attrRecord).reverse ++
          (newElement L st tok (specParent L st chain tok)).firstAttr }, ?_, rfl, ?_, ?_⟩
    · show (arena.set _ _)[st.allocator.length]? = _
      exact hget
    · show ForestTo _ (st.allocator.length + 1) (arena.set _ _).length none none
      rw [List.length_set, h3]
      exact ForestTo.nil _ _
    · refine Above.frame_of_agree _ st.allocator.length ?_ habove
      intro i hi e he
      exact ⟨e, by rw [hkeep i hi]; exact he, rfl, rfl⟩
  · show (arena.set _ _).map HtmlElement.elementName = _
    refine map_elementName_grow st.allocator _ _ (by rw [List.length_set, h3]) hget ?_
    intro i e0 he0
    obtain ⟨e, he, hlf⟩ := h5 i e0 he0
    refine ⟨e, by rw [hkeep i (getElem?_lt he0)]; exact he, ?_⟩
    rw [hlf.1]
    rfl

theorem SpineInv.tagToken_step (L : HtmlParserLookup) (st : HtmlParser) (tok : HtmlToken)
    (hinv : SpineInv st)
    (hok : tok.IsEndTag = false → st.currElement.isSome = true ∨ st.allocator.length = 0) :
    ∃ st1, ParseInPlace.tagToken L st tok = some st1 ∧ SpineInv st1 ∧
      st1.allocator.map HtmlElement.elementName =
        st.allocator.map HtmlElement.elementName ++
          (if tok.IsEndTag then [] else [tokenName L tok]) := by
  unfold ParseInPlace.tagToken
  by_cases hend : tok.IsEndTag = true
  · have hstart : tok.IsStartTag = false := by
      simp only [HtmlToken.IsEndTag, beq_iff_eq] at hend
      simp [HtmlToken.IsStartTag, hend]
    obtain ⟨st1, h1, h2, h3⟩ := SpineInv.closeTag_step L st tok hinv
    refine ⟨st1, ?_, h2, ?_⟩
    · simp only [hend, hstart, Bool.not_true, Bool.false_eq_true, if_false, Bool.not_false,
        Bool.true_or, if_true]
      exact h1
    · rw [h3]
      simp [hend]
  · have hend2 : tok.IsEndTag = false := Bool.eq_false_iff.mpr hend
    obtain ⟨st0, st1, h1, h2, h3, h4⟩ := SpineInv.open_step L st tok hinv (hok hend2)
    simp only [hend2, Bool.not_false, if_true, h1, h2, Bool.false_eq_true, if_false]
    by_cases hcl : (!tok.IsStartTag || L.IsTagSelfClosing tok.tag) = true
    · obtain ⟨st2, h5, h6, h7⟩ := SpineInv.closeTag_step L st1 tok h3
      rw [if_pos hcl]
      refine ⟨st2, h5, h6, ?_⟩
      rw [h7, h4]
    · rw [if_neg hcl]
      exact ⟨st1, rfl, h3, h4⟩

theorem SpineInv.loop_runs (L : HtmlParserLookup) (toks : List HtmlToken) :
    ∀ (st : HtmlParser), SpineInv st → (∀ t ∈ toks, t.IsError = false) →
      neverOrphans L st toks = true →
      ∃ st', ParseInPlace.loop L st toks = some (st', st'.rootElement) ∧ SpineInv st' ∧
        st'.allocator.map HtmlElement.elementName =
          st.allocator.map HtmlElement.elementName ++
            (toks.filter HtmlToken.opensElement).map (tokenName L) := by
  induction toks with
  | nil =>
    intro st hinv _ _
    exact ⟨st, rfl, hinv, by simp⟩
  | cons tok rest ih =>
    intro st hinv hok hno
    have herr : tok.IsError = false := hok tok (List.mem_cons_self _ _)
    have hok2 : ∀ t ∈ rest, t.IsError = false :=
      fun t ht => hok t (List.mem_cons_of_mem _ ht)
    rw [neverOrphans] at hno
    simp only [herr, Bool.false_eq_true, if_false] at hno
    rw [ParseInPlace.loop]
    simp only [herr, Bool.false_eq_true, if_false]
    by_cases htag : tok.IsTag = true
    · simp only [htag, Bool.not_true, Bool.false_eq_true, if_false]
      split_ifs at hno with horph
      · have hcond : tok.IsEndTag = false →
            st.currElement.isSome = true ∨ st.allocator.length = 0 := by
          intro hend
          have hopens : tok.opensElement = true := by
            simp [HtmlToken.opensElement, htag, hend]
          cases hc : st.currElement with
          | some c => exact Or.inl rfl
          | none =>
            right
            by_contra hne
            apply horph
            have : st.allocator ≠ [] := fun h => hne (by rw [h]; rfl)
            simp [hopens, hc, this]
        obtain ⟨st1, h1, h2, h3⟩ := SpineInv.tagToken_step L st tok hinv hcond
        simp only [ParseInPlace.step, htag, Bool.not_true, Bool.false_eq_true, if_false,
          h1] at hno
        obtain ⟨st', h4, h5, h6⟩ := ih st1 h2 hok2 hno
        refine ⟨st', ?_, h5, ?_⟩
        · simp only [h1]
          exact h4
        · rw [h6, h3, List.filter_cons]
          by_cases hend : tok.IsEndTag = true
          · simp [HtmlToken.opensElement, hend]
          · have hend2 : tok.IsEndTag = false := Bool.eq_false_iff.mpr hend
            simp [HtmlToken.opensElement, hend2, htag]
    · have htag2 : tok.IsTag = false := Bool.eq_false_iff.mpr htag
      have hopens : tok.opensElement = false := by simp [HtmlToken.opensElement, htag2]
      simp only [htag2, Bool.not_false, if_true]
      simp only [hopens, Bool.false_and, Bool.false_eq_true, if_false, ParseInPlace.step,
        htag2, Bool.not_false, if_true] at hno
      obtain ⟨st', h4, h5, h6⟩ := ih st hinv hok2 hno
      refine ⟨st', h4, h5, ?_⟩
      rw [h6, List.filter_cons]
      simp [hopens]

theorem SpineInv.order_eq (st : HtmlParser) (hinv : SpineInv st) :
    documentOrder st st.rootElement = some (List.range st.allocator.length) := by
  obtain ⟨_, hroot, chain, _, hspine⟩ := hinv
  unfold RootFirst at hroot
  rcases Spine.whole chain hspine with h0 | hspine0
  · unfold documentOrder
    rw [hroot, if_pos h0, h0]
    rfl
  · obtain ⟨e, he, _, hforest, _⟩ := hspine0
    have hpos := getElem?_lt he
    unfold documentOrder
    rw [hroot, if_neg (by omega)]
    simp only [he, hforest.preorder_eq rfl st.allocator.length (by omega)]
    rw [List.range_eq_range']
    obtain ⟨m, hm⟩ : ∃ m, st.allocator.length = m + 1 := ⟨st.allocator.length - 1, by omega⟩
    rw [hm, List.range'_succ]
    simp

theorem startParser_spineInv (d : Option (List Nat)) (codepage : Nat) :
    SpineInv (startParser d codepage) :=
  ⟨startParser_wellLinked d codepage, startParser_rootFirst d codepage, [], IsChain.nil,
    Or.inl rfl⟩

theorem wellNested_types (L : HtmlParserLookup) (place : List HtmlToken → HtmlToken → Bool)
    (toks : List HtmlToken) :
    ∀ (seen : Bool) (stack : List HtmlToken), wellNested L place seen stack toks = true →
      ∀ t ∈ toks, t.IsError = false ∧ t.opensElement = t.IsStartTag := by
  induction toks with
  | nil => intro _ _ _ t ht; exact absurd ht (List.not_mem_nil t)
  | cons tok rest ih =>
    intro seen stack hwn t ht
    rw [wellNested.eq_def] at hwn
    simp only at hwn
    have hrest : (∃ seen2 stack2, wellNested L place seen2 stack2 rest = true) ∧
        (tok.type = TokenType.Text ∨ tok.type = TokenType.StartTag ∨
          tok.type = TokenType.EndTag) := by
      by_cases htext : tok.type = TokenType.Text
      · rw [if_pos htext] at hwn
        exact ⟨⟨_, _, hwn⟩, Or.inl htext⟩
      · rw [if_neg htext] at hwn
        by_cases hstart : tok.type = TokenType.StartTag
        · rw [if_pos hstart] at hwn
          simp only [Bool.and_eq_true] at hwn
          exact ⟨⟨_, _, hwn.2⟩, Or.inr (Or.inl hstart)⟩
        · rw [if_neg hstart] at hwn
          by_cases hend : tok.type = TokenType.EndTag
          · rw [if_pos hend] at hwn
            cases stack with
            | nil => exact Bool.noConfusion hwn
            | cons start outer =>
              simp only [Bool.and_eq_true] at hwn
              exact ⟨⟨_, _, hwn.2⟩, Or.inr (Or.inr hend)⟩
          · rw [if_neg hend] at hwn
            exact Bool.noConfusion hwn
    obtain ⟨⟨seen2, stack2, hwn2⟩, htype⟩ := hrest
    rcases List.mem_cons.mp ht with h | h
    · subst h
      rcases htype with h | h | h <;>
        (simp only [HtmlToken.IsError, HtmlToken.opensElement, HtmlToken.IsTag,
          HtmlToken.IsStartTag, HtmlToken.IsEndTag, HtmlToken.IsEmptyElementEndTag, h]
         decide)
    · exact ih seen2 stack2 hwn2 t h

theorem neverOrphans_false_split (L : HtmlParserLookup) (toks : List HtmlToken) :
    ∀ (st : HtmlParser), WellLinked st → RootFirst st → (∀ t ∈ toks, t.IsError = false) →
      neverOrphans L st toks = false →
      ∃ pre tok post s, toks = pre ++ tok :: post ∧
        ParseInPlace.loop L st pre = some (s, s.rootElement) ∧ tok.opensElement = true ∧
        s.currElement = none ∧ s.allocator.length ≠ 0 := by
  induction toks with
  | nil =>
    intro st _ _ _ hno
    exact Bool.noConfusion hno
  | cons tok rest ih =>
    intro st hwf hroot hok hno
    have herr : tok.IsError = false := hok tok (List.mem_cons_self _ _)
    have hok2 : ∀ t ∈ rest, t.IsError = false :=
      fun t ht => hok t (List.mem_cons_of_mem _ ht)
    rw [neverOrphans] at hno
    simp only [herr, Bool.false_eq_true, if_false] at hno
    by_cases horph :
        (tok.opensElement && st.currElement.isNone && !st.allocator.isEmpty) = true
    · simp only [Bool.and_eq_true, Option.isNone_iff_eq_none, Bool.not_eq_true',
        List.isEmpty_eq_false_iff_exists_mem] at horph
      refine ⟨[], tok, rest, st, rfl, rfl, horph.1.1, horph.1.2, ?_⟩
      obtain ⟨x, hx⟩ := horph.2
      intro h0
      rw [List.length_eq_zero] at h0
      rw [h0] at hx
      exact absurd hx (List.not_mem_nil x)
    · rw [if_neg horph] at hno
      by_cases htag : tok.IsTag = true
      · obtain ⟨st1, h1, hwf1, hroot1, _⟩ := ParseInPlace.tagToken_grows L st tok hwf hroot
        simp only [ParseInPlace.step, htag, Bool.not_true, Bool.false_eq_true, if_false,
          h1] at hno
        obtain ⟨pre, tok2, post, s, h2, h3, h4, h5, h6⟩ := ih st1 hwf1 hroot1 hok2 hno
        refine ⟨tok :: pre, tok2, post, s, by rw [h2]; rfl, ?_, h4, h5, h6⟩
        rw [ParseInPlace.loop]
        simp only [herr, Bool.false_eq_true, if_false, htag, Bool.not_true, h1]
        exact h3
      · have htag2 : tok.IsTag = false := Bool.eq_false_iff.mpr htag
        simp only [ParseInPlace.step, htag2, Bool.not_false, if_true] at hno
        obtain ⟨pre, tok2, post, s, h2, h3, h4, h5, h6⟩ := ih st hwf hroot hok2 hno
        refine ⟨tok :: pre, tok2, post, s, by rw [h2]; rfl, ?_, h4, h5, h6⟩
        rw [ParseInPlace.loop]
        simp only [herr, Bool.false_eq_true, if_false, htag2, Bool.not_false, if_true]
        exact h3

theorem orphan_shortens_order (L : HtmlParserLookup) (d : Option (List Nat)) (codepage : Nat)
    (pre post : List HtmlToken) (tok : HtmlToken) (s : HtmlParser)
    (hok : ∀ t ∈ pre ++ tok :: post, t.IsError = false)
    (hopen : tok.opensElement = true)
    (hs : ParseInPlace.loop L (startParser d codepage) pre = some (s, s.rootElement))
    (hcurr : s.currElement = none) (hpos : s.allocator.length ≠ 0) :
    ∃ p order, ParseInPlace.loop L (startParser d codepage) (pre ++ tok :: post) =
        some (p, p.rootElement) ∧
      documentOrder p p.rootElement = some order ∧ order.length < p.allocator.length ∧
      p.allocator.length = ((pre ++ tok :: post).filter HtmlToken.opensElement).length := by
  have hokpre : ∀ t ∈ pre, t.IsError = false :=
    fun t ht => hok t (List.mem_append_left _ ht)
  have hoktok : tok.IsError = false := hok tok (by simp)
  have hokpost : ∀ t ∈ post, t.IsError = false :=
    fun t ht => hok t (by simp [ht])
  obtain ⟨s', hs', hwfs, hroots, _, _⟩ :=
    ParseInPlace.loop_grows L pre (startParser d codepage)
      (startParser_wellLinked d codepage) (startParser_rootFirst d codepage) hokpre
  have hss : s' = s := (Prod.mk.inj (Option.some.inj (hs'.symm.trans hs))).1
  subst hss
  obtain ⟨p, hp, _, _, _, hlen⟩ :=
    ParseInPlace.loop_grows L (pre ++ tok :: post) (startParser d codepage)
      (startParser_wellLinked d codepage) (startParser_rootFirst d codepage) hok
  obtain ⟨p3, r3, hp3, hinv, _⟩ :=
    ParseInPlace.loop_treeInv L (pre ++ tok :: post) (startParser d codepage)
      (startParser_treeInv d codepage)
  have hsame : p3 = p := (Prod.mk.inj (Option.some.inj (hp3.symm.trans hp))).1
  subst hsame
  have htag : tok.IsTag = true := by
    simp only [HtmlToken.opensElement, Bool.and_eq_true] at hopen
    exact hopen.1
  have hend : tok.IsEndTag = false := by
    simp only [HtmlToken.opensElement, Bool.and_eq_true, Bool.not_eq_true'] at hopen
    exact hopen.2
  obtain ⟨s1, h1, hwf1, hroot1, _, _, hop⟩ := ParseInPlace.tagToken_grows L s' tok hwfs hroots
  obtain ⟨parent, e, _, hnone, _, _, he1, _, _, hu⟩ := hop hend
  obtain ⟨p2, hp2, _, _, hg2, _⟩ := ParseInPlace.loop_grows L post s1 hwf1 hroot1 hokpost
  have hstep : ParseInPlace.loop L s' (tok :: post) = ParseInPlace.loop L s1 post := by
    rw [ParseInPlace.loop]
    simp only [hoktok, Bool.false_eq_true, if_false, htag, Bool.not_true, h1]
  have hrun := ParseInPlace.loop_append L pre (tok :: post) (startParser d codepage) s'
    s'.rootElement hokpre hs
  rw [hstep, hp2] at hrun
  have hpp : p3 = p2 := (Prod.mk.inj (Option.some.inj (hp.symm.trans hrun))).1
  subst hpp
  obtain ⟨e2, he2, _, _, hu2⟩ := hg2.keeps s'.allocator.length e he1
  have hup2 : e2.up = none := by
    rw [hu2, hu]
    exact hnone.mpr hcurr
  obtain ⟨order, hord, hfollows, _, _⟩ := documentOrder_follows hinv
  have hunder := documentOrder_under_root hinv order hord
  have hnotin : s'.allocator.length ∉ order := by
    intro hx
    obtain ⟨chain2, hchain2, h0⟩ := hunder _ hx
    have hin := hchain2.start_mem _ rfl
    have hl0 := getElem?_lt he2
    have he0 : p3.allocator[0]? = some p3.allocator[0] :=
      List.getElem?_eq_getElem (by omega)
    have hup0 : p3.allocator[0].up = none := by
      cases hu0 : p3.allocator[0].up with
      | none => rfl
      | some u =>
        have := hinv.wl.links.up_lt 0 _ u he0 hu0
        omega
    have hlastn := hchain2.ends_at _ e2 hin he2 hup2
    have hlast0 := hchain2.ends_at 0 _ h0 he0 hup0
    exact hpos (Option.some.inj (hlastn.symm.trans hlast0))
  refine ⟨p3, order, hp, hord, ?_, ?_⟩
  · have hnd : (s'.allocator.length :: order).Nodup :=
      List.nodup_cons.mpr ⟨hnotin, Follows.nodup order hfollows⟩
    have hb : ∀ x ∈ s'.allocator.length :: order, x < p3.allocator.length := by
      intro x hx
      rcases List.mem_cons.mp hx with h | h
      · rw [h]
        exact getElem?_lt he2
      · obtain ⟨ex, hex⟩ := Follows.member_stored order hfollows x h
        exact getElem?_lt hex
    have := nodup_length_le _ _ hnd hb
    simp only [List.length_cons] at this
    omega
  · rw [hlen]
    simp [startParser, HtmlParser.fresh]

/-- C10, as amended: for a well-formed token sequence (one top-level element, every start
tag matched by its end tag in proper nesting, no start tag of a self-closing kind, no
empty-element tag), the document-order traversal of the tree that the parse of a fresh
parser returns lists exactly the names of the start tags, in the order of the input, if and
only if no start tag after the first is met while no element is open (`neverOrphans`); in
particular it does whenever that condition holds. -/
theorem wellFormed_documentOrder_names (L : HtmlParserLookup) (d : Option (List Nat))
    (codepage : Nat) (toks : List HtmlToken)
    (hwf : wellNested L anyPlace false [] toks = true) :
    documentOrderNames L d codepage toks = some ((startTagNames L toks).map some) ↔
      neverOrphans L (startParser d codepage) toks = true := by
  have htypes := wellNested_types L anyPlace toks false [] hwf
  have hok : ∀ t ∈ toks, t.IsError = false := fun t ht => (htypes t ht).1
  have hfilter : toks.filter HtmlToken.opensElement = toks.filter HtmlToken.IsStartTag :=
    List.filter_congr (fun t ht => (htypes t ht).2)
  have hloop := ParseInPlace_eq_loop L HtmlParser.fresh d codepage toks (Or.inr rfl)
  constructor
  · intro hnames
    cases hno : neverOrphans L (startParser d codepage) toks with
    | true => rfl
    | false =>
      exfalso
      obtain ⟨pre, tok, post, s, h1, h2, h3, h4, h5⟩ :=
        neverOrphans_false_split L toks (startParser d codepage)
          (startParser_wellLinked d codepage) (startParser_rootFirst d codepage) hok hno
      subst h1
      obtain ⟨p, order, h6, h7, h8, h9⟩ :=
        orphan_shortens_order L d codepage pre post tok s hok h3 h2 h4 h5
      unfold documentOrderNames at hnames
      rw [hloop, h6] at hnames
      simp only [h7, Option.some.injEq] at hnames
      have hlen := congrArg List.length hnames
      simp only [namesAlong, List.length_map, startTagNames] at hlen
      rw [hfilter] at h9
      omega
  · intro hno
    obtain ⟨st', h1, h2, h3⟩ :=
      SpineInv.loop_runs L toks (startParser d codepage) (startParser_spineInv d codepage)
        hok hno
    unfold documentOrderNames
    rw [hloop, h1]
    simp only [SpineInv.order_eq st' h2, namesAlong_range, h3]
    simp [startParser, HtmlParser.fresh, startTagNames, hfilter]

/-- C10, witnesses of the amended claim.  In `<ul><p><li></li></p></ul>` the list item is
attached to `ul` past the open `p`, no start tag is met while no element is open, and the
traversal lists `ul p li`, the start tags.  The same holds for
`<ul><li>x</li><li><b>y</b></li></ul>`.  In `<p><ul><p><li></li></p><b></b></ul></p>` the
start tag `<b>` is met while no element is open. -/
theorem wellFormed_documentOrder_names_witness :
    neverOrphans sampleLookup
      (startParser (some (units "<p><ul><p><li></li></p><b></b></ul></p>")) 0)
      tokensSkipped = false ∧
    (wellNested sampleLookup anyPlace false [] tokensListInPara = true ∧
      neverOrphans sampleLookup (startParser (some (units "<ul><p><li></li></p></ul>")) 0)
        tokensListInPara = true ∧
      documentOrderNames sampleLookup (some (units "<ul><p><li></li></p></ul>")) 0
          tokensListInPara =
        some ((startTagNames sampleLookup tokensListInPara).map some) ∧
      startTagNames sampleLookup tokensListInPara =
        [{ tag := 6, name := none }, { tag := 7, name := none },
         { tag := 4, name := none }]) ∧
    documentOrderNames sampleLookup (some (units "<ul><li>x</li><li><b>y</b></li></ul>")) 0
        tokensWellFormed =
      some ((startTagNames sampleLookup tokensWellFormed).map some) ∧
    startTagNames sampleLookup tokensWellFormed =
      [{ tag := 6, name := none }, { tag := 4, name := none }, { tag := 4, name := none },
       { tag := 1, name := none }] :=
  ⟨by decide, ⟨by decide, by decide,
     (wellFormed_documentOrder_names sampleLookup (some (units "<ul><p><li></li></p></ul>")) 0
       tokensListInPara (by decide)).mpr (by decide),
     by decide⟩,
   (wellFormed_documentOrder_names sampleLookup
      (some (units "<ul><li>x</li><li><b>y</b></li></ul>")) 0 tokensWellFormed
      (by decide)).mpr (by decide),
   by decide⟩

/-! ## The non-destructive mode: memory and result -/

theorem sampleTokensAt.scan_fst (bytes : List Nat) :
    ∀ (pos : Nat) (inTag : Bool) (acc : List Nat),
      (sampleTokensAt.scan pos inTag acc bytes).map Prod.fst =
        sampleTokens.scan inTag acc bytes := by
  induction bytes with
  | nil =>
    intro pos inTag acc
    cases inTag
    · simp [sampleTokensAt.scan, sampleTokens.scan, Function.comp_def]
    · simp [sampleTokensAt.scan, sampleTokens.scan]
  | cons c rest ih =>
    intro pos inTag acc
    cases inTag
    · simp only [sampleTokensAt.scan, sampleTokens.scan]
      split_ifs
      · simp [ih, Function.comp_def]
      · exact ih _ _ _
    · simp only [sampleTokensAt.scan, sampleTokens.scan]
      split_ifs
      · simp [ih]
      · exact ih _ _ _

theorem sampleTokensAt_fst (bytes : List Nat) :
    (sampleTokensAt bytes).map Prod.fst = sampleTokens bytes :=
  sampleTokensAt.scan_fst bytes 0 false []

theorem ParseInPlace.memory_written (L : HtmlParserLookup) (heap : Heap) (html : Nat)
    (bytes : List Nat) (toks : List (HtmlToken × TokenPlace)) (h : heap[html]? = some bytes) :
    ParseInPlace.memory L heap html toks =
      heap.set html (zeroAt bytes (ParseInPlace.writes L toks)) := by
  unfold ParseInPlace.memory
  rw [h]

theorem Parse.memory_copy (L : HtmlParserLookup)
    (Next : List Nat → List (HtmlToken × TokenPlace)) (heap : Heap) (d : Nat)
    (bytes : List Nat) (h : heap[d]? = some bytes) :
    Parse.memory L Next heap d =
      heap ++ [zeroAt (Dup bytes) (ParseInPlace.writes L (Next (ToByteSlice (Dup bytes))))] := by
  unfold Parse.memory
  rw [h]
  simp only
  rw [ParseInPlace.memory_written L (heap ++ [Dup bytes]) heap.length (Dup bytes) _ (by simp)]
  simp

theorem cString_append_nul (a b : List Nat) : cString (a ++ 0 :: b) = cString a := by
  unfold cString
  induction a with
  | nil => simp
  | cons x xs ih =>
    simp only [List.cons_append, List.takeWhile_cons]
    split
    · rw [ih]
    · rfl

theorem set_eq_take_append (l : List Nat) (n : Nat) (x : Nat) (h : n < l.length) :
    l.set n x = l.take n ++ x :: l.drop (n + 1) := by
  induction l generalizing n with
  | nil => simp at h
  | cons y ys ih =>
    cases n with
    | zero => simp
    | succ m =>
      simp only [List.set_cons_succ, List.take_succ_cons, List.drop_succ_cons, List.cons_append]
      rw [ih m (by simpa using h)]

theorem drop_set_add (l : List Nat) (o n x : Nat) :
    (l.set (o + n) x).drop o = (l.drop o).set n x := by
  induction o generalizing l with
  | zero => simp
  | succ k ih =>
    cases l with
    | nil => simp
    | cons y ys =>
      have : k + 1 + n = (k + n) + 1 := by omega
      rw [this, List.set_cons_succ, List.drop_succ_cons, List.drop_succ_cons]
      exact ih ys

/-- What the code reads as `tagName` after `*tagEnd = 0`: in a buffer in which the name
span of a token starts at the offset `o` and has the length `n`, the C string at `o` after
the write at `o + n` is the span up to its first NUL, as `tokTagName` has it. -/
theorem cString_after_write (bytes : List Nat) (o n : Nat) (h : o + n < bytes.length) :
    cString ((zeroAt bytes [o + n]).drop o) = cString ((bytes.drop o).take n) := by
  have hz : zeroAt bytes [o + n] = bytes.set (o + n) 0 := rfl
  rw [hz, drop_set_add,
    set_eq_take_append (bytes.drop o) n 0 (by rw [List.length_drop]; omega),
    cString_append_nul]

/-- C21, amended: `Parse(d, cp)` writes to no byte of the caller's buffer, and its result is
that of `ParseInPlace` on a copy of the bytes of `d` before its first NUL.  Memory: with
the caller's buffer at the address `a`, `Parse` leaves every buffer that exists unchanged,
the caller's included, and allocates one buffer, the zero-terminated copy, into which the
NUL bytes of the token loop are written; `ParseInPlace` on the caller's buffer writes them
into that buffer itself.  Result: `Parse` returns what `ParseInPlace` returns on a buffer
holding the bytes of `d` before its first NUL, all the bytes of `d` when `d` holds no NUL,
with `freeHtml` set: the same tree, names, attributes, counters and error; and `Parse`
answers, the parser then holding the copy, which it owns. -/
theorem Parse_runs_on_string_copy (L : HtmlParserLookup)
    (Next : List Nat → List (HtmlToken × TokenPlace)) (self : HtmlParser) (heap : Heap)
    (a : Nat) (d : List Nat) (codepage : Nat)
    (hself : self.html.isSome = true ∨ self = HtmlParser.fresh)
    (ha : heap[a]? = some d) :
    ((Parse.memory L Next heap a)[a]? = some d ∧
      (∀ i, i < heap.length → (Parse.memory L Next heap a)[i]? = heap[i]?) ∧
      Parse.memory L Next heap a =
        heap ++ [zeroAt (Dup d) (ParseInPlace.writes L (Next (ToByteSlice (Dup d))))] ∧
      ParseInPlace.memory L heap a (Next d) =
        heap.set a (zeroAt d (ParseInPlace.writes L (Next d)))) ∧
    Parse L (fun b => (Next b).map Prod.fst) self d codepage =
      (ParseInPlace L self (some (d.takeWhile (fun b => b != 0))) codepage
        ((Next (d.takeWhile (fun b => b != 0))).map Prod.fst)).map
        (fun r => ({ r.1 with freeHtml := true }, r.2)) ∧
    (0 ∉ d → d.takeWhile (fun b => b != 0) = d) ∧
    (0 ∉ d → Parse L (fun b => (Next b).map Prod.fst) self d codepage =
      (ParseInPlace L self (some d) codepage ((Next d).map Prod.fst)).map
        (fun r => ({ r.1 with freeHtml := true }, r.2))) ∧
    ∃ p root, Parse L (fun b => (Next b).map Prod.fst) self d codepage = some (p, root) ∧
      p.html = some (d.takeWhile (fun b => b != 0)) ∧ p.freeHtml = true := by
  have hlt := getElem?_lt ha
  have hmem := Parse.memory_copy L Next heap a d ha
  refine ⟨⟨?_, ?_, hmem, ParseInPlace.memory_written L heap a d (Next d) ha⟩,
    Parse_eq L _ self d codepage, takeWhile_no_nul d, ?_, ?_⟩
  · rw [hmem, List.getElem?_append_left hlt]
    exact ha
  · intro i hi
    rw [hmem, List.getElem?_append_left hi]
  · intro h0
    have := Parse_eq L (fun b => (Next b).map Prod.fst) self d codepage
    rw [takeWhile_no_nul d h0] at this
    exact this
  · obtain ⟨q, rootq, hq, hqhtml, _, _⟩ :=
      ParseInPlace_keeps_buffer L self (some (d.takeWhile (fun b => b != 0))) codepage
        ((Next (d.takeWhile (fun b => b != 0))).map Prod.fst) hself
    refine ⟨{ q with freeHtml := true }, rootq, ?_, hqhtml, rfl⟩
    rw [Parse_eq, hq]
    rfl

/-- C21, amended, on buffers.  Memory: with the caller's buffer `<foo>x</foo>` at the
address 0, `Parse` leaves it as it is and writes the two NUL bytes that end the name `foo`
into the copy at the address 1, while `ParseInPlace` writes them into the caller's buffer.
Result: for `<a><b></b></a>`, which holds no NUL, `Parse` gives what `ParseInPlace` gives
on the whole buffer; for `<a>`, NUL, `<b>` it gives what `ParseInPlace` gives on `<a>`. -/
theorem Parse_runs_on_string_copy_witness :
    (Parse.memory sampleLookup sampleTokensAt [units "<foo>x</foo>"] 0 =
        [units "<foo>x</foo>", units "<foo" ++ 0 :: units "x</foo" ++ [0, 0]] ∧
      ParseInPlace.memory sampleLookup [units "<foo>x</foo>"] 0
          (sampleTokensAt (units "<foo>x</foo>")) =
        [units "<foo" ++ 0 :: units "x</foo" ++ [0]]) ∧
    Parse sampleLookup (fun b => (sampleTokensAt b).map Prod.fst) HtmlParser.fresh
        (units "<a><b></b></a>") 0 =
      (ParseInPlace sampleLookup HtmlParser.fresh (some (units "<a><b></b></a>")) 0
        ((sampleTokensAt (units "<a><b></b></a>")).map Prod.fst)).map
        (fun r => ({ r.1 with freeHtml := true }, r.2)) ∧
    Parse sampleLookup (fun b => (sampleTokensAt b).map Prod.fst) HtmlParser.fresh
        bytesWithNul 0 =
      (ParseInPlace sampleLookup HtmlParser.fresh (some (units "<a>")) 0
        ((sampleTokensAt (units "<a>")).map Prod.fst)).map
        (fun r => ({ r.1 with freeHtml := true }, r.2)) := by
  have h1 := Parse_runs_on_string_copy sampleLookup sampleTokensAt HtmlParser.fresh
    [units "<foo>x</foo>"] 0 (units "<foo>x</foo>") 0 (Or.inr rfl) rfl
  have h2 := Parse_runs_on_string_copy sampleLookup sampleTokensAt HtmlParser.fresh
    [units "<a><b></b></a>"] 0 (units "<a><b></b></a>") 0 (Or.inr rfl) rfl
  have h3 := Parse_runs_on_string_copy sampleLookup sampleTokensAt HtmlParser.fresh
    [bytesWithNul] 0 bytesWithNul 0 (Or.inr rfl) rfl
  refine ⟨⟨?_, ?_⟩, h2.2.2.2.1 (by decide), h3.2.1⟩
  · rw [h1.1.2.2.1]
    decide
  · rw [h1.1.2.2.2]
    decide

end TrivialHtmlParser
